import Mathlib

/-!
# BetaTetris tablebase: the game-state engine of `src/tetris.h`

A shallow embedding of class `Tetris` (the rotation rule-set).  C++ `int` fields are
integers (signed overflow is undefined behaviour in C++, so the embedding describes the
executions that stay inside the `int` range), `uint64_t initial_mask_` is a natural number
reduced modulo `2^64`, and a member function becomes a function from the object state to
a pair of its result (a return value or a thrown exception) and the state it leaves behind.

The headers `game.h`, `board.h` and `move_search.h` are not part of the sources at hand.
What `tetris.h` uses from them (the type `Board` with `Place`, `Count`, `ClearLines`; the
rule tables `GameScore`, `GetLevelByLines`, `GetLevelSpeed`; `MoveSearch`; the constants
`kLineCap` and `kTetrisOnly`) is collected in the structure `Env`.  The general theorems
hold for an arbitrary `Env`; the closed instances evaluate the code in the concrete
environment `Sample.env`.

The second part embeds the Python-facing class `PythonTetris` of `python/tetris/tetris.h`
in the build with rotation (its random draws and floating-point rewards come from the
structure `PyEnv`), the reward table `GetNoroLineRewardExp`, the mirror tables, the
reference function `PlacePiece` of `test/naive_functions.cpp` and `ParsePieceID` of
`python/tetris/piece.h`.

The third part embeds the binding `Tetris_Reset` of `python/tetris/tetris.cpp` with the
validation of the tap sequence, and, in the namespace `Naive`, the reference functions of
`test/naive_functions.cpp`: `ClearLines`, `GetPieceMap` and the frame-by-frame move
search (`FreeDrop`, `SimulateMove`, `MoveSearch`, `NaiveGetPossibleMoves`).  Loops whose
number of iterations is bounded by the board (20 rows, 60 frames) are recursions on that
bound, and lemmas show that a larger bound gives the same result.

The fourth part embeds class `TetrisNoro` of `src/tetris.h` (the rule-set without
rotation, over the structure `NoroEnv`) with `SetLines`, `LinesToNextSpeed` and the
mirrored plane of `GetState`; the integer penalty of `StepAndCalculateReward_` at
aggression level 0 (the three per-line penalties, which the source computes in floating
point, are parameters); the line count of `ResetRandom`; and the invariant behind
`CheckReducibleInitial_`.
-/

namespace BetaTetris

/-! ## Data model -/

/-- The enum `Level` of `game.h`: the four level-speed buckets. -/
inductive Level where
  | kLevel18
  | kLevel19
  | kLevel29
  | kLevel39
deriving DecidableEq, Repr

/-- A placement `(r, x, y)`: rotation index, row of the piece origin, column. -/
structure Position where
  r : Int
  x : Int
  y : Int
deriving DecidableEq, Repr

/-- The element type of `PossibleMoves::adj`: an adjustment initial with its reachable list. -/
abbrev AdjItem := Position × List Position

/-- The struct `PossibleMoves` returned by the move search. -/
structure PossibleMoves where
  non_adj : List Position
  adj : List AdjItem
deriving DecidableEq, Repr

/-- The type `Tetris::MoveMap` (`std::array<ByteBoard, 4>`), read as the map from a cell
`(r, x, y)` to its tag.  Indexing outside `4 x 20 x 10` is undefined behaviour in the
source; the embedding keeps one tag per triple. -/
abbrev MoveMap := Position → Nat

/-- Tag `Tetris::kNoAdj`. -/
def kNoAdj : Nat := 1
/-- Tag `Tetris::kHasAdjReduced`. -/
def kHasAdjReduced : Nat := 2
/-- Tag `Tetris::kHasAdjNonReduced`. -/
def kHasAdjNonReduced : Nat := 3

/-- The number of pieces `kPieces` (ids 0..6, as checked by `ParsePieceID` in `piece.h`). -/
def kPieces : Int := 7

/-- The exceptions thrown by `tetris.h`. -/
inductive Exn where
  | logic_error
  | range_error
  | runtime_error
  | invalid_argument
deriving DecidableEq, Repr

/-- What `tetris.h` takes from the headers that are not among the sources
(`game.h`, `board.h`, `move_search.h`) and from the C++ standard library (`std::sort`,
whose order among equivalent elements is unspecified). -/
structure Env (Board : Type) where
  /-- Method `Board::Place(piece, r, x, y)`. -/
  Place : Board → Int → Int → Int → Int → Board
  /-- Method `Board::Count()`: the number of occupied cells. -/
  Count : Board → Nat
  /-- Method `Board::ClearLines()`: the number of cleared lines and the new board. -/
  ClearLines : Board → Int × Board
  /-- Function `GameScore(prior_lines, cleared)`. -/
  GameScore : Int → Int → Int
  /-- Function `GetLevelByLines(lines)`. -/
  GetLevelByLines : Int → Int
  /-- Function `GetLevelSpeed(level)`. -/
  GetLevelSpeed : Int → Level
  /-- Function `MoveSearch(level, adj_delay, taps, table, board, piece)`; the table is
  named by its cache key `(tap_sequence, adj_delay)`. -/
  MoveSearch : Level → Int → List Int → List Int × Int → Board → Int → PossibleMoves
  /-- Library call `std::sort` on `moves_.adj` with the comparator of
  `CalculateInitialMask_`. -/
  std_sort : List AdjItem → List AdjItem
  /-- The line cap `kLineCap`. -/
  kLineCap : Int
  /-- The build flag `kTetrisOnly`. -/
  kTetrisOnly : Bool

/-- The data members of class `Tetris`.  `search_table_` points into the process-wide
cache and is represented by the cache key it was looked up with. -/
structure Tetris (Board : Type) where
  board_ : Board
  lines_ : Int
  pieces_ : Int
  is_adj_ : Bool
  initial_move_ : Int
  now_piece_ : Int
  next_piece_ : Int
  game_over_ : Bool
  moves_ : PossibleMoves
  move_map_ : MoveMap
  consecutive_fail_ : Int
  initial_mask_ : Nat
  tap_sequence_ : List Int
  adj_delay_ : Int
  search_table_ : List Int × Int
  run_score_ : Int
  run_lines_ : Int
  run_pieces_ : Int

deriving instance DecidableEq for Except

/-- The result of a member function: the value returned or the exception thrown, and the
object state when control leaves the function. -/
abbrev Outcome (α Board : Type) := Except Exn α × Tetris Board

variable {Board : Type}

/-! ## Getters -/

/-- Method `Tetris::GetLevel`. -/
def GetLevel (env : Env Board) (s : Tetris Board) : Int := env.GetLevelByLines s.lines_

/-- Method `Tetris::LevelSpeed`. -/
def LevelSpeed (env : Env Board) (s : Tetris Board) : Level :=
  env.GetLevelSpeed (GetLevel env s)

/-- Method `Tetris::IsOver`. -/
def IsOver (s : Tetris Board) : Bool := s.game_over_ || decide (s.consecutive_fail_ ≥ 1)

/-- Method `Tetris::IsNoAdjMove`. -/
def IsNoAdjMove (s : Tetris Board) (pos : Position) : Bool := s.move_map_ pos == kNoAdj

/-- Method `Tetris::IsAdjMove`. -/
def IsAdjMove (s : Tetris Board) (pos : Position) : Bool :=
  decide (s.move_map_ pos ≥ kHasAdjReduced)

/-- The element `moves_.adj[i]`; an index outside the vector is undefined behaviour in
the source and yields no entry here. -/
def adjAt (adj : List AdjItem) (i : Int) : Option AdjItem :=
  if i < 0 then none else adj[i.toNat]?

/-- Method `Tetris::InitialMove`. -/
def InitialMove (s : Tetris Board) : Except Exn Position :=
  if !s.is_adj_ then .error .logic_error
  else .ok (((adjAt s.moves_.adj s.initial_move_).map (fun e => e.1)).getD ⟨0, 0, 0⟩)

/-! ## `CalculateInitialMask_` -/

/-- The comparator handed to `std::sort` in `CalculateInitialMask_`. -/
def adjLess (x y : AdjItem) : Bool :=
  if x.2.length ≠ y.2.length then decide (x.2.length > y.2.length)
  else decide ((x.1.y - 5).natAbs < (y.1.y - 5).natAbs)

/-- One `pos_mp.emplace(j, pos_mp.size())`: a key already present is left alone, a new
key is stored with the current size converted to `uint8_t`. -/
def emplacePos (mp : List (Position × Nat)) (j : Position) : List (Position × Nat) :=
  if mp.any (fun e => e.1 == j) then mp else mp ++ [(j, mp.length % 256)]

/-- The map `pos_mp` after the first loop of `CalculateInitialMask_`. -/
def buildPosMp (adj : List AdjItem) : List (Position × Nat) :=
  adj.foldl (fun mp it => it.2.foldl emplacePos mp) []

/-- The lookup `pos_mp[j]` (a missing key would be default-inserted with value 0). -/
def lookupPos (mp : List (Position × Nat)) (j : Position) : Nat :=
  match mp.find? (fun e => e.1 == j) with
  | some e => e.2
  | none => 0

/-- The row `adj_bitset[i]` as a 256-bit number: bit `pos_mp[j]` is set for every `j` of
the reachable list. -/
def adjBitset (mp : List (Position × Nat)) (reach : List Position) : Nat :=
  reach.foldl (fun b j => b ||| (1 <<< lookupPos mp j)) 0

/-- The statement `initial_mask_ &= ~(1ll << j)`. -/
def clearBit (mask j : Nat) : Nat := mask &&& ((2 ^ 64 - 1) ^^^ ((1 <<< j) % 2 ^ 64))

/-- The inner loop over `j` of the reduction, for a fixed `i`. -/
def reduceInner (adj : List AdjItem) (bs : List Nat) (i : Nat) (mask : Nat) : Nat :=
  (List.range adj.length).foldl (fun m j =>
    if i == j || !(m.testBit j) ||
        decide ((adj.getD i (⟨0, 0, 0⟩, [])).2.length < (adj.getD j (⟨0, 0, 0⟩, [])).2.length)
    then m
    else if (bs.getD i 0 &&& bs.getD j 0) == bs.getD j 0 then clearBit m j else m) mask

/-- The outer loop over `i` of the reduction. -/
def reduceOuter (adj : List AdjItem) (bs : List Nat) (mask : Nat) : Nat :=
  (List.range adj.length).foldl (fun m i =>
    if !(m.testBit i) then m else reduceInner adj bs i m) mask

/-- Method `Tetris::CalculateInitialMask_`.  For exactly 64 entries the shift
`1ll << 64` is undefined behaviour in the source; the embedding takes the all-ones mask
there. -/
def CalculateInitialMask_ (env : Env Board) (s : Tetris Board) : Outcome Unit Board :=
  if s.moves_.adj.length > 64 then (.error .runtime_error, s)
  else
    let s1 := { s with initial_mask_ := (2 ^ s.moves_.adj.length - 1) % 2 ^ 64 }
    if s1.moves_.adj.length ≤ 1 then (.ok (), s1)
    else
      let adj := env.std_sort s1.moves_.adj
      let s2 := { s1 with moves_ := { s1.moves_ with adj := adj } }
      let pos_mp := buildPosMp adj
      let adj_bitset := adj.map (fun it => adjBitset pos_mp it.2)
      (.ok (), { s2 with initial_mask_ := reduceOuter adj adj_bitset s2.initial_mask_ })

/-! ## `CalculateMoves_` -/

/-- The assignment `move_map_[i.r][i.x][i.y] = v`. -/
def setCell (m : MoveMap) (i : Position) (v : Nat) : MoveMap :=
  fun q => if q = i then v else m q

/-- The second half of `CalculateMoves_`: `memset` to zero, then the tags of the current
phase. -/
def fillMoveMap (is_adj : Bool) (moves : PossibleMoves) (initial_move : Int)
    (initial_mask : Nat) : MoveMap :=
  let zero : MoveMap := fun _ => 0
  if !is_adj then
    let m1 := moves.non_adj.foldl (fun m i => setCell m i kNoAdj) zero
    moves.adj.enum.foldl (fun m e =>
      setCell m e.2.1 (if initial_mask.testBit e.1 then kHasAdjNonReduced else kHasAdjReduced)) m1
  else
    (((adjAt moves.adj initial_move).map (fun e => e.2)).getD []).foldl
      (fun m i => setCell m i kNoAdj) zero

/-- Method `Tetris::CalculateMoves_`. -/
def CalculateMoves_ (env : Env Board) (s : Tetris Board) (regenerate : Bool) :
    Outcome Unit Board :=
  if regenerate then
    let found := env.MoveSearch (LevelSpeed env s) s.adj_delay_ s.tap_sequence_
      s.search_table_ s.board_ s.now_piece_
    let s1 := { s with moves_ := found }
    if s1.moves_.non_adj.isEmpty && s1.moves_.adj.isEmpty then
      (.ok (), { s1 with game_over_ := true })
    else
      match CalculateInitialMask_ env s1 with
      | (.error e, s2) => (.error e, s2)
      | (.ok _, s2) =>
        (.ok (), { s2 with
          move_map_ := fillMoveMap s2.is_adj_ s2.moves_ s2.initial_move_ s2.initial_mask_ })
  else
    (.ok (), { s with
      move_map_ := fillMoveMap s.is_adj_ s.moves_ s.initial_move_ s.initial_mask_ })

/-! ## `StepGame_`, `Reset` and the public operations -/

/-- The guard of `StepGame_`: the placed piece adds exactly four occupied cells. -/
def placesFour (env : Env Board) (s : Tetris Board) (pos : Position) : Prop :=
  (env.Count s.board_ : Int) + 4 = env.Count (env.Place s.board_ s.now_piece_ pos.r pos.x pos.y)

instance (env : Env Board) (s : Tetris Board) (pos : Position) :
    Decidable (placesFour env s pos) := by
  unfold placesFour; infer_instance

/-- Lines 99 to 107 of `StepGame_`: the lines are cleared, the counters bumped and the
pieces shifted. -/
def advance (env : Env Board) (s : Tetris Board) (pos : Position) (next_piece : Int) :
    Tetris Board :=
  let before_clear := env.Place s.board_ s.now_piece_ pos.r pos.x pos.y
  { s with
    lines_ := s.lines_ + (env.ClearLines before_clear).1,
    board_ := (env.ClearLines before_clear).2,
    pieces_ := s.pieces_ + 1,
    is_adj_ := false,
    initial_move_ := 0,
    now_piece_ := s.next_piece_,
    next_piece_ := next_piece }

/-- Lines 108 to 112 of `StepGame_`: game over at the line cap (or on a non-tetris clear
in the Tetris-only build), a new move search otherwise. -/
def capOrSearch (env : Env Board) (s1 : Tetris Board) (lines : Int) : Outcome Unit Board :=
  if decide (s1.lines_ ≥ env.kLineCap) ||
      (env.kTetrisOnly && decide (lines ≠ 0) && decide (lines ≠ 4)) then
    (.ok (), { s1 with game_over_ := true })
  else CalculateMoves_ env s1 true

/-- Method `Tetris::StepGame_`. -/
def StepGame_ (env : Env Board) (s : Tetris Board) (pos : Position) (next_piece : Int) :
    Outcome (Int × Int) Board :=
  let before_clear := env.Place s.board_ s.now_piece_ pos.r pos.x pos.y
  if (env.Count s.board_ : Int) + 4 ≠ env.Count before_clear then
    (.ok (-1, 0), { s with consecutive_fail_ := s.consecutive_fail_ + 1 })
  else
    let lines := (env.ClearLines before_clear).1
    let delta_score := env.GameScore s.lines_ lines
    match capOrSearch env (advance env s pos next_piece) lines with
    | (.error e, s2) => (.error e, s2)
    | (.ok _, s2) =>
      (.ok (delta_score, lines), { s2 with
        consecutive_fail_ := 0,
        run_score_ := s2.run_score_ + delta_score,
        run_lines_ := s2.run_lines_ + lines,
        run_pieces_ := s2.run_pieces_ + 1 })

/-- Method `Tetris::Reset` (the six-argument overload).  The quotient is the truncating
C++ division. -/
def Reset (env : Env Board) (s : Tetris Board) (b : Board) (lines now_piece next_piece : Int)
    (tap_sequence : List Int) (adj_delay : Int) : Outcome Unit Board :=
  let s0 := { s with
    tap_sequence_ := tap_sequence,
    adj_delay_ := adj_delay,
    search_table_ := (tap_sequence, adj_delay) }
  let pieces := Int.tdiv (lines * 10 + env.Count b) 4
  if pieces * 4 ≠ lines * 10 + (env.Count b : Int) then (.error .runtime_error, s0)
  else
    let s1 := { s0 with
      board_ := b,
      lines_ := lines,
      pieces_ := pieces,
      is_adj_ := false,
      initial_move_ := 0,
      now_piece_ := now_piece,
      next_piece_ := next_piece,
      game_over_ := false }
    match CalculateMoves_ env s1 true with
    | (.error e, s2) => (.error e, s2)
    | (.ok _, s2) =>
      (.ok (), { s2 with
        consecutive_fail_ := 0,
        run_score_ := 0,
        run_lines_ := 0,
        run_pieces_ := 0 })

/-- The test of `DirectPlacement`: the cell is tagged `kNoAdj`, or `pos` occurs in the
reachable list of some entry of `moves_.adj`. -/
def directOk (s : Tetris Board) (pos : Position) : Bool :=
  s.move_map_ pos == kNoAdj || s.moves_.adj.any (fun i => i.2.contains pos)

/-- The test `ret.first == -1` on what `StepGame_` returned. -/
def retFailed (ret : Except Exn (Int × Int)) : Bool :=
  match ret with
  | .ok r => r.1 == -1
  | .error _ => false

/-- Method `Tetris::DirectPlacement`. -/
def DirectPlacement (env : Env Board) (s : Tetris Board) (pos : Position) (next_piece : Int) :
    Outcome (Int × Int) Board :=
  if s.game_over_ then (.error .logic_error, s)
  else if next_piece < 0 || next_piece ≥ kPieces then (.error .range_error, s)
  else if !(directOk s pos) then (.ok (-1, 0), { s with game_over_ := true })
  else
    match StepGame_ env s pos next_piece with
    | (.error e, s1) => (.error e, s1)
    | (.ok ret, s1) =>
      if ret.1 = -1 then (.ok ret, { s1 with game_over_ := true }) else (.ok ret, s1)

/-- The loop of `InputPlacement` that looks for the first entry of `moves_.adj` whose
initial is `pos`; the index is kept when there is none. -/
def findInitial (adj : List AdjItem) (pos : Position) (old : Int) : Int :=
  if adj.findIdx (fun it => it.1 == pos) < adj.length then
    (adj.findIdx (fun it => it.1 == pos) : Int)
  else old

/-- Method `Tetris::InputPlacement`. -/
def InputPlacement (env : Env Board) (s : Tetris Board) (pos : Position) (next_piece : Int) :
    Outcome (Int × Int) Board :=
  if s.game_over_ then (.error .logic_error, s)
  else if next_piece < 0 || next_piece ≥ kPieces then (.error .range_error, s)
  else if s.move_map_ pos = 0 then
    (.ok (-1, 0), { s with consecutive_fail_ := s.consecutive_fail_ + 1 })
  else if s.move_map_ pos = kNoAdj then StepGame_ env s pos next_piece
  else
    let s1 := { s with
      initial_move_ := findInitial s.moves_.adj pos s.initial_move_,
      is_adj_ := true }
    match CalculateMoves_ env s1 false with
    | (.error e, s2) => (.error e, s2)
    | (.ok _, s2) => (.ok (0, 0), { s2 with consecutive_fail_ := 0 })

/-- Method `Tetris::SetNextPiece`. -/
def SetNextPiece (s : Tetris Board) (piece : Int) : Outcome Unit Board :=
  if piece < 0 || piece ≥ kPieces then (.error .range_error, s)
  else (.ok (), { s with next_piece_ := piece })

/-- Method `Tetris::SetLines`; `(lines - lines_) * 10 / 4` is the truncating C++ division. -/
def SetLines (env : Env Board) (s : Tetris Board) (lines : Int) : Outcome Unit Board :=
  if env.GetLevelSpeed (env.GetLevelByLines lines) ≠ LevelSpeed env s then
    (.error .range_error, s)
  else
    let pieces_diff := Int.tdiv ((lines - s.lines_) * 10) 4
    (.ok (), { s with lines_ := lines, pieces_ := s.pieces_ + pieces_diff })

/-- Method `Tetris::ForceOver`. -/
def ForceOver (s : Tetris Board) : Tetris Board := { s with game_over_ := true }

/-! ## Runs and state invariants -/

/-- A run of `StepGame_` calls that all succeed: each step must pass the four-cell guard
and return; the line counts returned by the steps are collected in order. -/
def runSteps (env : Env Board) : Tetris Board → List (Position × Int) →
    Option (Tetris Board × List Int)
  | s, [] => some (s, [])
  | s, (pos, next_piece) :: rest =>
    if placesFour env s pos then
      match StepGame_ env s pos next_piece with
      | (.ok ret, s1) => (runSteps env s1 rest).map (fun out => (out.1, ret.2 :: out.2))
      | (.error _, _) => none
    else none

/-- The move map is the one `CalculateMoves_` stores for the current phase, move list,
recorded initial and mask. -/
def MapInSync (s : Tetris Board) : Prop :=
  s.move_map_ = fillMoveMap s.is_adj_ s.moves_ s.initial_move_ s.initial_mask_

/-- The public calls of class `Tetris` that change the object. -/
inductive Call (Board : Type) where
  | reset (b : Board) (lines now_piece next_piece : Int) (tap_sequence : List Int)
      (adj_delay : Int)
  | inputPlacement (pos : Position) (next_piece : Int)
  | directPlacement (pos : Position) (next_piece : Int)
  | setNextPiece (piece : Int)
  | setLines (lines : Int)
  | forceOver

/-- The state after a public call (the state at the throw when the call throws). -/
def applyCall (env : Env Board) (s : Tetris Board) : Call Board → Tetris Board
  | .reset b lines now_piece next_piece taps adj_delay =>
    (Reset env s b lines now_piece next_piece taps adj_delay).2
  | .inputPlacement pos next_piece => (InputPlacement env s pos next_piece).2
  | .directPlacement pos next_piece => (DirectPlacement env s pos next_piece).2
  | .setNextPiece piece => (SetNextPiece s piece).2
  | .setLines lines => (SetLines env s lines).2
  | .forceOver => ForceOver s

/-- Whether a public call throws in the given state. -/
def callThrows (env : Env Board) (s : Tetris Board) : Call Board → Bool
  | .reset b lines now_piece next_piece taps adj_delay =>
    !(Reset env s b lines now_piece next_piece taps adj_delay).1.isOk
  | .inputPlacement pos next_piece => !(InputPlacement env s pos next_piece).1.isOk
  | .directPlacement pos next_piece => !(DirectPlacement env s pos next_piece).1.isOk
  | .setNextPiece piece => !(SetNextPiece s piece).1.isOk
  | .setLines lines => !(SetLines env s lines).1.isOk
  | .forceOver => false

/-- The state after a sequence of public calls none of which throws. -/
def runCalls (env : Env Board) : Tetris Board → List (Call Board) → Option (Tetris Board)
  | s, [] => some s
  | s, c :: rest => if callThrows env s c then none else runCalls env (applyCall env s c) rest

/-- The quantity of the consistency check of `Reset`, taken modulo 4. -/
def linesCellsMod4 (env : Env Board) (s : Tetris Board) : Int :=
  (s.lines_ * 10 + env.Count s.board_) % 4

/-- The assumption on the missing `Board::ClearLines`: it removes ten occupied cells per
cleared line and reports that number of lines. -/
def ClearsTenPerLine (env : Env Board) : Prop :=
  ∀ b : Board, (env.Count (env.ClearLines b).2 : Int) + 10 * (env.ClearLines b).1 = env.Count b

/-- The assumption on the missing `MoveSearch` behind the guard of
`CalculateInitialMask_`: it never reports more than 64 adjustment initials. -/
def SearchBounded (env : Env Board) : Prop :=
  ∀ lvl d taps tbl b p, (env.MoveSearch lvl d taps tbl b p).adj.length ≤ 64

/-- What holds in every state of a game since its last `Reset` that returned: the
failure counter is not negative and, while `game_over_` is unset, the move map is the
one `CalculateMoves_` stored. -/
def WellFormed (s : Tetris Board) : Prop :=
  0 ≤ s.consecutive_fail_ ∧ (s.game_over_ = false → MapInSync s)

/-- A `SetLines` call that changes the line count by an even number (every other call
qualifies). -/
def evenSetLines (s : Tetris Board) : Call Board → Prop
  | .setLines lines => (lines - s.lines_) % 2 = 0
  | _ => True

/-- Every `SetLines` call of a run changes the line count by an even number. -/
def evenSetLinesAlong (env : Env Board) : Tetris Board → List (Call Board) → Prop
  | _, [] => True
  | s, c :: rest => evenSetLines s c ∧ evenSetLinesAlong env (applyCall env s c) rest

/-! ## A concrete environment

The closed examples below need values for the parameters of `Env`.  The board follows
section 4.1 of the specification over the byte-board layout and the piece table `kBlocks`
of `test/naive_functions.cpp`; the rule tables follow section 4.2. -/

namespace Sample

/-- The type `ByteBoard`: 20 rows of 10 cells, `true` meaning empty. -/
abbrev ByteBoard := List (List Bool)

/-- The piece table `kBlocks` of `test/naive_functions.cpp`: per piece and rotation the
four `(dx, dy)` offsets from the origin. -/
def kBlocks : List (List (List (Int × Int))) :=
  [ [ [(1, 0), (0, 0), (0, 1), (0, -1)],
      [(1, 0), (0, 0), (-1, 0), (0, -1)],
      [(0, -1), (0, 0), (0, 1), (-1, 0)],
      [(1, 0), (0, 0), (0, 1), (-1, 0)] ],
    [ [(0, -1), (0, 0), (0, 1), (1, 1)],
      [(-1, 0), (0, 0), (1, -1), (1, 0)],
      [(-1, -1), (0, -1), (0, 0), (0, 1)],
      [(-1, 0), (-1, 1), (0, 0), (1, 0)] ],
    [ [(0, -1), (0, 0), (1, 0), (1, 1)],
      [(-1, 1), (0, 0), (0, 1), (1, 0)] ],
    [ [(0, -1), (0, 0), (1, -1), (1, 0)] ],
    [ [(0, 0), (0, 1), (1, -1), (1, 0)],
      [(-1, 0), (0, 0), (0, 1), (1, 1)] ],
    [ [(0, -1), (0, 0), (0, 1), (1, -1)],
      [(-1, -1), (-1, 0), (0, 0), (1, 0)],
      [(-1, 1), (0, -1), (0, 0), (0, 1)],
      [(-1, 0), (0, 0), (1, 0), (1, 1)] ],
    [ [(0, -2), (0, -1), (0, 0), (0, 1)],
      [(-2, 0), (-1, 0), (0, 0), (1, 0)] ] ]

/-- The offsets `kBlocks[poly][r]` (no offsets for an index outside the table). -/
def blockOf (poly r : Int) : List (Int × Int) :=
  if poly < 0 ∨ r < 0 then [] else (kBlocks.getD poly.toNat []).getD r.toNat []

/-- The cleared board `Board::Ones`: every cell empty. -/
def Ones : ByteBoard := List.replicate 20 (List.replicate 10 true)

/-- Modelled from the spec: `Board::Place` of the missing `board.h` ("returns a new
board with the piece template AND-masked in; out-of-board cells are silently dropped"). -/
def Place (b : ByteBoard) (piece r x y : Int) : ByteBoard :=
  (blockOf piece r).foldl (fun field i =>
    let nx := x + i.1
    let ny := y + i.2
    if nx ≥ 20 ∨ ny ≥ 10 ∨ nx < 0 ∨ ny < 0 then field
    else field.set nx.toNat ((field.getD nx.toNat []).set ny.toNat false)) b

/-- Modelled from the spec: `Board::Count` of the missing `board.h`, the number of
occupied cells ("count_empty_complement"): per row, ten minus the number of set cells. -/
def Count (b : ByteBoard) : Nat := (b.map (fun row => 10 - row.count true)).sum

/-- Modelled from the spec: `Board::ClearLines` of the missing `board.h` ("a row is full
iff all ten cells occupied; cleared rows are replaced by all-empty rows at the top,
preserving the order of surviving rows"). -/
def ClearLines (b : ByteBoard) : Int × ByteBoard :=
  let kept := b.filter (fun row => row.any id)
  let cleared := b.length - kept.length
  ((cleared : Int), List.replicate cleared (List.replicate 10 true) ++ kept)

/-- Modelled from the spec: `GetLevelByLines` of the missing `game.h`, the NES level
curve for a start on level 18 (first transition at 130 lines, then every 10 lines). -/
def GetLevelByLines (lines : Int) : Int :=
  if lines < 130 then 18 else Int.tdiv lines 10 + 6

/-- Modelled from the spec: `GetLevelSpeed` of the missing `game.h`, the four buckets
L18, L19, L29 and L39. -/
def GetLevelSpeed (level : Int) : Level :=
  if level ≤ 18 then .kLevel18
  else if level < 29 then .kLevel19
  else if level < 39 then .kLevel29
  else .kLevel39

/-- Modelled from the spec: `ScoreFromLevel` of the missing `game.h`, the NES score of
a clear on a level (40 for one line on level 0). -/
def ScoreFromLevel (level lines : Int) : Int :=
  (if lines = 1 then 40 else if lines = 2 then 100 else if lines = 3 then 300
   else if lines = 4 then 1200 else 0) * (level + 1)

/-- Modelled from the spec: `GameScore` of the missing `game.h`, the NES score delta of
clearing `cleared` lines after `prior_lines`. -/
def GameScore (prior_lines cleared : Int) : Int :=
  ScoreFromLevel (GetLevelByLines (prior_lines + cleared)) cleared

/-- The test of `GetPieceMap` in `test/naive_functions.cpp`: the four cells of the piece
lie in columns 0..9 and rows up to 19, and those inside the board are empty. -/
def fits (field : ByteBoard) (poly r x y : Int) : Bool :=
  (blockOf poly r).all (fun i =>
    let nx := i.1 + x
    let ny := i.2 + y
    !(decide (ny < 0) || decide (nx ≥ 20) || decide (ny ≥ 10) ||
      (decide (nx ≥ 0) && !((field.getD nx.toNat []).getD ny.toNat false))))

/-- The lowest row reached by a straight fall in a column, starting from `row`. -/
def dropRow (field : ByteBoard) (poly r y : Int) : Nat → Int → Int
  | 0, row => row
  | fuel + 1, row =>
    if fits field poly r (row + 1) y then dropRow field poly r y fuel (row + 1) else row

/-- The straight drops of one rotation in the given columns. -/
def straightDrops (field : ByteBoard) (poly r : Int) (cols : List Int) : List Position :=
  if (blockOf poly r).length ≠ 4 then []
  else (cols.filter (fun y => fits field poly r 0 y)).map
    (fun y => ⟨r, dropRow field poly r y 20 0, y⟩)

/-- A stand-in for the missing `MoveSearch`, for closed examples only: nothing when the
spawn cell `(0, 0, 5)` is blocked; otherwise the straight drops of every column in
rotations 0 and 1 as `non_adj`, and the cells of row 6 in columns 4 to 6 as adjustment
initials, each with the straight drops of its own and the neighbouring columns. -/
def MoveSearch (_level : Level) (_adj_delay : Int) (_taps : List Int) (_table : List Int × Int)
    (field : ByteBoard) (poly : Int) : PossibleMoves :=
  if !fits field poly 0 0 5 then ⟨[], []⟩
  else
    { non_adj := straightDrops field poly 0 [0, 1, 2, 3, 4, 5, 6, 7, 8, 9] ++
        straightDrops field poly 1 [0, 1, 2, 3, 4, 5, 6, 7, 8, 9]
      adj := ([4, 5, 6].filter (fun y => fits field poly 0 6 y)).map (fun y =>
        ((⟨0, 6, y⟩ : Position), straightDrops field poly 0 [y - 1, y, y + 1])) }

/-- Insertion into a list ordered by the comparator `adjLess`. -/
def insertAdj (x : AdjItem) : List AdjItem → List AdjItem
  | [] => [x]
  | y :: rest => if adjLess y x || !adjLess x y then y :: insertAdj x rest else x :: y :: rest

/-- One admissible `std::sort`: the stable insertion sort for `adjLess`. -/
def std_sort (l : List AdjItem) : List AdjItem := l.foldl (fun acc x => insertAdj x acc) []

/-- The environment of the closed examples: default line cap 430, Tetris-only off. -/
def env : Env ByteBoard where
  Place := Place
  Count := Count
  ClearLines := ClearLines
  GameScore := GameScore
  GetLevelByLines := GetLevelByLines
  GetLevelSpeed := GetLevelSpeed
  MoveSearch := MoveSearch
  std_sort := std_sort
  kLineCap := 430
  kTetrisOnly := false

/-- The tap table `Tap30Hz`: one input every second frame. -/
def Tap30Hz : List Int := [0, 2, 4, 6, 8, 10, 12, 14, 16, 18]

/-- A freshly constructed object (`Tetris()` sets the tap table and the adjustment
delay; the other members hold no meaningful value before `Reset`). -/
def fresh : Tetris ByteBoard where
  board_ := []
  lines_ := 0
  pieces_ := 0
  is_adj_ := false
  initial_move_ := 0
  now_piece_ := 0
  next_piece_ := 0
  game_over_ := false
  moves_ := ⟨[], []⟩
  move_map_ := fun _ => 0
  consecutive_fail_ := 0
  initial_mask_ := 0
  tap_sequence_ := Tap30Hz
  adj_delay_ := 18
  search_table_ := (Tap30Hz, 18)
  run_score_ := 0
  run_lines_ := 0
  run_pieces_ := 0

/-- The state after `Reset(Board::Ones, 0, 6, 0)`: empty board, piece I, next piece T. -/
def start : Tetris ByteBoard := (Reset env fresh Ones 0 6 0 Tap30Hz 18).2

/-- The state after `Reset(Board::Ones, 0, 6, 6)`: empty board, two I pieces. -/
def startII : Tetris ByteBoard := (Reset env fresh Ones 0 6 6 Tap30Hz 18).2

/-- The state after `Reset(Board::Ones, 430, 6, 0)`: a game started at the line cap. -/
def startAtCap : Tetris ByteBoard := (Reset env fresh Ones 430 6 0 Tap30Hz 18).2

/-- A board whose column 5 is occupied from row 2 down to the floor. -/
def tower : ByteBoard :=
  List.replicate 2 (List.replicate 10 true) ++
  List.replicate 18 [true, true, true, true, true, false, true, true, true, true]

/-- The state after `Reset(tower, 1, 6, 0)`: piece I over the tower. -/
def startTower : Tetris ByteBoard := (Reset env fresh tower 1 6 0 Tap30Hz 18).2

/-- The state after an `InputPlacement` of `start` at the unreachable cell `(1, 19, 4)`. -/
def afterMiss : Tetris ByteBoard := (InputPlacement env start ⟨1, 19, 4⟩ 3).2

end Sample

/-! ## Assumptions on `std::sort` and further notions for the mask reduction -/

section MaskNotions

variable {Board : Type}

/-- The assumption on `std::sort`: its result is a rearrangement of its input. -/
def SortPermutes (env : Env Board) : Prop :=
  ∀ l : List AdjItem, (env.std_sort l).Perm l

/-- The search result that `CalculateMoves_(true)` obtains in state `s`. -/
def searchResult (env : Env Board) (s : Tetris Board) : PossibleMoves :=
  env.MoveSearch (LevelSpeed env s) s.adj_delay_ s.tap_sequence_ s.search_table_ s.board_
    s.now_piece_

end MaskNotions

section MaskReduction

/-- The test of the inner loop of the reduction that drops entry `j` in favour of entry
`i`: the indices differ, the list of `i` is not shorter, and `adj_bitset[j]` is inside
`adj_bitset[i]`. -/
def dominates (adj : List AdjItem) (bs : List Nat) (i j : Nat) : Bool :=
  !(i == j) &&
  !decide ((adj.getD i (⟨0, 0, 0⟩, [])).2.length < (adj.getD j (⟨0, 0, 0⟩, [])).2.length) &&
  ((bs.getD i 0 &&& bs.getD j 0) == bs.getD j 0)

/-- The mask when the outer loop of the reduction reaches index `t`. -/
def maskBefore (adj : List AdjItem) (bs : List Nat) (mask : Nat) (t : Nat) : Nat :=
  (List.range t).foldl (fun m i =>
    if !(m.testBit i) then m else reduceInner adj bs i m) mask

/-- The number of distinct destinations in the reachable lists of `adj`. -/
def distinctDestinations (adj : List AdjItem) : Nat :=
  ((adj.map (fun e => e.2)).flatten.dedup).length

/-- The entries of `adj` whose mask bit is set, in their order. -/
def survivors (adj : List AdjItem) (mask : Nat) : List AdjItem :=
  (adj.enum.filter (fun e => mask.testBit e.1)).map (fun e => e.2)

/-- Entry `b` is at least as large as entry `a` and reaches every destination of `a`. -/
def covers (b a : AdjItem) : Prop :=
  a.2.length ≤ b.2.length ∧ a.2 ⊆ b.2

/-- The index map `pos_mp` numbers its keys in the order of insertion (as `uint8_t`) and
holds no key twice. -/
def PosMpOk (mp : List (Position × Nat)) : Prop :=
  (∀ i (h : i < mp.length), (mp.get ⟨i, h⟩).2 = i % 256) ∧ (mp.map (fun e => e.1)).Nodup

end MaskReduction

namespace Sample

/-- The object right after a search that found two initials with the same single
destination (the input of `CalculateInitialMask_`). -/
def twins : Tetris ByteBoard :=
  { fresh with
    moves_ := ⟨[], [(⟨0, 6, 5⟩, [⟨0, 19, 5⟩]), (⟨0, 6, 4⟩, [⟨0, 19, 5⟩])]⟩ }

/-- The object right after a search that found three initials: a wide one, a narrow one
inside it, and one to the side. -/
def triple : Tetris ByteBoard :=
  { fresh with
    moves_ := ⟨[], [(⟨0, 6, 4⟩, [⟨0, 19, 4⟩]),
                    (⟨0, 6, 5⟩, [⟨0, 19, 4⟩, ⟨0, 19, 5⟩, ⟨0, 19, 6⟩]),
                    (⟨0, 6, 7⟩, [⟨0, 19, 7⟩, ⟨0, 19, 8⟩])]⟩ }

/-- An object whose board is full, so that the spawn cell is blocked. -/
def topped : Tetris ByteBoard :=
  { fresh with board_ := List.replicate 20 (List.replicate 10 false) }

end Sample

section MaskSpecWording

/-- The condition of the specification on entry `i` of the list, in the words of the
specification: some other index `j` has a reachable list with at least as many elements
whose set contains the reachable set of entry `i`.  The specification sets bit `i` iff
this does not hold. -/
def coveredByOther (adj : List AdjItem) (i : Nat) : Prop :=
  ∃ j, j < adj.length ∧ j ≠ i ∧
    (adj.getD i (⟨0, 0, 0⟩, [])).2.length ≤ (adj.getD j (⟨0, 0, 0⟩, [])).2.length ∧
    (adj.getD i (⟨0, 0, 0⟩, [])).2 ⊆ (adj.getD j (⟨0, 0, 0⟩, [])).2

end MaskSpecWording

namespace Sample

/-- The `n` cells `(r, k / 10, k % 10)` for `k < n`: pairwise distinct positions. -/
def block (r : Int) (n : Nat) : List Position :=
  (List.range n).map (fun k => ⟨r, ((k / 10 : Nat) : Int), ((k % 10 : Nat) : Int)⟩)

/-- Four initials with 385 distinct destinations between them: 128, 128, 127 and 2, no
two lists sharing a destination. -/
def crowdAdj : List AdjItem :=
  [(⟨0, 6, 5⟩, block 0 128), (⟨0, 6, 4⟩, block 1 128), (⟨0, 6, 6⟩, block 2 127),
   (⟨0, 6, 3⟩, block 3 2)]

/-- The object right after a search that found the four initials of `crowdAdj`. -/
def crowd : Tetris ByteBoard := { fresh with moves_ := ⟨[], crowdAdj⟩ }

/-- The three entries of `crowdAdj` that keep their bit. -/
def crowdKept : List AdjItem :=
  [(⟨0, 6, 5⟩, block 0 128), (⟨0, 6, 4⟩, block 1 128), (⟨0, 6, 3⟩, block 3 2)]

end Sample

/-! ## Class `PythonTetris` (`python/tetris/tetris.h`), the build with rotation

Doubles are read as rationals; the floating-point arithmetic of the shaped reward and of
the probabilities is not modelled and enters through the environment. -/

section PythonWrapper

/-- A row of the constant table `kTransitionProbInt` of `game.h`, named by the indices
applied to the table (the contents of the table are not among the sources). -/
structure TransitionRow where
  indices : List Int
deriving DecidableEq, Repr

/-- The data members of class `PythonTetris` in the build with rotation. -/
structure PythonTetris (Board Rng : Type) where
  tetris : Tetris Board
  rng_ : Rng
  next_piece_ : Int
  piece_count_ : Int
  skip_unique_initial_ : Bool
  step_reward_ : ℚ
  step_reward_level_ : Int
  burn_over_multiplier_ : ℚ

/-- What `PythonTetris` takes from outside `python/tetris/tetris.h`: the environment of
class `Tetris`, the build macros, the random draws of `<random>` as functions of the
generator state, and the floating-point parts of the reward. -/
structure PyEnv (Board Rng : Type) where
  /-- The environment of class `Tetris`. -/
  core : Env Board
  /-- Whether the macro `TETRIS_ONLY` is defined. -/
  TETRIS_ONLY : Bool
  /-- The board `Board::Ones`. -/
  Ones : Board
  /-- The tap table of the macro `TAP_SPEED`. -/
  TAP_SPEED : List Int
  /-- The macro `ADJ_DELAY`. -/
  ADJ_DELAY : Int
  /-- The generator `std::mt19937_64(seed)`. -/
  mt19937_64 : Nat → Rng
  /-- Library call `std::uniform_int_distribution<int>(a, b)(rng_)`: the value drawn and
  the generator afterwards. -/
  uniform_int : Int → Int → Rng → Int × Rng
  /-- Library call `std::discrete_distribution<int>(row, row + kPieces)(rng_)`. -/
  discrete_distribution : TransitionRow → Rng → Int × Rng
  /-- The test `std::uniform_real_distribution<float>(0, 1)(rng_) < prob` of the
  Tetris-only rule of `GenNextPiece_`; `prob` is computed in floating point from the
  level index and `RunLines()`. -/
  moreI : Int → Int → Rng → Bool × Rng
  /-- The test `std::uniform_real_distribution<float>(0, 1)(rng_) < adjusted_over_prob`
  of the burn rule of `StepAndCalculateReward_`; the probability is computed in floating
  point from `tap_mode`, `adj_mode`, `now_lines`, `lines` and `burn_over_multiplier_`. -/
  burnOver : Int → Int → Int → Int → ℚ → Rng → Bool × Rng
  /-- The value `n_reward` that `StepAndCalculateReward_` returns for a valid step,
  computed in floating point from the object, the position, the score and the lines. -/
  shaped : PythonTetris Board Rng → Position → Int → Int → ℚ

/-- The result of a member function of `PythonTetris`: the value returned or the
exception thrown, and the object state when control leaves the function. -/
abbrev PyOutcome (α Board Rng : Type) := Except Exn α × PythonTetris Board Rng

variable {Board Rng : Type}

/-- Constant `PythonTetris::kMirrorCols_`. -/
def kMirrorCols_ : List Int := [9, 9, 9, 10, 9, 9, 10]

/-- Constant `PythonTetris::kMirrorPiece_`. -/
def kMirrorPiece_ : List Int := [0, 5, 4, 3, 2, 1, 6]

/-- Constant `PythonTetris::kInvalidReward_`. -/
def kInvalidReward_ : ℚ := -3 / 10

/-- Constant `PythonTetris::kRewardMultiplier_`. -/
def kRewardMultiplier_ (env : PyEnv Board Rng) : ℚ :=
  if env.TETRIS_ONLY then 2 / 100000 else 1 / 100000

/-- The cast `static_cast<int>(tetris.LevelSpeed())` of the enum `Level`. -/
def levelInt : Level → Int
  | .kLevel18 => 0
  | .kLevel19 => 1
  | .kLevel29 => 2
  | .kLevel39 => 3

/-- Constant `kThresh` of `GenNextPiece_`. -/
def kThresh : List Int := [28, 24, 16, 8]

/-- The block of `GenNextPiece_` under `TETRIS_ONLY`: whether the call returns piece 6
at once, and the object afterwards (the generator has advanced if the test was made). -/
def moreIDraw (env : PyEnv Board Rng) (st : PythonTetris Board Rng) :
    Bool × PythonTetris Board Rng :=
  if env.TETRIS_ONLY then
    let level_int := levelInt (LevelSpeed env.core st.tetris)
    let threshold := kThresh.getD level_int.toNat 0
    if st.tetris.run_lines_ ≥ threshold then
      let d := env.moreI level_int st.tetris.run_lines_ st.rng_
      (d.1, { st with rng_ := d.2 })
    else (false, st)
  else (false, st)

/-- The row handed to `std::discrete_distribution` by `GenNextPiece_(piece)`:
`kTransitionProbInt[piece]`. -/
def weightRow (piece : Int) : TransitionRow := ⟨[piece]⟩

/-- Method `PythonTetris::GenNextPiece_`: the piece returned and the object afterwards.
`(piece_count_ + 1) & 7` is the remainder modulo 8 in `0..7`.  The branch under
`#if false` (the table `kTransitionRealisticProbInt`) is not compiled. -/
def PythonTetris.GenNextPiece_ (env : PyEnv Board Rng) (st : PythonTetris Board Rng)
    (piece : Int) : Int × PythonTetris Board Rng :=
  let d := moreIDraw env st
  if d.1 then (6, d.2)
  else
    let st1 := { d.2 with piece_count_ := (d.2.piece_count_ + 1) % 8 }
    let r := env.discrete_distribution (weightRow piece) st1.rng_
    (r.1, { st1 with rng_ := r.2 })

/-- The first `switch` of `StepAndCalculateReward_`: `tap_mode`, or nothing where the
source throws "unexpected tap". -/
def tapMode (taps : List Int) : Option Int :=
  if taps.getD 3 0 = 6 then some (if taps.getD 4 0 ≤ 10 then 5 else 6)
  else if taps.getD 3 0 = 8 then some 4
  else if taps.getD 3 0 = 9 then some 3
  else if taps.getD 3 0 = 12 then some 2
  else if taps.getD 3 0 = 15 then some 1
  else if taps.getD 3 0 = 18 then some 0
  else none

/-- The second `switch` of `StepAndCalculateReward_`: `adj_mode`, or nothing where the
source throws "unexpected adj". -/
def adjMode (adj_delay : Int) : Option Int :=
  if adj_delay = 0 then some 0
  else if adj_delay = 18 then some 1
  else if adj_delay = 21 then some 2
  else if adj_delay = 24 then some 3
  else if adj_delay = 30 then some 4
  else if adj_delay = 61 then some 5
  else none

/-- The burn rule of `StepAndCalculateReward_` at aggression level 0: for 1, 2 or 3
cleared lines and with `skip_unique_initial_` set, one random test is made and the game
is forced over when it succeeds. -/
def burnStep (env : PyEnv Board Rng) (st : PythonTetris Board Rng) (tap_mode adj_mode : Int)
    (lines : Int) : PythonTetris Board Rng :=
  if lines ≠ 0 ∧ lines ≠ 4 then
    if st.skip_unique_initial_ then
      let d := env.burnOver tap_mode adj_mode st.tetris.lines_ lines st.burn_over_multiplier_
        st.rng_
      let st1 := { st with rng_ := d.2 }
      if d.1 then { st1 with tetris := ForceOver st1.tetris } else st1
    else st
  else st

/-- The end of `StepAndCalculateReward_`: outside the adjusting phase the next piece is
drawn; the pair `(n_reward, reward)` is returned. -/
def finishStep (env : PyEnv Board Rng) (st : PythonTetris Board Rng) (pos : Position)
    (score lines : Int) : PyOutcome (ℚ × ℚ) Board Rng :=
  let n_reward := env.shaped st pos score lines
  let reward := (score : ℚ) * kRewardMultiplier_ env
  if !st.tetris.is_adj_ then
    let g := PythonTetris.GenNextPiece_ env st st.next_piece_
    (.ok (n_reward, reward), { g.2 with next_piece_ := g.1 })
  else (.ok (n_reward, reward), st)

/-- Method `PythonTetris::StepAndCalculateReward_` (build with rotation). -/
def PythonTetris.StepAndCalculateReward_ (env : PyEnv Board Rng)
    (st : PythonTetris Board Rng) (pos : Position) (score lines : Int) :
    PyOutcome (ℚ × ℚ) Board Rng :=
  if score = -1 then (.ok (kInvalidReward_, 0), st)
  else if st.step_reward_level_ = 0 then
    match tapMode st.tetris.tap_sequence_ with
    | none => (.error .runtime_error, st)
    | some tap_mode =>
      match adjMode st.tetris.adj_delay_ with
      | none => (.error .runtime_error, st)
      | some adj_mode => finishStep env (burnStep env st tap_mode adj_mode lines) pos score lines
  else finishStep env st pos score lines

/-- Function `popcount` on the 64-bit mask. -/
def popcount (mask : Nat) : Nat := ((List.range 64).filter (fun i => mask.testBit i)).length

/-- Function `ctz` on the 64-bit mask: the index of the lowest set bit (the call with no
bit set is undefined in the source and gives 64 here). -/
def ctz (mask : Nat) : Nat := ((List.range 64).find? (fun i => mask.testBit i)).getD 64

/-- Method `PythonTetris::CheckReducibleInitial_`. -/
def PythonTetris.CheckReducibleInitial_ (env : PyEnv Board Rng)
    (st : PythonTetris Board Rng) : PyOutcome (ℚ × ℚ) Board Rng :=
  if !st.skip_unique_initial_ || st.tetris.is_adj_ || IsOver st.tetris then (.ok (0, 0), st)
  else if !st.tetris.moves_.non_adj.isEmpty || popcount st.tetris.initial_mask_ ≠ 1 then
    (.ok (0, 0), st)
  else
    let pos := ((adjAt st.tetris.moves_.adj (ctz st.tetris.initial_mask_)).map
      (fun e => e.1)).getD ⟨0, 0, 0⟩
    match BetaTetris.InputPlacement env.core st.tetris pos st.next_piece_ with
    | (.error e, t) => (.error e, { st with tetris := t })
    | (.ok ret, t) =>
      PythonTetris.StepAndCalculateReward_ env { st with tetris := t } pos ret.1 ret.2

/-- Method `PythonTetris::GetRealPosition`; the reflection is compiled only under
`NO_ROTATION`, where the member `is_mirror_` exists. -/
def GetRealPosition (NO_ROTATION is_mirror_ : Bool) (now_piece : Int) (pos : Position) :
    Position :=
  if NO_ROTATION && is_mirror_ then
    { pos with y := kMirrorCols_.getD now_piece.toNat 0 - pos.y }
  else pos

/-- The first block of `PythonTetris::Reset`: when a piece is given as `-1`, the piece
count and the missing pieces are drawn.  The result is the object and the two pieces. -/
def drawPieces (env : PyEnv Board Rng) (st : PythonTetris Board Rng)
    (now_piece next_piece : Int) : PythonTetris Board Rng × Int × Int :=
  if now_piece = -1 ∨ next_piece = -1 then
    let c := env.uniform_int 0 8 st.rng_
    let st1 := { st with piece_count_ := c.1, rng_ := c.2 }
    let n : Int × PythonTetris Board Rng :=
      if now_piece = -1 then
        let e := env.uniform_int 0 (kPieces - 1) st1.rng_
        (e.1, { st1 with rng_ := e.2 })
      else (now_piece, st1)
    let g := PythonTetris.GenNextPiece_ env n.2 n.1
    (g.2, n.1, g.1)
  else (st, now_piece, next_piece)

/-- Method `PythonTetris::Reset` with seven parameters (build with rotation). -/
def PythonTetris.Reset (env : PyEnv Board Rng) (st : PythonTetris Board Rng) (b : Board)
    (lines : Int) (tap_sequence : List Int) (adj_delay : Int) (now_piece next_piece : Int)
    (skip_unique_initial : Bool) : PyOutcome Unit Board Rng :=
  let drawn := drawPieces env st now_piece next_piece
  match BetaTetris.Reset env.core drawn.1.tetris b lines drawn.2.1 drawn.2.2 tap_sequence
      adj_delay with
  | (.error e, t) => (.error e, { drawn.1 with tetris := t })
  | (.ok _, t) =>
    let g := PythonTetris.GenNextPiece_ env { drawn.1 with tetris := t } drawn.2.2
    let st3 := { g.2 with next_piece_ := g.1, skip_unique_initial_ := skip_unique_initial }
    match PythonTetris.CheckReducibleInitial_ env st3 with
    | (.error e, st4) => (.error e, st4)
    | (.ok _, st4) => (.ok (), st4)

/-- Method `PythonTetris::Reset` with five parameters: the tap table and the delay of
the build. -/
def PythonTetris.ResetDefault (env : PyEnv Board Rng) (st : PythonTetris Board Rng)
    (b : Board) (lines : Int) (now_piece next_piece : Int) (skip_unique_initial : Bool) :
    PyOutcome Unit Board Rng :=
  PythonTetris.Reset env st b lines env.TAP_SPEED env.ADJ_DELAY now_piece next_piece
    skip_unique_initial

/-- Constructor `PythonTetris(seed)`; `raw` holds the members before the body runs (the
default-constructed `tetris`, the default member initialisers, and indeterminate values
for the rest). -/
def PythonTetris.construct (env : PyEnv Board Rng) (raw : PythonTetris Board Rng)
    (seed : Nat) : PyOutcome Unit Board Rng :=
  PythonTetris.ResetDefault env { raw with rng_ := env.mt19937_64 seed, piece_count_ := 0 }
    env.Ones 0 (-1) (-1) false

/-- Method `PythonTetris::ResetRandom` (build with rotation); `kLineCap / 2` is the
truncating division. -/
def PythonTetris.ResetRandom (env : PyEnv Board Rng) (st : PythonTetris Board Rng)
    (b : Board) : PyOutcome Unit Board Rng :=
  let lines0 : Int := if env.core.Count b % 4 ≠ 0 then 1 else 0
  let d := env.uniform_int 0 (Int.tdiv env.core.kLineCap 2 - 1) st.rng_
  PythonTetris.ResetDefault env { st with rng_ := d.2 } b (lines0 + d.1 * 2) (-1) (-1) true

/-- Method `PythonTetris::DirectPlacement`. -/
def PythonTetris.DirectPlacement (env : PyEnv Board Rng) (st : PythonTetris Board Rng)
    (pos : Position) : PyOutcome (ℚ × ℚ) Board Rng :=
  let npos := GetRealPosition false false st.tetris.now_piece_ pos
  match BetaTetris.DirectPlacement env.core st.tetris npos st.next_piece_ with
  | (.error e, t) => (.error e, { st with tetris := t })
  | (.ok ret, t) =>
    PythonTetris.StepAndCalculateReward_ env { st with tetris := t } npos ret.1 ret.2

/-- Method `PythonTetris::InputPlacement` (build with rotation). -/
def PythonTetris.InputPlacement (env : PyEnv Board Rng) (st : PythonTetris Board Rng)
    (pos : Position) : PyOutcome (ℚ × ℚ) Board Rng :=
  let npos := GetRealPosition false false st.tetris.now_piece_ pos
  match BetaTetris.InputPlacement env.core st.tetris npos st.next_piece_ with
  | (.error e, t) => (.error e, { st with tetris := t })
  | (.ok ret, t) =>
    match PythonTetris.StepAndCalculateReward_ env { st with tetris := t } npos ret.1 ret.2 with
    | (.error e, st1) => (.error e, st1)
    | (.ok reward, st1) =>
      if !st1.skip_unique_initial_ then (.ok reward, st1)
      else
        match PythonTetris.CheckReducibleInitial_ env st1 with
        | (.error e, st2) => (.error e, st2)
        | (.ok reward_2, st2) => (.ok (reward.1 + reward_2.1, reward.2 + reward_2.2), st2)

/-- The row that the specification describes for `GenNextPiece(prev)`: the one selected
by the piece count and the previous piece, `kTransitionProbInt[piece_count][prev]`. -/
def weightRow_spec (piece_count prev : Int) : TransitionRow := ⟨[piece_count, prev]⟩

/-- The specification of `GenNextPiece(prev)`, in its words: increment `piece_count`
modulo 8, then draw from the row `kTransitionProbInt[piece_count][prev]`. -/
def GenNextPiece_spec (env : PyEnv Board Rng) (st : PythonTetris Board Rng) (prev : Int) :
    Int × PythonTetris Board Rng :=
  let st1 := { st with piece_count_ := (st.piece_count_ + 1) % 8 }
  let r := env.discrete_distribution (weightRow_spec st1.piece_count_ prev) st1.rng_
  (r.1, { st1 with rng_ := r.2 })

/-- The range of `piece_count_` between calls. -/
def PieceCountOk (st : PythonTetris Board Rng) : Prop :=
  0 ≤ st.piece_count_ ∧ st.piece_count_ ≤ 7

instance (st : PythonTetris Board Rng) : Decidable (PieceCountOk st) := by
  unfold PieceCountOk
  infer_instance

end PythonWrapper

namespace Sample

/-- A sample 7 x 7 transition table for the closed examples (the values of `game.h` are
not among the sources): weight 1 for a repeat of the previous piece, 5 otherwise. -/
def kTransitionProbInt : List (List Int) :=
  [[1, 5, 5, 5, 5, 5, 5], [5, 1, 5, 5, 5, 5, 5], [5, 5, 1, 5, 5, 5, 5], [5, 5, 5, 1, 5, 5, 5],
   [5, 5, 5, 5, 1, 5, 5], [5, 5, 5, 5, 5, 1, 5], [5, 5, 5, 5, 5, 5, 1]]

/-- The weights of a row of the sample table: one index selects a row of the 7 x 7
table; any other number of indices names no row of it. -/
def rowWeights (row : TransitionRow) : List Int :=
  match row.indices with
  | [i] => if i < 0 then [] else kTransitionProbInt.getD i.toNat []
  | _ => []

/-- The index of the weight interval that contains `t`, counting from `i`. -/
def pickFrom : List Int → Int → Int → Int
  | [], _, i => i
  | w :: rest, t, i => if t < w then i else pickFrom rest (t - w) (i + 1)

/-- A stand-in for `std::discrete_distribution` on a generator that is a counter: the
interval of the weights that contains the counter modulo the total weight (0 when there
are no weights, as in the library). -/
def discrete_distribution (row : TransitionRow) (g : Nat) : Int × Nat :=
  if (rowWeights row).sum ≤ 0 then (0, g + 1)
  else (pickFrom (rowWeights row) ((g : Int) % (rowWeights row).sum) 0, g + 1)

/-- The environment of the closed examples for `PythonTetris`: the generator is a
counter, `TETRIS_ONLY` is off, the tap table is `Tap30Hz` and the delay 18. -/
def pyenv : PyEnv ByteBoard Nat where
  core := env
  TETRIS_ONLY := false
  Ones := Ones
  TAP_SPEED := Tap30Hz
  ADJ_DELAY := 18
  mt19937_64 := fun seed => seed
  uniform_int := fun a b g => (a + (g : Int) % (b - a + 1), g + 1)
  discrete_distribution := discrete_distribution
  moreI := fun _ _ g => (g % 2 == 0, g + 1)
  burnOver := fun _ _ _ _ _ g => (g % 3 == 0, g + 1)
  shaped := fun _ _ score _ => (score : ℚ) / 100000

/-- The same environment with `TETRIS_ONLY` defined. -/
def pyenvTetrisOnly : PyEnv ByteBoard Nat := { pyenv with TETRIS_ONLY := true }

/-- The members of a `PythonTetris` before the constructor body runs. -/
def pyraw : PythonTetris ByteBoard Nat where
  tetris := fresh
  rng_ := 0
  next_piece_ := 0
  piece_count_ := 0
  skip_unique_initial_ := false
  step_reward_ := 5 / 10000
  step_reward_level_ := 0
  burn_over_multiplier_ := 0

/-- The object constructed with seed 1. -/
def pystart : PythonTetris ByteBoard Nat := (PythonTetris.construct pyenv pyraw 1).2

/-- The object `pystart` after a run of 30 lines, with the generator at 4. -/
def pyLongRun : PythonTetris ByteBoard Nat :=
  { pystart with tetris := { pystart.tetris with run_lines_ := 30 }, rng_ := 4 }

end Sample

/-! ## `GetNoroLineRewardExp`, the mirror tables and `ParsePieceID` -/

section RewardTables

/-- Table `kOffset` of `GetNoroLineRewardExp`, indexed `[do_tuck][nnb][speed]`. -/
def kOffset : List (List (List Int)) :=
  [[[14, 14, 14, 14, 14, 14, 14, 14, 14, 13, 13, 13, 12, 12, 10],
    [12, 12, 12, 12, 12, 12, 12, 12, 12, 12, 10, 10, 9, 9, 6]],
   [[21, 21, 21, 21, 21, 21, 21, 19, 19, 19, 19, 19, 12, 12, 11],
    [17, 17, 17, 17, 17, 17, 17, 17, 17, 16, 15, 15, 12, 12, 9]]]

/-- Table `kExpMultiplier` of `GetNoroLineRewardExp` (decimal literals as rationals). -/
def kExpMultiplier : List (List (List ℚ)) :=
  [[[33 / 100, 33 / 100, 33 / 100, 33 / 100, 33 / 100, 33 / 100, 33 / 100, 33 / 100, 33 / 100,
     35 / 100, 38 / 100, 38 / 100, 38 / 100, 38 / 100, 4 / 10],
    [1 / 2, 1 / 2, 1 / 2, 1 / 2, 1 / 2, 1 / 2, 1 / 2, 1 / 2, 1 / 2, 1 / 2, 1 / 2, 1 / 2, 1 / 2,
     1 / 2, 1 / 2]],
   [[16 / 100, 16 / 100, 16 / 100, 16 / 100, 16 / 100, 16 / 100, 16 / 100, 16 / 100, 16 / 100,
     18 / 100, 19 / 100, 19 / 100, 24 / 100, 24 / 100, 33 / 100],
    [2 / 10, 2 / 10, 2 / 10, 2 / 10, 2 / 10, 2 / 10, 2 / 10, 2 / 10, 2 / 10, 21 / 100,
     22 / 100, 22 / 100, 4 / 10, 4 / 10, 45 / 100]]]

/-- Table `kMinExp` of `GetNoroLineRewardExp` (decimal literals as rationals). -/
def kMinExp : List (List (List ℚ)) :=
  [[[-3, -3, -3, -3, -3, -3, -3, -3, -3, -3, -3, -3, -3, -3, -28 / 10],
    [-28 / 10, -28 / 10, -28 / 10, -28 / 10, -28 / 10, -28 / 10, -28 / 10, -28 / 10, -28 / 10,
     -28 / 10, -28 / 10, -28 / 10, -28 / 10, -28 / 10, -28 / 10]],
   [[-36 / 10, -36 / 10, -36 / 10, -36 / 10, -36 / 10, -36 / 10, -36 / 10, -36 / 10, -36 / 10,
     -36 / 10, -35 / 10, -35 / 10, -32 / 10, -32 / 10, -3],
    [-35 / 10, -35 / 10, -35 / 10, -35 / 10, -35 / 10, -35 / 10, -35 / 10, -35 / 10, -35 / 10,
     -35 / 10, -32 / 10, -32 / 10, -28 / 10, -28 / 10, -22 / 10]]]

/-- A `bool` used as an array index. -/
def boolIndex (b : Bool) : Nat := if b then 1 else 0

/-- The entry `table[do_tuck][nnb][speed]` (an index outside the table is undefined
behaviour in the source and gives the default here). -/
def tableAt {α : Type} (d : α) (table : List (List (List α))) (do_tuck nnb : Bool)
    (speed : Int) : α :=
  if speed < 0 then d
  else ((table.getD (boolIndex do_tuck) []).getD (boolIndex nnb) []).getD speed.toNat d

/-- The argument of `std::min(6.0f, ...)` in `GetNoroLineRewardExp`:
`std::max(0, lines - offset) * multiplier + min_exp`.  The function `noro::GetLevelSpeed`
of the missing `game.h` is the parameter `GetLevelSpeed`. -/
def noroLineExpUnclamped (GetLevelSpeed : Int → Int) (lines start_level : Int)
    (do_tuck nnb : Bool) : ℚ :=
  let speed := GetLevelSpeed start_level
  let min_exp := tableAt 0 kMinExp do_tuck nnb speed
  let offset := tableAt 0 kOffset do_tuck nnb speed
  let multiplier := tableAt 0 kExpMultiplier do_tuck nnb speed
  ((max 0 (lines - offset) : Int) : ℚ) * multiplier + min_exp

/-- Method `PythonTetris::GetNoroLineRewardExp`, with floats read as rationals. -/
def GetNoroLineRewardExp (GetLevelSpeed : Int → Int) (lines start_level : Int)
    (do_tuck nnb : Bool) : ℚ :=
  min 6 (noroLineExpUnclamped GetLevelSpeed lines start_level do_tuck nnb)

/-- The speed index of a level as the column legend of the three tables gives it
(`0,1,2,3,4,5,6,7,8,9,10-12,13-15,16-18,19,29`): levels 0 to 9 have their own column,
then come 10-12, 13-15, 16-18, 19-28, and 29 and above. -/
def legendLevelSpeed (level : Int) : Int :=
  if level ≤ 9 then level
  else if level ≤ 12 then 10
  else if level ≤ 15 then 11
  else if level ≤ 18 then 12
  else if level ≤ 28 then 13
  else 14

/-- A Python object as `ParsePieceID` sees it: a string with its code points, an integer,
or an object of another type. -/
inductive PyObj where
  | unicode (chars : List Char)
  | long (value : Int)
  | other
deriving DecidableEq, Repr

/-- The Python exceptions set by `ParsePieceID`. -/
inductive PyErr where
  | KeyError
  | IndexError
  | TypeError
deriving DecidableEq, Repr

/-- Function `PyLong_AsLong`: the value when it fits a 64-bit `long`, and `-1` (with an
overflow error pending) otherwise. -/
def PyLong_AsLong (value : Int) : Int :=
  if -(2 ^ 63) ≤ value ∧ value < 2 ^ 63 then value else -1

/-- Function `ParsePieceID` of `piece.h`: the value returned and the exception set. -/
def ParsePieceID (obj : PyObj) : Int × Option PyErr :=
  match obj with
  | .unicode chars =>
    match chars with
    | [] => (-1, some .KeyError)
    | c :: _ =>
      if c = 'T' then (0, none)
      else if c = 'J' then (1, none)
      else if c = 'Z' then (2, none)
      else if c = 'O' then (3, none)
      else if c = 'S' then (4, none)
      else if c = 'L' then (5, none)
      else if c = 'I' then (6, none)
      else (-1, some .KeyError)
  | .long value =>
    let x := PyLong_AsLong value
    if x < 0 ∨ x ≥ 7 then (-1, some .IndexError) else (x, none)
  | .other => (-1, some .TypeError)

/-- The piece symbols in the order of their ids. -/
def kPieceSymbols : List Char := ['T', 'J', 'Z', 'O', 'S', 'L', 'I']

end RewardTables

namespace Sample

/-- Function `PlacePiece` of `test/naive_functions.cpp`: the cells of the piece that lie
on the board are set to occupied; the others are skipped. -/
def PlacePiece (b : ByteBoard) (poly r x y : Int) : ByteBoard :=
  (blockOf poly r).foldl (fun field i =>
    let nx := x + i.1
    let ny := y + i.2
    if nx ≥ 20 ∨ ny ≥ 10 ∨ nx < 0 ∨ ny < 0 then field
    else field.set nx.toNat ((field.getD nx.toNat []).set ny.toNat false)) b

/-- The shape of a `ByteBoard`: 20 rows of 10 cells. -/
def WellShaped (b : ByteBoard) : Prop := b.length = 20 ∧ ∀ row ∈ b, row.length = 10

/-- The cell `field[i][j]`. -/
def getCell (b : ByteBoard) (i j : Nat) : Bool := (b.getD i []).getD j false

/-- The four cells `(x + dx, y + dy)` of piece `poly` in rotation `r` at origin `(x, y)`. -/
def pieceCells (poly r x y : Int) : List (Int × Int) :=
  (blockOf poly r).map (fun i => (x + i.1, y + i.2))

/-- The reflection of a cell through the vertical axis of the board: column `c` goes to
`9 - c`. -/
def mirrorCell (c : Int × Int) : Int × Int := (c.1, 9 - c.2)

/-- The reflection of a board through its vertical axis. -/
def mirrorBoard (b : ByteBoard) : ByteBoard := b.map List.reverse

end Sample

/-! ## Further notions for `Reset`, the sort and the move map -/

section SortNotions

variable {Board : Type}

/-- The guarantee of `std::sort` for the comparator of `CalculateInitialMask_` (a strict
weak ordering): in the result no element is less than one before it. -/
def SortSorted (env : Env Board) : Prop :=
  ∀ l : List AdjItem, (env.std_sort l).Pairwise (fun a b => adjLess b a = false)

end SortNotions

namespace Sample

/-- The tap table `Tap20Hz`: one input every third frame. -/
def Tap20Hz : List Int := [0, 3, 6, 9, 12, 15, 18, 21, 24, 27]

end Sample
namespace Sample

/-- The object of `start` after one more `CalculateMoves_(true)`. -/
def searched : Tetris ByteBoard := (CalculateMoves_ env start true).2

end Sample
/-! ## The binding `Tetris_Reset` (build with rotation) -/

section Binding

variable {Board Rng : Type}

/-- The object passed as `tap_sequence`, as `GetArray` sees it: a Python list with its
items, a NumPy array with its element type, its contiguity and its elements, or an
object of another type. -/
inductive TapObj where
  | list (items : List PyObj)
  | array (is_npy_int contiguous : Bool) (data : List Int)
  | other
deriving DecidableEq, Repr

/-- Conversion of a `long` to `int`, as in `result.push_back(PyLong_AsLong(item))`. -/
def toCInt (x : Int) : Int := (x + 2 ^ 31) % 2 ^ 32 - 2 ^ 31

/-- The loop of `GetArray` over the items of a list; `result` is the vector so far. -/
def GetArrayList : List PyObj → List Int → Except Exn (List Int)
  | [], result => .ok result
  | .long value :: rest, result => GetArrayList rest (result ++ [toCInt (PyLong_AsLong value)])
  | _ :: _, _ => .error .invalid_argument

/-- Function `GetArray` of `tetris.cpp`. -/
def GetArray (obj : TapObj) : Except Exn (List Int) :=
  match obj with
  | .list items => GetArrayList items []
  | .array is_npy_int contiguous data =>
    if !is_npy_int then .error .invalid_argument
    else if !contiguous then .error .invalid_argument
    else .ok data
  | .other => .error .invalid_argument

/-- The `try` block of `Tetris_Reset`: the tap sequence it leaves in `tap_sequence`, or
the `std::invalid_argument` thrown.  The differences are taken in the integers (an
overflowing `int` subtraction is undefined in the source). -/
def tapTry (Tap30Hz : List Int) (tap_sequence_obj : Option TapObj) : Except Exn (List Int) :=
  let got : Except Exn (List Int) :=
    match tap_sequence_obj with
    | some obj => GetArray obj
    | none => .ok Tap30Hz
  match got with
  | .error e => .error e
  | .ok tap_sequence =>
    if tap_sequence.length ≠ 10 then .error .invalid_argument
    else if (List.range' 1 (tap_sequence.length - 1)).any (fun i =>
        decide (tap_sequence.getD i 0 - tap_sequence.getD (i - 1) 0 < 2)) then
      .error .invalid_argument
    else .ok tap_sequence

/-- The arguments of `Tetris_Reset` after `PyArg_ParseTupleAndKeywords`; an absent
object is `none`.  The board object is `some none` when it is not an instance of the
board class. -/
structure ResetArgs (Board : Type) where
  now_obj : Option PyObj
  next_obj : Option PyObj
  lines : Int
  board_obj : Option (Option Board)
  burn_over_multiplier : ℚ
  aggression_level : Int
  tap_sequence_obj : Option TapObj
  adj_delay : Int
  skip_unique_initial : Bool

/-- What a binding hands back to the interpreter: `None`, or `nullptr` with a Python
exception set. -/
inductive PyReturn where
  | None
  | null (err : PyErr)
deriving DecidableEq, Repr

/-- Method `PythonTetris::SetBurnOverMultiplier`. -/
def PythonTetris.SetBurnOverMultiplier (st : PythonTetris Board Rng) (mul : ℚ) :
    PythonTetris Board Rng :=
  { st with burn_over_multiplier_ := mul }

/-- The part of `Tetris_Reset` after the `try` block: `CheckBoard`, the piece ids, and
the calls of `Reset`, `SetAggression` and `SetBurnOverMultiplier`.  `SetAggression` is
not among the sources and is a parameter; an exception of `Reset` leaves the binding
uncaught. -/
def resetAfterTaps (env : PyEnv Board Rng)
    (SetAggression : PythonTetris Board Rng → Int → PythonTetris Board Rng)
    (self : PythonTetris Board Rng) (args : ResetArgs Board) (tap_sequence : List Int) :
    Except Exn PyReturn × PythonTetris Board Rng :=
  match args.board_obj with
  | some none => (.ok (.null .TypeError), self)
  | board_obj =>
    let board : Board := (board_obj.bind id).getD env.Ones
    let pieces : Except PyErr (Int × Int) :=
      match args.now_obj with
      | none => .ok (-1, -1)
      | some now_obj =>
        let now := ParsePieceID now_obj
        if now.1 < 0 then .error (now.2.getD .TypeError)
        else
          match args.next_obj with
          | none => .ok (now.1, -1)
          | some next_obj =>
            let next := ParsePieceID next_obj
            if next.1 < 0 then .error (next.2.getD .TypeError) else .ok (now.1, next.1)
    match pieces with
    | .error err => (.ok (.null err), self)
    | .ok (now_piece, next_piece) =>
      match PythonTetris.Reset env self board args.lines tap_sequence args.adj_delay
          now_piece next_piece args.skip_unique_initial with
      | (.error e, st) => (.error e, st)
      | (.ok _, st) =>
        if env.TETRIS_ONLY then (.ok .None, st)
        else
          (.ok .None,
            PythonTetris.SetBurnOverMultiplier (SetAggression st args.aggression_level)
              args.burn_over_multiplier)

/-- Function `Tetris_Reset` of `tetris.cpp` (build with rotation), after the arguments
were parsed.  `Tap30Hz` is the table of that name. -/
def Tetris_Reset (env : PyEnv Board Rng) (Tap30Hz : List Int)
    (SetAggression : PythonTetris Board Rng → Int → PythonTetris Board Rng)
    (self : PythonTetris Board Rng) (args : ResetArgs Board) :
    Except Exn PyReturn × PythonTetris Board Rng :=
  match tapTry Tap30Hz args.tap_sequence_obj with
  | .error _ => (.ok (.null .TypeError), self)
  | .ok tap_sequence => resetAfterTaps env SetAggression self args tap_sequence

/-- The condition of the specification on a tap sequence: exactly 10 entries, and every
successive difference `tap[i] - tap[i-1]` at least 2. -/
def validTapSequence (tap : List Int) : Prop :=
  tap.length = 10 ∧ ∀ i, i < 10 → 1 ≤ i → 2 ≤ tap.getD i 0 - tap.getD (i - 1) 0

instance (tap : List Int) : Decidable (validTapSequence tap) := by
  unfold validTapSequence
  exact inferInstance

end Binding

namespace Sample

/-- The arguments of a `reset()` call without arguments. -/
def noArgs : ResetArgs ByteBoard where
  now_obj := none
  next_obj := none
  lines := 0
  board_obj := none
  burn_over_multiplier := 0
  aggression_level := 0
  tap_sequence_obj := none
  adj_delay := 18
  skip_unique_initial := false

/-- A stand-in for `SetAggression`: it stores the level as the step reward level. -/
def SetAggression (st : PythonTetris ByteBoard Nat) (level : Int) :
    PythonTetris ByteBoard Nat :=
  { st with step_reward_level_ := level }

/-- The Python list `[0, 1, 2, ..., 9]`. -/
def tightTaps : TapObj := .list ((List.range 10).map (fun i => PyObj.long i))

/-- The Python list of the entries of `Tap20Hz`. -/
def tap20List : TapObj := .list (Tap20Hz.map PyObj.long)

end Sample

/-! ## The naive functions of `test/naive_functions.cpp` -/

namespace Naive

/-- The first loop of `ClearLines`, with `i + 1` rows left to scan: row `i` is tested for
an empty cell; a full row is skipped (`j++` undone by the `j--` of the loop), another is
copied to row `j` when `i != j`.  The result is `j` after the loop and the field. -/
def clearLoop : Nat → Int → Sample.ByteBoard → Int × Sample.ByteBoard
  | 0, j, field => (j, field)
  | i + 1, j, field =>
    let flag := (List.range 10).any (fun y => Sample.getCell field i y)
    if !flag then clearLoop i j field
    else if (i : Int) ≠ j then clearLoop i (j - 1) (field.set j.toNat (field.getD i []))
    else clearLoop i (j - 1) field

/-- The second loop of `ClearLines`: the rows `j, j - 1, ..., 0` are filled with `true`;
the argument is `j + 1`. -/
def fillRows : Nat → Sample.ByteBoard → Sample.ByteBoard
  | 0, field => field
  | j + 1, field => fillRows j (field.set j ((field.getD j []).map (fun _ => true)))

/-- Function `ClearLines` of `test/naive_functions.cpp`: the value returned and the field
afterwards. -/
def ClearLines (field : Sample.ByteBoard) : Int × Sample.ByteBoard :=
  let scanned := clearLoop 20 19 field
  let ans := scanned.1 + 1
  (ans, fillRows (scanned.1 + 1).toNat scanned.2)

/-- Function `GetPieceMap` of `test/naive_functions.cpp`: per rotation of the piece the
20 by 10 map of the origins at which the piece fits. -/
def GetPieceMap (field : Sample.ByteBoard) (poly : Int) : List Sample.ByteBoard :=
  if poly < 0 then []
  else
    (List.range (Sample.kBlocks.getD poly.toNat []).length).map (fun (r : Nat) =>
      (List.range 20).map (fun (x : Nat) =>
        (List.range 10).map (fun (y : Nat) => Sample.fits field poly r x y)))

end Naive

namespace Sample

/-- A board whose two bottom rows are full and whose row 17 has one occupied cell. -/
def twoFull : ByteBoard :=
  List.replicate 17 (List.replicate 10 true) ++
  [[true, true, true, false, true, true, true, true, true, true],
   List.replicate 10 false, List.replicate 10 false]

end Sample
/-! ## The naive move search of `test/naive_functions.cpp` -/

namespace Naive

/-- What the naive search takes from outside its file: whether `DOUBLE_TUCK` is defined,
and the comparison `operator<` of `Position` (of a header that is not among the
sources), which orders the `std::set`s of the search. -/
structure SearchCfg where
  DOUBLE_TUCK : Bool
  less : Position → Position → Bool

/-- The element `b[rot][row][col]` of a piece map.  An index outside the arrays is
undefined behaviour in the source and reads as blocked here. -/
def cellAt (b : List Sample.ByteBoard) (rot row col : Int) : Bool :=
  if rot < 0 ∨ row < 0 ∨ col < 0 then false
  else Sample.getCell (b.getD rot.toNat []) row.toNat col.toNat

/-- Function `GetRow`: the row of the piece at a frame (`/` is the truncating division). -/
def GetRow (frame : Int) (level : Level) : Int :=
  match level with
  | .kLevel18 => Int.tdiv frame 3
  | .kLevel19 => Int.tdiv frame 2
  | .kLevel29 => frame
  | .kLevel39 => frame * 2

/-- Function `IsDropFrame` (`%` is the truncating remainder). -/
def IsDropFrame (frame : Int) (level : Level) : Bool :=
  match level with
  | .kLevel18 => Int.tmod frame 3 == 2
  | .kLevel19 => Int.tmod frame 2 == 1
  | _ => true

/-- The constant `kFinish`. -/
def kFinish : Int := 1000

/-- The loop of the first `FreeDrop`: `while (row < max_row && row < 19 &&
b[rot][row+1][col]) row++`.  The fuel `19 - row` is the number of rows left above row 19,
which bounds the iterations. -/
def dropLoopTo (b : List Sample.ByteBoard) (rot col max_row : Int) : Nat → Int → Int
  | 0, row => row
  | fuel + 1, row =>
    if row < max_row ∧ row < 19 ∧ cellAt b rot (row + 1) col = true then
      dropLoopTo b rot col max_row fuel (row + 1)
    else row

/-- The loop of the second `FreeDrop`: `while (row < 19 && b[rot][row+1][col]) row++`. -/
def dropLoop (b : List Sample.ByteBoard) (rot col : Int) : Nat → Int → Int
  | 0, row => row
  | fuel + 1, row =>
    if row < 19 ∧ cellAt b rot (row + 1) col = true then dropLoop b rot col fuel (row + 1)
    else row

/-- Function `FreeDrop` with six parameters: the fall until `max_frame`; the flag tells
whether the row of `max_frame` was reached. -/
def FreeDropTo (b : List Sample.ByteBoard) (rot row col : Int) (level : Level)
    (max_frame : Int) : Bool × Position :=
  let max_row := GetRow max_frame level
  let r := dropLoopTo b rot col max_row (19 - row).toNat row
  (decide (r ≥ max_row), ⟨rot, r, col⟩)

/-- Function `FreeDrop` with four parameters: the fall to the floor. -/
def FreeDrop (b : List Sample.ByteBoard) (rot row col : Int) : Position :=
  ⟨rot, dropLoop b rot col (19 - row).toNat row, col⟩

/-- The test after an input frame and in the tuck loop: on a drop frame the next row (at
level 39 the next two rows) must be inside the board and free. -/
def dropBlocked (b : List Sample.ByteBoard) (level : Level) (frame rot row col : Int) :
    Bool :=
  IsDropFrame frame level &&
    (decide (row + 1 ≥ 20) || !cellAt b rot (row + 1) col ||
      (decide (level = .kLevel39) && (decide (row + 2 ≥ 20) || !cellAt b rot (row + 2) col)))

/-- How one iteration of the input loop of `SimulateMove` ends: with a `return`, with the
`break` after the last input, or at the end of the body with a new state. -/
inductive TapOut where
  | returned
  | broke (rot col : Int)
  | next (tap rot col : Int)
deriving DecidableEq, Repr

/-- The branch `frame == taps[tap] + start_frame` of the input loop, up to the end of the
body: the input `tap + 1` is made in row `row`. -/
def inputStep (b : List Sample.ByteBoard) (level : Level) (num_lr num_ab : Int)
    (is_l is_a : Bool) (tot_taps : Int) (tap frame rot row col : Int) : TapOut :=
  let tap1 := tap + 1
  let col1 := if tap1 ≤ num_lr then (if is_l then col - 1 else col + 1) else col
  if tap1 ≤ num_lr ∧ cellAt b rot row col1 = false then .returned
  else
    let size : Int := b.length
    let rot1 :=
      if tap1 ≤ num_ab then (if is_a then (rot + 1) % size else (rot + size - 1) % size)
      else rot
    if tap1 ≤ num_ab ∧ cellAt b rot1 row col1 = false then .returned
    else if tap1 = tot_taps then .broke rot1 col1
    else if dropBlocked b level frame rot1 row col1 then .returned
    else .next tap1 rot1 col1

/-- The body of the input loop of `SimulateMove` in the state `(tap, frame, rot, col)`. -/
def tapStep (b : List Sample.ByteBoard) (level : Level) (taps : List Int)
    (start_frame num_lr num_ab : Int) (is_l is_a : Bool) (tot_taps : Int)
    (tap frame rot col : Int) : TapOut :=
  let row := GetRow frame level
  if row ≥ 20 ∨ cellAt b rot row col = false then .returned
  else if frame = taps.getD tap.toNat 0 + start_frame then
    inputStep b level num_lr num_ab is_l is_a tot_taps tap frame rot row col
  else if dropBlocked b level frame rot row col then .returned
  else .next tap rot col

/-- The input loop of `SimulateMove`, `for (int tap = 0; tap < tot_taps; frame++)`, from
the state `(tap, frame, rot, col)`: `none` when the function returns from inside the
loop, else the rotation, column and frame at the end of the loop.  Every iteration that
does not leave the loop advances the frame, and the body returns once the row of the
frame is 20 or more, which holds from frame 60 on; the fuel counts the frames up to
there. -/
def tapLoop (b : List Sample.ByteBoard) (level : Level) (taps : List Int)
    (start_frame num_lr num_ab : Int) (is_l is_a : Bool) (tot_taps : Int) :
    Nat → Int → Int → Int → Int → Option (Int × Int × Int)
  | fuel, tap, frame, rot, col =>
    if ¬ tap < tot_taps then some (rot, col, frame)
    else
      match fuel with
      | 0 => none
      | fuel + 1 =>
        match tapStep b level taps start_frame num_lr num_ab is_l is_a tot_taps tap frame rot
            col with
        | .returned => none
        | .broke rot1 col1 => some (rot1, col1, frame)
        | .next tap1 rot1 col1 =>
          tapLoop b level taps start_frame num_lr num_ab is_l is_a tot_taps fuel tap1
            (frame + 1) rot1 col1

/-- The test `non_tuck.count(p)` on a `std::set`: some element is equivalent to `p`. -/
def setCount (cfg : SearchCfg) (s : List Position) (p : Position) : Bool :=
  s.any (fun q => !cfg.less p q && !cfg.less q p)

/-- The call `std::set::insert`: the set is kept in ascending order, and an element
equivalent to one already present is not inserted. -/
def setInsert (cfg : SearchCfg) (p : Position) : List Position → List Position
  | [] => [p]
  | q :: rest =>
    if cfg.less p q then p :: q :: rest
    else if cfg.less q p then q :: setInsert cfg p rest
    else q :: rest

/-- The lambda `Insert` of `SimulateMove`. -/
def Insert (cfg : SearchCfg) (non_tuck : List Position) (tuck_placements : List Position)
    (p : Position) : List Position :=
  if setCount cfg non_tuck p then tuck_placements else setInsert cfg p tuck_placements

/-- The tucks tried at one side column `side` (`col + 1` or `col - 1`, with `far` the
column beyond it) in one iteration of the tuck loop, in the order of the source. -/
def sideTucks (cfg : SearchCfg) (b : List Sample.ByteBoard) (rot arot brot : Int)
    (row nrow mrow n2row m2row side far : Int) (far_ok : Bool) : List Position :=
  let size : Int := b.length
  [FreeDrop b rot row side] ++
  (if size ≥ 2 ∧ cellAt b arot row side = true then [FreeDrop b arot row side] else []) ++
  (if size ≥ 4 ∧ cellAt b brot row side = true then [FreeDrop b brot row side] else []) ++
  (if nrow < 20 ∧ cellAt b rot mrow side = true ∧ cellAt b rot nrow side = true then
    (if size ≥ 2 ∧ cellAt b arot nrow side = true then [FreeDrop b arot nrow side] else []) ++
    (if size ≥ 4 ∧ cellAt b brot nrow side = true then [FreeDrop b brot nrow side] else [])
   else []) ++
  (if cfg.DOUBLE_TUCK = true ∧ n2row < 20 ∧ far_ok = true ∧ cellAt b rot mrow side = true ∧
      cellAt b rot nrow side = true ∧ cellAt b rot m2row side = true ∧
      cellAt b rot n2row side = true ∧ cellAt b rot n2row far = true then
    [FreeDrop b rot n2row far]
   else [])

/-- The tucks tried after a rotation to `xrot` in place, in the order of the source. -/
def spinTucks (b : List Sample.ByteBoard) (xrot row nrow mrow col : Int) : List Position :=
  [FreeDrop b xrot row col] ++
  (if nrow < 20 ∧ cellAt b xrot mrow col = true ∧ cellAt b xrot nrow col = true then
    (if col < 9 ∧ cellAt b xrot nrow (col + 1) = true then [FreeDrop b xrot nrow (col + 1)]
     else []) ++
    (if col > 0 ∧ cellAt b xrot nrow (col - 1) = true then [FreeDrop b xrot nrow (col - 1)]
     else [])
   else [])

/-- The placements passed to `Insert` in one iteration of the tuck loop, in order. -/
def tuckCandidates (cfg : SearchCfg) (b : List Sample.ByteBoard) (level : Level)
    (rot col frame : Int) : List Position :=
  let row := GetRow frame level
  let nrow := GetRow (frame + 1) level
  let mrow := if nrow - row = 2 then nrow - 1 else nrow
  let n2row := GetRow (frame + 2) level
  let m2row := if n2row - nrow = 2 then n2row - 1 else n2row
  let size : Int := b.length
  let arot := (rot + 1) % size
  let brot := (rot + size - 1) % size
  (if col < 9 ∧ cellAt b rot row (col + 1) = true then
    sideTucks cfg b rot arot brot row nrow mrow n2row m2row (col + 1) (col + 2)
      (decide (col < 8))
   else []) ++
  (if col > 0 ∧ cellAt b rot row (col - 1) = true then
    sideTucks cfg b rot arot brot row nrow mrow n2row m2row (col - 1) (col - 2)
      (decide (col > 1))
   else []) ++
  (if size ≥ 2 ∧ cellAt b arot row col = true then spinTucks b arot row nrow mrow col
   else []) ++
  (if size ≥ 4 ∧ cellAt b brot row col = true then spinTucks b brot row nrow mrow col
   else [])

/-- The tuck loop of `SimulateMove`, `for (; frame < end_frame; frame++)`, with the set
`tuck_placements` so far; the fuel is `end_frame - frame`. -/
def tuckLoop (cfg : SearchCfg) (b : List Sample.ByteBoard) (level : Level)
    (rot col : Int) (non_tuck : List Position) : Nat → Int → List Position → List Position
  | 0, _, tuck_placements => tuck_placements
  | fuel + 1, frame, tuck_placements =>
    let row := GetRow frame level
    if row ≥ 20 ∨ cellAt b rot row col = false then tuck_placements
    else
      let inserted := (tuckCandidates cfg b level rot col frame).foldl (Insert cfg non_tuck)
        tuck_placements
      if dropBlocked b level frame rot row col then inserted
      else tuckLoop cfg b level rot col non_tuck fuel (frame + 1) inserted

/-- The part of `SimulateMove` after the input loop, which ended with rotation `rot`,
column `col` and frame `frame0`: the fall to the frame of the next tap, the test whether
the piece is still falling at `end_frame`, and the tuck loop. -/
def afterTaps (cfg : SearchCfg) (b : List Sample.ByteBoard) (level : Level)
    (taps : List Int) (start_frame end_frame : Int) (check_tuck : Bool)
    (non_tuck : List Position) (tot_taps rot col frame0 : Int) :
    List Position × List (Position × Int) :=
  let forward := FreeDropTo b rot (GetRow frame0 level) col level
    (start_frame + taps.getD tot_taps.toNat 0)
  if !forward.1 then ([forward.2], [])
  else
    let frame := start_frame + taps.getD tot_taps.toNat 0
    let pos := FreeDropTo b rot (GetRow frame level) col level end_frame
    let locked : List Position := if pos.1 then [] else [pos.2]
    let continued : List (Position × Int) :=
      if pos.1 then [(pos.2, max end_frame frame)] else []
    if !check_tuck then (locked, continued)
    else
      (locked ++ tuckLoop cfg b level rot col non_tuck (end_frame - frame).toNat frame [],
        continued)

/-- Function `SimulateMove`: the placements it appends to `locked_placements` and the
pairs it appends to `continue_placements`. -/
def SimulateMove (cfg : SearchCfg) (b : List Sample.ByteBoard) (level : Level)
    (taps : List Int) (start_rot start_col start_frame end_frame num_lr num_ab : Int)
    (is_l is_a check_tuck : Bool) (non_tuck : List Position) :
    List Position × List (Position × Int) :=
  let size : Int := b.length
  if (if is_l then num_lr > start_col else num_lr > 9 - start_col) then ([], [])
  else if (if is_a then num_ab > Int.tdiv size 2 else num_ab > Int.tdiv (size - 1) 2) then
    ([], [])
  else if is_l = true ∧ num_lr = 0 then ([], [])
  else if is_a = true ∧ num_ab = 0 then ([], [])
  else
    let tot_taps := max num_lr num_ab
    match tapLoop b level taps start_frame num_lr num_ab is_l is_a tot_taps
        (60 - start_frame).toNat 0 start_frame start_rot start_col with
    | none => ([], [])
    | some (rot, col, frame0) =>
      afterTaps cfg b level taps start_frame end_frame check_tuck non_tuck tot_taps rot col
        frame0

/-- The four calls of `SimulateMove` in the body of the loops of `MoveSearch`. -/
def searchBody (cfg : SearchCfg) (b : List Sample.ByteBoard) (level : Level)
    (taps : List Int) (start_rot start_col start_frame end_frame : Int) (check_tuck : Bool)
    (non_tuck : List Position) (lr ab : Int) : List (List Position × List (Position × Int)) :=
  [SimulateMove cfg b level taps start_rot start_col start_frame end_frame lr ab false false
     check_tuck non_tuck,
   SimulateMove cfg b level taps start_rot start_col start_frame end_frame lr ab true false
     check_tuck non_tuck,
   SimulateMove cfg b level taps start_rot start_col start_frame end_frame lr ab false true
     check_tuck non_tuck,
   SimulateMove cfg b level taps start_rot start_col start_frame end_frame lr ab true true
     check_tuck non_tuck]

/-- Function `MoveSearch` of `test/naive_functions.cpp`: the placements appended to
`locked_placements` and the pairs appended to `continue_placements`. -/
def MoveSearch (cfg : SearchCfg) (b : List Sample.ByteBoard) (level : Level)
    (taps : List Int) (max_lr max_ab start_rot start_col start_frame end_frame : Int)
    (check_tuck : Bool) (non_tuck : List Position) :
    List Position × List (Position × Int) :=
  if cellAt b start_rot (GetRow start_frame level) start_col = false then ([], [])
  else
    let runs := (List.range (max_lr + 1).toNat).flatMap (fun (lr : Nat) =>
      (List.range (max_ab + 1).toNat).flatMap (fun (ab : Nat) =>
        searchBody cfg b level taps start_rot start_col start_frame end_frame check_tuck
          non_tuck lr ab))
    ((runs.map (fun out => out.1)).flatten, (runs.map (fun out => out.2)).flatten)

/-- Function `NaiveGetPossibleMoves`.  The searches that receive a null
`continue_placements` run with `end_frame = kFinish`, for which nothing is appended
there. -/
def NaiveGetPossibleMoves (cfg : SearchCfg) (b : List Sample.ByteBoard) (level : Level)
    (adj_frame : Int) (taps : List Int) : PossibleMoves :=
  let max_lr : Int := if adj_frame = 0 then 0 else 9
  let max_ab : Int := if adj_frame = 0 then 0 else 2
  let non_tuck := (MoveSearch cfg b level taps max_lr max_ab 0 5 0 kFinish false []).1
  let found := MoveSearch cfg b level taps max_lr max_ab 0 5 0 adj_frame true non_tuck
  { non_adj := found.1
    adj := found.2.map (fun i =>
      let non_tuck_i := (MoveSearch cfg b level taps 9 2 i.1.r i.1.y i.2 kFinish false []).1
      (i.1, (MoveSearch cfg b level taps 9 2 i.1.r i.1.y i.2 kFinish true non_tuck_i).1)) }

/-- Modelled from the spec: the optimized `MoveSearch` of the missing `move_search.h`,
of which the specification says that "the reachable set returned by the optimized search
equals the reachable set computed by a frame-accurate naive simulator": the result of the
naive search on the piece map of the board. -/
def MoveSearchSpec (cfg : SearchCfg) (level : Level) (adj_delay : Int) (taps : List Int)
    (field : Sample.ByteBoard) (piece : Int) : PossibleMoves :=
  NaiveGetPossibleMoves cfg (GetPieceMap field piece) level adj_delay taps

end Naive

namespace Sample

/-- The lexicographic comparison of placements by rotation, row and column. -/
def posLess (p q : Position) : Bool :=
  decide (p.r < q.r ∨ (p.r = q.r ∧ (p.x < q.x ∨ (p.x = q.x ∧ p.y < q.y))))

/-- The configuration of the closed examples: no double tucks, lexicographic order. -/
def searchCfg : Naive.SearchCfg := ⟨false, posLess⟩

end Sample

/-! ## Class `TetrisNoro` (the rule-set without rotation) -/

section Noro

/-- What class `TetrisNoro` takes from the headers that are not among the sources
(`game.h`, `board.h`, `move_search_no_ro.h`). -/
structure NoroEnv (Board : Type) where
  /-- Method `Board::Place(piece, r, x, y)`. -/
  Place : Board → Int → Int → Int → Int → Board
  /-- Method `Board::Count()`: the number of occupied cells. -/
  Count : Board → Nat
  /-- Method `Board::ClearLines(true)`: the number of cleared lines and the new board. -/
  ClearLines : Board → Int × Board
  /-- Function `ScoreFromLevel(level, lines)`. -/
  ScoreFromLevel : Int → Int → Int
  /-- Function `noro::GetLevelByLines(lines, start_level)`. -/
  GetLevelByLines : Int → Int → Int
  /-- Function `noro::GetLevelSpeed(level)`: the speed index. -/
  GetLevelSpeed : Int → Int
  /-- Function `MoveSearchNoro(board, piece, inputs_per_row, do_tuck)`. -/
  MoveSearchNoro : Board → Int → Int → Bool → Board
  /-- The test `moves_ == Board::Zeros`. -/
  isZeros : Board → Bool
  /-- Method `Board::Cell(x, y)`. -/
  Cell : Board → Int → Int → Bool
  /-- Method `Board::ToByteBoard()`. -/
  ToByteBoard : Board → List (List Bool)

/-- The data members of class `TetrisNoro`. -/
structure TetrisNoro (Board : Type) where
  board_ : Board
  lines_ : Int
  start_level_ : Int
  pieces_ : Int
  now_piece_ : Int
  next_piece_ : Int
  game_over_ : Bool
  moves_ : Board
  consecutive_fail_ : Int
  do_tuck_ : Bool
  inputs_per_row_ : List Int
  run_score_ : Int
  run_lines_ : Int
  run_pieces_ : Int

/-- The result of a member function of `TetrisNoro`: the value returned or the exception
thrown, and the object state when control leaves the function. -/
abbrev NoroOutcome (α Board : Type) := Except Exn α × TetrisNoro Board

variable {Board : Type}

/-- The table `inputs_per_row_` set by the constructor `TetrisNoro()`. -/
def kInputsPerRow : List Int := [9, 9, 9, 9, 8, 7, 6, 5, 4, 3, 2, 2, 1, 1, 0]

/-- Method `TetrisNoro::GetLevel`. -/
def TetrisNoro.GetLevel (env : NoroEnv Board) (t : TetrisNoro Board) : Int :=
  env.GetLevelByLines t.lines_ t.start_level_

/-- Method `TetrisNoro::LevelSpeed`. -/
def TetrisNoro.LevelSpeed (env : NoroEnv Board) (t : TetrisNoro Board) : Int :=
  env.GetLevelSpeed (TetrisNoro.GetLevel env t)

/-- Method `TetrisNoro::InputsPerRow()`; the speed is converted to `size_t`, so that a
negative speed selects the last entry as well. -/
def TetrisNoro.InputsPerRow (env : NoroEnv Board) (t : TetrisNoro Board) : Int :=
  let speed := TetrisNoro.LevelSpeed env t
  if speed < 0 ∨ speed ≥ t.inputs_per_row_.length then t.inputs_per_row_.getLastD 0
  else t.inputs_per_row_.getD speed.toNat 0

/-- Method `TetrisNoro::IsOver`. -/
def TetrisNoro.IsOver (t : TetrisNoro Board) : Bool :=
  t.game_over_ || decide (t.consecutive_fail_ ≥ 1)

/-- Method `TetrisNoro::CalculateMoves_`. -/
def TetrisNoro.CalculateMoves_ (env : NoroEnv Board) (t : TetrisNoro Board) :
    TetrisNoro Board :=
  let t1 := { t with
    moves_ := env.MoveSearchNoro t.board_ t.now_piece_ (TetrisNoro.InputsPerRow env t)
      t.do_tuck_ }
  if env.isZeros t1.moves_ then { t1 with game_over_ := true } else t1

/-- Method `TetrisNoro::StepGame_`. -/
def TetrisNoro.StepGame_ (env : NoroEnv Board) (t : TetrisNoro Board) (pos : Position)
    (next_piece : Int) : NoroOutcome (Int × Int) Board :=
  if pos.r ≠ 0 then (.error .invalid_argument, t)
  else
    let before_clear := env.Place t.board_ t.now_piece_ 0 pos.x pos.y
    let lines := (env.ClearLines before_clear).1
    let t1 := { t with lines_ := t.lines_ + lines }
    let delta_score := env.ScoreFromLevel (TetrisNoro.GetLevel env t1) lines
    let t2 := { t1 with
      board_ := (env.ClearLines before_clear).2,
      pieces_ := t1.pieces_ + 1,
      now_piece_ := t1.next_piece_,
      next_piece_ := next_piece }
    let t3 := TetrisNoro.CalculateMoves_ env t2
    (.ok (delta_score, lines), { t3 with
      consecutive_fail_ := 0,
      run_score_ := t3.run_score_ + delta_score,
      run_lines_ := t3.run_lines_ + lines,
      run_pieces_ := t3.run_pieces_ + 1 })

/-- Method `TetrisNoro::Reset`; the consistency check of `Tetris::Reset` is commented out
here. -/
def TetrisNoro.Reset (env : NoroEnv Board) (t : TetrisNoro Board) (b : Board)
    (lines start_level : Int) (do_tuck : Bool) (now_piece next_piece : Int) :
    TetrisNoro Board :=
  let pieces := Int.tdiv (lines * 10 + env.Count b) 4
  let t1 := { t with
    board_ := b,
    lines_ := lines,
    start_level_ := start_level,
    pieces_ := pieces,
    do_tuck_ := do_tuck,
    now_piece_ := now_piece,
    next_piece_ := next_piece,
    game_over_ := false }
  let t2 := TetrisNoro.CalculateMoves_ env t1
  { t2 with consecutive_fail_ := 0, run_score_ := 0, run_lines_ := 0, run_pieces_ := 0 }

/-- Method `TetrisNoro::InputPlacement`. -/
def TetrisNoro.InputPlacement (env : NoroEnv Board) (t : TetrisNoro Board) (pos : Position)
    (next_piece : Int) : NoroOutcome (Int × Int) Board :=
  if t.game_over_ then (.error .logic_error, t)
  else if next_piece < 0 || next_piece ≥ kPieces then (.error .range_error, t)
  else if !env.Cell t.moves_ pos.x pos.y then
    (.ok (-1, 0), { t with consecutive_fail_ := t.consecutive_fail_ + 1 })
  else TetrisNoro.StepGame_ env t pos next_piece

/-- Method `TetrisNoro::SetLines`; `%` is the truncating C++ remainder and
`(lines - lines_) * 10 / 4` the truncating division. -/
def TetrisNoro.SetLines (t : TetrisNoro Board) (lines : Int) : NoroOutcome Unit Board :=
  if Int.tmod lines 2 ≠ Int.tmod t.lines_ 2 then (.error .range_error, t)
  else
    let pieces_diff := Int.tdiv ((lines - t.lines_) * 10) 4
    (.ok (), { t with lines_ := lines, pieces_ := t.pieces_ + pieces_diff })

/-- The first loop of `LinesToNextSpeed`: `next_speed` advances while it is inside the
table and its entry equals the entry of `speed`; the fuel is the number of entries left.
A negative index is undefined behaviour in the source and reads entry 0 here. -/
def nextSpeedLoop (inputs_per_row : List Int) (speed : Int) : Nat → Int → Int
  | 0, next_speed => next_speed
  | fuel + 1, next_speed =>
    if next_speed < inputs_per_row.length ∧
        inputs_per_row.getD speed.toNat 0 = inputs_per_row.getD next_speed.toNat 0 then
      nextSpeedLoop inputs_per_row speed fuel (next_speed + 1)
    else next_speed

/-- The value of `next_speed` after the first loop of `LinesToNextSpeed`. -/
def TetrisNoro.nextSpeed (env : NoroEnv Board) (t : TetrisNoro Board) : Int :=
  nextSpeedLoop t.inputs_per_row_ (TetrisNoro.LevelSpeed env t)
    ((t.inputs_per_row_.length : Int) - TetrisNoro.LevelSpeed env t).toNat
    (TetrisNoro.LevelSpeed env t)

/-- The second loop of `LinesToNextSpeed`, `for (; speed(nlines) != next_speed;
nlines += 10)`: the value of `nlines` at which it ends, or nothing when it has not ended
after `fuel` increments. -/
def scanLines (env : NoroEnv Board) (start_level next_speed : Int) : Nat → Int → Option Int
  | fuel, nlines =>
    if env.GetLevelSpeed (env.GetLevelByLines nlines start_level) = next_speed then
      some nlines
    else
      match fuel with
      | 0 => none
      | fuel + 1 => scanLines env start_level next_speed fuel (nlines + 10)

/-- Method `TetrisNoro::LinesToNextSpeed`, with a bound on the increments of the second
loop (which need not end): nothing when the bound is reached. -/
def TetrisNoro.LinesToNextSpeed (env : NoroEnv Board) (t : TetrisNoro Board) (fuel : Nat) :
    Option Int :=
  let next_speed := TetrisNoro.nextSpeed env t
  if next_speed ≥ t.inputs_per_row_.length then some (-1)
  else
    let nlines := Int.tdiv ((t.lines_ + 9) * 10) 10
    (scanLines env t.start_level_ next_speed fuel nlines).map (fun n => n - t.lines_)

end Noro

namespace Sample

/-- A sample environment for `TetrisNoro` over byte boards: the level is the start level
plus one per ten lines, the speed index is the level capped at 14, and every cell of the
bottom row that is empty is a possible move. -/
def noroEnv : NoroEnv ByteBoard where
  Place := Place
  Count := Count
  ClearLines := ClearLines
  ScoreFromLevel := fun level lines => (level + 1) * lines
  GetLevelByLines := fun lines start_level => start_level + Int.tdiv lines 10
  GetLevelSpeed := fun level => if level < 0 then 0 else if level > 14 then 14 else level
  MoveSearchNoro := fun b _ _ _ =>
    (List.range 20).map (fun (i : Nat) => (List.range 10).map (fun (j : Nat) =>
      decide (i = 19) && (b.getD i []).getD j false))
  isZeros := fun b => b.all (fun row => row.all (fun c => !c))
  Cell := fun b x y =>
    if x < 0 ∨ x ≥ 20 ∨ y < 0 ∨ y ≥ 10 then false
    else (b.getD x.toNat []).getD y.toNat false
  ToByteBoard := fun b =>
    (List.range 20).map (fun (i : Nat) => (List.range 10).map (fun (j : Nat) =>
      (b.getD i []).getD j false))

/-- A freshly constructed `TetrisNoro` (the constructor sets the table only). -/
def noroFresh : TetrisNoro ByteBoard where
  board_ := []
  lines_ := 0
  start_level_ := 0
  pieces_ := 0
  now_piece_ := 0
  next_piece_ := 0
  game_over_ := false
  moves_ := []
  consecutive_fail_ := 0
  do_tuck_ := false
  inputs_per_row_ := kInputsPerRow
  run_score_ := 0
  run_lines_ := 0
  run_pieces_ := 0

/-- The state after `Reset(Board::Ones, 0, 9, true, 3, 0)`: the O piece on the empty
board at start level 9. -/
def noroStart : TetrisNoro ByteBoard := TetrisNoro.Reset noroEnv noroFresh Ones 0 9 true 3 0

end Sample

/-! ## The integer penalty of `StepAndCalculateReward_` at aggression level 0

The integers `penalty_18`, `penalty_19` and `penalty_29` are computed in floating point
from the table `kOverProb` and truncated; they are parameters here.  For the values of
the table (at most 2220 per line) and line counts between 0 and the cap, every sum below
stays far inside the range of `int`, so that the integers are taken unbounded. -/

section Penalty

/-- The three locals `penalty_18`, `penalty_19` and `penalty_29` of
`StepAndCalculateReward_`. -/
structure PhasePenalties where
  penalty_18 : Int
  penalty_19 : Int
  penalty_29 : Int
deriving DecidableEq, Repr

/-- One pass of the loop of the burn rule on the integer `penalty` (the product
`live_prob` of the same loop is floating point and only feeds the random test). -/
def burnBody (P : PhasePenalties) (i penalty : Int) : Int :=
  if i ≤ 124 then penalty + P.penalty_18
  else if i ≤ 224 then penalty + P.penalty_19
  else if i ≤ 320 then penalty + P.penalty_29
  else penalty

/-- The loop `for (int i = ...; i < now_lines; i++)` of the burn rule, started at `i`
with the given `penalty`, making at most `fuel` passes. -/
def burnLoop (P : PhasePenalties) (now_lines : Int) : Nat → Int → Int → Int
  | 0, _, penalty => penalty
  | fuel + 1, i, penalty =>
    if i < now_lines then burnLoop P now_lines fuel (i + 1) (burnBody P i penalty)
    else penalty

/-- The integer `penalty` after the block `if (lines && lines != 4)`: the loop starts at
`now_lines - lines` and stops by itself after `lines` passes (after none when `lines` is
negative). -/
def burnPenalty (P : PhasePenalties) (now_lines lines : Int) : Int :=
  if lines ≠ 0 ∧ lines ≠ 4 then burnLoop P now_lines lines.toNat (now_lines - lines) 0
  else 0

/-- The statement `penalty = penalty * 1.05`: the product is formed in `double` and
converted back to `int`, which truncates toward zero; the factor is read as 105/100. -/
def scalePenalty (penalty : Int) : Int := Int.tdiv (penalty * 105) 100

/-- The block `if (tetris.IsOver())` on the integer `penalty`: three additions and the
scaling. -/
def overPenalty (P : PhasePenalties) (now_lines penalty : Int) : Int :=
  let p1 := penalty + P.penalty_18 * (124 - min 124 now_lines)
  let p2 := p1 + P.penalty_19 * (224 - min 224 (max 124 now_lines))
  let p3 := p2 + P.penalty_29 * (320 - min 320 (max 224 now_lines))
  scalePenalty p3

/-- The integer `penalty` that `StepAndCalculateReward_` subtracts (times
`kRewardMultiplier_`) from `n_reward` at aggression level 0: `now_lines` is
`tetris.GetLines()`, and `IsOver()` is tested after the random test of the burn rule. -/
def levelZeroPenalty {Board Rng : Type} (env : PyEnv Board Rng) (st : PythonTetris Board Rng)
    (P : PhasePenalties) (tap_mode adj_mode lines : Int) : Int :=
  let now_lines := st.tetris.lines_
  let penalty := burnPenalty P now_lines lines
  if IsOver (burnStep env st tap_mode adj_mode lines).tetris then
    overPenalty P now_lines penalty
  else penalty

/-- The penalty of one burnt line in the words of the specification: the penalty of the
phase that covers the absolute line index `i`. -/
def phasePenalty (P : PhasePenalties) (i : Int) : Int :=
  if i ≤ 124 then P.penalty_18
  else if 124 < i ∧ i ≤ 224 then P.penalty_19
  else if 224 < i ∧ i ≤ 320 then P.penalty_29
  else 0

/-- The unreached-phase penalties at `n` lines, in the words of the specification. -/
def unreachedPenalty (P : PhasePenalties) (n : Int) : Int :=
  P.penalty_18 * (124 - min 124 n) + P.penalty_19 * (224 - min 224 (max 124 n)) +
    P.penalty_29 * (320 - min 320 (max 224 n))

/-- The final penalty of a step that ends the game as the specification words it: the
burn penalty of the step plus 1.05 times the unreached-phase penalties. -/
def finalPenalty_spec (P : PhasePenalties) (now_lines lines : Int) : ℚ :=
  (burnPenalty P now_lines lines : ℚ) + (105 / 100 : ℚ) * (unreachedPenalty P now_lines : ℚ)

end Penalty

namespace Sample

/-- The penalties for the tap table `Tap30Hz` and the delay 18 (`tap_mode` 5, `adj_mode`
1; table entries 0.042, 0.037 and 0.024) as the double arithmetic of the source gives
them: `(0.042 - 0.01) * 60000 = 1920.0`, `(0.037 - 0.01) * 30000 = 809.99...`, which the
conversion to `int` truncates to 809, and `(0.024 - 0.01) * 15000 = 210.0`. -/
def penalties : PhasePenalties := ⟨1920, 809, 210⟩

/-- A board on the brink: column 5 is a well of depth 4 over a stack that fills column 5
from row 4 down, row 3 is full but for the well, and cell `(4, 0)` is occupied (26
occupied cells). -/
def brink : ByteBoard :=
  List.replicate 3 (List.replicate 10 true) ++
  [[false, false, false, false, false, true, false, false, false, false],
   [false, true, true, true, true, false, true, true, true, true]] ++
  List.replicate 15 [true, true, true, true, true, false, true, true, true, true]

/-- The object after `Reset(brink, 1, Tap30Hz, 18, 6, 0, false)`: piece I over the
brink, next piece T, `skip_unique_initial_` unset. -/
def pyBrink : PythonTetris ByteBoard Nat :=
  (PythonTetris.Reset pyenv pyraw brink 1 Tap30Hz 18 6 0 false).2

/-- The game of `pyBrink` after `Tetris::InputPlacement` of the upright I at `(1, 2, 5)`
into the well: row 3 is cleared, and the T piece cannot spawn over the rest of the I. -/
def brinkStep : Tetris ByteBoard :=
  (BetaTetris.InputPlacement pyenv.core pyBrink.tetris ⟨1, 2, 5⟩ pyBrink.next_piece_).2

/-- The object of `pyBrink` inside `PythonTetris::InputPlacement((1, 2, 5))` when
`StepAndCalculateReward_` is called. -/
def pyBrinkOver : PythonTetris ByteBoard Nat := { pyBrink with tetris := brinkStep }

end Sample

/-! ## `ResetRandom` and the library draw -/

section RandomReset

variable {Board Rng : Type}

/-- The guarantee of `std::uniform_int_distribution<int>(a, b)` for `a <= b`: the value
drawn lies between `a` and `b`. -/
def UniformInRange (env : PyEnv Board Rng) : Prop :=
  ∀ (a b : Int) (g : Rng), a ≤ b →
    a ≤ (env.uniform_int a b g).1 ∧ (env.uniform_int a b g).1 ≤ b

/-- The local `lines` of `ResetRandom` at the call of `Reset`. -/
def randomLines (env : PyEnv Board Rng) (st : PythonTetris Board Rng) (b : Board) : Int :=
  (if env.core.Count b % 4 ≠ 0 then 1 else 0) +
    (env.uniform_int 0 (Int.tdiv env.core.kLineCap 2 - 1) st.rng_).1 * 2

end RandomReset

namespace Sample

/-- A tap table whose fourth entry, 10, is none of the values that
`StepAndCalculateReward_` expects. -/
def Tap18Hz : List Int := [0, 3, 6, 10, 13, 16, 20, 23, 26, 30]

/-- The object after `Reset(Board::Ones, 0, Tap18Hz, 18, 6, 0, false)`. -/
def pyOdd : PythonTetris ByteBoard Nat :=
  (PythonTetris.Reset pyenv pyraw Ones 0 Tap18Hz 18 6 0 false).2

end Sample

/-! ## The unique non-reduced initial (`skip_unique_initial_`) -/

section UniqueInitialNotions

variable {Board Rng : Type}

/-- The situation in which `CheckReducibleInitial_` acts when `skip_unique_initial_` is
set: the game is neither adjusting nor over, `non_adj` is empty and `initial_mask_` has
exactly one bit set. -/
def UniqueInitial (t : Tetris Board) : Prop :=
  t.is_adj_ = false ∧ IsOver t = false ∧ t.moves_.non_adj = [] ∧
    popcount t.initial_mask_ = 1

instance (t : Tetris Board) : Decidable (UniqueInitial t) := by
  unfold UniqueInitial; infer_instance

/-- No bit of `initial_mask_` is set at or above the number of entries of `moves_.adj`. -/
def MaskInRange (t : Tetris Board) : Prop :=
  ∀ k, t.initial_mask_.testBit k = true → k < t.moves_.adj.length

/-- What the last `CalculateMoves_` has left behind while `game_over_` is unset: the
move map is the stored one and the mask lies inside the list of initials. -/
def Searched (t : Tetris Board) : Prop :=
  t.game_over_ = false → MapInSync t ∧ MaskInRange t

/-- What `CheckReducibleInitial_` does to the object `st1` in the situation
`UniqueInitial`, leaving `st2` and returning `r2`: the single set bit of the mask is
`ctz(initial_mask)`, the initial `e.first` of that entry of `moves_.adj` is input to
`Tetris::InputPlacement`, which returns `(0, 0)` and enters the adjusting phase with
`InitialMove()` equal to that initial, and `r2` is what `StepAndCalculateReward_` returns
for this step; nothing but `tetris` changes. -/
def AutoInput (env : PyEnv Board Rng) (st1 : PythonTetris Board Rng) (r2 : ℚ × ℚ)
    (st2 : PythonTetris Board Rng) : Prop :=
  ∃ e : AdjItem,
    st1.tetris.moves_.adj[ctz st1.tetris.initial_mask_]? = some e ∧
    (∀ j, j < 64 → (st1.tetris.initial_mask_.testBit j = true ↔
      j = ctz st1.tetris.initial_mask_)) ∧
    BetaTetris.InputPlacement env.core st1.tetris e.1 st1.next_piece_ =
      (.ok (0, 0), st2.tetris) ∧
    st2 = { st1 with tetris := st2.tetris } ∧
    st2.tetris.is_adj_ = true ∧ st2.tetris.game_over_ = false ∧
    InitialMove st2.tetris = .ok e.1 ∧
    PythonTetris.StepAndCalculateReward_ env st2 e.1 0 0 = (.ok r2, st2)

end UniqueInitialNotions

namespace Sample

/-- A stand-in search that reports one adjustment initial and no other placement. -/
def loneSearch (_level : Level) (_adj_delay : Int) (_taps : List Int)
    (_table : List Int × Int) (_field : ByteBoard) (_poly : Int) : PossibleMoves :=
  ⟨[], [(⟨0, 6, 5⟩, [⟨0, 19, 4⟩, ⟨0, 19, 5⟩])]⟩

/-- The environment of `pyenv` with the search `loneSearch`. -/
def pyenvLone : PyEnv ByteBoard Nat :=
  { pyenv with core := { env with MoveSearch := loneSearch } }

/-- The game after the `Tetris::Reset` inside
`Reset(Board::Ones, 0, Tap30Hz, 18, 6, 0, true)` under `pyenvLone`. -/
def loneReset : Tetris ByteBoard :=
  (BetaTetris.Reset pyenvLone.core (drawPieces pyenvLone pyraw 6 0).1.tetris Ones 0
    (drawPieces pyenvLone pyraw 6 0).2.1 (drawPieces pyenvLone pyraw 6 0).2.2 Tap30Hz 18).2

/-- The object of that `Reset` when `CheckReducibleInitial_` is called. -/
def loneDrawn : PythonTetris ByteBoard Nat :=
  { (PythonTetris.GenNextPiece_ pyenvLone
      { (drawPieces pyenvLone pyraw 6 0).1 with tetris := loneReset }
      (drawPieces pyenvLone pyraw 6 0).2.2).2 with
    next_piece_ := (PythonTetris.GenNextPiece_ pyenvLone
      { (drawPieces pyenvLone pyraw 6 0).1 with tetris := loneReset }
      (drawPieces pyenvLone pyraw 6 0).2.2).1,
    skip_unique_initial_ := true }

/-- The object after `Reset(Board::Ones, 0, Tap30Hz, 18, 6, 0, true)` under `pyenvLone`. -/
def pyLone : PythonTetris ByteBoard Nat :=
  (PythonTetris.CheckReducibleInitial_ pyenvLone loneDrawn).2

end Sample

/-! ## Frame lemmas -/

section Frame

variable {Board : Type}

/-- Method `CalculateInitialMask_` only writes `moves_.adj` and `initial_mask_`. -/
theorem calculateInitialMask_frame (env : Env Board) (s : Tetris Board)
    (out : Outcome Unit Board) (h : CalculateInitialMask_ env s = out) :
    out.2.board_ = s.board_ ∧ out.2.lines_ = s.lines_ ∧ out.2.pieces_ = s.pieces_ ∧
    out.2.is_adj_ = s.is_adj_ ∧ out.2.initial_move_ = s.initial_move_ ∧
    out.2.now_piece_ = s.now_piece_ ∧ out.2.next_piece_ = s.next_piece_ ∧
    out.2.game_over_ = s.game_over_ ∧ out.2.move_map_ = s.move_map_ ∧
    out.2.consecutive_fail_ = s.consecutive_fail_ ∧ out.2.tap_sequence_ = s.tap_sequence_ ∧
    out.2.adj_delay_ = s.adj_delay_ ∧ out.2.search_table_ = s.search_table_ ∧
    out.2.run_score_ = s.run_score_ ∧ out.2.run_lines_ = s.run_lines_ ∧
    out.2.run_pieces_ = s.run_pieces_ ∧ out.2.moves_.non_adj = s.moves_.non_adj := by
  subst h
  simp only [CalculateInitialMask_]
  split
  · simp
  · split <;> simp

/-- Method `CalculateInitialMask_` throws exactly when there are more than 64 initials. -/
theorem calculateInitialMask_isOk (env : Env Board) (s : Tetris Board)
    (out : Outcome Unit Board) (h : CalculateInitialMask_ env s = out) :
    out.1 = .ok () ↔ s.moves_.adj.length ≤ 64 := by
  subst h
  simp only [CalculateInitialMask_]
  split
  · simp; omega
  · split <;> simp <;> omega

/-- Method `CalculateMoves_` leaves the board, the counters, the pieces in hand, the phase, the
failure counter, the configuration and the run statistics alone. -/
theorem calculateMoves_frame (env : Env Board) (s : Tetris Board) (regenerate : Bool)
    (out : Outcome Unit Board) (h : CalculateMoves_ env s regenerate = out) :
    out.2.board_ = s.board_ ∧ out.2.lines_ = s.lines_ ∧ out.2.pieces_ = s.pieces_ ∧
    out.2.is_adj_ = s.is_adj_ ∧ out.2.initial_move_ = s.initial_move_ ∧
    out.2.now_piece_ = s.now_piece_ ∧ out.2.next_piece_ = s.next_piece_ ∧
    out.2.consecutive_fail_ = s.consecutive_fail_ ∧ out.2.tap_sequence_ = s.tap_sequence_ ∧
    out.2.adj_delay_ = s.adj_delay_ ∧ out.2.search_table_ = s.search_table_ ∧
    out.2.run_score_ = s.run_score_ ∧ out.2.run_lines_ = s.run_lines_ ∧
    out.2.run_pieces_ = s.run_pieces_ := by
  subst h
  simp only [CalculateMoves_]
  split
  · split
    · simp
    · split
      · next e s2 heq =>
        have hf := calculateInitialMask_frame env _ _ heq
        simp at hf
        simp [hf]
      · next u s2 heq =>
        have hf := calculateInitialMask_frame env _ _ heq
        simp at hf
        simp [hf]
  · simp

end Frame

/-! ## `StepGame_`: the four-cell guard -/

section Claims

variable {Board : Type}

/-- A step that fails the four-cell guard returns `(-1, 0)` and only counts the failure. -/
theorem stepGame_cut_off (env : Env Board) (s : Tetris Board) (pos : Position)
    (next_piece : Int) (h : ¬ placesFour env s pos) :
    StepGame_ env s pos next_piece =
      (.ok (-1, 0), { s with consecutive_fail_ := s.consecutive_fail_ + 1 }) := by
  unfold placesFour at h
  simp only [StepGame_]
  rw [if_pos h]

/-- C1: `StepGame_` gets past its guard only if placing the current piece at `pos` adds
exactly 4 occupied cells (`board_.Count() + 4 == Place(...).Count()`); otherwise it
returns `(-1, 0)` and the state it leaves is the old one with `consecutive_fail_`
incremented by one, so that `board_`, `lines_`, `pieces_`, `now_piece_`, `next_piece_`,
`is_adj_`, the move map and the run statistics are unchanged. -/
theorem C1_step_succeeds_only_with_four_cells (env : Env Board) (s : Tetris Board)
    (pos : Position) (next_piece : Int) :
    ((StepGame_ env s pos next_piece).1 ≠ .ok (-1, 0) → placesFour env s pos) ∧
    (¬ placesFour env s pos →
      (StepGame_ env s pos next_piece).1 = .ok (-1, 0) ∧
      (StepGame_ env s pos next_piece).2 =
        { s with consecutive_fail_ := s.consecutive_fail_ + 1 } ∧
      (StepGame_ env s pos next_piece).2.board_ = s.board_ ∧
      (StepGame_ env s pos next_piece).2.lines_ = s.lines_ ∧
      (StepGame_ env s pos next_piece).2.pieces_ = s.pieces_ ∧
      (StepGame_ env s pos next_piece).2.now_piece_ = s.now_piece_ ∧
      (StepGame_ env s pos next_piece).2.next_piece_ = s.next_piece_ ∧
      (StepGame_ env s pos next_piece).2.is_adj_ = s.is_adj_ ∧
      (StepGame_ env s pos next_piece).2.move_map_ = s.move_map_ ∧
      (StepGame_ env s pos next_piece).2.run_score_ = s.run_score_ ∧
      (StepGame_ env s pos next_piece).2.run_lines_ = s.run_lines_ ∧
      (StepGame_ env s pos next_piece).2.run_pieces_ = s.run_pieces_) := by
  refine ⟨?_, ?_⟩
  · intro hne
    by_contra hfour
    exact hne (by rw [stepGame_cut_off env s pos next_piece hfour])
  · intro hfour
    rw [stepGame_cut_off env s pos next_piece hfour]
    simp

/-- A step that passes the guard runs the second half of `StepGame_`. -/
theorem stepGame_placed (env : Env Board) (s : Tetris Board) (pos : Position)
    (next_piece : Int) (h : placesFour env s pos) :
    StepGame_ env s pos next_piece =
      match capOrSearch env (advance env s pos next_piece)
          (env.ClearLines (env.Place s.board_ s.now_piece_ pos.r pos.x pos.y)).1 with
      | (.error e, s2) => (.error e, s2)
      | (.ok _, s2) =>
        (.ok (env.GameScore s.lines_
            (env.ClearLines (env.Place s.board_ s.now_piece_ pos.r pos.x pos.y)).1,
          (env.ClearLines (env.Place s.board_ s.now_piece_ pos.r pos.x pos.y)).1),
         { s2 with
          consecutive_fail_ := 0,
          run_score_ := s2.run_score_ + env.GameScore s.lines_
            (env.ClearLines (env.Place s.board_ s.now_piece_ pos.r pos.x pos.y)).1,
          run_lines_ := s2.run_lines_ +
            (env.ClearLines (env.Place s.board_ s.now_piece_ pos.r pos.x pos.y)).1,
          run_pieces_ := s2.run_pieces_ + 1 }) := by
  unfold placesFour at h
  simp only [StepGame_]
  rw [if_neg (not_not.mpr h)]

/-- With at most 64 initials from the search, `CalculateMoves_` does not throw. -/
theorem calculateMoves_ok (env : Env Board) (hb : SearchBounded env) (s : Tetris Board)
    (regenerate : Bool) : (CalculateMoves_ env s regenerate).1 = .ok () := by
  simp only [CalculateMoves_]
  split
  · split
    · rfl
    · split
      · next e s2 heq =>
        have hok := (calculateInitialMask_isOk env _ _ heq).mpr
          (hb (LevelSpeed env s) s.adj_delay_ s.tap_sequence_ s.search_table_ s.board_
            s.now_piece_)
        simp at hok
      · rfl
  · rfl

/-- The second half of `StepGame_` leaves the fields written by `advance`, the failure
counter, the configuration and the run statistics alone. -/
theorem capOrSearch_frame (env : Env Board) (s1 : Tetris Board) (lines : Int)
    (out : Outcome Unit Board) (h : capOrSearch env s1 lines = out) :
    out.2.board_ = s1.board_ ∧ out.2.lines_ = s1.lines_ ∧ out.2.pieces_ = s1.pieces_ ∧
    out.2.is_adj_ = s1.is_adj_ ∧ out.2.initial_move_ = s1.initial_move_ ∧
    out.2.now_piece_ = s1.now_piece_ ∧ out.2.next_piece_ = s1.next_piece_ ∧
    out.2.consecutive_fail_ = s1.consecutive_fail_ ∧
    out.2.tap_sequence_ = s1.tap_sequence_ ∧
    out.2.adj_delay_ = s1.adj_delay_ ∧ out.2.search_table_ = s1.search_table_ ∧
    out.2.run_score_ = s1.run_score_ ∧ out.2.run_lines_ = s1.run_lines_ ∧
    out.2.run_pieces_ = s1.run_pieces_ := by
  subst h
  simp only [capOrSearch]
  split
  · simp
  · exact calculateMoves_frame env s1 true _ rfl

/-- With at most 64 initials from the search, the second half of `StepGame_` does not
throw. -/
theorem capOrSearch_ok (env : Env Board) (hb : SearchBounded env) (s1 : Tetris Board)
    (lines : Int) : (capOrSearch env s1 lines).1 = .ok () := by
  simp only [capOrSearch]
  split
  · rfl
  · exact calculateMoves_ok env hb s1 true

/-! ## `InputPlacement` and `DirectPlacement` -/

/-- A state that is not over has `game_over_` unset. -/
theorem game_over_of_not_isOver (s : Tetris Board) (h : IsOver s = false) :
    s.game_over_ = false := by
  simp only [IsOver, Bool.or_eq_false_iff] at h
  exact h.1

/-- The range test on the next piece passes for the ids 0..6. -/
theorem next_piece_in_range (next_piece : Int) (h : 0 ≤ next_piece ∧ next_piece < kPieces) :
    (decide (next_piece < 0) || decide (next_piece ≥ kPieces)) = false := by
  simp only [kPieces] at h
  simp only [kPieces, Bool.or_eq_false_iff, decide_eq_false_iff_not]
  omega

/-- C4: in a state that is not over, `InputPlacement` at a cell whose move-map tag is 0,
with a next piece in 0..6, returns `(-1, 0)`, increments `consecutive_fail_` (from 0 to
1), makes `IsOver()` true, and leaves every other member as it was. -/
theorem C4_input_unreachable_cell (env : Env Board) (s : Tetris Board) (pos : Position)
    (next_piece : Int) (hover : IsOver s = false) (hcf : 0 ≤ s.consecutive_fail_)
    (hnext : 0 ≤ next_piece ∧ next_piece < kPieces) (htag : s.move_map_ pos = 0) :
    (InputPlacement env s pos next_piece).1 = .ok (-1, 0) ∧
    (InputPlacement env s pos next_piece).2 =
      { s with consecutive_fail_ := s.consecutive_fail_ + 1 } ∧
    (InputPlacement env s pos next_piece).2.consecutive_fail_ = 1 ∧
    IsOver (InputPlacement env s pos next_piece).2 = true := by
  have hgo := game_over_of_not_isOver s hover
  have hrange := next_piece_in_range next_piece hnext
  have hzero : s.consecutive_fail_ = 0 := by
    simp only [IsOver, Bool.or_eq_false_iff, decide_eq_false_iff_not] at hover
    omega
  have hout : InputPlacement env s pos next_piece =
      (.ok (-1, 0), { s with consecutive_fail_ := s.consecutive_fail_ + 1 }) := by
    simp only [InputPlacement, hgo, hrange, htag]
    simp
  rw [hout]
  simp [IsOver, hzero]

/-- C5 (amended): once `game_over_` is set, `InputPlacement` and `DirectPlacement` throw
a logic error and leave the state as it is, and the flag stays set under every public
call other than `Reset`. -/
theorem C5_game_over_flag_absorbing (env : Env Board) (s : Tetris Board)
    (hover : s.game_over_ = true) :
    (∀ pos next_piece, InputPlacement env s pos next_piece = (.error .logic_error, s)) ∧
    (∀ pos next_piece, DirectPlacement env s pos next_piece = (.error .logic_error, s)) ∧
    (∀ piece, (SetNextPiece s piece).2.game_over_ = true) ∧
    (∀ lines, (SetLines env s lines).2.game_over_ = true) ∧
    (ForceOver s).game_over_ = true := by
  refine ⟨?_, ?_, ?_, ?_, ?_⟩
  · intro pos next_piece
    simp [InputPlacement, hover]
  · intro pos next_piece
    simp [DirectPlacement, hover]
  · intro piece
    simp only [SetNextPiece]
    split <;> simp [hover]
  · intro lines
    simp only [SetLines]
    split <;> simp [hover]
  · simp [ForceOver]

/-- C7: in a state that is not over, `InputPlacement` at a cell tagged no-adj whose
placement passes the four-cell guard, with a next piece in 0..6 and a move search that
reports at most 64 initials, returns `(GameScore(lines_, cleared), cleared)` and sets
`lines_`, `pieces_`, `now_piece_`, `next_piece_`, `is_adj_`, `consecutive_fail_`,
`board_` and the run statistics as the step prescribes. -/
theorem C7_input_no_adj_applies_step (env : Env Board) (hb : SearchBounded env)
    (s : Tetris Board) (pos : Position) (next_piece : Int) (hover : IsOver s = false)
    (hnext : 0 ≤ next_piece ∧ next_piece < kPieces) (htag : s.move_map_ pos = kNoAdj)
    (hfour : placesFour env s pos) :
    (InputPlacement env s pos next_piece).1 =
      .ok (env.GameScore s.lines_
          (env.ClearLines (env.Place s.board_ s.now_piece_ pos.r pos.x pos.y)).1,
        (env.ClearLines (env.Place s.board_ s.now_piece_ pos.r pos.x pos.y)).1) ∧
    (InputPlacement env s pos next_piece).2.lines_ =
      s.lines_ + (env.ClearLines (env.Place s.board_ s.now_piece_ pos.r pos.x pos.y)).1 ∧
    (InputPlacement env s pos next_piece).2.pieces_ = s.pieces_ + 1 ∧
    (InputPlacement env s pos next_piece).2.now_piece_ = s.next_piece_ ∧
    (InputPlacement env s pos next_piece).2.next_piece_ = next_piece ∧
    (InputPlacement env s pos next_piece).2.is_adj_ = false ∧
    (InputPlacement env s pos next_piece).2.consecutive_fail_ = 0 ∧
    (InputPlacement env s pos next_piece).2.board_ =
      (env.ClearLines (env.Place s.board_ s.now_piece_ pos.r pos.x pos.y)).2 ∧
    (InputPlacement env s pos next_piece).2.run_score_ =
      s.run_score_ + env.GameScore s.lines_
        (env.ClearLines (env.Place s.board_ s.now_piece_ pos.r pos.x pos.y)).1 ∧
    (InputPlacement env s pos next_piece).2.run_lines_ =
      s.run_lines_ + (env.ClearLines (env.Place s.board_ s.now_piece_ pos.r pos.x pos.y)).1 ∧
    (InputPlacement env s pos next_piece).2.run_pieces_ = s.run_pieces_ + 1 := by
  have hgo := game_over_of_not_isOver s hover
  have hrange := next_piece_in_range next_piece hnext
  have hin : InputPlacement env s pos next_piece = StepGame_ env s pos next_piece := by
    simp only [InputPlacement, hgo, hrange, htag]
    simp [kNoAdj]
  rw [hin, stepGame_placed env s pos next_piece hfour]
  have hok := capOrSearch_ok env hb (advance env s pos next_piece)
    (env.ClearLines (env.Place s.board_ s.now_piece_ pos.r pos.x pos.y)).1
  have hfr := capOrSearch_frame env (advance env s pos next_piece)
    (env.ClearLines (env.Place s.board_ s.now_piece_ pos.r pos.x pos.y)).1 _ rfl
  split
  · next e s2 heq =>
    rw [heq] at hok
    simp at hok
  · next u s2 heq =>
    rw [heq] at hfr
    simp only [advance] at hfr
    simp [hfr]

/-- Every run of `StepGame_` leaves its mark: one piece more when the guard passes (also
when the mask computation then throws), one failure more when it does not. -/
theorem stepGame_leaves_mark (env : Env Board) (s : Tetris Board) (pos : Position)
    (next_piece : Int) :
    (StepGame_ env s pos next_piece).2.pieces_ ≠ s.pieces_ ∨
    (StepGame_ env s pos next_piece).2.consecutive_fail_ ≠ s.consecutive_fail_ := by
  by_cases hfour : placesFour env s pos
  · left
    rw [stepGame_placed env s pos next_piece hfour]
    have hfr := capOrSearch_frame env (advance env s pos next_piece)
      (env.ClearLines (env.Place s.board_ s.now_piece_ pos.r pos.x pos.y)).1 _ rfl
    split
    · next e s2 heq =>
      rw [heq] at hfr
      simp only [advance] at hfr
      simp only [hfr.2.2.1]
      omega
    · next u s2 heq =>
      rw [heq] at hfr
      simp only [advance] at hfr
      simp only [hfr.2.2.1]
      omega
  · right
    rw [stepGame_cut_off env s pos next_piece hfour]
    simp

/-- C8: in a state that is not over, with a next piece in 0..6, `DirectPlacement` hands
the placement to `StepGame_` iff the cell is tagged `kNoAdj` or `pos` occurs in the
reachable list of some entry of `moves_.adj` (it then returns what the step returned,
setting `game_over_` when that is `-1`); otherwise it returns `(-1, 0)` and only sets
`game_over_`; and when the step it applied is rejected as cut off it returns `(-1, 0)`
with `game_over_` set.  The mark of a step (one piece more, or one failure more) is on
the resulting state iff the test passed. -/
theorem C8_direct_placement (env : Env Board) (s : Tetris Board) (pos : Position)
    (next_piece : Int) (hover : IsOver s = false)
    (hnext : 0 ≤ next_piece ∧ next_piece < kPieces) :
    ((s.move_map_ pos = kNoAdj ∨ ∃ e ∈ s.moves_.adj, pos ∈ e.2) →
      (DirectPlacement env s pos next_piece).1 = (StepGame_ env s pos next_piece).1 ∧
      (DirectPlacement env s pos next_piece).2 =
        if retFailed (StepGame_ env s pos next_piece).1 then
          { (StepGame_ env s pos next_piece).2 with game_over_ := true }
        else (StepGame_ env s pos next_piece).2) ∧
    (¬ (s.move_map_ pos = kNoAdj ∨ ∃ e ∈ s.moves_.adj, pos ∈ e.2) →
      DirectPlacement env s pos next_piece = (.ok (-1, 0), { s with game_over_ := true })) ∧
    ((s.move_map_ pos = kNoAdj ∨ ∃ e ∈ s.moves_.adj, pos ∈ e.2) →
      ¬ placesFour env s pos →
      DirectPlacement env s pos next_piece =
        (.ok (-1, 0), { s with
          consecutive_fail_ := s.consecutive_fail_ + 1,
          game_over_ := true })) ∧
    ((s.move_map_ pos = kNoAdj ∨ ∃ e ∈ s.moves_.adj, pos ∈ e.2) ↔
      ((DirectPlacement env s pos next_piece).2.pieces_ ≠ s.pieces_ ∨
       (DirectPlacement env s pos next_piece).2.consecutive_fail_ ≠ s.consecutive_fail_)) := by
  have hgo := game_over_of_not_isOver s hover
  have hrange := next_piece_in_range next_piece hnext
  have hiff : directOk s pos = true ↔
      (s.move_map_ pos = kNoAdj ∨ ∃ e ∈ s.moves_.adj, pos ∈ e.2) := by
    simp [directOk]
  have hstep : directOk s pos = true →
      (DirectPlacement env s pos next_piece).1 = (StepGame_ env s pos next_piece).1 ∧
      (DirectPlacement env s pos next_piece).2 =
        if retFailed (StepGame_ env s pos next_piece).1 then
          { (StepGame_ env s pos next_piece).2 with game_over_ := true }
        else (StepGame_ env s pos next_piece).2 := by
    intro hd
    simp only [DirectPlacement, hgo, hrange, hd]
    generalize StepGame_ env s pos next_piece = out
    obtain ⟨ret, t⟩ := out
    cases ret with
    | error e => simp [retFailed]
    | ok r =>
      by_cases hr : r.1 = -1
      · simp [retFailed, hr]
      · simp [retFailed, hr]
  have hskip : ¬ (s.move_map_ pos = kNoAdj ∨ ∃ e ∈ s.moves_.adj, pos ∈ e.2) →
      DirectPlacement env s pos next_piece =
        (.ok (-1, 0), { s with game_over_ := true }) := by
    intro hc
    have hd : directOk s pos = false := by
      cases hdo : directOk s pos
      · rfl
      · exact absurd (hiff.mp hdo) hc
    simp [DirectPlacement, hgo, hrange, hd]
  refine ⟨fun hc => hstep (hiff.mpr hc), hskip, ?_, ?_⟩
  · intro hc hfour
    have h := hstep (hiff.mpr hc)
    rw [stepGame_cut_off env s pos next_piece hfour] at h
    simp only [retFailed] at h
    exact Prod.ext h.1 (by rw [h.2]; simp)
  · constructor
    · intro hc
      have h := (hstep (hiff.mpr hc)).2
      have hmark := stepGame_leaves_mark env s pos next_piece
      rw [h]
      split
      · exact hmark
      · exact hmark
    · intro hmark
      by_contra hc
      rw [hskip hc] at hmark
      simp at hmark

/-! ## The line cap and top-out in `StepGame_` -/

/-- C10: a step that passes the guard and brings `lines_` to `kLineCap` or more sets
`game_over_` (so `IsOver()` is true) without running the move search: `moves_`, the move
map and the mask are those of before, and the outcome is the same for every `MoveSearch`.
A step that passes the guard with `lines_` below the cap, in the build without
`kTetrisOnly`, from a state whose `game_over_` was unset, leaves `game_over_` set only
if the new move search returned empty `non_adj` and empty `adj`. -/
theorem C10_line_cap_and_top_out (env : Env Board) (s : Tetris Board) (pos : Position)
    (next_piece : Int) (hfour : placesFour env s pos) :
    (s.lines_ + (env.ClearLines (env.Place s.board_ s.now_piece_ pos.r pos.x pos.y)).1
        ≥ env.kLineCap →
      (StepGame_ env s pos next_piece).2.game_over_ = true ∧
      IsOver (StepGame_ env s pos next_piece).2 = true ∧
      (StepGame_ env s pos next_piece).2.lines_ ≥ env.kLineCap ∧
      (StepGame_ env s pos next_piece).2.moves_ = s.moves_ ∧
      (StepGame_ env s pos next_piece).2.move_map_ = s.move_map_ ∧
      (StepGame_ env s pos next_piece).2.initial_mask_ = s.initial_mask_ ∧
      ∀ search, StepGame_ { env with MoveSearch := search } s pos next_piece =
        StepGame_ env s pos next_piece) ∧
    (s.lines_ + (env.ClearLines (env.Place s.board_ s.now_piece_ pos.r pos.x pos.y)).1
        < env.kLineCap →
      env.kTetrisOnly = false → s.game_over_ = false →
      (StepGame_ env s pos next_piece).2.lines_ < env.kLineCap ∧
      ((StepGame_ env s pos next_piece).2.game_over_ = true →
        (env.MoveSearch
          (env.GetLevelSpeed (env.GetLevelByLines (s.lines_ +
            (env.ClearLines (env.Place s.board_ s.now_piece_ pos.r pos.x pos.y)).1)))
          s.adj_delay_ s.tap_sequence_ s.search_table_
          (env.ClearLines (env.Place s.board_ s.now_piece_ pos.r pos.x pos.y)).2
          s.next_piece_).non_adj = [] ∧
        (env.MoveSearch
          (env.GetLevelSpeed (env.GetLevelByLines (s.lines_ +
            (env.ClearLines (env.Place s.board_ s.now_piece_ pos.r pos.x pos.y)).1)))
          s.adj_delay_ s.tap_sequence_ s.search_table_
          (env.ClearLines (env.Place s.board_ s.now_piece_ pos.r pos.x pos.y)).2
          s.next_piece_).adj = [])) := by
  constructor
  · intro hcap
    have hcs : ∀ e : Env Board, e.kLineCap = env.kLineCap → e.ClearLines = env.ClearLines →
        e.Place = env.Place →
        capOrSearch e (advance e s pos next_piece)
          (e.ClearLines (e.Place s.board_ s.now_piece_ pos.r pos.x pos.y)).1 =
        (.ok (), { advance env s pos next_piece with game_over_ := true }) := by
      intro e h1 h2 h3
      have : advance e s pos next_piece = advance env s pos next_piece := by
        simp [advance, h2, h3]
      simp only [capOrSearch, this, h1]
      have hge : (advance env s pos next_piece).lines_ ≥ env.kLineCap := by
        simpa [advance] using hcap
      simp [hge]
    have hmain : StepGame_ env s pos next_piece = _ := stepGame_placed env s pos next_piece hfour
    rw [hcs env rfl rfl rfl] at hmain
    refine ⟨?_, ?_, ?_, ?_, ?_, ?_, ?_⟩
    · rw [hmain]
    · rw [hmain]; simp [IsOver]
    · rw [hmain]; simpa [advance] using hcap
    · rw [hmain]; simp [advance]
    · rw [hmain]; simp [advance]
    · rw [hmain]; simp [advance]
    · intro search
      have hfour2 : placesFour { env with MoveSearch := search } s pos := hfour
      have h2 := stepGame_placed { env with MoveSearch := search } s pos next_piece hfour2
      rw [hcs { env with MoveSearch := search } rfl rfl rfl] at h2
      rw [h2, hmain]
  · intro hlt honly hgo
    have hmain := stepGame_placed env s pos next_piece hfour
    have hcs : capOrSearch env (advance env s pos next_piece)
          (env.ClearLines (env.Place s.board_ s.now_piece_ pos.r pos.x pos.y)).1 =
        CalculateMoves_ env (advance env s pos next_piece) true := by
      simp only [capOrSearch, honly]
      have hnge : ¬ (advance env s pos next_piece).lines_ ≥ env.kLineCap := by
        simpa [advance] using hlt
      simp [hnge]
    rw [hcs] at hmain
    have hfr := calculateMoves_frame env (advance env s pos next_piece) true _ rfl
    constructor
    · rw [hmain]
      split
      · next e s2 heq =>
        rw [heq] at hfr
        simp only [advance] at hfr
        simp only [hfr.2.1]
        exact hlt
      · next u s2 heq =>
        rw [heq] at hfr
        simp only [advance] at hfr
        simp only [hfr.2.1]
        exact hlt
    · intro hset
      rw [hmain] at hset
      simp only [CalculateMoves_] at hset
      by_contra hne
      have hcond : ¬ (((env.MoveSearch (LevelSpeed env (advance env s pos next_piece))
          (advance env s pos next_piece).adj_delay_ (advance env s pos next_piece).tap_sequence_
          (advance env s pos next_piece).search_table_ (advance env s pos next_piece).board_
          (advance env s pos next_piece).now_piece_).non_adj.isEmpty &&
          (env.MoveSearch (LevelSpeed env (advance env s pos next_piece))
          (advance env s pos next_piece).adj_delay_ (advance env s pos next_piece).tap_sequence_
          (advance env s pos next_piece).search_table_ (advance env s pos next_piece).board_
          (advance env s pos next_piece).now_piece_).adj.isEmpty) = true) := by
        intro hc
        apply hne
        simp only [Bool.and_eq_true, List.isEmpty_iff] at hc
        simpa [advance, LevelSpeed, GetLevel] using hc
      simp only [if_true] at hset
      rw [if_neg hcond] at hset
      split at hset
      · next e s2 heq =>
        split at heq
        · next e2 s3 heq2 =>
          have hf := calculateInitialMask_frame env _ _ heq2
          simp only [Prod.mk.injEq] at heq
          obtain ⟨_, rfl⟩ := heq
          simp only [advance] at hf
          rw [hf.2.2.2.2.2.2.2.1, hgo] at hset
          exact Bool.noConfusion hset
        · next u s3 heq2 =>
          simp at heq
      · next u s2 heq =>
        split at heq
        · next e2 s3 heq2 =>
          simp at heq
        · next u2 s3 heq2 =>
          have hf := calculateInitialMask_frame env _ _ heq2
          simp only [Prod.mk.injEq] at heq
          obtain ⟨_, rfl⟩ := heq
          simp only [advance] at hf
          simp only [hf.2.2.2.2.2.2.2.1, hgo] at hset
          exact Bool.noConfusion hset

/-! ## The move map and the adjusting phase -/

/-- Writing one tag `v` at every cell of a list: the listed cells hold `v`, the others
keep their tag. -/
theorem foldl_setCell_const (v : Nat) (l : List Position) (m : MoveMap) (q : Position) :
    (l.foldl (fun m i => setCell m i v) m) q = if q ∈ l then v else m q := by
  induction l generalizing m with
  | nil => simp
  | cons a l ih =>
    simp only [List.foldl_cons, ih, List.mem_cons, setCell]
    by_cases h1 : q ∈ l <;> by_cases h2 : q = a <;> simp [h1, h2]

/-- Writes at cells other than `q` do not change the tag of `q`. -/
theorem foldl_setCell_untouched {α : Type} (f : α → Position) (g : α → Nat) (l : List α)
    (m : MoveMap) (q : Position) (h : ∀ e ∈ l, f e ≠ q) :
    (l.foldl (fun m e => setCell m (f e) (g e)) m) q = m q := by
  induction l generalizing m with
  | nil => simp
  | cons a l ih =>
    simp only [List.foldl_cons]
    rw [ih _ (fun e he => h e (List.mem_cons_of_mem a he))]
    have ha : ¬ q = f a := fun hq => h a (List.mem_cons_self a l) hq.symm
    simp [setCell, ha]

/-- In the playing phase a cell tagged 2 or more is the initial of some entry of `adj`. -/
theorem initial_of_tag_ge_two (moves : PossibleMoves) (initial_move : Int) (mask : Nat)
    (q : Position) (h : 2 ≤ fillMoveMap false moves initial_move mask q) :
    ∃ e ∈ moves.adj, e.1 = q := by
  by_contra hne
  have hall : ∀ e ∈ moves.adj.enum, (fun e : Nat × AdjItem => e.2.1) e ≠ q := by
    intro e he heq
    exact hne ⟨e.2, List.snd_mem_of_mem_enum he, heq⟩
  have h1 := foldl_setCell_untouched (fun e : Nat × AdjItem => e.2.1)
    (fun e => if mask.testBit e.1 then kHasAdjNonReduced else kHasAdjReduced)
    moves.adj.enum (moves.non_adj.foldl (fun m i => setCell m i kNoAdj) (fun _ => 0)) q hall
  have h2 := foldl_setCell_const kNoAdj moves.non_adj (fun _ => 0) q
  simp only [fillMoveMap, Bool.not_false, if_true] at h
  rw [h1, h2] at h
  simp only [kNoAdj] at h
  split at h <;> omega

/-- The search loop of `InputPlacement` finds an entry whose initial is `pos` when
there is one. -/
theorem findInitial_spec (adj : List AdjItem) (pos : Position) (old : Int)
    (h : ∃ e ∈ adj, e.1 = pos) :
    ∃ i : Nat, ∃ e : AdjItem, findInitial adj pos old = (i : Int) ∧ adj[i]? = some e ∧
      e.1 = pos := by
  have hex : ∃ x ∈ adj, (fun it : AdjItem => it.1 == pos) x = true := by
    obtain ⟨e, he, hpos⟩ := h
    exact ⟨e, he, by simp [hpos]⟩
  have hlt : adj.findIdx (fun it : AdjItem => it.1 == pos) < adj.length :=
    List.findIdx_lt_length_of_exists hex
  refine ⟨adj.findIdx (fun it : AdjItem => it.1 == pos),
    adj.get ⟨adj.findIdx (fun it : AdjItem => it.1 == pos), hlt⟩, ?_, ?_, ?_⟩
  · simp [findInitial, hlt]
  · simp [List.getElem?_eq_getElem hlt]
  · have := @List.findIdx_getElem _ (fun it : AdjItem => it.1 == pos) adj hlt
    simpa using this

/-- C6: in a state that is not over and not adjusting, whose move map is the one
`CalculateMoves_` stored, `InputPlacement` at a cell tagged has-adj (2 or 3), with a next
piece in 0..6, returns `(0, 0)`, sets `is_adj_`, records as `initial_move_` an index `i`
with `moves_.adj[i].first == pos` (so `InitialMove()` is `pos`), and replaces the move
map by the one that tags a cell `kNoAdj` iff it is in `moves_.adj[i].second` and 0
otherwise; `board_`, `lines_`, `pieces_`, `now_piece_` and `next_piece_` are unchanged. -/
theorem C6_input_has_adj_enters_adjusting (env : Env Board) (s : Tetris Board)
    (pos : Position) (next_piece : Int) (hover : IsOver s = false)
    (hadj : s.is_adj_ = false) (hsync : MapInSync s)
    (hnext : 0 ≤ next_piece ∧ next_piece < kPieces)
    (htag : s.move_map_ pos = kHasAdjReduced ∨ s.move_map_ pos = kHasAdjNonReduced) :
    ∃ i : Nat, ∃ e : AdjItem, s.moves_.adj[i]? = some e ∧ e.1 = pos ∧
      (InputPlacement env s pos next_piece).1 = .ok (0, 0) ∧
      (InputPlacement env s pos next_piece).2.is_adj_ = true ∧
      (InputPlacement env s pos next_piece).2.initial_move_ = (i : Int) ∧
      (InputPlacement env s pos next_piece).2.moves_ = s.moves_ ∧
      InitialMove (InputPlacement env s pos next_piece).2 = .ok pos ∧
      (∀ q, (InputPlacement env s pos next_piece).2.move_map_ q =
        if q ∈ e.2 then kNoAdj else 0) ∧
      (InputPlacement env s pos next_piece).2.board_ = s.board_ ∧
      (InputPlacement env s pos next_piece).2.lines_ = s.lines_ ∧
      (InputPlacement env s pos next_piece).2.pieces_ = s.pieces_ ∧
      (InputPlacement env s pos next_piece).2.now_piece_ = s.now_piece_ ∧
      (InputPlacement env s pos next_piece).2.next_piece_ = s.next_piece_ := by
  have hgo := game_over_of_not_isOver s hover
  have hrange := next_piece_in_range next_piece hnext
  have hge : 2 ≤ fillMoveMap false s.moves_ s.initial_move_ s.initial_mask_ pos := by
    have h := hsync
    unfold MapInSync at h
    rw [hadj] at h
    rw [← h]
    rcases htag with h2 | h3
    · rw [h2]; simp [kHasAdjReduced]
    · rw [h3]; simp [kHasAdjNonReduced]
  obtain ⟨i, e, hfind, hget, hpos⟩ :=
    findInitial_spec s.moves_.adj pos s.initial_move_
      (initial_of_tag_ge_two s.moves_ s.initial_move_ s.initial_mask_ pos hge)
  have hne0 : ¬ s.move_map_ pos = 0 := by
    rcases htag with h2 | h3
    · rw [h2]; simp [kHasAdjReduced]
    · rw [h3]; simp [kHasAdjNonReduced]
  have hne1 : ¬ s.move_map_ pos = kNoAdj := by
    rcases htag with h2 | h3
    · rw [h2]; simp [kHasAdjReduced, kNoAdj]
    · rw [h3]; simp [kHasAdjNonReduced, kNoAdj]
  have hat : adjAt s.moves_.adj (i : Int) = some e := by
    simp [adjAt, hget]
  have hout : InputPlacement env s pos next_piece =
      (.ok (0, 0), { s with
        initial_move_ := (i : Int),
        is_adj_ := true,
        move_map_ := fillMoveMap true s.moves_ (i : Int) s.initial_mask_,
        consecutive_fail_ := 0 }) := by
    simp only [InputPlacement, hgo, hrange, hne0, hne1, hfind, CalculateMoves_]
    simp
  refine ⟨i, e, hget, hpos, ?_⟩
  rw [hout]
  refine ⟨rfl, rfl, rfl, rfl, ?_, ?_, rfl, rfl, rfl, rfl, rfl⟩
  · simp [InitialMove, hat, hpos]
  · intro q
    simp only [fillMoveMap, hat]
    simp only [Bool.not_true, Option.map_some', Option.getD_some]
    rw [if_neg (by simp)]
    rw [foldl_setCell_const]

/-! ## Pieces, lines and board cells -/

/-- What a `Reset` that returns has stored. -/
theorem reset_ok_fields (env : Env Board) (s : Tetris Board) (b : Board)
    (lines now_piece next_piece : Int) (taps : List Int) (adj_delay : Int)
    (s0 : Tetris Board)
    (h : Reset env s b lines now_piece next_piece taps adj_delay = (.ok (), s0)) :
    s0.board_ = b ∧ s0.lines_ = lines ∧
    s0.pieces_ * 4 = lines * 10 + (env.Count b : Int) ∧
    s0.consecutive_fail_ = 0 ∧ s0.is_adj_ = false := by
  simp only [Reset] at h
  split at h
  · simp at h
  · next hdiv =>
    have hdiv2 := not_not.mp hdiv
    split at h
    · simp at h
    · next u s2 heq =>
      have hf := calculateMoves_frame env _ _ _ heq
      simp only at hf
      simp only [Prod.mk.injEq] at h
      obtain ⟨_, rfl⟩ := h
      simp only [hf, true_and, and_true]
      exact hdiv2

/-- What a step that passes the guard and returns has stored. -/
theorem stepGame_ok_fields (env : Env Board) (s : Tetris Board) (pos : Position)
    (next_piece : Int) (ret : Int × Int) (s1 : Tetris Board) (hfour : placesFour env s pos)
    (h : StepGame_ env s pos next_piece = (.ok ret, s1)) :
    ret.2 = (env.ClearLines (env.Place s.board_ s.now_piece_ pos.r pos.x pos.y)).1 ∧
    s1.board_ = (env.ClearLines (env.Place s.board_ s.now_piece_ pos.r pos.x pos.y)).2 ∧
    s1.lines_ = s.lines_ + ret.2 ∧ s1.pieces_ = s.pieces_ + 1 := by
  rw [stepGame_placed env s pos next_piece hfour] at h
  have hfr := capOrSearch_frame env (advance env s pos next_piece)
    (env.ClearLines (env.Place s.board_ s.now_piece_ pos.r pos.x pos.y)).1 _ rfl
  split at h
  · simp at h
  · next u s2 heq =>
    rw [heq] at hfr
    simp only [advance] at hfr
    simp only [Prod.mk.injEq, Except.ok.injEq] at h
    obtain ⟨rfl, rfl⟩ := h
    simp [hfr]

/-- One successful step keeps `pieces_ * 4 == lines_ * 10 + board_.Count()`. -/
theorem stepGame_keeps_balance (env : Env Board) (hclear : ClearsTenPerLine env)
    (s : Tetris Board) (pos : Position) (next_piece : Int) (ret : Int × Int)
    (s1 : Tetris Board) (hfour : placesFour env s pos)
    (h : StepGame_ env s pos next_piece = (.ok ret, s1))
    (hbal : s.pieces_ * 4 = s.lines_ * 10 + (env.Count s.board_ : Int)) :
    s1.pieces_ * 4 = s1.lines_ * 10 + (env.Count s1.board_ : Int) ∧
    s1.lines_ = s.lines_ + ret.2 := by
  obtain ⟨hret, hboard, hlines, hpieces⟩ :=
    stepGame_ok_fields env s pos next_piece ret s1 hfour h
  have hc := hclear (env.Place s.board_ s.now_piece_ pos.r pos.x pos.y)
  unfold placesFour at hfour
  rw [hboard, hlines, hpieces, hret]
  constructor
  · omega
  · rfl

/-- A run of successful steps keeps the balance and adds up the returned line counts. -/
theorem runSteps_keeps_balance (env : Env Board) (hclear : ClearsTenPerLine env)
    (inputs : List (Position × Int)) :
    ∀ (s t : Tetris Board) (ls : List Int), runSteps env s inputs = some (t, ls) →
      s.pieces_ * 4 = s.lines_ * 10 + (env.Count s.board_ : Int) →
      t.pieces_ * 4 = t.lines_ * 10 + (env.Count t.board_ : Int) ∧
      t.lines_ = s.lines_ + ls.sum := by
  induction inputs with
  | nil =>
    intro s t ls hrun hbal
    simp only [runSteps, Option.some.injEq, Prod.mk.injEq] at hrun
    obtain ⟨rfl, rfl⟩ := hrun
    simp [hbal]
  | cons a rest ih =>
    intro s t ls hrun hbal
    obtain ⟨pos, next_piece⟩ := a
    simp only [runSteps] at hrun
    split at hrun
    · next hfour =>
      split at hrun
      · next ret s1 heq =>
        cases hrest : runSteps env s1 rest with
        | none => simp [hrest] at hrun
        | some out =>
          obtain ⟨t2, ls2⟩ := out
          simp only [hrest, Option.map_some', Option.some.injEq, Prod.mk.injEq] at hrun
          obtain ⟨rfl, rfl⟩ := hrun
          obtain ⟨hb1, hl1⟩ :=
            stepGame_keeps_balance env hclear s pos next_piece ret s1 hfour heq hbal
          obtain ⟨hb2, hl2⟩ := ih s1 t2 ls2 hrest hb1
          refine ⟨hb2, ?_⟩
          rw [hl2, hl1, List.sum_cons]
          omega
      · simp at hrun
    · simp at hrun

/-- C2: after a `Reset` that does not throw and after every run of successful
`StepGame_` calls that follows it, assuming `ClearLines` removes exactly 10 occupied
cells per cleared line and reports that count, `pieces_ * 4 == lines_ * 10 +
board_.Count()` holds exactly, and `lines_` is the `Reset` value plus the sum of the line
counts returned by the steps. -/
theorem C2_pieces_lines_balance (env : Env Board) (hclear : ClearsTenPerLine env)
    (s : Tetris Board) (b : Board) (lines now_piece next_piece : Int) (taps : List Int)
    (adj_delay : Int) (s0 : Tetris Board)
    (hreset : Reset env s b lines now_piece next_piece taps adj_delay = (.ok (), s0))
    (inputs : List (Position × Int)) (t : Tetris Board) (ls : List Int)
    (hrun : runSteps env s0 inputs = some (t, ls)) :
    t.pieces_ * 4 = t.lines_ * 10 + (env.Count t.board_ : Int) ∧
    t.lines_ = lines + ls.sum := by
  obtain ⟨hboard, hlines, hbal, _, _⟩ :=
    reset_ok_fields env s b lines now_piece next_piece taps adj_delay s0 hreset
  have h := runSteps_keeps_balance env hclear inputs s0 t ls hrun
    (by rw [hboard, hlines]; exact hbal)
  rw [hlines] at h
  exact h

/-! ## `SetLines` -/

/-- C9: `SetLines(n)` returns normally iff `GetLevelSpeed(GetLevelByLines(n))` equals the
current `LevelSpeed()`; when it does not, it throws a range error and leaves the whole
state (in particular `lines_` and `pieces_`) unchanged; when it does, the new state is
the old one with `lines_ := n` and the truncated quotient `((n - lines_) * 10) / 4`
added to `pieces_`, and nothing else changed. -/
theorem C9_setLines (env : Env Board) (s : Tetris Board) (n : Int) :
    ((SetLines env s n).1 = .ok () ↔
      env.GetLevelSpeed (env.GetLevelByLines n) = LevelSpeed env s) ∧
    (env.GetLevelSpeed (env.GetLevelByLines n) ≠ LevelSpeed env s →
      SetLines env s n = (.error .range_error, s)) ∧
    (env.GetLevelSpeed (env.GetLevelByLines n) = LevelSpeed env s →
      SetLines env s n =
        (.ok (), { s with
          lines_ := n,
          pieces_ := s.pieces_ + Int.tdiv ((n - s.lines_) * 10) 4 })) := by
  refine ⟨?_, ?_, ?_⟩
  · by_cases h : env.GetLevelSpeed (env.GetLevelByLines n) = LevelSpeed env s
    · simp [SetLines, h]
    · simp [SetLines, h]
  · intro h
    simp [SetLines, h]
  · intro h
    simp [SetLines, h]

end Claims

/-! ## Well-formed states -/

section Invariant

variable {Board : Type}

/-- After a `CalculateMoves_` that returns, the move map is in sync unless the search
found nothing and set `game_over_`. -/
theorem calculateMoves_sync (env : Env Board) (s : Tetris Board) (regenerate : Bool)
    (t : Tetris Board) (h : CalculateMoves_ env s regenerate = (.ok (), t)) :
    t.game_over_ = false → MapInSync t := by
  intro hgo
  simp only [CalculateMoves_] at h
  split at h
  · split at h
    · simp only [Prod.mk.injEq, true_and] at h
      subst h
      simp at hgo
    · split at h
      · simp at h
      · simp only [Prod.mk.injEq, true_and] at h
        subst h
        rfl
  · simp only [Prod.mk.injEq, true_and] at h
    subst h
    rfl

/-- After a step that passes the guard and returns, the state is well formed. -/
theorem stepGame_wellFormed (env : Env Board) (s : Tetris Board) (pos : Position)
    (next_piece : Int) (ret : Int × Int) (t : Tetris Board) (hwf : WellFormed s)
    (h : StepGame_ env s pos next_piece = (.ok ret, t)) : WellFormed t := by
  by_cases hfour : placesFour env s pos
  · rw [stepGame_placed env s pos next_piece hfour] at h
    split at h
    · simp at h
    · next u s2 heq =>
      simp only [Prod.mk.injEq, Except.ok.injEq] at h
      obtain ⟨_, rfl⟩ := h
      refine ⟨le_refl _, ?_⟩
      intro hgo
      simp only [capOrSearch] at heq
      split at heq
      · simp only [Prod.mk.injEq, true_and] at heq
        subst heq
        simp at hgo
      · exact calculateMoves_sync env _ true s2 heq hgo
  · rw [stepGame_cut_off env s pos next_piece hfour] at h
    simp only [Prod.mk.injEq, Except.ok.injEq] at h
    obtain ⟨_, rfl⟩ := h
    exact ⟨by have := hwf.1; simp only; omega, hwf.2⟩

/-- A `Reset` that returns leaves a well-formed state, whatever the state before. -/
theorem reset_wellFormed (env : Env Board) (s : Tetris Board) (b : Board)
    (lines now_piece next_piece : Int) (taps : List Int) (adj_delay : Int)
    (s0 : Tetris Board)
    (h : Reset env s b lines now_piece next_piece taps adj_delay = (.ok (), s0)) :
    WellFormed s0 := by
  simp only [Reset] at h
  split at h
  · simp at h
  · split at h
    · simp at h
    · next u s2 heq =>
      simp only [Prod.mk.injEq, true_and] at h
      subst h
      refine ⟨le_refl _, ?_⟩
      intro hgo
      exact calculateMoves_sync env _ true s2 heq hgo

/-- Every public call that returns keeps the state well formed. -/
theorem applyCall_wellFormed (env : Env Board) (s : Tetris Board) (c : Call Board)
    (hwf : WellFormed s) (hok : callThrows env s c = false) :
    WellFormed (applyCall env s c) := by
  cases c with
  | reset b lines now_piece next_piece taps adj_delay =>
    simp only [callThrows, Bool.not_eq_false'] at hok
    simp only [applyCall]
    apply reset_wellFormed env s b lines now_piece next_piece taps adj_delay
    generalize Reset env s b lines now_piece next_piece taps adj_delay = out at hok
    obtain ⟨r, t⟩ := out
    cases r with
    | error e => simp [Except.isOk, Except.toBool] at hok
    | ok u => rfl
  | inputPlacement pos next_piece =>
    simp only [callThrows, Bool.not_eq_false'] at hok
    simp only [applyCall]
    simp only [InputPlacement] at hok ⊢
    split
    · exact hwf
    · split
      · exact hwf
      · split
        · exact ⟨by have := hwf.1; simp only; omega, hwf.2⟩
        · split
          · rw [if_neg (by assumption), if_neg (by assumption), if_neg (by assumption),
              if_pos (by assumption)] at hok
            generalize hout : StepGame_ env s pos next_piece = out at hok
            obtain ⟨r, t⟩ := out
            cases r with
            | error e => simp [Except.isOk, Except.toBool] at hok
            | ok ret => exact stepGame_wellFormed env s pos next_piece ret t hwf hout
          · simp only [CalculateMoves_]
            refine ⟨le_refl _, ?_⟩
            intro _
            rfl
  | directPlacement pos next_piece =>
    simp only [callThrows, Bool.not_eq_false'] at hok
    simp only [applyCall]
    simp only [DirectPlacement] at hok ⊢
    split
    · exact hwf
    · split
      · exact hwf
      · split
        · exact ⟨hwf.1, by intro h; simp at h⟩
        · rw [if_neg (by assumption), if_neg (by assumption), if_neg (by assumption)] at hok
          generalize hout : StepGame_ env s pos next_piece = out at hok
          obtain ⟨r, t⟩ := out
          cases r with
          | error e => simp [Except.isOk, Except.toBool] at hok
          | ok ret =>
            have hwt := stepGame_wellFormed env s pos next_piece ret t hwf hout
            simp only
            split
            · exact ⟨hwt.1, by intro h; simp at h⟩
            · exact hwt
  | setNextPiece piece =>
    simp only [applyCall, SetNextPiece]
    split
    · exact hwf
    · exact hwf
  | setLines lines =>
    simp only [applyCall, SetLines]
    split
    · exact hwf
    · exact hwf
  | forceOver =>
    simp only [applyCall, ForceOver]
    exact ⟨hwf.1, by intro h; simp at h⟩

/-- Every state reached from a well-formed one by public calls that return is well
formed. -/
theorem runCalls_wellFormed (env : Env Board) (calls : List (Call Board)) :
    ∀ (s t : Tetris Board), WellFormed s → runCalls env s calls = some t → WellFormed t := by
  induction calls with
  | nil =>
    intro s t hwf hrun
    simp only [runCalls, Option.some.injEq] at hrun
    exact hrun ▸ hwf
  | cons c rest ih =>
    intro s t hwf hrun
    simp only [runCalls] at hrun
    split at hrun
    · simp at hrun
    · next hthrow =>
      exact ih _ t (applyCall_wellFormed env s c hwf (by simpa using hthrow)) hrun

end Invariant

/-! ## The consistency of lines and board cells modulo 4 -/

section Mod4

variable {Board : Type}

/-- A step that returns does not change `(lines_ * 10 + board_.Count()) mod 4`. -/
theorem stepGame_mod4 (env : Env Board) (hclear : ClearsTenPerLine env) (s : Tetris Board)
    (pos : Position) (next_piece : Int) (ret : Int × Int) (t : Tetris Board)
    (h : StepGame_ env s pos next_piece = (.ok ret, t)) :
    linesCellsMod4 env t = linesCellsMod4 env s := by
  by_cases hfour : placesFour env s pos
  · obtain ⟨hret, hboard, hlines, _⟩ := stepGame_ok_fields env s pos next_piece ret t hfour h
    have hc := hclear (env.Place s.board_ s.now_piece_ pos.r pos.x pos.y)
    unfold placesFour at hfour
    simp only [linesCellsMod4]
    rw [hboard, hlines, hret]
    omega
  · rw [stepGame_cut_off env s pos next_piece hfour] at h
    simp only [Prod.mk.injEq, Except.ok.injEq] at h
    obtain ⟨_, rfl⟩ := h
    rfl

/-- A public call that returns keeps `(lines_ * 10 + board_.Count()) mod 4 == 0`,
provided that a `SetLines` call changes the line count by an even number. -/
theorem applyCall_mod4 (env : Env Board) (hclear : ClearsTenPerLine env) (s : Tetris Board)
    (c : Call Board) (hinv : linesCellsMod4 env s = 0) (heven : evenSetLines s c)
    (hok : callThrows env s c = false) : linesCellsMod4 env (applyCall env s c) = 0 := by
  cases c with
  | reset b lines now_piece next_piece taps adj_delay =>
    simp only [callThrows, Bool.not_eq_false'] at hok
    simp only [applyCall]
    generalize hout : Reset env s b lines now_piece next_piece taps adj_delay = out at hok
    obtain ⟨r, t⟩ := out
    cases r with
    | error e => simp [Except.isOk, Except.toBool] at hok
    | ok u =>
      obtain ⟨hboard, hlines, hbal, _, _⟩ :=
        reset_ok_fields env s b lines now_piece next_piece taps adj_delay t hout
      simp only [linesCellsMod4]
      rw [hboard, hlines]
      omega
  | inputPlacement pos next_piece =>
    simp only [callThrows, Bool.not_eq_false'] at hok
    simp only [applyCall]
    simp only [InputPlacement] at hok ⊢
    split
    · exact hinv
    · split
      · exact hinv
      · split
        · exact hinv
        · split
          · rw [if_neg (by assumption), if_neg (by assumption), if_neg (by assumption),
              if_pos (by assumption)] at hok
            generalize hout : StepGame_ env s pos next_piece = out at hok
            obtain ⟨r, t⟩ := out
            cases r with
            | error e => simp [Except.isOk, Except.toBool] at hok
            | ok ret =>
              rw [stepGame_mod4 env hclear s pos next_piece ret t hout]
              exact hinv
          · simp only [CalculateMoves_]
            exact hinv
  | directPlacement pos next_piece =>
    simp only [callThrows, Bool.not_eq_false'] at hok
    simp only [applyCall]
    simp only [DirectPlacement] at hok ⊢
    split
    · exact hinv
    · split
      · exact hinv
      · split
        · exact hinv
        · rw [if_neg (by assumption), if_neg (by assumption), if_neg (by assumption)] at hok
          generalize hout : StepGame_ env s pos next_piece = out at hok
          obtain ⟨r, t⟩ := out
          cases r with
          | error e => simp [Except.isOk, Except.toBool] at hok
          | ok ret =>
            have hstep := stepGame_mod4 env hclear s pos next_piece ret t hout
            simp only
            split
            · exact hstep.trans hinv
            · exact hstep.trans hinv
  | setNextPiece piece =>
    simp only [applyCall, SetNextPiece]
    split
    · exact hinv
    · exact hinv
  | setLines lines =>
    simp only [evenSetLines] at heven
    simp only [applyCall, SetLines]
    split
    · exact hinv
    · simp only [linesCellsMod4] at hinv ⊢
      omega
  | forceOver =>
    exact hinv

/-- Along public calls that return, with every `SetLines` changing the line count by an
even number, `(lines_ * 10 + board_.Count()) mod 4 == 0` is kept. -/
theorem runCalls_mod4 (env : Env Board) (hclear : ClearsTenPerLine env)
    (calls : List (Call Board)) :
    ∀ (s t : Tetris Board), linesCellsMod4 env s = 0 → evenSetLinesAlong env s calls →
      runCalls env s calls = some t → linesCellsMod4 env t = 0 := by
  induction calls with
  | nil =>
    intro s t hinv _ hrun
    simp only [runCalls, Option.some.injEq] at hrun
    exact hrun ▸ hinv
  | cons c rest ih =>
    intro s t hinv heven hrun
    simp only [runCalls] at hrun
    split at hrun
    · simp at hrun
    · next hthrow =>
      exact ih _ t
        (applyCall_mod4 env hclear s c hinv heven.1 (by simpa using hthrow)) heven.2 hrun

end Mod4

/-! ## The concrete environment meets the assumptions -/

namespace Sample

/-- The occupied cells of a board: those of the surviving rows plus ten per full row. -/
theorem count_filter (b : ByteBoard) :
    Count b = Count (b.filter (fun row => row.any id)) +
      10 * (b.length - (b.filter (fun row => row.any id)).length) := by
  induction b with
  | nil => simp [Count]
  | cons row rest ih =>
    have hle := List.length_filter_le (fun row : List Bool => row.any id) rest
    by_cases hrow : row.any id = true
    · simp only [List.filter_cons, hrow, if_true, List.length_cons]
      simp only [Count, List.map_cons, List.sum_cons] at ih ⊢
      omega
    · have hcount : row.count true = 0 := by
        rw [List.count_eq_zero]
        intro hmem
        exact hrow (List.any_eq_true.mpr ⟨true, hmem, rfl⟩)
      simp only [List.filter_cons, hrow, List.length_cons]
      simp only [Count, List.map_cons, List.sum_cons, hcount] at ih ⊢
      simp only [Bool.false_eq_true, if_false]
      omega

/-- Rows of ten empty cells hold no occupied cell. -/
theorem count_replicate_empty (n : Nat) (b : ByteBoard) :
    Count (List.replicate n (List.replicate 10 true) ++ b) = Count b := by
  have hrow : 10 - (List.replicate 10 true).count true = 0 := by decide
  generalize List.replicate 10 true = row at hrow
  induction n with
  | zero => simp
  | succ n ih =>
    simp only [List.replicate_succ, List.cons_append]
    simp only [Count, List.map_cons, List.sum_cons] at ih ⊢
    rw [ih, hrow]
    simp

/-- The line clear of the concrete board removes ten occupied cells per cleared line. -/
theorem clearsTenPerLine : ClearsTenPerLine env := by
  intro b
  have h := count_filter b
  have hle := List.length_filter_le (fun row : List Bool => row.any id) b
  show ((Count (ClearLines b).2 : Nat) : Int) + 10 * (ClearLines b).1 = (Count b : Nat)
  simp only [ClearLines, count_replicate_empty]
  omega

/-- The stand-in search reports at most three initials. -/
theorem searchBounded : SearchBounded env := by
  intro lvl d taps tbl b p
  show (MoveSearch lvl d taps tbl b p).adj.length ≤ 64
  simp only [MoveSearch]
  split
  · simp
  · simp only [List.length_map]
    have := List.length_filter_le (fun y => fits b p 0 6 y) [4, 5, 6]
    simp only [List.length_cons, List.length_nil] at this
    omega

end Sample

/-! ## Closed instances -/

section Instances

open Sample

/-- The first `Reset` of the examples returns. -/
theorem start_reset : Reset env fresh Ones 0 6 0 Tap30Hz 18 = (.ok (), start) :=
  Prod.ext (by decide) rfl

/-- The `Reset` with two I pieces returns. -/
theorem startII_reset : Reset env fresh Ones 0 6 6 Tap30Hz 18 = (.ok (), startII) :=
  Prod.ext (by decide) rfl

/-- Instance of C1: over the tower the upright I piece at `(1, 0, 5)` is cut off by the
top of the board, and the step only counts a failure. -/
theorem C1_witness :
    ¬ placesFour env startTower ⟨1, 0, 5⟩ ∧
    (StepGame_ env startTower ⟨1, 0, 5⟩ 0).1 = .ok (-1, 0) ∧
    (StepGame_ env startTower ⟨1, 0, 5⟩ 0).2 =
      { startTower with consecutive_fail_ := startTower.consecutive_fail_ + 1 } :=
  ⟨by decide,
   ((C1_step_succeeds_only_with_four_cells env startTower ⟨1, 0, 5⟩ 0).2 (by decide)).1,
   ((C1_step_succeeds_only_with_four_cells env startTower ⟨1, 0, 5⟩ 0).2 (by decide)).2.1⟩

/-- Instance of C2: two flat I pieces and an O piece fill the bottom row; after the three
steps there are 3 pieces, 1 line and 2 occupied cells. -/
theorem C2_witness :
    ∃ t ls, runSteps env startII [(⟨0, 19, 2⟩, 3), (⟨0, 19, 6⟩, 0), (⟨0, 18, 9⟩, 1)] =
        some (t, ls) ∧
      ls = [0, 0, 1] ∧ t.pieces_ = 3 ∧ t.lines_ = 1 ∧
      t.pieces_ * 4 = t.lines_ * 10 + (env.Count t.board_ : Int) ∧
      t.lines_ = 0 + ls.sum := by
  have hsome : ((runSteps env startII
      [(⟨0, 19, 2⟩, 3), (⟨0, 19, 6⟩, 0), (⟨0, 18, 9⟩, 1)]).map
        (fun out => (out.2, out.1.pieces_, out.1.lines_))) = some ([0, 0, 1], 3, 1) := by
    decide
  cases hrun : runSteps env startII [(⟨0, 19, 2⟩, 3), (⟨0, 19, 6⟩, 0), (⟨0, 18, 9⟩, 1)] with
  | none => simp [hrun] at hsome
  | some out =>
    obtain ⟨t, ls⟩ := out
    simp only [hrun, Option.map_some', Option.some.injEq, Prod.mk.injEq] at hsome
    have h := C2_pieces_lines_balance env clearsTenPerLine fresh Ones 0 6 6 Tap30Hz 18
      startII startII_reset _ t ls hrun
    exact ⟨t, ls, rfl, hsome.1, hsome.2.1, hsome.2.2, h.1, h.2⟩

/-- C3 (the code at the failing input): after `Reset(Board::Ones, 0, ...)` the call
`SetLines(1)` returns, both line counts being on level 18, and leaves `lines_ = 1` over
an empty board, so `(lines_ * 10 + board_.Count()) mod 4` is 2; `Reset` itself rejects
that combination of board and line count. -/
theorem C3_setLines_odd_breaks_mod4 :
    (runCalls env fresh [.reset Ones 0 6 0 Tap30Hz 18, .setLines 1]).map
        (fun t => (t.lines_, env.Count t.board_, linesCellsMod4 env t)) = some (1, 0, 2) ∧
    (Reset env fresh Ones 1 6 0 Tap30Hz 18).1 = .error .runtime_error := by
  constructor <;> decide

/-- Instance of C4: `InputPlacement` of the first state at the unreachable cell
`(1, 19, 4)`. -/
theorem C4_witness :
    IsOver start = false ∧ start.move_map_ ⟨1, 19, 4⟩ = 0 ∧
    (InputPlacement env start ⟨1, 19, 4⟩ 3).1 = .ok (-1, 0) ∧
    (InputPlacement env start ⟨1, 19, 4⟩ 3).2 =
      { start with consecutive_fail_ := start.consecutive_fail_ + 1 } ∧
    IsOver (InputPlacement env start ⟨1, 19, 4⟩ 3).2 = true :=
  ⟨by decide, by decide,
   (C4_input_unreachable_cell env start ⟨1, 19, 4⟩ 3 (by decide) (by decide) (by decide)
      (by decide)).1,
   (C4_input_unreachable_cell env start ⟨1, 19, 4⟩ 3 (by decide) (by decide) (by decide)
      (by decide)).2.1,
   (C4_input_unreachable_cell env start ⟨1, 19, 4⟩ 3 (by decide) (by decide) (by decide)
      (by decide)).2.2.2⟩

/-- C5 as stated fails: after one invalid input `IsOver()` is true through
`consecutive_fail_ == 1`, yet the next `InputPlacement` (and likewise `DirectPlacement`)
at the legal cell `(0, 19, 4)` throws nothing, places the piece, and leaves a state in
which `IsOver()` is false again. -/
theorem C5_counterexample :
    IsOver afterMiss = true ∧ afterMiss.game_over_ = false ∧
    (InputPlacement env afterMiss ⟨0, 19, 4⟩ 3).1 = .ok (0, 0) ∧
    (InputPlacement env afterMiss ⟨0, 19, 4⟩ 3).2.pieces_ = afterMiss.pieces_ + 1 ∧
    IsOver (InputPlacement env afterMiss ⟨0, 19, 4⟩ 3).2 = false ∧
    (DirectPlacement env afterMiss ⟨0, 19, 4⟩ 3).1 = .ok (0, 0) ∧
    IsOver (DirectPlacement env afterMiss ⟨0, 19, 4⟩ 3).2 = false := by
  refine ⟨?_, ?_, ?_, ?_, ?_, ?_, ?_⟩ <;> decide

/-- Instance of C5 (amended): after `ForceOver` both placement calls throw a logic error
and leave the state alone. -/
theorem C5_witness :
    (ForceOver start).game_over_ = true ∧
    InputPlacement env (ForceOver start) ⟨0, 19, 4⟩ 3 = (.error .logic_error, ForceOver start) ∧
    DirectPlacement env (ForceOver start) ⟨0, 19, 4⟩ 3 =
      (.error .logic_error, ForceOver start) :=
  ⟨rfl,
   (C5_game_over_flag_absorbing env (ForceOver start) rfl).1 ⟨0, 19, 4⟩ 3,
   (C5_game_over_flag_absorbing env (ForceOver start) rfl).2.1 ⟨0, 19, 4⟩ 3⟩

/-- Instance of C6: `InputPlacement` of the first state at the initial `(0, 6, 4)`,
which is entry 1 of the sorted `adj`; the new map tags exactly the three drops reachable
from it. -/
theorem C6_witness :
    start.move_map_ ⟨0, 6, 4⟩ = kHasAdjNonReduced ∧
    (InputPlacement env start ⟨0, 6, 4⟩ 3).1 = .ok (0, 0) ∧
    (InputPlacement env start ⟨0, 6, 4⟩ 3).2.is_adj_ = true ∧
    (InputPlacement env start ⟨0, 6, 4⟩ 3).2.initial_move_ = 1 ∧
    InitialMove (InputPlacement env start ⟨0, 6, 4⟩ 3).2 = .ok ⟨0, 6, 4⟩ ∧
    (∀ q, (InputPlacement env start ⟨0, 6, 4⟩ 3).2.move_map_ q =
      if q ∈ [(⟨0, 19, 3⟩ : Position), ⟨0, 19, 4⟩, ⟨0, 19, 5⟩] then kNoAdj else 0) := by
  have hsync : MapInSync start :=
    (reset_wellFormed env fresh Ones 0 6 0 Tap30Hz 18 start start_reset).2 (by decide)
  obtain ⟨i, e, hget, hpos, hret, hadj, hinit, hmoves, hmove, hmap, _⟩ :=
    C6_input_has_adj_enters_adjusting env start ⟨0, 6, 4⟩ 3 (by decide) (by decide) hsync
      (by decide) (Or.inr (by decide))
  have hidx : (InputPlacement env start ⟨0, 6, 4⟩ 3).2.initial_move_ = 1 := by decide
  have hi : i = 1 := by rw [hidx] at hinit; exact_mod_cast hinit.symm
  subst hi
  have he : e = (⟨0, 6, 4⟩, [⟨0, 19, 3⟩, ⟨0, 19, 4⟩, ⟨0, 19, 5⟩]) := by
    have h1 : start.moves_.adj[1]? =
        some (⟨0, 6, 4⟩, [⟨0, 19, 3⟩, ⟨0, 19, 4⟩, ⟨0, 19, 5⟩]) := by decide
    rw [h1] at hget
    exact (Option.some.inj hget).symm
  subst he
  exact ⟨by decide, hret, hadj, hidx, hmove, hmap⟩

/-- Instance of C7: `InputPlacement` of the first state at the no-adj cell `(0, 19, 4)`
places the flat I piece: no line, no score, one piece more, the next piece shifted in. -/
theorem C7_witness :
    start.move_map_ ⟨0, 19, 4⟩ = kNoAdj ∧ placesFour env start ⟨0, 19, 4⟩ ∧
    (InputPlacement env start ⟨0, 19, 4⟩ 3).1 = .ok (0, 0) ∧
    (InputPlacement env start ⟨0, 19, 4⟩ 3).2.pieces_ = start.pieces_ + 1 ∧
    (InputPlacement env start ⟨0, 19, 4⟩ 3).2.now_piece_ = start.next_piece_ ∧
    (InputPlacement env start ⟨0, 19, 4⟩ 3).2.next_piece_ = 3 ∧
    (InputPlacement env start ⟨0, 19, 4⟩ 3).2.consecutive_fail_ = 0 := by
  have h := C7_input_no_adj_applies_step env searchBounded start ⟨0, 19, 4⟩ 3 (by decide)
    (by decide) (by decide) (by decide)
  have hscore : (env.GameScore start.lines_
      (env.ClearLines (env.Place start.board_ start.now_piece_ 0 19 4)).1,
      (env.ClearLines (env.Place start.board_ start.now_piece_ 0 19 4)).1) = (0, 0) := by
    decide
  refine ⟨by decide, by decide, ?_, h.2.2.1, h.2.2.2.1, h.2.2.2.2.1, h.2.2.2.2.2.2.1⟩
  rw [h.1]
  exact congrArg Except.ok hscore

/-- Instance of C8: `DirectPlacement` of the first state at the drop `(0, 19, 3)`, which
is reachable from an initial, is the step itself; at the unlisted cell `(1, 19, 4)` it
only sets `game_over_`; over the tower the listed upright I at `(1, 0, 5)` is cut off
and the game is over. -/
theorem C8_witness :
    (DirectPlacement env start ⟨0, 19, 3⟩ 3).1 = (StepGame_ env start ⟨0, 19, 3⟩ 3).1 ∧
    DirectPlacement env start ⟨1, 19, 4⟩ 3 = (.ok (-1, 0), { start with game_over_ := true }) ∧
    DirectPlacement env startTower ⟨1, 0, 5⟩ 0 =
      (.ok (-1, 0), { startTower with
        consecutive_fail_ := startTower.consecutive_fail_ + 1,
        game_over_ := true }) :=
  ⟨((C8_direct_placement env start ⟨0, 19, 3⟩ 3 (by decide) (by decide)).1
      (Or.inl (by decide))).1,
   (C8_direct_placement env start ⟨1, 19, 4⟩ 3 (by decide) (by decide)).2.1 (by decide),
   (C8_direct_placement env startTower ⟨1, 0, 5⟩ 0 (by decide) (by decide)).2.2.1
      (Or.inl (by decide)) (by decide)⟩

/-- Instance of C9: from 0 lines, `SetLines(1)` stays on level 18 and adds
`10 / 4 = 2` pieces, while `SetLines(130)` would change the speed and throws. -/
theorem C9_witness :
    SetLines env start 1 =
      (.ok (), { start with
        lines_ := 1,
        pieces_ := start.pieces_ + Int.tdiv ((1 - start.lines_) * 10) 4 }) ∧
    (SetLines env start 1).2.pieces_ = 2 ∧
    SetLines env start 130 = (.error .range_error, start) :=
  ⟨(C9_setLines env start 1).2.2 (by decide), by decide,
   (C9_setLines env start 130).2.1 (by decide)⟩

/-- Instance of C10: in a game started at 430 lines the first step reaches the cap and
ends the game with the old move list; in the first state of a game at 0 lines the step
at `(0, 19, 4)` stays below the cap and, the search finding moves, leaves the game on. -/
theorem C10_witness :
    (StepGame_ env startAtCap ⟨0, 19, 4⟩ 3).2.game_over_ = true ∧
    (StepGame_ env startAtCap ⟨0, 19, 4⟩ 3).2.moves_ = startAtCap.moves_ ∧
    (StepGame_ env start ⟨0, 19, 4⟩ 3).2.lines_ < env.kLineCap ∧
    (StepGame_ env start ⟨0, 19, 4⟩ 3).2.game_over_ = false :=
  ⟨((C10_line_cap_and_top_out env startAtCap ⟨0, 19, 4⟩ 3 (by decide)).1 (by decide)).1,
   ((C10_line_cap_and_top_out env startAtCap ⟨0, 19, 4⟩ 3 (by decide)).1
      (by decide)).2.2.2.1,
   ((C10_line_cap_and_top_out env start ⟨0, 19, 4⟩ 3 (by decide)).2 (by decide) rfl
      (by decide)).1,
   by decide⟩

end Instances

/-! ## `CalculateMoves_`: top-out -/

section TopOut

variable {Board : Type}

/-- Writes of non-zero tags leave a non-zero tag at every cell that is written or was
non-zero before. -/
theorem foldl_setCell_nonzero {α : Type} (f : α → Position) (g : α → Nat) (l : List α)
    (hg : ∀ e ∈ l, g e ≠ 0) :
    ∀ (m : MoveMap) (q : Position), (m q ≠ 0 ∨ ∃ e ∈ l, f e = q) →
      (l.foldl (fun m e => setCell m (f e) (g e)) m) q ≠ 0 := by
  induction l with
  | nil =>
    intro m q h
    rcases h with h | ⟨e, he, _⟩
    · simpa using h
    · simp at he
  | cons a l ih =>
    intro m q h
    simp only [List.foldl_cons]
    apply ih (fun e he => hg e (List.mem_cons_of_mem a he))
    by_cases hq : q = f a
    · left
      simp only [setCell, hq, if_true]
      exact hg a (List.mem_cons_self a l)
    · rcases h with h | ⟨e, he, hfe⟩
      · left
        simpa [setCell, hq] using h
      · rcases List.mem_cons.mp he with rfl | he2
        · exact absurd hfe.symm hq
        · exact Or.inr ⟨e, he2, hfe⟩

/-- In the playing phase the map built from a non-empty move list has a non-zero tag. -/
theorem fillMoveMap_has_tag (moves : PossibleMoves) (initial_move : Int) (mask : Nat)
    (h : moves.non_adj ≠ [] ∨ moves.adj ≠ []) :
    ∃ q, fillMoveMap false moves initial_move mask q ≠ 0 := by
  have htags : ∀ e ∈ moves.adj.enum,
      (fun e : Nat × AdjItem =>
        if mask.testBit e.1 then kHasAdjNonReduced else kHasAdjReduced) e ≠ 0 := by
    intro e _
    simp only [kHasAdjNonReduced, kHasAdjReduced]
    split <;> decide
  by_cases hadj : moves.adj = []
  · have hn : moves.non_adj ≠ [] := by
      rcases h with h | h
      · exact h
      · exact absurd hadj h
    obtain ⟨p, rest, hp⟩ := List.exists_cons_of_ne_nil hn
    refine ⟨p, ?_⟩
    simp only [fillMoveMap, Bool.not_false, if_true]
    apply foldl_setCell_nonzero (fun e : Nat × AdjItem => e.2.1) _ _ htags
    left
    rw [foldl_setCell_const, hp]
    simp [kNoAdj]
  · obtain ⟨a, rest, ha⟩ := List.exists_cons_of_ne_nil hadj
    refine ⟨a.1, ?_⟩
    simp only [fillMoveMap, Bool.not_false, if_true]
    apply foldl_setCell_nonzero (fun e : Nat × AdjItem => e.2.1) _ _ htags
    right
    refine ⟨(0, a), ?_, rfl⟩
    rw [ha]
    simp [List.enum, List.enumFrom]

/-- The list `moves_.adj` after `CalculateInitialMask_` is a rearrangement of the one
before, and `non_adj` is untouched. -/
theorem calculateInitialMask_perm (env : Env Board) (hsort : SortPermutes env)
    (s : Tetris Board) :
    (CalculateInitialMask_ env s).2.moves_.adj.Perm s.moves_.adj ∧
    (CalculateInitialMask_ env s).2.moves_.non_adj = s.moves_.non_adj := by
  simp only [CalculateInitialMask_]
  split
  · exact ⟨List.Perm.refl _, rfl⟩
  · split
    · exact ⟨List.Perm.refl _, rfl⟩
    · exact ⟨hsort _, rfl⟩

/-- C11: when the search of `CalculateMoves_(true)` returns empty `non_adj` and empty
`adj`, the call stores the result, sets `game_over_` and returns at once (map and mask
untouched); when one of the two lists is non-empty it leaves `game_over_` as it was and,
the search reporting at most 64 initials and the state not adjusting, returns with a
rebuilt move map that has a non-zero tag. -/
theorem C11_calculateMoves_top_out (env : Env Board) (hsort : SortPermutes env)
    (s : Tetris Board) :
    ((searchResult env s).non_adj = [] ∧ (searchResult env s).adj = [] →
      CalculateMoves_ env s true =
        (.ok (), { s with moves_ := searchResult env s, game_over_ := true })) ∧
    (¬ ((searchResult env s).non_adj = [] ∧ (searchResult env s).adj = []) →
      (CalculateMoves_ env s true).2.game_over_ = s.game_over_ ∧
      ((searchResult env s).adj.length ≤ 64 → s.is_adj_ = false →
        (CalculateMoves_ env s true).1 = .ok () ∧
        ∃ q, (CalculateMoves_ env s true).2.move_map_ q ≠ 0)) := by
  constructor
  · intro hempty
    simp only [CalculateMoves_, if_true]
    have : ((searchResult env s).non_adj.isEmpty && (searchResult env s).adj.isEmpty) = true := by
      simp [hempty.1, hempty.2]
    simp only [searchResult] at this
    rw [if_pos this]
    rfl
  · intro hne
    have hcond : ¬ (((searchResult env s).non_adj.isEmpty &&
        (searchResult env s).adj.isEmpty) = true) := by
      intro hc
      simp only [Bool.and_eq_true, List.isEmpty_iff] at hc
      exact hne hc
    have hperm := calculateInitialMask_perm env hsort { s with moves_ := searchResult env s }
    have hfr := calculateInitialMask_frame env { s with moves_ := searchResult env s } _ rfl
    have hok := calculateInitialMask_isOk env { s with moves_ := searchResult env s } _ rfl
    have hunfold : CalculateMoves_ env s true =
        match CalculateInitialMask_ env { s with moves_ := searchResult env s } with
        | (.error e, s2) => (.error e, s2)
        | (.ok _, s2) =>
          (.ok (), { s2 with
            move_map_ := fillMoveMap s2.is_adj_ s2.moves_ s2.initial_move_ s2.initial_mask_ }) := by
      simp only [CalculateMoves_, if_true]
      simp only [searchResult] at hcond
      rw [if_neg hcond]
      rfl
    rw [hunfold]
    generalize CalculateInitialMask_ env { s with moves_ := searchResult env s } = out
      at hperm hfr hok
    obtain ⟨r, s2⟩ := out
    simp only at hperm hfr hok
    constructor
    · cases r with
      | error e => exact hfr.2.2.2.2.2.2.2.1
      | ok u => exact hfr.2.2.2.2.2.2.2.1
    · intro hlen hadj
      have hr : r = .ok () := hok.mpr hlen
      subst hr
      refine ⟨rfl, ?_⟩
      simp only
      rw [hfr.2.2.2.1, hadj]
      apply fillMoveMap_has_tag
      rcases Classical.not_and_iff_or_not_not.mp hne with h | h
      · left
        rw [hperm.2]
        exact h
      · right
        intro h2
        apply h
        have := hperm.1.length_eq
        rw [h2] at this
        exact List.length_eq_zero.mp this.symm

end TopOut

/-! ## The mask reduction of `CalculateInitialMask_` -/

section MaskBits

/-- Clearing bit `j` of a 64-bit mask only touches bit `j`. -/
theorem testBit_clearBit (m j k : Nat) (hj : j < 64) (hk : k < 64) :
    (clearBit m j).testBit k = (m.testBit k && !decide (j = k)) := by
  have h2 : (1 <<< j) % 2 ^ 64 = 2 ^ j := by
    rw [Nat.one_shiftLeft]
    exact Nat.mod_eq_of_lt (Nat.pow_lt_pow_right (by norm_num) hj)
  simp only [clearBit, h2, Nat.testBit_and, Nat.testBit_xor, Nat.testBit_two_pow_sub_one,
    Nat.testBit_two_pow, hk, decide_True, Bool.true_xor]

/-- The initial mask `(1ll << n) - 1` has exactly the bits below `n`. -/
theorem testBit_initial_mask (n k : Nat) (hn : n ≤ 64) :
    ((2 ^ n - 1) % 2 ^ 64).testBit k = decide (k < n) := by
  rw [Nat.testBit_mod_two_pow, Nat.testBit_two_pow_sub_one]
  by_cases hk : k < n
  · have : k < 64 := by omega
    simp [hk, this]
  · simp [hk]

/-- One pass of the inner loop: bit `k` survives iff it was set and entry `i` does not
drop entry `k`. -/
theorem reduceInner_fold (adj : List AdjItem) (bs : List Nat) (i : Nat) (l : List Nat)
    (hl : ∀ j ∈ l, j < 64) :
    ∀ (m k : Nat), k < 64 →
      (l.foldl (fun m j =>
        if i == j || !(m.testBit j) ||
            decide ((adj.getD i (⟨0, 0, 0⟩, [])).2.length <
              (adj.getD j (⟨0, 0, 0⟩, [])).2.length)
        then m
        else if (bs.getD i 0 &&& bs.getD j 0) == bs.getD j 0 then clearBit m j else m)
        m).testBit k =
      (m.testBit k && !(decide (k ∈ l) && dominates adj bs i k)) := by
  induction l with
  | nil => intro m k _; simp
  | cons j l ih =>
    intro m k hk
    have hj : j < 64 := hl j (List.mem_cons_self j l)
    simp only [List.foldl_cons]
    rw [ih (fun x hx => hl x (List.mem_cons_of_mem j hx)) _ k hk]
    have hstep : (if i == j || !(m.testBit j) ||
            decide ((adj.getD i (⟨0, 0, 0⟩, [])).2.length <
              (adj.getD j (⟨0, 0, 0⟩, [])).2.length)
        then m
        else if (bs.getD i 0 &&& bs.getD j 0) == bs.getD j 0 then clearBit m j
          else m).testBit k =
        (m.testBit k && !(decide (k = j) && dominates adj bs i k)) := by
      simp only [dominates]
      by_cases hkj : k = j
      · subst hkj
        generalize decide ((adj.getD i (⟨0, 0, 0⟩, [])).2.length <
            (adj.getD k (⟨0, 0, 0⟩, [])).2.length) = c3
        generalize ((bs.getD i 0 &&& bs.getD k 0) == bs.getD k 0) = c4
        by_cases h1 : i = k
        · subst h1
          simp
        · have hb : (i == k) = false := by simp [h1]
          cases c3 <;> cases c4 <;> cases h2 : m.testBit k <;>
            simp [hb, h2, testBit_clearBit _ _ _ hk hk]
      · have hjk : ¬ j = k := fun h => hkj h.symm
        simp only [hkj, decide_False, Bool.false_and, Bool.not_false, Bool.and_true]
        split
        · rfl
        · split
          · rw [testBit_clearBit _ _ _ hj hk]
            simp [hjk]
          · rfl
    rw [hstep]
    have hmem : decide (k ∈ j :: l) = (decide (k = j) || decide (k ∈ l)) := by
      simp [List.mem_cons]
    rw [hmem]
    generalize m.testBit k = b0
    generalize dominates adj bs i k = b1
    generalize decide (k = j) = b2
    generalize decide (k ∈ l) = b3
    cases b0 <;> cases b1 <;> cases b2 <;> cases b3 <;> rfl

/-- The inner loop for a fixed `i`: bit `k` survives iff it was set and entry `i` does
not drop entry `k`. -/
theorem reduceInner_testBit (adj : List AdjItem) (bs : List Nat) (i : Nat)
    (hn : adj.length ≤ 64) (m k : Nat) (hk : k < 64) :
    (reduceInner adj bs i m).testBit k =
      (m.testBit k && !(decide (k < adj.length) && dominates adj bs i k)) := by
  have h := reduceInner_fold adj bs i (List.range adj.length)
    (fun j hj => by have := List.mem_range.mp hj; omega) m k hk
  simp only [List.mem_range] at h
  exact h

/-- The outer loop up to index `t`: bit `k` is still set iff it was set at the start and
no entry that was itself still set when its turn came drops entry `k`. -/
theorem maskBefore_testBit (adj : List AdjItem) (bs : List Nat) (hn : adj.length ≤ 64)
    (m0 k : Nat) (hk : k < 64) (t : Nat) :
    (maskBefore adj bs m0 t).testBit k = true ↔
      m0.testBit k = true ∧
      ∀ u, u < t → ¬ ((maskBefore adj bs m0 u).testBit u = true ∧ k < adj.length ∧
        dominates adj bs u k = true) := by
  induction t with
  | zero => simp [maskBefore]
  | succ t ih =>
    have hsucc : maskBefore adj bs m0 (t + 1) =
        if !((maskBefore adj bs m0 t).testBit t) then maskBefore adj bs m0 t
        else reduceInner adj bs t (maskBefore adj bs m0 t) := by
      simp only [maskBefore, List.range_succ, List.foldl_append, List.foldl_cons,
        List.foldl_nil]
    rw [hsucc]
    constructor
    · intro h
      have hprev : (maskBefore adj bs m0 t).testBit k = true := by
        split at h
        · exact h
        · rw [reduceInner_testBit adj bs t hn _ k hk] at h
          simp only [Bool.and_eq_true] at h
          exact h.1
      obtain ⟨h0, hall⟩ := ih.mp hprev
      refine ⟨h0, ?_⟩
      intro u hu
      by_cases hut : u = t
      · subst hut
        intro ⟨hact, hkn, hdom⟩
        simp only [hact, Bool.not_true] at h
        rw [if_neg (by simp)] at h
        rw [reduceInner_testBit adj bs u hn _ k hk] at h
        simp [hkn, hdom] at h
      · exact hall u (by omega)
    · intro ⟨h0, hall⟩
      have hprev : (maskBefore adj bs m0 t).testBit k = true :=
        ih.mpr ⟨h0, fun u hu => hall u (by omega)⟩
      split
      · exact hprev
      · next hact =>
        rw [reduceInner_testBit adj bs t hn _ k hk, hprev]
        have hact2 : (maskBefore adj bs m0 t).testBit t = true := by
          simpa using hact
        have := hall t (by omega)
        simp only [hact2, true_and, not_and] at this
        by_cases hkn : k < adj.length
        · have hd := this hkn
          simp [hkn, hd]
        · simp [hkn]

end MaskBits

section MaskOrder

/-- What the test `dominates` says. -/
theorem dominates_iff (adj : List AdjItem) (bs : List Nat) (i j : Nat) :
    dominates adj bs i j = true ↔
      i ≠ j ∧
      (adj.getD j (⟨0, 0, 0⟩, [])).2.length ≤ (adj.getD i (⟨0, 0, 0⟩, [])).2.length ∧
      bs.getD i 0 &&& bs.getD j 0 = bs.getD j 0 := by
  simp only [dominates, Bool.and_eq_true, Bool.not_eq_true', beq_eq_false_iff_ne, ne_eq,
    decide_eq_false_iff_not, not_lt, beq_iff_eq]
  tauto

/-- Inclusion of bitsets is transitive. -/
theorem land_trans (a b c : Nat) (hab : a &&& b = b) (hbc : b &&& c = c) : a &&& c = c := by
  calc a &&& c = a &&& (b &&& c) := by rw [hbc]
    _ = (a &&& b) &&& c := by rw [Nat.land_assoc]
    _ = c := by rw [hab, hbc]

/-- The test `dominates` is transitive between different indices. -/
theorem dominates_trans (adj : List AdjItem) (bs : List Nat) (a b c : Nat)
    (hab : dominates adj bs a b = true) (hbc : dominates adj bs b c = true) (hac : a ≠ c) :
    dominates adj bs a c = true := by
  rw [dominates_iff] at hab hbc ⊢
  exact ⟨hac, le_trans hbc.2.1 hab.2.1, land_trans _ _ _ hab.2.2 hbc.2.2⟩

/-- The reduction on the level of the loops: bit `k` is set at the end iff every entry
that could drop entry `k` comes later and is dropped by entry `k` in turn. -/
theorem reduceOuter_testBit (adj : List AdjItem) (bs : List Nat) (hn : adj.length ≤ 64)
    (m0 : Nat) (hm0 : ∀ k, m0.testBit k = decide (k < adj.length)) (k : Nat)
    (hk : k < adj.length) :
    (reduceOuter adj bs m0).testBit k = true ↔
      ∀ j, j < adj.length → dominates adj bs j k = true →
        (k < j ∧ dominates adj bs k j = true) := by
  have hk64 : k < 64 := by omega
  have hfinal := maskBefore_testBit adj bs hn m0 k hk64 adj.length
  have hact : ∀ u, u < adj.length → ((maskBefore adj bs m0 u).testBit u = true ↔
      ∀ v, v < u → ¬ ((maskBefore adj bs m0 v).testBit v = true ∧
        dominates adj bs v u = true)) := by
    intro u hu
    have h := maskBefore_testBit adj bs hn m0 u (by omega) u
    rw [h]
    simp [hm0, hu]
  have hrw : reduceOuter adj bs m0 = maskBefore adj bs m0 adj.length := rfl
  rw [hrw, hfinal]
  constructor
  · intro ⟨_, hall⟩ j hj hdom
    by_cases hactj : (maskBefore adj bs m0 j).testBit j = true
    · exact absurd ⟨hactj, hk, hdom⟩ (hall j hj)
    · have hnot := (not_congr (hact j hj)).mp hactj
      push_neg at hnot
      obtain ⟨v, hvj, hactv, hdomv⟩ := hnot
      by_cases hvk : v = k
      · subst hvk
        exact ⟨hvj, hdomv⟩
      · exact absurd ⟨hactv, hk, dominates_trans adj bs v j k hdomv hdom hvk⟩
          (hall v (by omega))
  · intro hright
    refine ⟨by simp [hm0, hk], ?_⟩
    intro u hu ⟨hactu, _, hdomu⟩
    obtain ⟨hku, hdomku⟩ := hright u hu hdomu
    have hnk : ¬ (maskBefore adj bs m0 k).testBit k = true := by
      intro hactk
      exact (hact u hu).mp hactu k hku ⟨hactk, hdomku⟩
    have hnot := (not_congr (hact k hk)).mp hnk
    push_neg at hnot
    obtain ⟨v, hvk, _, hdomv⟩ := hnot
    have := (hright v (by omega) hdomv).1
    omega

/-- Clearing a bit sets none. -/
theorem testBit_clearBit_imp (m j k : Nat) (h : (clearBit m j).testBit k = true) :
    m.testBit k = true := by
  simp only [clearBit, Nat.testBit_and, Bool.and_eq_true] at h
  exact h.1

/-- The inner loop sets no bit. -/
theorem reduceInner_testBit_imp (adj : List AdjItem) (bs : List Nat) (i m k : Nat)
    (h : (reduceInner adj bs i m).testBit k = true) : m.testBit k = true := by
  simp only [reduceInner] at h
  generalize List.range adj.length = l at h
  induction l generalizing m with
  | nil => simpa using h
  | cons j l ih =>
    simp only [List.foldl_cons] at h
    have h2 := ih _ h
    split at h2
    · exact h2
    · split at h2
      · exact testBit_clearBit_imp m j k h2
      · exact h2

/-- The reduction sets no bit. -/
theorem reduceOuter_testBit_imp (adj : List AdjItem) (bs : List Nat) (m k : Nat)
    (h : (reduceOuter adj bs m).testBit k = true) : m.testBit k = true := by
  simp only [reduceOuter] at h
  generalize List.range adj.length = l at h
  induction l generalizing m with
  | nil => simpa using h
  | cons i l ih =>
    simp only [List.foldl_cons] at h
    have h2 := ih _ h
    split at h2
    · exact h2
    · exact reduceInner_testBit_imp adj bs i m k h2

end MaskOrder

section MaskBitsets

/-- A bitset is inside another iff each of its bits is. -/
theorem land_eq_iff (a b : Nat) :
    a &&& b = b ↔ ∀ k, b.testBit k = true → a.testBit k = true := by
  constructor
  · intro h k hb
    have : (a &&& b).testBit k = true := by rw [h]; exact hb
    simp only [Nat.testBit_and, Bool.and_eq_true] at this
    exact this.1
  · intro h
    apply Nat.eq_of_testBit_eq
    intro k
    rw [Nat.testBit_and]
    cases hb : b.testBit k
    · simp
    · simp [h k hb]

/-- The bits of a row of `adj_bitset` are the indices of its destinations. -/
theorem testBit_adjBitset_fold (mp : List (Position × Nat)) (reach : List Position) :
    ∀ (acc k : Nat),
      (reach.foldl (fun b j => b ||| (1 <<< lookupPos mp j)) acc).testBit k = true ↔
        (acc.testBit k = true ∨ ∃ p ∈ reach, lookupPos mp p = k) := by
  induction reach with
  | nil => intro acc k; simp
  | cons a l ih =>
    intro acc k
    simp only [List.foldl_cons]
    rw [ih]
    simp only [Nat.testBit_or, Nat.one_shiftLeft, Nat.testBit_two_pow, Bool.or_eq_true,
      decide_eq_true_eq, List.mem_cons, exists_eq_or_imp]
    tauto

/-- The bits of a row of `adj_bitset` are the indices of its destinations. -/
theorem testBit_adjBitset (mp : List (Position × Nat)) (reach : List Position) (k : Nat) :
    (adjBitset mp reach).testBit k = true ↔ ∃ p ∈ reach, lookupPos mp p = k := by
  simp only [adjBitset]
  rw [testBit_adjBitset_fold]
  simp

/-- One `emplace` keeps the numbering and adds the key when it is new. -/
theorem emplacePos_ok (mp : List (Position × Nat)) (j : Position) (h : PosMpOk mp) :
    PosMpOk (emplacePos mp j) ∧
    ∀ p, p ∈ (emplacePos mp j).map (fun e => e.1) ↔ (p ∈ mp.map (fun e => e.1) ∨ p = j) := by
  simp only [emplacePos]
  split
  · next hany =>
    refine ⟨h, ?_⟩
    intro p
    constructor
    · exact Or.inl
    · rintro (hp | rfl)
      · exact hp
      · simp only [List.any_eq_true, beq_iff_eq] at hany
        obtain ⟨e, he, hej⟩ := hany
        exact List.mem_map.mpr ⟨e, he, hej⟩
  · next hany =>
    have hnot : j ∉ mp.map (fun e => e.1) := by
      intro hj
      apply hany
      obtain ⟨e, he, hej⟩ := List.mem_map.mp hj
      simp only [List.any_eq_true, beq_iff_eq]
      exact ⟨e, he, hej⟩
    refine ⟨⟨?_, ?_⟩, ?_⟩
    · intro i hi
      simp only [List.length_append, List.length_singleton] at hi
      by_cases hlt : i < mp.length
      · have := h.1 i hlt
        simp only [List.get_eq_getElem] at this ⊢
        rw [List.getElem_append_left hlt]
        exact this
      · have hieq : i = mp.length := by omega
        subst hieq
        simp [List.get_eq_getElem]
    · rw [List.map_append, List.nodup_append]
      refine ⟨h.2, by simp, ?_⟩
      intro a ha hb
      simp only [List.map_cons, List.map_nil, List.mem_singleton] at hb
      subst hb
      exact hnot ha
    · intro p
      simp [List.map_append]

/-- A run of `emplace` calls keeps the numbering; the keys are the old ones and the
inserted ones. -/
theorem emplacePos_fold_ok (reach : List Position) :
    ∀ (mp : List (Position × Nat)), PosMpOk mp →
      PosMpOk (reach.foldl emplacePos mp) ∧
      ∀ p, p ∈ (reach.foldl emplacePos mp).map (fun e => e.1) ↔
        (p ∈ mp.map (fun e => e.1) ∨ p ∈ reach) := by
  induction reach with
  | nil => intro mp h; exact ⟨h, by simp⟩
  | cons a l ih =>
    intro mp h
    simp only [List.foldl_cons]
    obtain ⟨h1, hk1⟩ := emplacePos_ok mp a h
    obtain ⟨h2, hk2⟩ := ih _ h1
    refine ⟨h2, ?_⟩
    intro p
    rw [hk2, hk1, List.mem_cons]
    tauto

/-- The index map after the first loop, from any start. -/
theorem buildPosMp_fold_ok (adj : List AdjItem) :
    ∀ (mp : List (Position × Nat)), PosMpOk mp →
      PosMpOk (adj.foldl (fun mp it => it.2.foldl emplacePos mp) mp) ∧
      ∀ p, p ∈ (adj.foldl (fun mp it => it.2.foldl emplacePos mp) mp).map (fun e => e.1) ↔
        (p ∈ mp.map (fun e => e.1) ∨ ∃ e ∈ adj, p ∈ e.2) := by
  induction adj with
  | nil => intro mp h; exact ⟨h, by simp⟩
  | cons a l ih =>
    intro mp h
    simp only [List.foldl_cons]
    obtain ⟨h1, hk1⟩ := emplacePos_fold_ok a.2 mp h
    obtain ⟨h2, hk2⟩ := ih _ h1
    refine ⟨h2, ?_⟩
    intro p
    rw [hk2, hk1]
    simp only [List.mem_cons, exists_eq_or_imp]
    tauto

/-- The index map `pos_mp`: well numbered, and its keys are the destinations of `adj`. -/
theorem buildPosMp_ok (adj : List AdjItem) :
    PosMpOk (buildPosMp adj) ∧
    ∀ p, p ∈ (buildPosMp adj).map (fun e => e.1) ↔ ∃ e ∈ adj, p ∈ e.2 := by
  have h := buildPosMp_fold_ok adj [] ⟨by intro i hi; simp at hi, by simp⟩
  refine ⟨h.1, ?_⟩
  intro p
  have := h.2 p
  simpa [buildPosMp] using this

/-- The map `pos_mp` has at most as many entries as there are distinct destinations. -/
theorem buildPosMp_length_le (adj : List AdjItem) :
    (buildPosMp adj).length ≤ distinctDestinations adj := by
  obtain ⟨hok, hkeys⟩ := buildPosMp_ok adj
  have hsub : (buildPosMp adj).map (fun e => e.1) ⊆
      (adj.map (fun e => e.2)).flatten.dedup := by
    intro p hp
    rw [List.mem_dedup, List.mem_flatten]
    obtain ⟨e, he, hpe⟩ := (hkeys p).mp hp
    exact ⟨e.2, List.mem_map.mpr ⟨e, he, rfl⟩, hpe⟩
  have := (List.subperm_of_subset hok.2 hsub).length_le
  simpa [distinctDestinations] using this

/-- The lookup of a key gives the number of an entry that holds this key. -/
theorem lookupPos_of_key (mp : List (Position × Nat)) (hok : PosMpOk mp) (p : Position)
    (hp : p ∈ mp.map (fun e => e.1)) :
    ∃ i, ∃ h : i < mp.length, (mp.get ⟨i, h⟩).1 = p ∧ lookupPos mp p = i % 256 := by
  simp only [lookupPos]
  cases hfind : mp.find? (fun e => e.1 == p) with
  | none =>
    obtain ⟨e, he, hep⟩ := List.mem_map.mp hp
    have := List.find?_eq_none.mp hfind e he
    simp [hep] at this
  | some e =>
    have hpe := List.find?_some hfind
    have hmem := List.mem_of_find?_eq_some hfind
    obtain ⟨i, hi, hget⟩ := List.getElem_of_mem hmem
    refine ⟨i, hi, ?_, ?_⟩
    · simp only [List.get_eq_getElem, hget]
      simpa using hpe
    · have := hok.1 i hi
      simp only [List.get_eq_getElem, hget] at this
      exact this

/-- With at most 256 entries the lookup tells keys apart. -/
theorem lookupPos_injective (mp : List (Position × Nat)) (hok : PosMpOk mp)
    (hlen : mp.length ≤ 256) (p q : Position) (hp : p ∈ mp.map (fun e => e.1))
    (hq : q ∈ mp.map (fun e => e.1)) (h : lookupPos mp p = lookupPos mp q) : p = q := by
  obtain ⟨i, hi, hip, hlp⟩ := lookupPos_of_key mp hok p hp
  obtain ⟨j, hj, hjq, hlq⟩ := lookupPos_of_key mp hok q hq
  rw [hlp, hlq, Nat.mod_eq_of_lt (by omega), Nat.mod_eq_of_lt (by omega)] at h
  subst h
  rw [← hip, ← hjq]

/-- With at most 256 entries in `pos_mp`, a row of `adj_bitset` is inside another iff
the reachable list is inside the other list. -/
theorem adjBitset_subset_iff (mp : List (Position × Nat)) (hok : PosMpOk mp)
    (hlen : mp.length ≤ 256) (l1 l2 : List Position)
    (h1 : ∀ p ∈ l1, p ∈ mp.map (fun e => e.1)) (h2 : ∀ p ∈ l2, p ∈ mp.map (fun e => e.1)) :
    adjBitset mp l1 &&& adjBitset mp l2 = adjBitset mp l2 ↔ l2 ⊆ l1 := by
  rw [land_eq_iff]
  constructor
  · intro h p hp
    have hbit := (testBit_adjBitset mp l2 (lookupPos mp p)).mpr ⟨p, hp, rfl⟩
    obtain ⟨q, hq, hqp⟩ := (testBit_adjBitset mp l1 _).mp (h _ hbit)
    have := lookupPos_injective mp hok hlen q p (h1 q hq) (h2 p hp) hqp
    rw [← this]
    exact hq
  · intro h k hk
    obtain ⟨p, hp, hpk⟩ := (testBit_adjBitset mp l2 k).mp hk
    exact (testBit_adjBitset mp l1 k).mpr ⟨p, h hp, hpk⟩

end MaskBitsets

section MaskSpec

variable {Board : Type}

/-- With at most 256 distinct destinations the loop test `dominates` is: different
index, and the entry covers the other one. -/
theorem dominates_iff_covers (adj : List AdjItem) (hdist : distinctDestinations adj ≤ 256)
    (i j : Nat) (hi : i < adj.length) (hj : j < adj.length) :
    dominates adj (adj.map (fun it => adjBitset (buildPosMp adj) it.2)) i j = true ↔
      i ≠ j ∧ covers (adj.get ⟨i, hi⟩) (adj.get ⟨j, hj⟩) := by
  obtain ⟨hok, hkeys⟩ := buildPosMp_ok adj
  have hlen : (buildPosMp adj).length ≤ 256 := le_trans (buildPosMp_length_le adj) hdist
  have hmem : ∀ (n : Nat) (hn : n < adj.length), ∀ p ∈ (adj.get ⟨n, hn⟩).2,
      p ∈ (buildPosMp adj).map (fun e => e.1) := by
    intro n hn p hp
    exact (hkeys p).mpr ⟨adj.get ⟨n, hn⟩, List.get_mem adj n hn, hp⟩
  have hbs : ∀ (n : Nat) (hn : n < adj.length),
      (adj.map (fun it => adjBitset (buildPosMp adj) it.2)).getD n 0 =
        adjBitset (buildPosMp adj) (adj.get ⟨n, hn⟩).2 := by
    intro n hn
    rw [List.getD_eq_getElem _ _ (by simpa using hn)]
    simp
  have hadj : ∀ (n : Nat) (hn : n < adj.length),
      adj.getD n (⟨0, 0, 0⟩, []) = adj.get ⟨n, hn⟩ := by
    intro n hn
    rw [List.getD_eq_getElem _ _ hn]
    rfl
  rw [dominates_iff, hbs i hi, hbs j hj, hadj i hi, hadj j hj,
    adjBitset_subset_iff _ hok hlen _ _ (hmem i hi) (hmem j hj)]
  rfl

/-- What `CalculateInitialMask_` computes: for at most 64 initials with at most 256
distinct destinations, the call returns, `moves_.adj` is rearranged, and bit `k` of the
mask is set iff every other entry that covers entry `k` comes later in the final order
and is covered by entry `k` in turn. -/
theorem initialMask_spec (env : Env Board) (hsort : SortPermutes env) (s : Tetris Board)
    (out : Outcome Unit Board) (hout : CalculateInitialMask_ env s = out)
    (hlen : s.moves_.adj.length ≤ 64) (hdist : distinctDestinations s.moves_.adj ≤ 256) :
    out.1 = .ok () ∧ out.2.moves_.adj.Perm s.moves_.adj ∧
    ∀ k, out.2.initial_mask_.testBit k = true ↔
      ∃ hk : k < out.2.moves_.adj.length,
        ∀ j (hj : j < out.2.moves_.adj.length), j ≠ k →
          covers (out.2.moves_.adj.get ⟨j, hj⟩) (out.2.moves_.adj.get ⟨k, hk⟩) →
          k < j ∧ covers (out.2.moves_.adj.get ⟨k, hk⟩) (out.2.moves_.adj.get ⟨j, hj⟩) := by
  refine ⟨(calculateInitialMask_isOk env s _ hout).mpr hlen, ?_, ?_⟩
  · rw [← hout]
    exact (calculateInitialMask_perm env hsort s).1
  by_cases hle : s.moves_.adj.length ≤ 1
  · have hval : out = (.ok (), { s with
        initial_mask_ := (2 ^ s.moves_.adj.length - 1) % 2 ^ 64 }) := by
      rw [← hout]
      simp only [CalculateInitialMask_]
      rw [if_neg (by omega), if_pos hle]
    subst hval
    intro k
    simp only
    rw [testBit_initial_mask _ _ hlen]
    constructor
    · intro hk
      have hk2 : k < s.moves_.adj.length := by simpa using hk
      refine ⟨hk2, ?_⟩
      intro j hj hjk
      omega
    · rintro ⟨hk, _⟩
      simpa using hk
  · have hval : out = (.ok (), { s with
        moves_ := { s.moves_ with adj := env.std_sort s.moves_.adj },
        initial_mask_ := reduceOuter (env.std_sort s.moves_.adj)
          ((env.std_sort s.moves_.adj).map
            (fun it => adjBitset (buildPosMp (env.std_sort s.moves_.adj)) it.2))
          ((2 ^ s.moves_.adj.length - 1) % 2 ^ 64) }) := by
      rw [← hout]
      simp only [CalculateInitialMask_]
      rw [if_neg (by omega), if_neg hle]
    subst hval
    intro k
    simp only
    have hperm := hsort s.moves_.adj
    have hlen2 : (env.std_sort s.moves_.adj).length = s.moves_.adj.length := hperm.length_eq
    have hdist2 : distinctDestinations (env.std_sort s.moves_.adj) ≤ 256 := by
      have hsub : (((env.std_sort s.moves_.adj).map (fun e => e.2)).flatten.dedup) ⊆
          ((s.moves_.adj.map (fun e => e.2)).flatten.dedup) := by
        intro p hp
        rw [List.mem_dedup, List.mem_flatten] at hp ⊢
        obtain ⟨l, hl, hpl⟩ := hp
        obtain ⟨e, he, rfl⟩ := List.mem_map.mp hl
        exact ⟨e.2, List.mem_map.mpr ⟨e, hperm.subset he, rfl⟩, hpl⟩
      have := (List.subperm_of_subset (List.nodup_dedup _) hsub).length_le
      exact le_trans this hdist
    have hm0 : ∀ k, ((2 ^ s.moves_.adj.length - 1) % 2 ^ 64).testBit k =
        decide (k < (env.std_sort s.moves_.adj).length) := by
      intro k
      rw [testBit_initial_mask _ _ hlen, hlen2]
    by_cases hk : k < (env.std_sort s.moves_.adj).length
    · rw [reduceOuter_testBit _ _ (by omega) _ hm0 k hk]
      constructor
      · intro h
        refine ⟨hk, ?_⟩
        intro j hj hjk hcov
        have hd := (dominates_iff_covers _ hdist2 j k hj hk).mpr ⟨hjk, hcov⟩
        obtain ⟨hlt, hd2⟩ := h j hj hd
        exact ⟨hlt, ((dominates_iff_covers _ hdist2 k j hk hj).mp hd2).2⟩
      · rintro ⟨_, h⟩ j hj hd
        obtain ⟨hjk, hcov⟩ := (dominates_iff_covers _ hdist2 j k hj hk).mp hd
        obtain ⟨hlt, hcov2⟩ := h j hj hjk hcov
        exact ⟨hlt, (dominates_iff_covers _ hdist2 k j hk hj).mpr ⟨by omega, hcov2⟩⟩
    · constructor
      · intro h
        have := reduceOuter_testBit_imp _ _ _ _ h
        rw [hm0] at this
        exact absurd (by simpa using this) hk
      · rintro ⟨hk2, _⟩
        exact absurd hk2 hk

end MaskSpec

section MaskClaims

variable {Board : Type}

/-- C12 (amended): after `CalculateInitialMask_` on at most 64 initials with at most 256
distinct destinations (the capacity of the `uint8_t` index), the call returns and bit `i`
of `initial_mask_` is set iff every other index `j` whose reachable list has at least as
many elements as that of `adj[i]` and whose reachable set contains that of `adj[i]` comes
after `i` in the final order and has the same number of elements and the same reachable
set: of several equal entries the first one keeps its bit. -/
theorem C12_mask_bit_iff_not_covered (env : Env Board) (hsort : SortPermutes env)
    (s : Tetris Board) (out : Outcome Unit Board) (hout : CalculateInitialMask_ env s = out)
    (hlen : s.moves_.adj.length ≤ 64) (hdist : distinctDestinations s.moves_.adj ≤ 256) :
    out.1 = .ok () ∧
    ∀ i (hi : i < out.2.moves_.adj.length),
      (out.2.initial_mask_.testBit i = true ↔
        ∀ j (hj : j < out.2.moves_.adj.length), j ≠ i →
          (out.2.moves_.adj.get ⟨i, hi⟩).2.length ≤ (out.2.moves_.adj.get ⟨j, hj⟩).2.length →
          (out.2.moves_.adj.get ⟨i, hi⟩).2 ⊆ (out.2.moves_.adj.get ⟨j, hj⟩).2 →
          (i < j ∧
            (out.2.moves_.adj.get ⟨j, hj⟩).2.length = (out.2.moves_.adj.get ⟨i, hi⟩).2.length ∧
            (out.2.moves_.adj.get ⟨j, hj⟩).2 ⊆ (out.2.moves_.adj.get ⟨i, hi⟩).2)) := by
  obtain ⟨hok, _, hspec⟩ := initialMask_spec env hsort s out hout hlen hdist
  refine ⟨hok, ?_⟩
  intro i hi
  rw [hspec i]
  constructor
  · rintro ⟨_, h⟩ j hj hji hle hsub
    obtain ⟨hlt, hcov⟩ := h j hj hji ⟨hle, hsub⟩
    exact ⟨hlt, le_antisymm hcov.1 hle, hcov.2⟩
  · intro h
    refine ⟨hi, ?_⟩
    intro j hj hji hcov
    obtain ⟨hlt, heq, hsub⟩ := h j hj hji hcov.1 hcov.2
    exact ⟨hlt, le_of_eq heq, hsub⟩

/-- Among the entries that keep their bit none covers another. -/
theorem survivors_pairwise (adj : List AdjItem) (mask : Nat)
    (hspec : ∀ k, mask.testBit k = true ↔
      ∃ hk : k < adj.length, ∀ j (hj : j < adj.length), j ≠ k →
        covers (adj.get ⟨j, hj⟩) (adj.get ⟨k, hk⟩) →
        k < j ∧ covers (adj.get ⟨k, hk⟩) (adj.get ⟨j, hj⟩)) :
    (survivors adj mask).Pairwise (fun a b => ¬ covers a b ∧ ¬ covers b a) := by
  have henum : adj.enum.Pairwise (fun x y : Nat × AdjItem =>
      mask.testBit x.1 = true → mask.testBit y.1 = true →
        ¬ covers x.2 y.2 ∧ ¬ covers y.2 x.2) := by
    rw [List.pairwise_iff_getElem]
    intro i j hi hj hij
    rw [List.getElem_enum, List.getElem_enum]
    simp only
    have hi2 : i < adj.length := by simpa using hi
    have hj2 : j < adj.length := by simpa using hj
    intro hbi hbj
    obtain ⟨_, hsi⟩ := (hspec i).mp hbi
    obtain ⟨_, hsj⟩ := (hspec j).mp hbj
    have h1 : ¬ covers adj[i] adj[j] := by
      intro hc
      have := (hsj i hi2 (by omega) hc).1
      omega
    refine ⟨h1, ?_⟩
    intro hc
    exact h1 (hsi j hj2 (by omega) hc).2
  have hfilter := henum.filter (fun e : Nat × AdjItem => mask.testBit e.1)
  have hstrong : (adj.enum.filter (fun e : Nat × AdjItem => mask.testBit e.1)).Pairwise
      (fun x y : Nat × AdjItem => ¬ covers x.2 y.2 ∧ ¬ covers y.2 x.2) := by
    refine List.Pairwise.imp_of_mem ?_ hfilter
    intro a b ha hb hab
    exact hab (List.mem_filter.mp ha).2 (List.mem_filter.mp hb).2
  exact List.Pairwise.map (fun e : Nat × AdjItem => e.2) (fun a b hab => hab) hstrong

/-- The entries that keep their bit are entries of the list. -/
theorem survivors_subset (adj : List AdjItem) (mask : Nat) : survivors adj mask ⊆ adj := by
  intro e he
  simp only [survivors, List.mem_map, List.mem_filter] at he
  obtain ⟨x, ⟨hx, _⟩, rfl⟩ := he
  exact List.snd_mem_of_mem_enum hx

/-- There are at most as many survivors as entries. -/
theorem survivors_length_le (adj : List AdjItem) (mask : Nat) :
    (survivors adj mask).length ≤ adj.length := by
  simp only [survivors, List.length_map]
  have := List.length_filter_le (fun e : Nat × AdjItem => mask.testBit e.1) adj.enum
  simpa using this

/-- Fewer entries have no more distinct destinations. -/
theorem distinctDestinations_mono (l1 l2 : List AdjItem) (h : l1 ⊆ l2) :
    distinctDestinations l1 ≤ distinctDestinations l2 := by
  have hsub : ((l1.map (fun e => e.2)).flatten.dedup) ⊆
      ((l2.map (fun e => e.2)).flatten.dedup) := by
    intro p hp
    rw [List.mem_dedup, List.mem_flatten] at hp ⊢
    obtain ⟨l, hl, hpl⟩ := hp
    obtain ⟨e, he, rfl⟩ := List.mem_map.mp hl
    exact ⟨e.2, List.mem_map.mpr ⟨e, h he, rfl⟩, hpl⟩
  exact (List.subperm_of_subset (List.nodup_dedup _) hsub).length_le

/-- C13: the reduction is idempotent.  For at most 64 initials with at most 256 distinct
destinations, running `CalculateInitialMask_` again on the entries whose bit survived the
first run returns with the all-ones mask over the survivors, for every `std::sort` that
rearranges its input (whatever it does with ties). -/
theorem C13_reduction_idempotent (env : Env Board) (hsort : SortPermutes env)
    (s : Tetris Board) (first again : Outcome Unit Board)
    (hfirst : CalculateInitialMask_ env s = first)
    (hagain : CalculateInitialMask_ env { first.2 with
      moves_ := { first.2.moves_ with
        adj := survivors first.2.moves_.adj first.2.initial_mask_ } } = again)
    (hlen : s.moves_.adj.length ≤ 64) (hdist : distinctDestinations s.moves_.adj ≤ 256) :
    first.1 = .ok () ∧ again.1 = .ok () ∧
    again.2.moves_.adj.Perm (survivors first.2.moves_.adj first.2.initial_mask_) ∧
    again.2.initial_mask_ =
      2 ^ (survivors first.2.moves_.adj first.2.initial_mask_).length - 1 := by
  obtain ⟨hok1, hperm1, hspec1⟩ := initialMask_spec env hsort s first hfirst hlen hdist
  have hpw := survivors_pairwise first.2.moves_.adj first.2.initial_mask_ hspec1
  have hsub := survivors_subset first.2.moves_.adj first.2.initial_mask_
  have hlen1 : (survivors first.2.moves_.adj first.2.initial_mask_).length ≤ 64 := by
    have := survivors_length_le first.2.moves_.adj first.2.initial_mask_
    have := hperm1.length_eq
    omega
  have hdist1 : distinctDestinations (survivors first.2.moves_.adj first.2.initial_mask_)
      ≤ 256 := by
    have h1 := distinctDestinations_mono _ _ hsub
    have h2 := distinctDestinations_mono _ _ hperm1.subset
    omega
  obtain ⟨hok2, hperm2, hspec2⟩ := initialMask_spec env hsort _ again hagain hlen1 hdist1
  simp only at hperm2
  refine ⟨hok1, hok2, hperm2, ?_⟩
  have hpw2 : again.2.moves_.adj.Pairwise (fun a b => ¬ covers a b ∧ ¬ covers b a) :=
    (List.Perm.pairwise_iff (fun h => ⟨h.2, h.1⟩) hperm2).mpr hpw
  rw [List.pairwise_iff_getElem] at hpw2
  apply Nat.eq_of_testBit_eq
  intro k
  rw [Nat.testBit_two_pow_sub_one, ← hperm2.length_eq]
  by_cases hk : k < again.2.moves_.adj.length
  · simp only [hk, decide_True]
    rw [hspec2 k]
    refine ⟨hk, ?_⟩
    intro j hj hjk hcov
    exfalso
    rcases Nat.lt_or_gt_of_ne hjk with hlt | hgt
    · exact (hpw2 j k hj hk hlt).1 hcov
    · exact (hpw2 k j hk hj hgt).2 hcov
  · simp only [hk, decide_False]
    cases hb : again.2.initial_mask_.testBit k
    · rfl
    · exact absurd ((hspec2 k).mp hb).1 hk

end MaskClaims

namespace Sample

/-- Insertion keeps the elements. -/
theorem insertAdj_perm (x : AdjItem) (l : List AdjItem) : (insertAdj x l).Perm (x :: l) := by
  induction l with
  | nil => exact List.Perm.refl _
  | cons y rest ih =>
    simp only [insertAdj]
    split
    · exact (List.Perm.cons y ih).trans (List.Perm.swap x y rest)
    · exact List.Perm.refl _

/-- The insertion sort of the concrete environment rearranges its input. -/
theorem sortPermutes : SortPermutes env := by
  intro l
  show (std_sort l).Perm l
  have h : ∀ (l acc : List AdjItem),
      (l.foldl (fun acc x => insertAdj x acc) acc).Perm (l ++ acc) := by
    intro l
    induction l with
    | nil => intro acc; exact List.Perm.refl _
    | cons x rest ih =>
      intro acc
      simp only [List.foldl_cons, List.cons_append]
      exact (ih _).trans ((List.Perm.append_left rest (insertAdj_perm x acc)).trans
        List.perm_middle)
  have := h l []
  simpa [std_sort] using this

end Sample

/-! ## The index map beyond 256 destinations -/

section MaskAliasing

variable {Board : Type}

/-- A key not yet in `pos_mp` is appended with the current size as its index. -/
theorem emplacePos_fresh (mp : List (Position × Nat)) (j : Position)
    (h : j ∉ mp.map (fun e => e.1)) : emplacePos mp j = mp ++ [(j, mp.length % 256)] := by
  unfold emplacePos
  rw [if_neg]
  intro hany
  apply h
  rw [List.any_eq_true] at hany
  obtain ⟨e, he, hej⟩ := hany
  have : e.1 = j := by simpa using hej
  exact List.mem_map.mpr ⟨e, he, this⟩

/-- Keys that are new and pairwise distinct are appended in their order. -/
theorem emplacePos_fold_fresh (reach : List Position) :
    ∀ (mp : List (Position × Nat)), (mp.map (fun e => e.1) ++ reach).Nodup →
      (reach.foldl emplacePos mp).map (fun e => e.1) = mp.map (fun e => e.1) ++ reach := by
  induction reach with
  | nil => intro mp _; simp
  | cons p rest ih =>
    intro mp hnd
    have hp : p ∉ mp.map (fun e => e.1) := by
      intro hmem
      have := (List.nodup_append.mp hnd).2.2
      exact this hmem (List.mem_cons_self p rest)
    rw [List.foldl_cons, emplacePos_fresh mp p hp]
    have hnd2 : ((mp ++ [(p, mp.length % 256)]).map (fun e => e.1) ++ rest).Nodup := by
      simpa using hnd
    rw [ih _ hnd2]
    simp

/-- When no destination occurs twice in the whole list, the keys of `pos_mp` are the
destinations in their order of appearance. -/
theorem buildPosMp_fold_keys (adj : List AdjItem) :
    ∀ (mp : List (Position × Nat)),
      (mp.map (fun e => e.1) ++ (adj.map (fun e => e.2)).flatten).Nodup →
      (adj.foldl (fun mp it => it.2.foldl emplacePos mp) mp).map (fun e => e.1) =
        mp.map (fun e => e.1) ++ (adj.map (fun e => e.2)).flatten := by
  induction adj with
  | nil => intro mp _; simp
  | cons e rest ih =>
    intro mp hnd
    simp only [List.map_cons, List.flatten_cons, List.foldl_cons] at hnd ⊢
    rw [← List.append_assoc] at hnd
    have h1 := emplacePos_fold_fresh e.2 mp (List.Nodup.of_append_left hnd)
    rw [ih (e.2.foldl emplacePos mp) (by rw [h1]; exact hnd), h1, List.append_assoc]

/-- The keys of `buildPosMp` when no destination occurs twice. -/
theorem buildPosMp_keys (adj : List AdjItem) (hnd : ((adj.map (fun e => e.2)).flatten).Nodup) :
    (buildPosMp adj).map (fun e => e.1) = (adj.map (fun e => e.2)).flatten := by
  have := buildPosMp_fold_keys adj [] (by simpa using hnd)
  simpa [buildPosMp] using this

/-- The index stored for the key at place `t` is `t` as a `uint8_t`. -/
theorem lookupPos_get (mp : List (Position × Nat)) (hok : PosMpOk mp) (t : Nat)
    (ht : t < mp.length) : lookupPos mp (mp.get ⟨t, ht⟩).1 = t % 256 := by
  obtain ⟨i, hi, hkey, hval⟩ := lookupPos_of_key mp hok (mp.get ⟨t, ht⟩).1
    (List.mem_map.mpr ⟨mp.get ⟨t, ht⟩, List.get_mem mp t ht, rfl⟩)
  have hit : i = t := by
    have hnd := hok.2
    have h1 : (mp.map (fun e => e.1)).get ⟨i, by simpa using hi⟩ =
        (mp.map (fun e => e.1)).get ⟨t, by simpa using ht⟩ := by
      simpa using hkey
    have := (List.Nodup.get_inj_iff hnd).mp h1
    simpa using this
  rw [hval, hit]

/-- The bits of one row of `adj_bitset` when no destination occurs twice: a reachable
list that starts at place `pre.length` of the order of appearance has the bits
`(pre.length + k) mod 256`. -/
theorem testBit_adjBitset_at (adj : List AdjItem)
    (hnd : ((adj.map (fun e => e.2)).flatten).Nodup) (pre reach post : List Position)
    (hsplit : (adj.map (fun e => e.2)).flatten = pre ++ reach ++ post) (b : Nat) :
    (adjBitset (buildPosMp adj) reach).testBit b = true ↔
      ∃ k, k < reach.length ∧ (pre.length + k) % 256 = b := by
  have hkeys := buildPosMp_keys adj hnd
  have hok := (buildPosMp_ok adj).1
  have hlen : (buildPosMp adj).length = (pre ++ reach ++ post).length := by
    rw [← hsplit, ← hkeys, List.length_map]
  have hat : ∀ k (hk : k < reach.length),
      lookupPos (buildPosMp adj) (reach.get ⟨k, hk⟩) = (pre.length + k) % 256 := by
    intro k hk
    have hlt : pre.length + k < (buildPosMp adj).length := by
      rw [hlen]; simp only [List.length_append]; omega
    have h := lookupPos_get (buildPosMp adj) hok (pre.length + k) hlt
    have hkey : ((buildPosMp adj).get ⟨pre.length + k, hlt⟩).1 = reach.get ⟨k, hk⟩ := by
      have h1 : ((buildPosMp adj).map (fun e => e.1))[pre.length + k]? =
          (pre ++ reach ++ post)[pre.length + k]? := by rw [hkeys, hsplit]
      rw [List.append_assoc, List.getElem?_append_right (by omega)] at h1
      simp only [Nat.add_sub_cancel_left] at h1
      rw [List.getElem?_append_left hk, List.getElem?_map,
        List.getElem?_eq_getElem hlt, List.getElem?_eq_getElem hk] at h1
      simpa using h1
    rw [← hkey]
    exact h
  rw [testBit_adjBitset]
  constructor
  · rintro ⟨p, hp, hb⟩
    obtain ⟨⟨k, hk⟩, rfl⟩ := List.mem_iff_get.mp hp
    exact ⟨k, hk, by rw [← hb, hat k hk]⟩
  · rintro ⟨k, hk, hb⟩
    exact ⟨reach.get ⟨k, hk⟩, List.get_mem reach k hk, by rw [hat k hk, hb]⟩

/-- The reduction on the level of the loop test, for any number of destinations: with
more than one and at most 64 entries the call returns with the sorted list, and bit `k`
is set iff every entry that passes the loop test against entry `k` comes later and is
passed back. -/
theorem initialMask_dominates (env : Env Board) (s : Tetris Board)
    (h1 : 1 < s.moves_.adj.length) (h64 : s.moves_.adj.length ≤ 64)
    (hlen : (env.std_sort s.moves_.adj).length = s.moves_.adj.length) :
    (CalculateInitialMask_ env s).1 = .ok () ∧
    (CalculateInitialMask_ env s).2.moves_.adj = env.std_sort s.moves_.adj ∧
    ∀ k, k < s.moves_.adj.length →
      ((CalculateInitialMask_ env s).2.initial_mask_.testBit k = true ↔
        ∀ j, j < s.moves_.adj.length →
          dominates (env.std_sort s.moves_.adj) ((env.std_sort s.moves_.adj).map
            (fun it => adjBitset (buildPosMp (env.std_sort s.moves_.adj)) it.2)) j k = true →
          (k < j ∧ dominates (env.std_sort s.moves_.adj) ((env.std_sort s.moves_.adj).map
            (fun it => adjBitset (buildPosMp (env.std_sort s.moves_.adj)) it.2)) k j
              = true)) := by
  have hval : CalculateInitialMask_ env s = (.ok (), { s with
      moves_ := { s.moves_ with adj := env.std_sort s.moves_.adj },
      initial_mask_ := reduceOuter (env.std_sort s.moves_.adj)
        ((env.std_sort s.moves_.adj).map
          (fun it => adjBitset (buildPosMp (env.std_sort s.moves_.adj)) it.2))
        ((2 ^ s.moves_.adj.length - 1) % 2 ^ 64) }) := by
    simp only [CalculateInitialMask_]
    rw [if_neg (by omega), if_neg (by omega)]
  rw [hval]
  refine ⟨rfl, rfl, ?_⟩
  intro k hk
  simp only
  have hm0 : ∀ k, ((2 ^ s.moves_.adj.length - 1) % 2 ^ 64).testBit k =
      decide (k < (env.std_sort s.moves_.adj).length) := by
    intro k
    rw [testBit_initial_mask _ _ h64, hlen]
  rw [reduceOuter_testBit _ _ (by omega) _ hm0 k (by omega), hlen]

end MaskAliasing

namespace Sample

/-- The loop test in terms of the bits of the rows of `adj_bitset`. -/
theorem dominates_map (adj : List AdjItem) (g : List Position → Nat) (i j : Nat)
    (hi : i < adj.length) (hj : j < adj.length) :
    dominates adj (adj.map (fun it => g it.2)) i j = true ↔
      i ≠ j ∧
      (adj.getD j (⟨0, 0, 0⟩, [])).2.length ≤ (adj.getD i (⟨0, 0, 0⟩, [])).2.length ∧
      ∀ k, (g (adj.getD j (⟨0, 0, 0⟩, [])).2).testBit k = true →
        (g (adj.getD i (⟨0, 0, 0⟩, [])).2).testBit k = true := by
  have hg : ∀ n, n < adj.length →
      (adj.map (fun it => g it.2)).getD n 0 = g (adj.getD n (⟨0, 0, 0⟩, [])).2 := by
    intro n hn
    rw [List.getD_eq_getElem _ _ (by simpa using hn), List.getD_eq_getElem _ _ hn,
      List.getElem_map]
  rw [dominates_iff, land_eq_iff, hg i hi, hg j hj]

/-- A block has as many cells as asked for. -/
theorem block_length (r : Int) (n : Nat) : (block r n).length = n := by
  simp [block]

/-- The cells of a block carry its rotation. -/
theorem block_rotation (r : Int) (n : Nat) (p : Position) (hp : p ∈ block r n) : p.r = r := by
  simp only [block, List.mem_map] at hp
  obtain ⟨k, _, rfl⟩ := hp
  rfl

/-- The cells of a block are pairwise distinct. -/
theorem block_nodup (r : Int) (n : Nat) : (block r n).Nodup := by
  unfold block
  refine List.Nodup.map ?_ (List.nodup_range n)
  intro a b hab
  simp only [Position.mk.injEq, true_and] at hab
  omega

/-- Blocks of different rotations share no cell. -/
theorem block_disjoint (r1 r2 : Int) (h : r1 ≠ r2) (n1 n2 : Nat) :
    (block r1 n1).Disjoint (block r2 n2) := by
  intro p h1 h2
  exact h ((block_rotation r1 n1 p h1).symm.trans (block_rotation r2 n2 p h2))

/-- No destination occurs twice in `crowdAdj`. -/
theorem crowdAdj_nodup : ((crowdAdj.map (fun e => e.2)).flatten).Nodup := by
  simp only [crowdAdj, List.map_cons, List.map_nil, List.flatten_cons, List.flatten_nil,
    List.append_nil]
  refine List.nodup_append.mpr ⟨block_nodup _ _, List.nodup_append.mpr ⟨block_nodup _ _,
    List.nodup_append.mpr ⟨block_nodup _ _, block_nodup _ _, ?_⟩, ?_⟩, ?_⟩
  · exact block_disjoint 2 3 (by decide) _ _
  · exact List.disjoint_append_right.mpr
      ⟨block_disjoint 1 2 (by decide) _ _, block_disjoint 1 3 (by decide) _ _⟩
  · exact List.disjoint_append_right.mpr ⟨block_disjoint 0 1 (by decide) _ _,
      List.disjoint_append_right.mpr
        ⟨block_disjoint 0 2 (by decide) _ _, block_disjoint 0 3 (by decide) _ _⟩⟩

/-- No destination occurs twice in `crowdKept`. -/
theorem crowdKept_nodup : ((crowdKept.map (fun e => e.2)).flatten).Nodup := by
  simp only [crowdKept, List.map_cons, List.map_nil, List.flatten_cons, List.flatten_nil,
    List.append_nil]
  refine List.nodup_append.mpr ⟨block_nodup _ _, List.nodup_append.mpr ⟨block_nodup _ _,
    block_nodup _ _, ?_⟩, ?_⟩
  · exact block_disjoint 1 3 (by decide) _ _
  · exact List.disjoint_append_right.mpr
      ⟨block_disjoint 0 1 (by decide) _ _, block_disjoint 0 3 (by decide) _ _⟩

/-- The rows of `adj_bitset` for `crowdAdj`: the first list has the bits 0 to 127, the
second 128 to 255, the third wraps around to 0 to 126, the fourth has 127 and 128. -/
theorem crowdAdj_bits (b : Nat) :
    ((adjBitset (buildPosMp crowdAdj) (block 0 128)).testBit b = true ↔ b < 128) ∧
    ((adjBitset (buildPosMp crowdAdj) (block 1 128)).testBit b = true ↔ 128 ≤ b ∧ b < 256) ∧
    ((adjBitset (buildPosMp crowdAdj) (block 2 127)).testBit b = true ↔ b < 127) ∧
    ((adjBitset (buildPosMp crowdAdj) (block 3 2)).testBit b = true ↔ b = 127 ∨ b = 128) := by
  have h0 := testBit_adjBitset_at crowdAdj crowdAdj_nodup [] (block 0 128)
    (block 1 128 ++ block 2 127 ++ block 3 2) (by simp [crowdAdj]) b
  have h1 := testBit_adjBitset_at crowdAdj crowdAdj_nodup (block 0 128) (block 1 128)
    (block 2 127 ++ block 3 2) (by simp [crowdAdj]) b
  have h2 := testBit_adjBitset_at crowdAdj crowdAdj_nodup (block 0 128 ++ block 1 128)
    (block 2 127) (block 3 2) (by simp [crowdAdj]) b
  have h3 := testBit_adjBitset_at crowdAdj crowdAdj_nodup
    (block 0 128 ++ block 1 128 ++ block 2 127) (block 3 2) [] (by simp [crowdAdj]) b
  simp only [List.length_append, block_length, List.length_nil] at h0 h1 h2 h3
  refine ⟨h0.trans ?_, h1.trans ?_, h2.trans ?_, h3.trans ?_⟩
  · exact ⟨fun ⟨k, hk, h⟩ => by omega, fun h => ⟨b, h, by omega⟩⟩
  · exact ⟨fun ⟨k, hk, h⟩ => by omega, fun h => ⟨b - 128, by omega, by omega⟩⟩
  · exact ⟨fun ⟨k, hk, h⟩ => by omega, fun h => ⟨b, h, by omega⟩⟩
  · exact ⟨fun ⟨k, hk, h⟩ => by omega, fun h => ⟨b - 127, by omega, by omega⟩⟩

/-- The rows of `adj_bitset` for `crowdKept`: the first list has the bits 0 to 127, the
last one the bits 0 and 1. -/
theorem crowdKept_bits (b : Nat) :
    ((adjBitset (buildPosMp crowdKept) (block 0 128)).testBit b = true ↔ b < 128) ∧
    ((adjBitset (buildPosMp crowdKept) (block 3 2)).testBit b = true ↔ b < 2) := by
  have h0 := testBit_adjBitset_at crowdKept crowdKept_nodup [] (block 0 128)
    (block 1 128 ++ block 3 2) (by simp [crowdKept]) b
  have h3 := testBit_adjBitset_at crowdKept crowdKept_nodup
    (block 0 128 ++ block 1 128) (block 3 2) [] (by simp [crowdKept]) b
  simp only [List.length_append, block_length, List.length_nil] at h0 h3
  refine ⟨h0.trans ?_, h3.trans ?_⟩
  · exact ⟨fun ⟨k, hk, h⟩ => by omega, fun h => ⟨b, h, by omega⟩⟩
  · exact ⟨fun ⟨k, hk, h⟩ => by omega, fun h => ⟨b, h, by omega⟩⟩

/-- The insertion sort leaves `crowdAdj` in its order. -/
theorem crowdAdj_sorted : std_sort crowdAdj = crowdAdj := by
  simp [std_sort, crowdAdj, insertAdj, adjLess, block_length]

/-- The insertion sort leaves `crowdKept` in its order. -/
theorem crowdKept_sorted : std_sort crowdKept = crowdKept := by
  simp [std_sort, crowdKept, insertAdj, adjLess, block_length]

end Sample

namespace Sample

/-- The first run of the reduction on `crowd`: the list keeps its order, the third entry
loses its bit (its indices 256 to 382 wrap around into those of the first entry), the
other three keep theirs. -/
theorem crowd_first :
    (CalculateInitialMask_ env crowd).1 = .ok () ∧
    (CalculateInitialMask_ env crowd).2.moves_.adj = crowdAdj ∧
    (CalculateInitialMask_ env crowd).2.initial_mask_.testBit 0 = true ∧
    (CalculateInitialMask_ env crowd).2.initial_mask_.testBit 1 = true ∧
    (CalculateInitialMask_ env crowd).2.initial_mask_.testBit 2 = false ∧
    (CalculateInitialMask_ env crowd).2.initial_mask_.testBit 3 = true := by
  have hadj0 : crowd.moves_.adj = crowdAdj := rfl
  have henv : env.std_sort = std_sort := rfl
  have hlen : crowdAdj.length = 4 := rfl
  obtain ⟨hok, hadj, hbits⟩ := initialMask_dominates env crowd (by rw [hadj0, hlen]; decide)
    (by rw [hadj0, hlen]; decide) (by rw [henv, hadj0, crowdAdj_sorted])
  rw [henv, hadj0, crowdAdj_sorted] at hadj hbits
  rw [hlen] at hbits
  have g0 : crowdAdj.getD 0 (⟨0, 0, 0⟩, []) = (⟨0, 6, 5⟩, block 0 128) := rfl
  have g1 : crowdAdj.getD 1 (⟨0, 0, 0⟩, []) = (⟨0, 6, 4⟩, block 1 128) := rfl
  have g2 : crowdAdj.getD 2 (⟨0, 0, 0⟩, []) = (⟨0, 6, 6⟩, block 2 127) := rfl
  have g3 : crowdAdj.getD 3 (⟨0, 0, 0⟩, []) = (⟨0, 6, 3⟩, block 3 2) := rfl
  have hdom : ∀ i j, i < 4 → j < 4 →
      (dominates crowdAdj (crowdAdj.map (fun it => adjBitset (buildPosMp crowdAdj) it.2))
        i j = true ↔ i ≠ j ∧
        (crowdAdj.getD j (⟨0, 0, 0⟩, [])).2.length ≤
          (crowdAdj.getD i (⟨0, 0, 0⟩, [])).2.length ∧
        ∀ k, (adjBitset (buildPosMp crowdAdj) (crowdAdj.getD j (⟨0, 0, 0⟩, [])).2).testBit k
            = true →
          (adjBitset (buildPosMp crowdAdj) (crowdAdj.getD i (⟨0, 0, 0⟩, [])).2).testBit k
            = true) :=
    fun i j hi hj => dominates_map crowdAdj (adjBitset (buildPosMp crowdAdj)) i j
      (by rw [hlen]; exact hi) (by rw [hlen]; exact hj)
  have b0 := fun k => (crowdAdj_bits k).1
  have b1 := fun k => (crowdAdj_bits k).2.1
  have b2 := fun k => (crowdAdj_bits k).2.2.1
  have b3 := fun k => (crowdAdj_bits k).2.2.2
  refine ⟨hok, hadj, ?_, ?_, ?_, ?_⟩
  · refine (hbits 0 (by decide)).mpr ?_
    intro j hj hd
    rw [hdom j 0 hj (by decide)] at hd
    obtain ⟨hne, hsz, hsub⟩ := hd
    exfalso
    interval_cases j
    · exact hne rfl
    · simp only [g0, g1] at hsub
      have := (b1 0).mp (hsub 0 ((b0 0).mpr (by decide)))
      omega
    · simp only [g0, g2, block_length] at hsz; omega
    · simp only [g0, g3, block_length] at hsz; omega
  · refine (hbits 1 (by decide)).mpr ?_
    intro j hj hd
    rw [hdom j 1 hj (by decide)] at hd
    obtain ⟨hne, hsz, hsub⟩ := hd
    exfalso
    interval_cases j
    · simp only [g0, g1] at hsub
      have := (b0 128).mp (hsub 128 ((b1 128).mpr (by decide)))
      omega
    · exact hne rfl
    · simp only [g1, g2, block_length] at hsz; omega
    · simp only [g1, g3, block_length] at hsz; omega
  · cases hb : (CalculateInitialMask_ env crowd).2.initial_mask_.testBit 2
    · rfl
    · exfalso
      have hd : dominates crowdAdj
          (crowdAdj.map (fun it => adjBitset (buildPosMp crowdAdj) it.2)) 0 2 = true := by
        rw [hdom 0 2 (by decide) (by decide)]
        simp only [g0, g2, block_length]
        exact ⟨by decide, by decide, fun k hk => (b0 k).mpr (by have := (b2 k).mp hk; omega)⟩
      have h := (hbits 2 (by decide)).mp hb 0 (by decide) hd
      omega
  · refine (hbits 3 (by decide)).mpr ?_
    intro j hj hd
    rw [hdom j 3 hj (by decide)] at hd
    obtain ⟨hne, hsz, hsub⟩ := hd
    exfalso
    interval_cases j
    · simp only [g0, g3] at hsub
      have := (b0 128).mp (hsub 128 ((b3 128).mpr (by decide)))
      omega
    · simp only [g1, g3] at hsub
      have := (b1 127).mp (hsub 127 ((b3 127).mpr (by decide)))
      omega
    · simp only [g2, g3] at hsub
      have := (b2 127).mp (hsub 127 ((b3 127).mpr (by decide)))
      omega
    · exact hne rfl

/-- The survivors of a list of four entries whose third entry lost its bit. -/
theorem survivors_four (a b c d : AdjItem) (m : Nat) (h0 : m.testBit 0 = true)
    (h1 : m.testBit 1 = true) (h2 : m.testBit 2 = false) (h3 : m.testBit 3 = true) :
    survivors [a, b, c, d] m = [a, b, d] := by
  simp [survivors, List.enum, List.enumFrom, List.filter, h0, h1, h2, h3]

/-- The entries of `crowd` that keep their bit in the first run. -/
theorem crowd_survivors :
    survivors (CalculateInitialMask_ env crowd).2.moves_.adj
      (CalculateInitialMask_ env crowd).2.initial_mask_ = crowdKept := by
  obtain ⟨_, hadj, h0, h1, h2, h3⟩ := crowd_first
  rw [hadj]
  exact survivors_four _ _ _ _ _ h0 h1 h2 h3

/-- The second run of the reduction, on the three entries that are left of `crowd`: the
last entry now has the indices 256 and 257, which wrap around into those of the first
entry, and loses its bit. -/
theorem crowd_second (s : Tetris ByteBoard) (hs : s.moves_.adj = crowdKept) :
    (CalculateInitialMask_ env s).1 = .ok () ∧
    (CalculateInitialMask_ env s).2.initial_mask_.testBit 2 = false := by
  have henv : env.std_sort = std_sort := rfl
  have hlen : crowdKept.length = 3 := rfl
  obtain ⟨hok, _, hbits⟩ := initialMask_dominates env s (by rw [hs, hlen]; decide)
    (by rw [hs, hlen]; decide) (by rw [henv, hs, crowdKept_sorted])
  rw [henv, hs, crowdKept_sorted] at hbits
  rw [hlen] at hbits
  have g0 : crowdKept.getD 0 (⟨0, 0, 0⟩, []) = (⟨0, 6, 5⟩, block 0 128) := rfl
  have g2 : crowdKept.getD 2 (⟨0, 0, 0⟩, []) = (⟨0, 6, 3⟩, block 3 2) := rfl
  have b0 := fun k => (crowdKept_bits k).1
  have b2 := fun k => (crowdKept_bits k).2
  refine ⟨hok, ?_⟩
  cases hb : (CalculateInitialMask_ env s).2.initial_mask_.testBit 2
  · rfl
  · exfalso
    have hd : dominates crowdKept
        (crowdKept.map (fun it => adjBitset (buildPosMp crowdKept) it.2)) 0 2 = true := by
      rw [dominates_map crowdKept (adjBitset (buildPosMp crowdKept)) 0 2 (by rw [hlen]; decide)
        (by rw [hlen]; decide)]
      simp only [g0, g2, block_length]
      exact ⟨by decide, by decide, fun k hk => (b0 k).mpr (by have := (b2 k).mp hk; omega)⟩
    have h := (hbits 2 (by decide)).mp hb 0 (by decide) hd
    omega

end Sample

/-! ## Closed instances for the mask reduction -/

section MaskInstances

open Sample

/-- Instance of C11: on a full board the search finds nothing and `CalculateMoves_(true)`
ends the game; in the first state of a game it leaves the flag alone, returns, and the
rebuilt map has a non-zero tag. -/
theorem C11_witness :
    CalculateMoves_ env topped true =
      (.ok (), { topped with moves_ := searchResult env topped, game_over_ := true }) ∧
    (CalculateMoves_ env start true).2.game_over_ = start.game_over_ ∧
    (CalculateMoves_ env start true).1 = .ok () ∧
    ∃ q, (CalculateMoves_ env start true).2.move_map_ q ≠ 0 :=
  ⟨(C11_calculateMoves_top_out env sortPermutes topped).1 (by decide),
   ((C11_calculateMoves_top_out env sortPermutes start).2 (by decide)).1,
   ((C11_calculateMoves_top_out env sortPermutes start).2 (by decide)).2 (by decide)
     (by decide)⟩

/-- Counterexample to C12 as stated.  Ties: of two initials with the same single
destination the first keeps its bit although the other one has as many elements and
contains its set.  Capacity: with 385 distinct destinations the `uint8_t` indices of the
third list of `crowd` wrap around into those of the first one, and the third entry loses
its bit although no other list contains its set. -/
theorem C12_counterexample :
    ((CalculateInitialMask_ env twins).2.initial_mask_.testBit 0 = true ∧
      coveredByOther (CalculateInitialMask_ env twins).2.moves_.adj 0) ∧
    ((CalculateInitialMask_ env crowd).2.moves_.adj.length ≤ 64 ∧
      (CalculateInitialMask_ env crowd).2.initial_mask_.testBit 2 = false ∧
      ¬ coveredByOther (CalculateInitialMask_ env crowd).2.moves_.adj 2) := by
  refine ⟨⟨by decide, ?_⟩, ?_⟩
  · have hadj : (CalculateInitialMask_ env twins).2.moves_.adj =
        [(⟨0, 6, 5⟩, [⟨0, 19, 5⟩]), (⟨0, 6, 4⟩, [⟨0, 19, 5⟩])] := by decide
    rw [hadj]
    exact ⟨1, by decide, by decide, by decide, by decide⟩
  · obtain ⟨_, hadj, _, _, h2, _⟩ := crowd_first
    rw [hadj]
    refine ⟨by decide, h2, ?_⟩
    rintro ⟨j, hj, hne, hsz, hsub⟩
    have g0 : crowdAdj.getD 0 (⟨0, 0, 0⟩, []) = (⟨0, 6, 5⟩, block 0 128) := rfl
    have g1 : crowdAdj.getD 1 (⟨0, 0, 0⟩, []) = (⟨0, 6, 4⟩, block 1 128) := rfl
    have g2 : crowdAdj.getD 2 (⟨0, 0, 0⟩, []) = (⟨0, 6, 6⟩, block 2 127) := rfl
    have g3 : crowdAdj.getD 3 (⟨0, 0, 0⟩, []) = (⟨0, 6, 3⟩, block 3 2) := rfl
    have hmem : (⟨2, 0, 0⟩ : Position) ∈ block 2 127 :=
      List.mem_map.mpr ⟨0, List.mem_range.mpr (by decide), rfl⟩
    have hlen : crowdAdj.length = 4 := rfl
    rw [hlen] at hj
    interval_cases j
    · rw [g0, g2] at hsub
      exact absurd (block_rotation 0 128 _ (hsub hmem)) (by decide)
    · rw [g1, g2] at hsub
      exact absurd (block_rotation 1 128 _ (hsub hmem)) (by decide)
    · exact hne rfl
    · rw [g3, g2] at hsub
      exact absurd (block_rotation 3 2 _ (hsub hmem)) (by decide)

/-- Instance of C12: of three initials the narrow one, whose destination the wide one
reaches as well, loses its bit, and the other two keep theirs. -/
theorem C12_witness :
    SortPermutes env ∧ triple.moves_.adj.length ≤ 64 ∧
    distinctDestinations triple.moves_.adj ≤ 256 ∧
    (CalculateInitialMask_ env triple).2.initial_mask_ = 3 ∧
    ((CalculateInitialMask_ env triple).1 = .ok () ∧
      ∀ i (hi : i < (CalculateInitialMask_ env triple).2.moves_.adj.length),
        ((CalculateInitialMask_ env triple).2.initial_mask_.testBit i = true ↔
          ∀ j (hj : j < (CalculateInitialMask_ env triple).2.moves_.adj.length), j ≠ i →
            ((CalculateInitialMask_ env triple).2.moves_.adj.get ⟨i, hi⟩).2.length ≤
              ((CalculateInitialMask_ env triple).2.moves_.adj.get ⟨j, hj⟩).2.length →
            ((CalculateInitialMask_ env triple).2.moves_.adj.get ⟨i, hi⟩).2 ⊆
              ((CalculateInitialMask_ env triple).2.moves_.adj.get ⟨j, hj⟩).2 →
            (i < j ∧
              ((CalculateInitialMask_ env triple).2.moves_.adj.get ⟨j, hj⟩).2.length =
                ((CalculateInitialMask_ env triple).2.moves_.adj.get ⟨i, hi⟩).2.length ∧
              ((CalculateInitialMask_ env triple).2.moves_.adj.get ⟨j, hj⟩).2 ⊆
                ((CalculateInitialMask_ env triple).2.moves_.adj.get ⟨i, hi⟩).2))) :=
  ⟨sortPermutes, by decide, by decide, by decide,
   C12_mask_bit_iff_not_covered env sortPermutes triple _ rfl (by decide) (by decide)⟩

/-- Counterexample to C13 as stated: the four lists of `crowd` (each duplicate-free, 385
distinct destinations between them) leave three survivors, and the second run drops the
last of them, whose indices 256 and 257 now wrap around into those of the first. -/
theorem C13_counterexample :
    (CalculateInitialMask_ env crowd).1 = .ok () ∧
    crowd.moves_.adj.length ≤ 64 ∧ (∀ e ∈ crowd.moves_.adj, e.2.Nodup) ∧
    (survivors (CalculateInitialMask_ env crowd).2.moves_.adj
      (CalculateInitialMask_ env crowd).2.initial_mask_).length = 3 ∧
    (CalculateInitialMask_ env { (CalculateInitialMask_ env crowd).2 with
      moves_ := { (CalculateInitialMask_ env crowd).2.moves_ with
        adj := survivors (CalculateInitialMask_ env crowd).2.moves_.adj
          (CalculateInitialMask_ env crowd).2.initial_mask_ } }).1 = .ok () ∧
    (CalculateInitialMask_ env { (CalculateInitialMask_ env crowd).2 with
      moves_ := { (CalculateInitialMask_ env crowd).2.moves_ with
        adj := survivors (CalculateInitialMask_ env crowd).2.moves_.adj
          (CalculateInitialMask_ env crowd).2.initial_mask_ } }).2.initial_mask_ ≠
      2 ^ 3 - 1 := by
  have hsec := crowd_second { (CalculateInitialMask_ env crowd).2 with
      moves_ := { (CalculateInitialMask_ env crowd).2.moves_ with
        adj := survivors (CalculateInitialMask_ env crowd).2.moves_.adj
          (CalculateInitialMask_ env crowd).2.initial_mask_ } }
    (by dsimp only; exact crowd_survivors)
  refine ⟨crowd_first.1, by decide, ?_, ?_, hsec.1, ?_⟩
  · intro e he
    have hadj : crowd.moves_.adj = crowdAdj := rfl
    rw [hadj] at he
    simp only [crowdAdj, List.mem_cons, List.mem_singleton, List.not_mem_nil, or_false] at he
    rcases he with rfl | rfl | rfl | rfl <;> exact block_nodup _ _
  · rw [crowd_survivors]
    rfl
  · intro h
    have h2 := hsec.2
    rw [h] at h2
    exact absurd h2 (by decide)

/-- Instance of C13: of the three initials of `triple` two survive the first run, and
the second run keeps both. -/
theorem C13_witness :
    SortPermutes env ∧ triple.moves_.adj.length ≤ 64 ∧
    distinctDestinations triple.moves_.adj ≤ 256 ∧
    (survivors (CalculateInitialMask_ env triple).2.moves_.adj
      (CalculateInitialMask_ env triple).2.initial_mask_).length = 2 ∧
    ((CalculateInitialMask_ env triple).1 = .ok () ∧
      (CalculateInitialMask_ env { (CalculateInitialMask_ env triple).2 with
        moves_ := { (CalculateInitialMask_ env triple).2.moves_ with
          adj := survivors (CalculateInitialMask_ env triple).2.moves_.adj
            (CalculateInitialMask_ env triple).2.initial_mask_ } }).1 = .ok () ∧
      (CalculateInitialMask_ env { (CalculateInitialMask_ env triple).2 with
        moves_ := { (CalculateInitialMask_ env triple).2.moves_ with
          adj := survivors (CalculateInitialMask_ env triple).2.moves_.adj
            (CalculateInitialMask_ env triple).2.initial_mask_ } }).2.moves_.adj.Perm
        (survivors (CalculateInitialMask_ env triple).2.moves_.adj
          (CalculateInitialMask_ env triple).2.initial_mask_) ∧
      (CalculateInitialMask_ env { (CalculateInitialMask_ env triple).2 with
        moves_ := { (CalculateInitialMask_ env triple).2.moves_ with
          adj := survivors (CalculateInitialMask_ env triple).2.moves_.adj
            (CalculateInitialMask_ env triple).2.initial_mask_ } }).2.initial_mask_ =
        2 ^ (survivors (CalculateInitialMask_ env triple).2.moves_.adj
          (CalculateInitialMask_ env triple).2.initial_mask_).length - 1) :=
  ⟨sortPermutes, by decide, by decide, by decide,
   C13_reduction_idempotent env sortPermutes triple _ _ rfl rfl (by decide) (by decide)⟩

end MaskInstances

/-! ## `PythonTetris`: the piece generator and the piece count -/

section PieceCount

variable {Board Rng : Type}

/-- A `Reset` of class `Tetris` that returns has cleared the run statistics. -/
theorem reset_ok_run_lines (env : Env Board) (s : Tetris Board) (b : Board)
    (lines now_piece next_piece : Int) (taps : List Int) (adj_delay : Int)
    (s0 : Tetris Board)
    (h : Reset env s b lines now_piece next_piece taps adj_delay = (.ok (), s0)) :
    s0.run_lines_ = 0 := by
  simp only [Reset] at h
  split at h
  · simp at h
  · split at h
    · simp at h
    · simp only [Prod.mk.injEq] at h
      obtain ⟨_, rfl⟩ := h
      rfl

/-- The Tetris-only block of `GenNextPiece_` touches the generator only. -/
theorem moreIDraw_frame (env : PyEnv Board Rng) (st : PythonTetris Board Rng) :
    (moreIDraw env st).2 = { st with rng_ := (moreIDraw env st).2.rng_ } := by
  simp only [moreIDraw]
  split
  · split <;> rfl
  · rfl

/-- The Tetris-only block of `GenNextPiece_` does not read `piece_count_`. -/
theorem moreIDraw_piece_count (env : PyEnv Board Rng) (st : PythonTetris Board Rng) (c : Int) :
    (moreIDraw env { st with piece_count_ := c }).1 = (moreIDraw env st).1 ∧
    (moreIDraw env { st with piece_count_ := c }).2.rng_ = (moreIDraw env st).2.rng_ := by
  simp only [moreIDraw]
  split
  · split <;> exact ⟨rfl, rfl⟩
  · exact ⟨rfl, rfl⟩

/-- Without `TETRIS_ONLY` no call of `GenNextPiece_` is cut short. -/
theorem moreIDraw_default (env : PyEnv Board Rng) (st : PythonTetris Board Rng)
    (h : env.TETRIS_ONLY = false) : moreIDraw env st = (false, st) := by
  unfold moreIDraw
  rw [if_neg (by simp [h])]

/-- Every threshold of the Tetris-only rule is positive. -/
theorem kThresh_pos (l : Level) : 0 < kThresh.getD (levelInt l).toNat 0 := by
  cases l <;> decide

/-- With no lines in the run, a call of `GenNextPiece_` is not cut short. -/
theorem moreIDraw_no_lines (env : PyEnv Board Rng) (st : PythonTetris Board Rng)
    (h : st.tetris.run_lines_ = 0) : moreIDraw env st = (false, st) := by
  simp only [moreIDraw]
  split
  · rw [if_neg]
    rw [h]
    have := kThresh_pos (LevelSpeed env.core st.tetris)
    omega
  · rfl

/-- What `GenNextPiece_` does to the object: it touches `rng_` and `piece_count_` only,
and the count is kept by a call that is cut short and advanced modulo 8 otherwise. -/
theorem genNextPiece_frame (env : PyEnv Board Rng) (st : PythonTetris Board Rng)
    (piece : Int) :
    (PythonTetris.GenNextPiece_ env st piece).2 = { st with
      rng_ := (PythonTetris.GenNextPiece_ env st piece).2.rng_,
      piece_count_ := (PythonTetris.GenNextPiece_ env st piece).2.piece_count_ } ∧
    (PythonTetris.GenNextPiece_ env st piece).2.piece_count_ =
      if (moreIDraw env st).1 then st.piece_count_ else (st.piece_count_ + 1) % 8 := by
  have hf := moreIDraw_frame env st
  unfold PythonTetris.GenNextPiece_
  simp only
  split
  · refine ⟨?_, ?_⟩
    · rw [hf]
    · rw [hf]
  · refine ⟨?_, ?_⟩
    · rw [hf]
    · rw [hf]

/-- The range of `piece_count_` is kept by `GenNextPiece_`. -/
theorem genNextPiece_ok (env : PyEnv Board Rng) (st : PythonTetris Board Rng) (piece : Int)
    (h : PieceCountOk st) : PieceCountOk (PythonTetris.GenNextPiece_ env st piece).2 := by
  have hpc := (genNextPiece_frame env st piece).2
  unfold PieceCountOk at h ⊢
  rw [hpc]
  split
  · exact h
  · omega

end PieceCount

section PieceCountOps

variable {Board Rng : Type}

/-- The burn rule leaves `piece_count_` alone. -/
theorem burnStep_piece_count (env : PyEnv Board Rng) (st : PythonTetris Board Rng)
    (tap_mode adj_mode lines : Int) :
    (burnStep env st tap_mode adj_mode lines).piece_count_ = st.piece_count_ := by
  simp only [burnStep]
  split
  · split
    · split <;> rfl
    · rfl
  · rfl

/-- The range of `piece_count_` is kept by the end of `StepAndCalculateReward_`. -/
theorem finishStep_ok (env : PyEnv Board Rng) (st : PythonTetris Board Rng) (pos : Position)
    (score lines : Int) (h : PieceCountOk st) :
    PieceCountOk (finishStep env st pos score lines).2 := by
  simp only [finishStep]
  split
  · exact genNextPiece_ok env st st.next_piece_ h
  · exact h

/-- The range of `piece_count_` is kept by `StepAndCalculateReward_`, whether it returns
or throws. -/
theorem stepAndCalculateReward_ok (env : PyEnv Board Rng) (st : PythonTetris Board Rng)
    (pos : Position) (score lines : Int) (h : PieceCountOk st) :
    PieceCountOk (PythonTetris.StepAndCalculateReward_ env st pos score lines).2 := by
  simp only [PythonTetris.StepAndCalculateReward_]
  split
  · exact h
  · split
    · split
      · exact h
      · split
        · exact h
        · next tap_mode _ adj_mode _ =>
          apply finishStep_ok
          unfold PieceCountOk
          rw [burnStep_piece_count]
          exact h
    · exact finishStep_ok env st pos score lines h

/-- The range of `piece_count_` is kept by `CheckReducibleInitial_`, whether it returns
or throws. -/
theorem checkReducibleInitial_ok (env : PyEnv Board Rng) (st : PythonTetris Board Rng)
    (h : PieceCountOk st) : PieceCountOk (PythonTetris.CheckReducibleInitial_ env st).2 := by
  simp only [PythonTetris.CheckReducibleInitial_]
  split
  · exact h
  · split
    · exact h
    · split
      · exact h
      · exact stepAndCalculateReward_ok env _ _ _ _ h

/-- The range of `piece_count_` is kept by `PythonTetris::InputPlacement`, whether it
returns or throws. -/
theorem inputPlacement_ok (env : PyEnv Board Rng) (st : PythonTetris Board Rng)
    (pos : Position) (h : PieceCountOk st) :
    PieceCountOk (PythonTetris.InputPlacement env st pos).2 := by
  simp only [PythonTetris.InputPlacement]
  split
  · exact h
  · next ret t _ =>
    have h1 := stepAndCalculateReward_ok env { st with tetris := t }
      (GetRealPosition false false st.tetris.now_piece_ pos) ret.1 ret.2 h
    split
    · next e st1 heq =>
      rw [heq] at h1
      exact h1
    · next reward st1 heq =>
      rw [heq] at h1
      split
      · exact h1
      · have h2 := checkReducibleInitial_ok env st1 h1
        split
        · next e st2 heq2 =>
          rw [heq2] at h2
          exact h2
        · next reward_2 st2 heq2 =>
          rw [heq2] at h2
          exact h2

/-- The range of `piece_count_` is kept by `PythonTetris::DirectPlacement`, whether it
returns or throws. -/
theorem directPlacement_ok (env : PyEnv Board Rng) (st : PythonTetris Board Rng)
    (pos : Position) (h : PieceCountOk st) :
    PieceCountOk (PythonTetris.DirectPlacement env st pos).2 := by
  simp only [PythonTetris.DirectPlacement]
  split
  · exact h
  · exact stepAndCalculateReward_ok env _ _ _ _ h

/-- A `PythonTetris::Reset` that returns leaves `piece_count_` in `0..7`, whatever it
was before: the draw after `Tetris::Reset` is never cut short. -/
theorem pyReset_ok (env : PyEnv Board Rng) (st : PythonTetris Board Rng) (b : Board)
    (lines : Int) (taps : List Int) (adj_delay now_piece next_piece : Int) (skip : Bool)
    (out : PyOutcome Unit Board Rng)
    (hout : PythonTetris.Reset env st b lines taps adj_delay now_piece next_piece skip = out)
    (h : out.1 = .ok ()) : PieceCountOk out.2 := by
  simp only [PythonTetris.Reset] at hout
  generalize drawPieces env st now_piece next_piece = d at hout
  split at hout
  · subst hout
    simp at h
  · next u t heq =>
    have hrun := reset_ok_run_lines env.core _ _ _ _ _ _ _ t heq
    have h3 := checkReducibleInitial_ok env
      { (PythonTetris.GenNextPiece_ env { d.1 with tetris := t } d.2.2).2 with
        next_piece_ := (PythonTetris.GenNextPiece_ env { d.1 with tetris := t } d.2.2).1,
        skip_unique_initial_ := skip } (by
          unfold PieceCountOk
          simp only
          rw [(genNextPiece_frame env _ _).2, moreIDraw_no_lines env _ hrun]
          simp only [Bool.false_eq_true, if_false]
          omega)
    split at hout
    · subst hout
      simp at h
    · next u2 st4 heq2 =>
      subst hout
      rw [heq2] at h3
      exact h3

end PieceCountOps

/-! ## `GenNextPiece_`, the piece count and the invalid step -/

section GeneratorClaims

variable {Board Rng : Type}

/-- The value of a call of `GenNextPiece_` that is not cut short. -/
theorem genNextPiece_value (env : PyEnv Board Rng) (st : PythonTetris Board Rng)
    (prev : Int) (h : (moreIDraw env st).1 = false) :
    PythonTetris.GenNextPiece_ env st prev =
      ((env.discrete_distribution ⟨[prev]⟩ (moreIDraw env st).2.rng_).1,
       { st with
         piece_count_ := (st.piece_count_ + 1) % 8,
         rng_ := (env.discrete_distribution ⟨[prev]⟩ (moreIDraw env st).2.rng_).2 }) := by
  have hf := moreIDraw_frame env st
  simp only [PythonTetris.GenNextPiece_, h, Bool.false_eq_true, if_false, weightRow]
  rw [hf]

/-- C14 (amended): a call of `GenNextPiece_(prev)` that is not cut short by the
Tetris-only rule first replaces `piece_count_` by `(piece_count_ + 1) mod 8` and then
draws the next piece from the row of `kTransitionProbInt` selected by `prev` alone, the
row `kTransitionProbInt[prev]`; the value of `piece_count_` has no influence on the piece
drawn. -/
theorem C14_genNextPiece_row (env : PyEnv Board Rng) (st : PythonTetris Board Rng)
    (prev : Int) (h : (moreIDraw env st).1 = false) :
    (PythonTetris.GenNextPiece_ env st prev).2.piece_count_ = (st.piece_count_ + 1) % 8 ∧
    PythonTetris.GenNextPiece_ env st prev =
      ((env.discrete_distribution ⟨[prev]⟩ (moreIDraw env st).2.rng_).1,
       { st with
         piece_count_ := (st.piece_count_ + 1) % 8,
         rng_ := (env.discrete_distribution ⟨[prev]⟩ (moreIDraw env st).2.rng_).2 }) ∧
    ∀ c, (PythonTetris.GenNextPiece_ env { st with piece_count_ := c } prev).1 =
      (PythonTetris.GenNextPiece_ env st prev).1 := by
  have hval := genNextPiece_value env st prev h
  refine ⟨by rw [hval], hval, ?_⟩
  intro c
  have hc := moreIDraw_piece_count env st c
  simp only [PythonTetris.GenNextPiece_, h, hc.1, hc.2, Bool.false_eq_true, if_false]

/-- C15: `piece_count_` lies in `0..7` after the constructor, `Reset` (either overload)
and `ResetRandom` return, whatever it was before; `InputPlacement` and `DirectPlacement`
keep it in `0..7`; and a call of `GenNextPiece_` that is not cut short by the Tetris-only
rule advances it by 1 modulo 8. -/
theorem C15_piece_count_cycles (env : PyEnv Board Rng) (st raw : PythonTetris Board Rng)
    (seed : Nat) (b : Board) (lines : Int) (taps : List Int)
    (adj_delay now_piece next_piece : Int) (skip : Bool) (pos : Position) (piece : Int) :
    ((PythonTetris.construct env raw seed).1 = .ok () →
      PieceCountOk (PythonTetris.construct env raw seed).2) ∧
    ((PythonTetris.Reset env st b lines taps adj_delay now_piece next_piece skip).1 = .ok () →
      PieceCountOk
        (PythonTetris.Reset env st b lines taps adj_delay now_piece next_piece skip).2) ∧
    ((PythonTetris.ResetDefault env st b lines now_piece next_piece skip).1 = .ok () →
      PieceCountOk (PythonTetris.ResetDefault env st b lines now_piece next_piece skip).2) ∧
    ((PythonTetris.ResetRandom env st b).1 = .ok () →
      PieceCountOk (PythonTetris.ResetRandom env st b).2) ∧
    (PieceCountOk st → PieceCountOk (PythonTetris.InputPlacement env st pos).2) ∧
    (PieceCountOk st → PieceCountOk (PythonTetris.DirectPlacement env st pos).2) ∧
    ((moreIDraw env st).1 = false →
      (PythonTetris.GenNextPiece_ env st piece).2.piece_count_ = (st.piece_count_ + 1) % 8 ∧
      PieceCountOk (PythonTetris.GenNextPiece_ env st piece).2) := by
  refine ⟨?_, ?_, ?_, ?_, inputPlacement_ok env st pos, directPlacement_ok env st pos, ?_⟩
  · simp only [PythonTetris.construct, PythonTetris.ResetDefault]
    exact pyReset_ok env _ _ _ _ _ _ _ _ _ rfl
  · exact pyReset_ok env _ _ _ _ _ _ _ _ _ rfl
  · simp only [PythonTetris.ResetDefault]
    exact pyReset_ok env _ _ _ _ _ _ _ _ _ rfl
  · simp only [PythonTetris.ResetRandom, PythonTetris.ResetDefault]
    exact pyReset_ok env _ _ _ _ _ _ _ _ _ rfl
  · intro h
    have hpc := (genNextPiece_frame env st piece).2
    rw [h] at hpc
    simp only [Bool.false_eq_true, if_false] at hpc
    refine ⟨hpc, ?_⟩
    unfold PieceCountOk
    rw [hpc]
    omega

/-- C16: for every position and every `lines`, `StepAndCalculateReward_(pos, -1, lines)`
returns `(-0.3, 0)` and leaves the whole object as it was: the generator, the next
piece and the piece count are untouched. -/
theorem C16_invalid_step_reward (env : PyEnv Board Rng) (st : PythonTetris Board Rng)
    (pos : Position) (lines : Int) :
    PythonTetris.StepAndCalculateReward_ env st pos (-1) lines = (.ok (-3 / 10, 0), st) ∧
    (PythonTetris.StepAndCalculateReward_ env st pos (-1) lines).2.rng_ = st.rng_ ∧
    (PythonTetris.StepAndCalculateReward_ env st pos (-1) lines).2.next_piece_ =
      st.next_piece_ ∧
    (PythonTetris.StepAndCalculateReward_ env st pos (-1) lines).2.piece_count_ =
      st.piece_count_ := by
  have h : PythonTetris.StepAndCalculateReward_ env st pos (-1) lines =
      (.ok (-3 / 10, 0), st) := by
    simp only [PythonTetris.StepAndCalculateReward_, kInvalidReward_, if_true]
  rw [h]
  exact ⟨rfl, rfl, rfl, rfl⟩

end GeneratorClaims

section GeneratorInstances

open Sample

/-- Counterexample to C14 as stated.  Row: at the object constructed with seed 1 the
call `GenNextPiece_(0)` hands in the row `kTransitionProbInt[0]`, not the row
`kTransitionProbInt[4][0]` of the specification, and in the sample environment the piece
drawn differs from the one of the specification.  Tetris-only: with `TETRIS_ONLY`, after
a run of 30 lines, the call returns piece 6 and leaves `piece_count_` as it was. -/
theorem C14_counterexample :
    ((PythonTetris.GenNextPiece_ pyenv pystart 0).2.piece_count_ = 4 ∧
      weightRow 0 ≠ weightRow_spec 4 0 ∧
      PythonTetris.GenNextPiece_ pyenv pystart 0 =
        ((pyenv.discrete_distribution (weightRow 0) pystart.rng_).1,
         { pystart with
           piece_count_ := 4,
           rng_ := (pyenv.discrete_distribution (weightRow 0) pystart.rng_).2 }) ∧
      (PythonTetris.GenNextPiece_ pyenv pystart 0).1 ≠ (GenNextPiece_spec pyenv pystart 0).1) ∧
    ((PythonTetris.GenNextPiece_ pyenvTetrisOnly pyLongRun 0).1 = 6 ∧
      (PythonTetris.GenNextPiece_ pyenvTetrisOnly pyLongRun 0).2.piece_count_ =
        pyLongRun.piece_count_ ∧
      pyLongRun.piece_count_ ≠ (pyLongRun.piece_count_ + 1) % 8) := by
  refine ⟨⟨by decide, by decide, ?_, by decide⟩, by decide, by decide, by decide⟩
  have h := genNextPiece_value pyenv pystart 0 rfl
  have hpc : (pystart.piece_count_ + 1) % 8 = 4 := by decide
  rw [hpc] at h
  exact h

/-- Instance of C14: at the object constructed with seed 1, where no call is cut short,
`GenNextPiece_(0)` moves the piece count from 3 to 4 and draws from `kTransitionProbInt[0]`. -/
theorem C14_witness :
    (moreIDraw pyenv pystart).1 = false ∧ pystart.piece_count_ = 3 ∧
    ((PythonTetris.GenNextPiece_ pyenv pystart 0).2.piece_count_ =
        (pystart.piece_count_ + 1) % 8 ∧
      PythonTetris.GenNextPiece_ pyenv pystart 0 =
        ((pyenv.discrete_distribution ⟨[0]⟩ (moreIDraw pyenv pystart).2.rng_).1,
         { pystart with
           piece_count_ := (pystart.piece_count_ + 1) % 8,
           rng_ := (pyenv.discrete_distribution ⟨[0]⟩ (moreIDraw pyenv pystart).2.rng_).2 }) ∧
      ∀ c, (PythonTetris.GenNextPiece_ pyenv { pystart with piece_count_ := c } 0).1 =
        (PythonTetris.GenNextPiece_ pyenv pystart 0).1) :=
  ⟨by decide, by decide, C14_genNextPiece_row pyenv pystart 0 (by decide)⟩

/-- Instance of C15: the constructor with seed 1 returns with the piece count 3, and the
placement of the first piece at `(0, 18, 4)` moves it to 4. -/
theorem C15_witness :
    (PythonTetris.construct pyenv pyraw 1).1 = .ok () ∧
    PieceCountOk pystart ∧
    PieceCountOk (PythonTetris.InputPlacement pyenv pystart ⟨0, 18, 4⟩).2 ∧
    (PythonTetris.InputPlacement pyenv pystart ⟨0, 18, 4⟩).2.tetris.pieces_ = 1 ∧
    (PythonTetris.InputPlacement pyenv pystart ⟨0, 18, 4⟩).2.piece_count_ = 4 :=
  ⟨by decide,
   (C15_piece_count_cycles pyenv pystart pyraw 1 Ones 0 Tap30Hz 18 (-1) (-1) false
     ⟨0, 18, 4⟩ 0).1 (by decide),
   (C15_piece_count_cycles pyenv pystart pyraw 1 Ones 0 Tap30Hz 18 (-1) (-1) false
     ⟨0, 18, 4⟩ 0).2.2.2.2.1 (by decide),
   by decide, by decide⟩

end GeneratorInstances

/-! ## `GetNoroLineRewardExp` -/

section RewardClaims

/-- The entries of the row `[false][true]` of the three tables. -/
theorem noro_row_notuck_nnb (k : Int) (h0 : 0 ≤ k) (h14 : k ≤ 14) :
    tableAt 0 kExpMultiplier false true k = 1 / 2 ∧
    tableAt 0 kMinExp false true k = -28 / 10 ∧
    tableAt 0 kOffset false true k =
      if k ≤ 9 then 12 else if k ≤ 11 then 10 else if k ≤ 13 then 9 else 6 := by
  interval_cases k <;> simp [tableAt, kExpMultiplier, kMinExp, kOffset, boolIndex]

/-- C17 (amended): `GetNoroLineRewardExp(lines, start_level, do_tuck, nnb)` equals
`min(6, max(0, lines - offset) * multiplier + min_exp)` with the entries of `kOffset`,
`kExpMultiplier` and `kMinExp` at `[do_tuck][nnb][noro::GetLevelSpeed(start_level)]`; in
particular for `(30, 18, false, true)` the result is 6 for every speed index in `0..14`,
the unclamped value is at least 6.2, it is `18 * 0.50 - 2.8 = 6.2` exactly for the speed
indices `0..9`, and for the index 12 of the column `16-18` it is `21 * 0.50 - 2.8 = 7.7`. -/
theorem C17_noro_line_reward_exp (GetLevelSpeed : Int → Int) (lines start_level : Int)
    (do_tuck nnb : Bool) :
    GetNoroLineRewardExp GetLevelSpeed lines start_level do_tuck nnb =
      min 6 (((max 0 (lines - tableAt 0 kOffset do_tuck nnb (GetLevelSpeed start_level)) : Int)
          : ℚ) * tableAt 0 kExpMultiplier do_tuck nnb (GetLevelSpeed start_level) +
        tableAt 0 kMinExp do_tuck nnb (GetLevelSpeed start_level)) ∧
    (0 ≤ GetLevelSpeed 18 → GetLevelSpeed 18 ≤ 14 →
      GetNoroLineRewardExp GetLevelSpeed 30 18 false true = 6 ∧
      62 / 10 ≤ noroLineExpUnclamped GetLevelSpeed 30 18 false true ∧
      (noroLineExpUnclamped GetLevelSpeed 30 18 false true = 62 / 10 ↔
        GetLevelSpeed 18 ≤ 9)) ∧
    (GetLevelSpeed 18 = 12 →
      noroLineExpUnclamped GetLevelSpeed 30 18 false true = 77 / 10) := by
  refine ⟨rfl, ?_, ?_⟩
  · intro h0 h14
    obtain ⟨hm, hmin, hoff⟩ := noro_row_notuck_nnb (GetLevelSpeed 18) h0 h14
    have hun : noroLineExpUnclamped GetLevelSpeed 30 18 false true =
        ((max 0 (30 - tableAt 0 kOffset false true (GetLevelSpeed 18)) : Int) : ℚ) * (1 / 2) +
          (-28 / 10) := by
      simp only [noroLineExpUnclamped, hm, hmin]
    rw [GetNoroLineRewardExp, hun, hoff]
    split_ifs with h9 h11 h13 <;> norm_num <;> omega
  · intro h12
    obtain ⟨hm, hmin, hoff⟩ := noro_row_notuck_nnb (GetLevelSpeed 18) (by omega) (by omega)
    rw [h12] at hm hmin hoff
    simp only [noroLineExpUnclamped, h12, hm, hmin, hoff]
    norm_num

end RewardClaims

/-! ## The mirror tables and `ParsePieceID` -/

section MirrorClaims

/-- C18: in the build without rotation and with `is_mirror_` set, `GetRealPosition` maps
`(r, x, y)` to `(r, x, kMirrorCols_[now_piece] - y)` and applying it twice gives the
position back; with `is_mirror_` unset and in the build with rotation it is the
identity.  The table `kMirrorPiece_` is an involution on `0..6` and
`kMirrorCols_[kMirrorPiece_[p]] = kMirrorCols_[p]` for every piece `p`. -/
theorem C18_mirror_position_involution (now_piece : Int) (is_mirror : Bool) (pos : Position)
    (p : Fin 7) :
    GetRealPosition true true now_piece pos =
      ⟨pos.r, pos.x, kMirrorCols_.getD now_piece.toNat 0 - pos.y⟩ ∧
    GetRealPosition true true now_piece (GetRealPosition true true now_piece pos) = pos ∧
    GetRealPosition true false now_piece pos = pos ∧
    GetRealPosition false is_mirror now_piece pos = pos ∧
    (0 ≤ kMirrorPiece_.getD p 0 ∧ kMirrorPiece_.getD p 0 < 7) ∧
    kMirrorPiece_.getD (kMirrorPiece_.getD p 0).toNat 0 = (p : Int) ∧
    kMirrorCols_.getD (kMirrorPiece_.getD p 0).toNat 0 = kMirrorCols_.getD p 0 := by
  refine ⟨rfl, ?_, rfl, ?_, ?_, ?_, ?_⟩
  · simp only [GetRealPosition, Bool.and_self, if_true]
    cases pos
    simp
  · simp [GetRealPosition]
  · fin_cases p <;> decide
  · fin_cases p <;> decide
  · fin_cases p <;> decide

/-- C20: `ParsePieceID` returns the index in `TJZOSLI` for a string that starts with one
of the seven letters, `n` for an integer `0 <= n <= 6`, and `-1` with an error set for
every other input; the result is always in `-1..6`. -/
theorem C20_parsePieceID (obj : PyObj) :
    (∀ c rest, obj = .unicode (c :: rest) → c ∈ kPieceSymbols →
      ParsePieceID obj = (((kPieceSymbols.indexOf c : Nat) : Int), none)) ∧
    (∀ n, obj = .long n → 0 ≤ n → n ≤ 6 → ParsePieceID obj = (n, none)) ∧
    ((¬ ∃ c rest, obj = .unicode (c :: rest) ∧ c ∈ kPieceSymbols) →
      (¬ ∃ n, obj = .long n ∧ 0 ≤ n ∧ n ≤ 6) →
      (ParsePieceID obj).1 = -1 ∧ (ParsePieceID obj).2 ≠ none) ∧
    (-1 ≤ (ParsePieceID obj).1 ∧ (ParsePieceID obj).1 ≤ 6) ∧
    ((ParsePieceID obj).2 = none ↔ 0 ≤ (ParsePieceID obj).1) := by
  refine ⟨?_, ?_, ?_, ?_, ?_⟩
  · rintro c rest rfl hc
    simp only [kPieceSymbols, List.mem_cons, List.mem_singleton, List.not_mem_nil,
      or_false] at hc
    rcases hc with rfl | rfl | rfl | rfl | rfl | rfl | rfl <;> rfl
  · rintro n rfl h0 h6
    have hx : PyLong_AsLong n = n := by
      unfold PyLong_AsLong
      rw [if_pos (by constructor <;> omega)]
    simp only [ParsePieceID, hx]
    rw [if_neg (by omega)]
  · intro hs hn
    cases obj with
    | unicode chars =>
      cases chars with
      | nil => exact ⟨rfl, by simp [ParsePieceID]⟩
      | cons c rest =>
        have hc : c ∉ kPieceSymbols := fun hmem => hs ⟨c, rest, rfl, hmem⟩
        simp only [kPieceSymbols, List.mem_cons, List.mem_singleton, List.not_mem_nil,
          or_false, not_or] at hc
        obtain ⟨h1, h2, h3, h4, h5, h6, h7⟩ := hc
        simp [ParsePieceID, h1, h2, h3, h4, h5, h6, h7]
    | long n =>
      have hx : PyLong_AsLong n < 0 ∨ PyLong_AsLong n ≥ 7 := by
        unfold PyLong_AsLong
        split
        · by_contra hcon
          exact hn ⟨n, rfl, by omega, by omega⟩
        · left; decide
      simp only [ParsePieceID]
      rw [if_pos hx]
      exact ⟨rfl, by simp⟩
    | other => exact ⟨rfl, by simp [ParsePieceID]⟩
  · cases obj with
    | unicode chars =>
      cases chars with
      | nil => simp [ParsePieceID]
      | cons c rest =>
        simp only [ParsePieceID]
        split_ifs <;> simp
    | long n =>
      simp only [ParsePieceID]
      split_ifs with h
      · simp
      · constructor <;> omega
    | other => simp [ParsePieceID]
  · cases obj with
    | unicode chars =>
      cases chars with
      | nil => simp [ParsePieceID]
      | cons c rest =>
        simp only [ParsePieceID]
        split_ifs <;> simp
    | long n =>
      simp only [ParsePieceID]
      split_ifs with h
      · simp
      · simp only [true_iff]
        omega
    | other => simp [ParsePieceID]

end MirrorClaims

namespace Sample

/-- One step of `PlacePiece` on a well-shaped board keeps the shape and clears at most
the cell `(nx, ny)`. -/
theorem placeOne_spec (field : ByteBoard) (hf : WellShaped field) (nx ny : Int) :
    WellShaped (if nx ≥ 20 ∨ ny ≥ 10 ∨ nx < 0 ∨ ny < 0 then field
      else field.set nx.toNat ((field.getD nx.toNat []).set ny.toNat false)) ∧
    ∀ i j, i < 20 → j < 10 →
      getCell (if nx ≥ 20 ∨ ny ≥ 10 ∨ nx < 0 ∨ ny < 0 then field
        else field.set nx.toNat ((field.getD nx.toNat []).set ny.toNat false)) i j =
      (getCell field i j && !decide ((i : Int) = nx ∧ (j : Int) = ny)) := by
  by_cases hout : nx ≥ 20 ∨ ny ≥ 10 ∨ nx < 0 ∨ ny < 0
  · rw [if_pos hout]
    refine ⟨hf, ?_⟩
    intro i j hi hj
    have : ¬ ((i : Int) = nx ∧ (j : Int) = ny) := by omega
    simp [this]
  · rw [if_neg hout]
    have hn : nx.toNat < 20 := by omega
    have hm : ny.toNat < 10 := by omega
    obtain ⟨hlen, hrows⟩ := hf
    refine ⟨⟨by simpa using hlen, ?_⟩, ?_⟩
    · intro row hrow
      rcases List.mem_or_eq_of_mem_set hrow with h | h
      · exact hrows row h
      · rw [h, List.length_set]
        rw [List.getD_eq_getElem _ _ (by omega)]
        exact hrows _ (List.getElem_mem _)
    · intro i j hi hj
      simp only [getCell, List.getD_eq_getElem?_getD, List.getElem?_set]
      by_cases hin : nx.toNat = i
      · have hix : (i : Int) = nx := by omega
        subst hin
        simp only [if_true, hlen, hn, Option.getD_some, hix, true_and]
        by_cases hjm : ny.toNat = j
        · have hjy : (j : Int) = ny := by omega
          have hlt : j < ((field[nx.toNat]?).getD []).length := by
            rw [List.getElem?_eq_getElem (by omega)]
            simp only [Option.getD_some]
            rw [hrows _ (List.getElem_mem _)]
            exact hj
          simp [hjm, hjy, hlt]
        · have hjy : ¬ ((j : Int) = ny) := by omega
          simp [hjm, hjy]
      · have hix : ¬ ((i : Int) = nx) := by omega
        simp [hin, hix]

/-- The board after `PlacePiece`, cell by cell: a cell is empty iff it was empty and is
not a cell of the piece. -/
theorem placeCells_spec (offs : List (Int × Int)) (x y : Int) :
    ∀ (field : ByteBoard), WellShaped field →
      WellShaped (offs.foldl (fun field i =>
        if x + i.1 ≥ 20 ∨ y + i.2 ≥ 10 ∨ x + i.1 < 0 ∨ y + i.2 < 0 then field
        else field.set (x + i.1).toNat ((field.getD (x + i.1).toNat []).set (y + i.2).toNat
          false)) field) ∧
      ∀ i j, i < 20 → j < 10 →
        getCell (offs.foldl (fun field i =>
          if x + i.1 ≥ 20 ∨ y + i.2 ≥ 10 ∨ x + i.1 < 0 ∨ y + i.2 < 0 then field
          else field.set (x + i.1).toNat ((field.getD (x + i.1).toNat []).set (y + i.2).toNat
            false)) field) i j =
        (getCell field i j &&
          !decide (((i : Int), (j : Int)) ∈ offs.map (fun o => (x + o.1, y + o.2)))) := by
  induction offs with
  | nil =>
    intro field hf
    exact ⟨hf, fun i j _ _ => by simp⟩
  | cons o rest ih =>
    intro field hf
    obtain ⟨h1, h2⟩ := placeOne_spec field hf (x + o.1) (y + o.2)
    obtain ⟨h3, h4⟩ := ih _ h1
    rw [List.foldl_cons]
    refine ⟨h3, ?_⟩
    intro i j hi hj
    rw [h4 i j hi hj, h2 i j hi hj]
    simp only [List.map_cons, List.mem_cons, Prod.mk.injEq, Bool.and_assoc]
    congr 1
    by_cases ha : (i : Int) = x + o.1 ∧ (j : Int) = y + o.2 <;>
      by_cases hb : ((i : Int), (j : Int)) ∈ rest.map (fun o => (x + o.1, y + o.2)) <;>
      simp [ha, hb]

/-- The board after `PlacePiece`, cell by cell. -/
theorem placePiece_spec (b : ByteBoard) (hb : WellShaped b) (poly r x y : Int) :
    WellShaped (PlacePiece b poly r x y) ∧
    ∀ i j, i < 20 → j < 10 →
      getCell (PlacePiece b poly r x y) i j =
        (getCell b i j && !decide (((i : Int), (j : Int)) ∈ pieceCells poly r x y)) :=
  placeCells_spec (blockOf poly r) x y b hb

/-- The mirrored board, cell by cell. -/
theorem mirrorBoard_spec (b : ByteBoard) (hb : WellShaped b) :
    WellShaped (mirrorBoard b) ∧
    ∀ i j, i < 20 → j < 10 → getCell (mirrorBoard b) i j = getCell b i (9 - j) := by
  obtain ⟨hlen, hrows⟩ := hb
  refine ⟨⟨by simpa [mirrorBoard] using hlen, ?_⟩, ?_⟩
  · intro row hrow
    simp only [mirrorBoard, List.mem_map] at hrow
    obtain ⟨r0, hr0, rfl⟩ := hrow
    rw [List.length_reverse]
    exact hrows r0 hr0
  · intro i j hi hj
    have hrow : (b[i]).length = 10 := hrows _ (List.getElem_mem _)
    simp only [getCell, mirrorBoard, List.getD_eq_getElem?_getD, List.getElem?_map,
      List.getElem?_eq_getElem (show i < b.length by omega), Option.map_some',
      Option.getD_some]
    rw [List.getElem?_reverse (by omega), hrow]

/-- Two well-shaped boards with the same cells are equal. -/
theorem board_ext (b1 b2 : ByteBoard) (h1 : WellShaped b1) (h2 : WellShaped b2)
    (h : ∀ i j, i < 20 → j < 10 → getCell b1 i j = getCell b2 i j) : b1 = b2 := by
  obtain ⟨hl1, hr1⟩ := h1
  obtain ⟨hl2, hr2⟩ := h2
  apply List.ext_getElem (by omega)
  intro i hi1 hi2
  have hrow1 : (b1[i]).length = 10 := hr1 _ (List.getElem_mem _)
  have hrow2 : (b2[i]).length = 10 := hr2 _ (List.getElem_mem _)
  apply List.ext_getElem (by omega)
  intro j hj1 hj2
  have := h i j (by omega) (by omega)
  simpa [getCell, List.getD_eq_getElem?_getD, List.getElem?_eq_getElem hi1,
    List.getElem?_eq_getElem hi2, List.getElem?_eq_getElem hj1,
    List.getElem?_eq_getElem hj2] using this

end Sample

section MirrorShapes

open Sample

/-- The reflected cells of piece `p` are the cells of its mirror piece at the mirrored
origin. -/
theorem mirror_cells (p : Fin 7) (x y : Int) (c : Int × Int) :
    c ∈ (pieceCells p 0 x y).map mirrorCell ↔
      c ∈ pieceCells (kMirrorPiece_.getD p 0) 0 x (kMirrorCols_.getD p 0 - y) := by
  obtain ⟨c1, c2⟩ := c
  fin_cases p <;>
    simp [pieceCells, blockOf, kBlocks, kMirrorPiece_, kMirrorCols_, mirrorCell] <;>
    omega

/-- C19: for every piece `p`, row `x` and column `y`, reflecting the four cells of `p` in
rotation 0 at origin `(x, y)` through the vertical axis of the board gives exactly the
four cells of piece `kMirrorPiece_[p]` in rotation 0 at origin `(x, kMirrorCols_[p] - y)`;
hence `PlacePiece` on the mirrored board at the mirrored origin yields the mirror of
`PlacePiece` on the board. -/
theorem C19_mirror_tables_agree_with_shapes (p : Fin 7) (x y : Int) (b : ByteBoard)
    (hb : WellShaped b) :
    (∀ c, c ∈ (pieceCells p 0 x y).map mirrorCell ↔
      c ∈ pieceCells (kMirrorPiece_.getD p 0) 0 x (kMirrorCols_.getD p 0 - y)) ∧
    ((pieceCells p 0 x y).length = 4 ∧ (pieceCells p 0 x y).Nodup) ∧
    ((pieceCells (kMirrorPiece_.getD p 0) 0 x (kMirrorCols_.getD p 0 - y)).length = 4 ∧
      (pieceCells (kMirrorPiece_.getD p 0) 0 x (kMirrorCols_.getD p 0 - y)).Nodup) ∧
    PlacePiece (mirrorBoard b) (kMirrorPiece_.getD p 0) 0 x (kMirrorCols_.getD p 0 - y) =
      mirrorBoard (PlacePiece b p 0 x y) := by
  refine ⟨mirror_cells p x y, ?_, ?_, ?_⟩
  · fin_cases p <;> simp [pieceCells, blockOf, kBlocks]
  · fin_cases p <;> simp [pieceCells, blockOf, kBlocks, kMirrorPiece_, kMirrorCols_]
  · obtain ⟨hm, hmc⟩ := mirrorBoard_spec b hb
    obtain ⟨hp, hpc⟩ := placePiece_spec b hb p 0 x y
    obtain ⟨hpm, hpmc⟩ := placePiece_spec (mirrorBoard b) hm (kMirrorPiece_.getD p 0) 0 x
      (kMirrorCols_.getD p 0 - y)
    obtain ⟨hmp, hmpc⟩ := mirrorBoard_spec (PlacePiece b p 0 x y) hp
    apply board_ext _ _ hpm hmp
    intro i j hi hj
    rw [hpmc i j hi hj, hmpc i j hi hj, hpc i (9 - j) hi (by omega), hmc i j hi hj]
    congr 2
    have hcell := mirror_cells p x y ((i : Int), (j : Int))
    have hiff : ((i : Int), (j : Int)) ∈ (pieceCells p 0 x y).map mirrorCell ↔
        ((i : Int), ((9 - j : Nat) : Int)) ∈ pieceCells p 0 x y := by
      simp only [List.mem_map, mirrorCell]
      constructor
      · rintro ⟨⟨a1, a2⟩, ha, heq⟩
        simp only [Prod.mk.injEq] at heq
        have h2 : a2 = ((9 - j : Nat) : Int) := by omega
        rw [← heq.1, ← h2]
        exact ha
      · intro h
        exact ⟨_, h, by simp only [Prod.mk.injEq, true_and]; omega⟩
    exact decide_eq_decide.mpr (hcell.symm.trans hiff)

end MirrorShapes

/-! ## Closed instances for the reward table, the mirror tables and `ParsePieceID` -/

section RewardInstances

open Sample

/-- Counterexample to C17 as stated: level 18 lies in the column `16-18` of the tables,
the column with index 12, where the offset of the row `[false][true]` is 9; the
unclamped value for `(30, 18, false, true)` is `21 * 0.50 - 2.8 = 7.7`, not 6.2. -/
theorem C17_counterexample :
    legendLevelSpeed 18 = 12 ∧ tableAt 0 kOffset false true 12 = 9 ∧
    noroLineExpUnclamped legendLevelSpeed 30 18 false true = 77 / 10 ∧
    noroLineExpUnclamped legendLevelSpeed 30 18 false true ≠ 62 / 10 := by
  have h : noroLineExpUnclamped legendLevelSpeed 30 18 false true = 77 / 10 := by
    simp [noroLineExpUnclamped, legendLevelSpeed, tableAt, kOffset, kExpMultiplier, kMinExp,
      boolIndex]
    norm_num
  refine ⟨by decide, by decide, h, ?_⟩
  rw [h]
  norm_num

/-- Instance of C17: with the speed index of the column legend the result for
`(30, 18, false, true)` is 6 and the unclamped value is 7.7. -/
theorem C17_witness :
    (0 ≤ legendLevelSpeed 18 ∧ legendLevelSpeed 18 ≤ 14) ∧
    GetNoroLineRewardExp legendLevelSpeed 30 18 false true = 6 ∧
    noroLineExpUnclamped legendLevelSpeed 30 18 false true = 77 / 10 :=
  ⟨by decide,
   ((C17_noro_line_reward_exp legendLevelSpeed 30 18 false true).2.1 (by decide)
     (by decide)).1,
   (C17_noro_line_reward_exp legendLevelSpeed 30 18 false true).2.2 (by decide)⟩

/-- Instance of C19: over the tower, the J piece at `(18, 3)` and its mirror image, the
L piece at `(18, 6)`. -/
theorem C19_witness :
    WellShaped tower ∧
    PlacePiece (mirrorBoard tower) 5 0 18 6 = mirrorBoard (PlacePiece tower 1 0 18 3) :=
  ⟨⟨by decide, by decide⟩,
   (C19_mirror_tables_agree_with_shapes 1 18 3 tower ⟨by decide, by decide⟩).2.2.2⟩

/-- Instance of C20: a string that starts with `L`, the integer 6, the integer 7 and the
empty string. -/
theorem C20_witness :
    ParsePieceID (.unicode ['L', 'x']) = (5, none) ∧
    ParsePieceID (.long 6) = (6, none) ∧
    ((ParsePieceID (.long 7)).1 = -1 ∧ (ParsePieceID (.long 7)).2 ≠ none) ∧
    ((ParsePieceID (.unicode [])).1 = -1 ∧ (ParsePieceID (.unicode [])).2 ≠ none) :=
  ⟨(C20_parsePieceID (.unicode ['L', 'x'])).1 'L' ['x'] rfl (by decide),
   (C20_parsePieceID (.long 6)).2.1 6 rfl (by decide) (by decide),
   (C20_parsePieceID (.long 7)).2.2.1 (by simp) (by simp),
   (C20_parsePieceID (.unicode [])).2.2.1 (by simp) (by simp)⟩

end RewardInstances

/-! ## `Tetris::Reset`: the consistency check -/

section ResetCheck

variable {Board : Type}

/-- The test `pieces * 4 != lines * 10 + b.Count()` of `Reset`, with the truncating
quotient, fails exactly when the total is divisible by 4. -/
theorem tdiv_mul_four_ne (n : Int) : Int.tdiv n 4 * 4 ≠ n ↔ ¬ (4 : Int) ∣ n := by
  constructor
  · intro h hdvd
    exact h (Int.tdiv_mul_cancel hdvd)
  · intro h heq
    exact h ⟨Int.tdiv n 4, by rw [mul_comm]; exact heq.symm⟩

/-- What `Tetris::Reset(b, lines, ...)` does on the consistency check: it raises a runtime
error when `lines * 10 + b.Count()` is not divisible by 4, and with a search that reports
at most 64 adjustment initials it raises only then.  When it raises for that reason,
every field other than `tap_sequence_`, `adj_delay_` and `search_table_` has the value it
had before the call; these three were written before the check and hold the arguments
of the call. -/
theorem reset_incorrect_lines (env : Env Board) (s : Tetris Board) (b : Board)
    (lines now_piece next_piece : Int) (taps : List Int) (adj_delay : Int) :
    (¬ (4 : Int) ∣ lines * 10 + env.Count b →
      Reset env s b lines now_piece next_piece taps adj_delay =
        (.error .runtime_error, { s with
          tap_sequence_ := taps,
          adj_delay_ := adj_delay,
          search_table_ := (taps, adj_delay) })) ∧
    (SearchBounded env →
      ((Reset env s b lines now_piece next_piece taps adj_delay).1 = .ok () ↔
        (4 : Int) ∣ lines * 10 + env.Count b)) := by
  constructor
  · intro h
    simp only [Reset]
    rw [if_pos ((tdiv_mul_four_ne _).mpr h)]
  · intro hb
    by_cases h : (4 : Int) ∣ lines * 10 + env.Count b
    · simp only [h, iff_true]
      simp only [Reset]
      rw [if_neg (not_not.mpr (Int.tdiv_mul_cancel h))]
      have hok := calculateMoves_ok env hb { s with
        tap_sequence_ := taps,
        adj_delay_ := adj_delay,
        search_table_ := (taps, adj_delay),
        board_ := b,
        lines_ := lines,
        pieces_ := Int.tdiv (lines * 10 + env.Count b) 4,
        is_adj_ := false,
        initial_move_ := 0,
        now_piece_ := now_piece,
        next_piece_ := next_piece,
        game_over_ := false } true
      split
      · next e s2 heq =>
        rw [heq] at hok
        simp at hok
      · rfl
    · simp only [h, iff_false]
      simp only [Reset]
      rw [if_pos ((tdiv_mul_four_ne _).mpr h)]
      simp

end ResetCheck

section ResetInstances

open Sample

/-- C22 (failing input): on the object of `start` (tap table `Tap30Hz`, delay 18) the call
`Reset(Board::Ones, 1, 6, 0, Tap20Hz, 21)` raises, since `1 * 10 + 0` is not divisible by
4, and the object then holds `Tap20Hz`, the delay 21 and the search table of the pair in
place of the values it had before the call, while the claim says that every field is
unchanged. -/
theorem C22_failed_reset_overwrites_taps :
    ¬ (4 : Int) ∣ 1 * 10 + env.Count Ones ∧
    (Reset env start Ones 1 6 0 Tap20Hz 21).1 = .error .runtime_error ∧
    start.tap_sequence_ = Tap30Hz ∧
    (Reset env start Ones 1 6 0 Tap20Hz 21).2.tap_sequence_ = Tap20Hz ∧
    (Reset env start Ones 1 6 0 Tap20Hz 21).2.tap_sequence_ ≠ start.tap_sequence_ ∧
    (Reset env start Ones 1 6 0 Tap20Hz 21).2.adj_delay_ ≠ start.adj_delay_ ∧
    (Reset env start Ones 1 6 0 Tap20Hz 21).2.search_table_ ≠ start.search_table_ := by
  refine ⟨by decide, by decide, by decide, by decide, by decide, by decide, by decide⟩

/-- The failing `Reset` of `start` leaves every other field as it was, and a `Reset` with
a consistent line count returns. -/
theorem reset_incorrect_lines_instance :
    Reset env start Ones 1 6 0 Tap20Hz 21 =
      (.error .runtime_error, { start with
        tap_sequence_ := Tap20Hz,
        adj_delay_ := 21,
        search_table_ := (Tap20Hz, 21) }) ∧
    (Reset env start Ones 0 6 0 Tap20Hz 21).1 = .ok () :=
  ⟨(reset_incorrect_lines env start Ones 1 6 0 Tap20Hz 21).1 (by decide),
   ((reset_incorrect_lines env start Ones 0 6 0 Tap20Hz 21).2 searchBounded).mpr
     (by decide)⟩

/-- C23 (amended): in the piece table `kBlocks` the seven pieces T, J, Z, O, S, L, I (ids
0 to 6) have 4, 4, 2, 1, 2, 4, 2 rotations, every rotation count is 1, 2 or 4, and every
rotation consists of four pairwise distinct offsets that contain the origin `(0, 0)`. -/
theorem C23_kBlocks_rotations :
    kBlocks.map List.length = [4, 4, 2, 1, 2, 4, 2] ∧
    kBlocks.all (fun rots => rots.length == 1 || rots.length == 2 || rots.length == 4) = true ∧
    kBlocks.all (fun rots => rots.all (fun rot =>
      rot.length == 4 && decide rot.Nodup && rot.contains (0, 0))) = true := by
  refine ⟨by decide, by decide, by decide⟩

/-- Counterexample to C23 as stated: the rotation counts of `kBlocks` are not
1, 2, 2, 1, 2, 4, 4; the T piece has four rotations and the I piece two. -/
theorem C23_counterexample :
    kBlocks.map List.length ≠ [1, 2, 2, 1, 2, 4, 4] ∧
    (kBlocks.getD 0 []).length = 4 ∧ (kBlocks.getD 6 []).length = 2 := by
  refine ⟨by decide, by decide, by decide⟩

end ResetInstances
/-! ## The order of `moves_.adj` after `CalculateInitialMask_` -/

section SortOrder

variable {Board : Type}

/-- What "not less" means for the comparator of `CalculateInitialMask_`: the later entry
has no more reachable placements, and with equally many its initial column is no closer
to column 5. -/
theorem adjLess_false_iff (a b : AdjItem) :
    adjLess b a = false ↔
      b.2.length ≤ a.2.length ∧
      (a.2.length = b.2.length → (a.1.y - 5).natAbs ≤ (b.1.y - 5).natAbs) := by
  simp only [adjLess]
  split
  · simp only [decide_eq_false_iff_not]
    omega
  · simp only [decide_eq_false_iff_not]
    omega

/-- The comparator is transitive. -/
theorem adjLess_trans (a b c : AdjItem) (h1 : adjLess a b = true) (h2 : adjLess b c = true) :
    adjLess a c = true := by
  simp only [adjLess] at h1 h2 ⊢
  split at h1 <;> split at h2 <;> split <;> simp only [decide_eq_true_eq] at h1 h2 ⊢ <;> omega

/-- The comparator is asymmetric. -/
theorem adjLess_asymm (a b : AdjItem) (h : adjLess a b = true) : adjLess b a = false := by
  simp only [adjLess] at h ⊢
  split at h <;> split <;>
    simp only [decide_eq_true_eq, decide_eq_false_iff_not] at h ⊢ <;> omega

/-- With two or more entries and at most 64, `CalculateInitialMask_` succeeds and leaves
the sorted vector in `moves_.adj`. -/
theorem calculateInitialMask_sorted_adj (env : Env Board) (s : Tetris Board)
    (h2 : 2 ≤ s.moves_.adj.length) (h64 : s.moves_.adj.length ≤ 64) :
    (CalculateInitialMask_ env s).1 = .ok () ∧
    (CalculateInitialMask_ env s).2.moves_.adj = env.std_sort s.moves_.adj := by
  simp only [CalculateInitialMask_]
  rw [if_neg (by omega), if_neg (by omega)]
  exact ⟨rfl, rfl⟩

/-- C29: after `CalculateInitialMask_` on an adj list with at least 2 and at most 64
entries (with a `std::sort` that returns a sorted permutation), the call succeeds and
`moves_.adj` is a permutation of its input in which, for any two positions `i < j`, the
reachable list at `i` is at least as long as the one at `j` and, when they are equally
long, `|initial.y - 5|` at `i` is at most the one at `j`; on a list with 0 or 1 entries
the list is left unchanged and the mask is 0 or 1 respectively. -/
theorem C29_initial_mask_sorts_adj (env : Env Board) (hperm : SortPermutes env)
    (hsorted : SortSorted env) (s : Tetris Board) :
    (2 ≤ s.moves_.adj.length → s.moves_.adj.length ≤ 64 →
      (CalculateInitialMask_ env s).1 = .ok () ∧
      (CalculateInitialMask_ env s).2.moves_.adj.Perm s.moves_.adj ∧
      ∀ (i j : Nat) (hi : i < (CalculateInitialMask_ env s).2.moves_.adj.length)
        (hj : j < (CalculateInitialMask_ env s).2.moves_.adj.length), i < j →
        ((CalculateInitialMask_ env s).2.moves_.adj.get ⟨j, hj⟩).2.length ≤
          ((CalculateInitialMask_ env s).2.moves_.adj.get ⟨i, hi⟩).2.length ∧
        (((CalculateInitialMask_ env s).2.moves_.adj.get ⟨i, hi⟩).2.length =
          ((CalculateInitialMask_ env s).2.moves_.adj.get ⟨j, hj⟩).2.length →
          (((CalculateInitialMask_ env s).2.moves_.adj.get ⟨i, hi⟩).1.y - 5).natAbs ≤
            (((CalculateInitialMask_ env s).2.moves_.adj.get ⟨j, hj⟩).1.y - 5).natAbs)) ∧
    (s.moves_.adj.length ≤ 1 →
      (CalculateInitialMask_ env s).1 = .ok () ∧
      (CalculateInitialMask_ env s).2.moves_ = s.moves_ ∧
      (CalculateInitialMask_ env s).2.initial_mask_ = s.moves_.adj.length) := by
  constructor
  · intro h2 h64
    obtain ⟨hok, hadj⟩ := calculateInitialMask_sorted_adj env s h2 h64
    refine ⟨hok, ?_, ?_⟩
    · rw [hadj]
      exact hperm _
    · have hp := hsorted s.moves_.adj
      rw [← hadj] at hp
      intro i j hi hj hij
      have := (List.pairwise_iff_get.mp hp) ⟨i, hi⟩ ⟨j, hj⟩ hij
      exact (adjLess_false_iff _ _).mp this
  · intro h1
    simp only [CalculateInitialMask_]
    rw [if_neg (by omega), if_pos h1]
    refine ⟨rfl, rfl, ?_⟩
    show (2 ^ s.moves_.adj.length - 1) % 2 ^ 64 = s.moves_.adj.length
    have hc : s.moves_.adj.length = 0 ∨ s.moves_.adj.length = 1 := by omega
    rcases hc with hc | hc <;> rw [hc] <;> rfl

end SortOrder

namespace Sample

/-- Inserting into a sorted list keeps it sorted. -/
theorem insertAdj_sorted (x : AdjItem) (l : List AdjItem)
    (h : l.Pairwise (fun a b => adjLess b a = false)) :
    (insertAdj x l).Pairwise (fun a b => adjLess b a = false) := by
  induction l with
  | nil => simp [insertAdj]
  | cons y rest ih =>
    rw [List.pairwise_cons] at h
    simp only [insertAdj]
    split
    · next hc =>
      rw [List.pairwise_cons]
      refine ⟨?_, ih h.2⟩
      intro w hw
      rcases List.mem_cons.mp ((insertAdj_perm x rest).subset hw) with hwx | hwr
      · subst hwx
        rcases Bool.or_eq_true _ _ ▸ hc with hyx | hxy
        · exact adjLess_asymm _ _ hyx
        · simpa using hxy
      · exact h.1 w hwr
    · next hc =>
      have hyx : adjLess y x = false := by
        cases hv : adjLess y x
        · rfl
        · simp [hv] at hc
      have hxy : adjLess x y = true := by
        cases hv : adjLess x y
        · simp [hv] at hc
        · rfl
      rw [List.pairwise_cons]
      refine ⟨?_, List.pairwise_cons.mpr h⟩
      intro w hw
      rcases List.mem_cons.mp hw with hwy | hwr
      · subst hwy
        exact hyx
      · cases hv : adjLess w x
        · rfl
        · have := adjLess_trans w x y hv hxy
          rw [h.1 w hwr] at this
          exact absurd this (by simp)

/-- The insertion sort of the examples returns a sorted list. -/
theorem sortSorted : SortSorted env := by
  intro l
  show (std_sort l).Pairwise (fun a b => adjLess b a = false)
  have h : ∀ (l acc : List AdjItem), acc.Pairwise (fun a b => adjLess b a = false) →
      (l.foldl (fun acc x => insertAdj x acc) acc).Pairwise
        (fun a b => adjLess b a = false) := by
    intro l
    induction l with
    | nil => intro acc hacc; exact hacc
    | cons x rest ih =>
      intro acc hacc
      exact ih _ (insertAdj_sorted x acc hacc)
  exact h l [] List.Pairwise.nil

end Sample
section SortInstances

open Sample

/-- Instance of C29: the three initials of `triple` come out ordered by the sizes 3, 2, 1
of their reachable lists, and the empty list of `fresh` is left alone with mask 0. -/
theorem C29_witness :
    SortPermutes env ∧ SortSorted env ∧
    2 ≤ triple.moves_.adj.length ∧ triple.moves_.adj.length ≤ 64 ∧
    (CalculateInitialMask_ env triple).2.moves_.adj =
      [(⟨0, 6, 5⟩, [⟨0, 19, 4⟩, ⟨0, 19, 5⟩, ⟨0, 19, 6⟩]),
       (⟨0, 6, 7⟩, [⟨0, 19, 7⟩, ⟨0, 19, 8⟩]),
       (⟨0, 6, 4⟩, [⟨0, 19, 4⟩])] ∧
    ((CalculateInitialMask_ env triple).1 = .ok () ∧
      (CalculateInitialMask_ env triple).2.moves_.adj.Perm triple.moves_.adj ∧
      ∀ (i j : Nat) (hi : i < (CalculateInitialMask_ env triple).2.moves_.adj.length)
        (hj : j < (CalculateInitialMask_ env triple).2.moves_.adj.length), i < j →
        ((CalculateInitialMask_ env triple).2.moves_.adj.get ⟨j, hj⟩).2.length ≤
          ((CalculateInitialMask_ env triple).2.moves_.adj.get ⟨i, hi⟩).2.length ∧
        (((CalculateInitialMask_ env triple).2.moves_.adj.get ⟨i, hi⟩).2.length =
          ((CalculateInitialMask_ env triple).2.moves_.adj.get ⟨j, hj⟩).2.length →
          (((CalculateInitialMask_ env triple).2.moves_.adj.get ⟨i, hi⟩).1.y - 5).natAbs ≤
            (((CalculateInitialMask_ env triple).2.moves_.adj.get ⟨j, hj⟩).1.y - 5).natAbs)) ∧
    fresh.moves_.adj.length ≤ 1 ∧
    ((CalculateInitialMask_ env fresh).1 = .ok () ∧
      (CalculateInitialMask_ env fresh).2.moves_ = fresh.moves_ ∧
      (CalculateInitialMask_ env fresh).2.initial_mask_ = fresh.moves_.adj.length) :=
  ⟨sortPermutes, sortSorted, by decide, by decide, by decide,
   (C29_initial_mask_sorts_adj env sortPermutes sortSorted triple).1 (by decide) (by decide),
   by decide,
   (C29_initial_mask_sorts_adj env sortPermutes sortSorted fresh).2 (by decide)⟩

end SortInstances

/-! ## The tags of the move map -/

section MoveMapTags

variable {Board : Type}

/-- After a sequence of writes the tag of `q` is the value written by the last entry
that addresses `q`. -/
theorem foldl_setCell_last {α : Type} (f : α → Position) (g : α → Nat) (l : List α)
    (q : Position) :
    ∀ (m : MoveMap) (i : Nat) (hi : i < l.length), f (l.get ⟨i, hi⟩) = q →
      (∀ (j : Nat) (hj : j < l.length), i < j → f (l.get ⟨j, hj⟩) ≠ q) →
      (l.foldl (fun m e => setCell m (f e) (g e)) m) q = g (l.get ⟨i, hi⟩) := by
  induction l with
  | nil => intro m i hi; simp at hi
  | cons a rest ih =>
    intro m i hi hq hlast
    simp only [List.foldl_cons]
    cases i with
    | zero =>
      have hrest : ∀ e ∈ rest, f e ≠ q := by
        intro e he
        obtain ⟨k, hk, hke⟩ := List.getElem_of_mem he
        have := hlast (k + 1) (by simp; omega) (by omega)
        simp only [List.get_eq_getElem, List.getElem_cons_succ] at this
        rw [hke] at this
        exact this
      rw [foldl_setCell_untouched f g rest _ q hrest]
      simp only [List.get_eq_getElem, List.getElem_cons_zero] at hq ⊢
      simp [setCell, hq]
    | succ k =>
      have hk : k < rest.length := by simpa using hi
      have := ih (setCell m (f a) (g a)) k hk (by simpa using hq) (by
        intro j hj hkj
        have := hlast (j + 1) (by simp; omega) (by omega)
        simpa using this)
      simpa using this

/-- The tag of a cell in the map of the playing phase, case by case. -/
theorem fillMoveMap_tag (moves : PossibleMoves) (initial_move : Int) (mask : Nat)
    (q : Position) :
    ((¬ ∃ e ∈ moves.adj, e.1 = q) →
      fillMoveMap false moves initial_move mask q = if q ∈ moves.non_adj then 1 else 0) ∧
    (∀ (i : Nat) (hi : i < moves.adj.length), (moves.adj.get ⟨i, hi⟩).1 = q →
      (∀ (j : Nat) (hj : j < moves.adj.length), i < j → (moves.adj.get ⟨j, hj⟩).1 ≠ q) →
      fillMoveMap false moves initial_move mask q = if mask.testBit i then 3 else 2) := by
  constructor
  · intro hne
    have hall : ∀ e ∈ moves.adj.enum, (fun e : Nat × AdjItem => e.2.1) e ≠ q := by
      intro e he heq
      exact hne ⟨e.2, List.snd_mem_of_mem_enum he, heq⟩
    have h1 := foldl_setCell_untouched (fun e : Nat × AdjItem => e.2.1)
      (fun e => if mask.testBit e.1 then kHasAdjNonReduced else kHasAdjReduced)
      moves.adj.enum (moves.non_adj.foldl (fun m i => setCell m i kNoAdj) (fun _ => 0)) q hall
    have h2 := foldl_setCell_const kNoAdj moves.non_adj (fun _ => 0) q
    simp only [fillMoveMap, Bool.not_false, if_true]
    rw [h1, h2]
    rfl
  · intro i hi hq hlast
    have hlen : i < moves.adj.enum.length := by simpa using hi
    have h1 := foldl_setCell_last (fun e : Nat × AdjItem => e.2.1)
      (fun e => if mask.testBit e.1 then kHasAdjNonReduced else kHasAdjReduced)
      moves.adj.enum q (moves.non_adj.foldl (fun m i => setCell m i kNoAdj) (fun _ => 0))
      i hlen (by simpa using hq) (by
        intro j hj hij
        have := hlast j (by simpa using hj) hij
        simpa using this)
    simp only [fillMoveMap, Bool.not_false, if_true]
    rw [h1]
    simp [kHasAdjNonReduced, kHasAdjReduced]

/-- Among the entries of `adj` whose initial is `q` there is a last one. -/
theorem exists_last_initial (adj : List AdjItem) (q : Position)
    (h : ∃ e ∈ adj, e.1 = q) :
    ∃ (i : Nat) (hi : i < adj.length), (adj.get ⟨i, hi⟩).1 = q ∧
      ∀ (j : Nat) (hj : j < adj.length), i < j → (adj.get ⟨j, hj⟩).1 ≠ q := by
  induction adj with
  | nil =>
    obtain ⟨e, he, _⟩ := h
    simp at he
  | cons a rest ih =>
    by_cases hr : ∃ e ∈ rest, e.1 = q
    · obtain ⟨i, hi, hq, hlast⟩ := ih hr
      refine ⟨i + 1, by simp; omega, by simpa using hq, ?_⟩
      intro j hj hij
      cases j with
      | zero => omega
      | succ k =>
        have := hlast k (by simpa using hj) (by omega)
        simpa using this
    · obtain ⟨e, he, heq⟩ := h
      have hea : e = a := by
        rcases List.mem_cons.mp he with h1 | h1
        · exact h1
        · exact absurd ⟨e, h1, heq⟩ hr
      subst hea
      refine ⟨0, by simp, by simpa using heq, ?_⟩
      intro j hj hij
      cases j with
      | zero => omega
      | succ k =>
        intro hk
        apply hr
        have hk2 : k < rest.length := by simpa using hj
        exact ⟨rest.get ⟨k, hk2⟩, List.get_mem _ _ _, by simpa using hk⟩

/-- When `CalculateMoves_` returns in the playing phase without having found the game
over, the move map is the one built from the resulting `moves_` and `initial_mask_`. -/
theorem calculateMoves_built (env : Env Board) (s : Tetris Board) (regenerate : Bool)
    (t : Tetris Board) (h : CalculateMoves_ env s regenerate = (.ok (), t))
    (hphase : s.is_adj_ = false)
    (hfound : regenerate = true →
      ¬ ((searchResult env s).non_adj = [] ∧ (searchResult env s).adj = [])) :
    t.move_map_ = fillMoveMap false t.moves_ t.initial_move_ t.initial_mask_ := by
  simp only [CalculateMoves_] at h
  split at h
  · next hreg =>
    have hf := hfound hreg
    split at h
    · next hempty =>
      exfalso
      apply hf
      simp only [Bool.and_eq_true, List.isEmpty_iff] at hempty
      exact hempty
    · split at h
      · simp at h
      · next u s2 heq =>
        simp only [Prod.mk.injEq, true_and] at h
        subst h
        have hfr := calculateInitialMask_frame env _ _ heq
        have hadj : s2.is_adj_ = false := by
          rw [hfr.2.2.2.1]
          exact hphase
        show fillMoveMap s2.is_adj_ s2.moves_ s2.initial_move_ s2.initial_mask_ = _
        rw [hadj]
  · simp only [Prod.mk.injEq, true_and] at h
    subst h
    show fillMoveMap s.is_adj_ s.moves_ s.initial_move_ s.initial_mask_ = _
    rw [hphase]

/-- C30: in the non-adjusting state the move map built by `CalculateMoves_` holds only
tags in {0, 1, 2, 3}: a cell has tag 3 or 2 iff it is the initial of some adj entry, the
tag being 3 exactly when the `initial_mask_` bit of the last such entry is set; it has
tag 1 iff it is in `non_adj` and is not an adj initial; and tag 0 iff it is in neither
list.  `IsNoAdjMove` and `IsAdjMove` are never both true and are both false exactly on
tag 0. -/
theorem C30_move_map_tags (env : Env Board) (s : Tetris Board) (regenerate : Bool)
    (t : Tetris Board) (h : CalculateMoves_ env s regenerate = (.ok (), t))
    (hphase : s.is_adj_ = false)
    (hfound : regenerate = true →
      ¬ ((searchResult env s).non_adj = [] ∧ (searchResult env s).adj = []))
    (q : Position) :
    t.move_map_ q ≤ 3 ∧
    ((t.move_map_ q = 3 ∨ t.move_map_ q = 2) ↔ ∃ e ∈ t.moves_.adj, e.1 = q) ∧
    (∀ (i : Nat) (hi : i < t.moves_.adj.length), (t.moves_.adj.get ⟨i, hi⟩).1 = q →
      (∀ (j : Nat) (hj : j < t.moves_.adj.length), i < j →
        (t.moves_.adj.get ⟨j, hj⟩).1 ≠ q) →
      (t.move_map_ q = 3 ↔ t.initial_mask_.testBit i = true)) ∧
    (t.move_map_ q = 1 ↔ q ∈ t.moves_.non_adj ∧ ¬ ∃ e ∈ t.moves_.adj, e.1 = q) ∧
    (t.move_map_ q = 0 ↔ q ∉ t.moves_.non_adj ∧ ¬ ∃ e ∈ t.moves_.adj, e.1 = q) ∧
    ¬ (IsNoAdjMove t q = true ∧ IsAdjMove t q = true) ∧
    ((IsNoAdjMove t q = false ∧ IsAdjMove t q = false) ↔ t.move_map_ q = 0) := by
  have hmap := calculateMoves_built env s regenerate t h hphase hfound
  obtain ⟨hnone, hsome⟩ := fillMoveMap_tag t.moves_ t.initial_move_ t.initial_mask_ q
  rw [← hmap] at hnone hsome
  have hflags : ¬ (IsNoAdjMove t q = true ∧ IsAdjMove t q = true) ∧
      ((IsNoAdjMove t q = false ∧ IsAdjMove t q = false) ↔ t.move_map_ q = 0) := by
    simp only [IsNoAdjMove, IsAdjMove, kNoAdj, kHasAdjReduced, beq_iff_eq, decide_eq_true_eq,
      beq_eq_false_iff_ne, decide_eq_false_iff_not]
    omega
  by_cases hex : ∃ e ∈ t.moves_.adj, e.1 = q
  · obtain ⟨i, hi, hq, hlast⟩ := exists_last_initial t.moves_.adj q hex
    have hv := hsome i hi hq hlast
    have h23 : t.move_map_ q = 3 ∨ t.move_map_ q = 2 := by
      rw [hv]
      split
      · exact Or.inl rfl
      · exact Or.inr rfl
    refine ⟨by omega, ?_, ?_, ?_, ?_, hflags⟩
    · exact ⟨fun _ => hex, fun _ => h23⟩
    · intro i2 hi2 hq2 hlast2
      rw [hsome i2 hi2 hq2 hlast2]
      split
      · next hb => simp [hb]
      · next hb => simp [hb]
    · constructor
      · intro h1; omega
      · intro h1; exact absurd hex h1.2
    · constructor
      · intro h0; omega
      · intro h0; exact absurd hex h0.2
  · have hv := hnone hex
    refine ⟨?_, ?_, ?_, ?_, ?_, hflags⟩
    · rw [hv]; split <;> omega
    · constructor
      · intro h23
        rw [hv] at h23
        split at h23 <;> omega
      · intro h1; exact absurd h1 hex
    · intro i hi hq _
      exact absurd ⟨_, List.get_mem _ _ _, hq⟩ hex
    · rw [hv]
      constructor
      · intro h1
        split at h1
        · next hm => exact ⟨hm, hex⟩
        · omega
      · intro h1
        rw [if_pos h1.1]
    · rw [hv]
      constructor
      · intro h0
        split at h0
        · omega
        · next hm => exact ⟨hm, hex⟩
      · intro h0
        rw [if_neg h0.1]

end MoveMapTags
section MoveMapInstances

open Sample

/-- Instance of C30: after a search from `start` the cell `(0, 6, 5)`, an adjustment
initial, carries tag 2 or 3, and the flags `IsNoAdjMove` and `IsAdjMove` exclude each
other there. -/
theorem C30_witness :
    CalculateMoves_ env start true = (.ok (), searched) ∧ start.is_adj_ = false ∧
    ¬ ((searchResult env start).non_adj = [] ∧ (searchResult env start).adj = []) ∧
    (searched.move_map_ ⟨0, 6, 5⟩ ≤ 3 ∧
    ((searched.move_map_ ⟨0, 6, 5⟩ = 3 ∨ searched.move_map_ ⟨0, 6, 5⟩ = 2) ↔
      ∃ e ∈ searched.moves_.adj, e.1 = ⟨0, 6, 5⟩) ∧
    (∀ (i : Nat) (hi : i < searched.moves_.adj.length),
      (searched.moves_.adj.get ⟨i, hi⟩).1 = ⟨0, 6, 5⟩ →
      (∀ (j : Nat) (hj : j < searched.moves_.adj.length), i < j →
        (searched.moves_.adj.get ⟨j, hj⟩).1 ≠ ⟨0, 6, 5⟩) →
      (searched.move_map_ ⟨0, 6, 5⟩ = 3 ↔ searched.initial_mask_.testBit i = true)) ∧
    (searched.move_map_ ⟨0, 6, 5⟩ = 1 ↔
      (⟨0, 6, 5⟩ : Position) ∈ searched.moves_.non_adj ∧
        ¬ ∃ e ∈ searched.moves_.adj, e.1 = ⟨0, 6, 5⟩) ∧
    (searched.move_map_ ⟨0, 6, 5⟩ = 0 ↔
      (⟨0, 6, 5⟩ : Position) ∉ searched.moves_.non_adj ∧
        ¬ ∃ e ∈ searched.moves_.adj, e.1 = ⟨0, 6, 5⟩) ∧
    ¬ (IsNoAdjMove searched ⟨0, 6, 5⟩ = true ∧ IsAdjMove searched ⟨0, 6, 5⟩ = true) ∧
    ((IsNoAdjMove searched ⟨0, 6, 5⟩ = false ∧ IsAdjMove searched ⟨0, 6, 5⟩ = false) ↔
      searched.move_map_ ⟨0, 6, 5⟩ = 0)) :=
  ⟨Prod.ext (by decide) rfl, by decide, by decide,
   C30_move_map_tags env start true searched (Prod.ext (by decide) rfl) (by decide)
     (fun _ => by decide) ⟨0, 6, 5⟩⟩

end MoveMapInstances
/-! ## `Tetris_Reset`: the validation of the tap sequence -/

section BindingProofs

variable {Board Rng : Type}

/-- The gap loop of `Tetris_Reset` on a vector of ten entries finds no violation exactly
when every successive difference is at least 2. -/
theorem gaps_any_false_iff (v : List Int) (hlen : v.length = 10) :
    (List.range' 1 (v.length - 1)).any (fun i =>
        decide (v.getD i 0 - v.getD (i - 1) 0 < 2)) = false ↔
      ∀ i, i < 10 → 1 ≤ i → 2 ≤ v.getD i 0 - v.getD (i - 1) 0 := by
  rw [hlen]
  simp only [List.any_eq_false, List.mem_range', decide_eq_true_eq, not_lt]
  constructor
  · intro h i hi h1
    exact h i ⟨i - 1, by omega, by omega⟩
  · intro h i hi
    obtain ⟨k, hk, rfl⟩ := hi
    exact h _ (by omega) (by omega)

/-- The `try` block of `Tetris_Reset` on a vector that `GetArray` produced. -/
theorem tapTry_of_getArray (Tap30Hz : List Int) (obj : TapObj) (v : List Int)
    (hv : GetArray obj = .ok v) :
    tapTry Tap30Hz (some obj) =
      if validTapSequence v then .ok v else .error .invalid_argument := by
  simp only [tapTry, hv]
  by_cases hvalid : validTapSequence v
  · have hany := (gaps_any_false_iff v hvalid.1).mpr hvalid.2
    rw [if_pos hvalid, if_neg (show ¬ (v.length ≠ 10) from not_not.mpr hvalid.1), hany]
    rfl
  · rw [if_neg hvalid]
    by_cases hlen : v.length = 10
    · have hany : (List.range' 1 (v.length - 1)).any (fun i =>
          decide (v.getD i 0 - v.getD (i - 1) 0 < 2)) = true := by
        cases hb : (List.range' 1 (v.length - 1)).any (fun i =>
          decide (v.getD i 0 - v.getD (i - 1) 0 < 2))
        · exact absurd ⟨hlen, (gaps_any_false_iff v hlen).mp hb⟩ hvalid
        · rfl
      rw [if_neg (show ¬ (v.length ≠ 10) from not_not.mpr hlen), hany]
      rfl
    · rw [if_pos (show v.length ≠ 10 from hlen)]

/-- A tap sequence that passes the validation is strictly ascending. -/
theorem validTapSequence_ascending (v : List Int) (h : validTapSequence v) :
    v.Pairwise (fun a b => a < b) := by
  obtain ⟨hlen, hgap⟩ := h
  rw [List.pairwise_iff_getElem]
  intro i j hi hj hij
  have key : ∀ d, i + d + 1 < 10 → v.getD i 0 < v.getD (i + d + 1) 0 := by
    intro d
    induction d with
    | zero =>
      intro hd
      have := hgap (i + 1) (by omega) (by omega)
      simp only [Nat.add_sub_cancel] at this
      simp only [Nat.add_zero]
      omega
    | succ d ih =>
      intro hd
      have h1 := ih (by omega)
      have h2 := hgap (i + (d + 1) + 1) (by omega) (by omega)
      simp only [Nat.add_sub_cancel] at h2
      have e : i + (d + 1) = i + d + 1 := by omega
      rw [e] at h2
      rw [e]
      omega
  have := key (j - i - 1) (by omega)
  have e : i + (j - i - 1) + 1 = j := by omega
  rw [e] at this
  rw [List.getD_eq_getElem _ _ hi, List.getD_eq_getElem _ _ hj] at this
  exact this

/-- The list loop of `GetArray` on a list of Python integers inside the range of `int`
appends their values. -/
theorem getArrayList_longs (vals : List Int)
    (h : ∀ x ∈ vals, -(2 ^ 31) ≤ x ∧ x < 2 ^ 31) (acc : List Int) :
    GetArrayList (vals.map PyObj.long) acc = .ok (acc ++ vals) := by
  induction vals generalizing acc with
  | nil => simp [GetArrayList]
  | cons x rest ih =>
    have hx := h x (List.mem_cons_self x rest)
    simp only [List.map_cons, GetArrayList]
    rw [ih (fun y hy => h y (List.mem_cons_of_mem x hy))]
    have e : toCInt (PyLong_AsLong x) = x := by
      simp only [toCInt, PyLong_AsLong]
      rw [if_pos (by constructor <;> omega)]
      omega
    rw [e]
    simp

/-- C21: `Tetris_Reset` (build with rotation) accepts a user tap sequence (the `try`
block completes and the rest of the binding, with the call of `PythonTetris::Reset`,
runs on it) iff the vector read by `GetArray` has exactly 10 entries and every
successive difference `tap[i] - tap[i-1]` is at least 2, and such a vector is strictly
ascending; for every other object it returns `nullptr` with `TypeError` set and the
object unchanged.  A Python list of integers inside the range of `int` is read as the
list of its values. -/
theorem C21_reset_tap_validation (env : PyEnv Board Rng) (Tap30Hz : List Int)
    (SetAggression : PythonTetris Board Rng → Int → PythonTetris Board Rng)
    (self : PythonTetris Board Rng) (args : ResetArgs Board) (obj : TapObj) :
    ((∃ v, tapTry Tap30Hz (some obj) = .ok v) ↔
      ∃ v, GetArray obj = .ok v ∧ validTapSequence v) ∧
    (∀ v, GetArray obj = .ok v → validTapSequence v →
      v.Pairwise (fun a b => a < b) ∧
      Tetris_Reset env Tap30Hz SetAggression self { args with tap_sequence_obj := some obj } =
        resetAfterTaps env SetAggression self args v) ∧
    ((¬ ∃ v, GetArray obj = .ok v ∧ validTapSequence v) →
      Tetris_Reset env Tap30Hz SetAggression self { args with tap_sequence_obj := some obj } =
        (.ok (.null .TypeError), self)) ∧
    (∀ vals : List Int, (∀ x ∈ vals, -(2 ^ 31) ≤ x ∧ x < 2 ^ 31) →
      GetArray (.list (vals.map PyObj.long)) = .ok vals) := by
  refine ⟨?_, ?_, ?_, ?_⟩
  · constructor
    · rintro ⟨v, hv⟩
      cases hg : GetArray obj with
      | error e => simp [tapTry, hg] at hv
      | ok w =>
        rw [tapTry_of_getArray Tap30Hz obj w hg] at hv
        by_cases hw : validTapSequence w
        · exact ⟨w, rfl, hw⟩
        · rw [if_neg hw] at hv
          simp at hv
    · rintro ⟨v, hv, hvalid⟩
      exact ⟨v, by rw [tapTry_of_getArray Tap30Hz obj v hv, if_pos hvalid]⟩
  · intro v hv hvalid
    refine ⟨validTapSequence_ascending v hvalid, ?_⟩
    simp only [Tetris_Reset]
    rw [tapTry_of_getArray Tap30Hz obj v hv, if_pos hvalid]
    rfl
  · intro hno
    simp only [Tetris_Reset]
    cases hg : GetArray obj with
    | error e => simp [tapTry, hg]
    | ok w =>
      rw [tapTry_of_getArray Tap30Hz obj w hg]
      rw [if_neg (fun hw => hno ⟨w, hg, hw⟩)]
  · intro vals h
    have := getArrayList_longs vals h []
    simpa [GetArray] using this

end BindingProofs

section BindingInstances

open Sample

/-- Instance of C21: the list `[0, 1, ..., 9]` is rejected with `TypeError` and the object
unchanged, and the list of `Tap20Hz` is accepted. -/
theorem C21_witness :
    GetArray tightTaps = .ok [0, 1, 2, 3, 4, 5, 6, 7, 8, 9] ∧
    ¬ validTapSequence [0, 1, 2, 3, 4, 5, 6, 7, 8, 9] ∧
    Tetris_Reset pyenv Tap30Hz SetAggression pystart
        { noArgs with tap_sequence_obj := some tightTaps } =
      (.ok (.null .TypeError), pystart) ∧
    GetArray tap20List = .ok Tap20Hz ∧ validTapSequence Tap20Hz ∧
    (Tap20Hz.Pairwise (fun a b => a < b) ∧
      Tetris_Reset pyenv Tap30Hz SetAggression pystart
          { noArgs with tap_sequence_obj := some tap20List } =
        resetAfterTaps pyenv SetAggression pystart noArgs Tap20Hz) :=
  ⟨by decide, by decide,
   (C21_reset_tap_validation pyenv Tap30Hz SetAggression pystart noArgs tightTaps).2.2.1
     (by
       rintro ⟨v, hv, hvalid⟩
       have h0 : GetArray tightTaps = .ok [0, 1, 2, 3, 4, 5, 6, 7, 8, 9] := by decide
       rw [h0] at hv
       injection hv with hv
       subst hv
       exact absurd hvalid (by decide)),
   by decide, by decide,
   (C21_reset_tap_validation pyenv Tap30Hz SetAggression pystart noArgs tap20List).2.1
     Tap20Hz (by decide) (by decide)⟩

end BindingInstances

/-! ## The naive `ClearLines` -/

namespace Naive

open Sample

/-- The flag of `ClearLines` for a row of ten cells: some cell of the row is empty. -/
theorem flag_eq_any (field : ByteBoard) (i : Nat) (h : (field.getD i []).length = 10) :
    (List.range 10).any (fun y => getCell field i y) = (field.getD i []).any id := by
  generalize hrow : field.getD i [] = row at h
  have e : (fun y => getCell field i y) = fun y => row.getD y false := by
    funext y
    simp only [getCell, hrow]
  rw [e]
  match row, h with
  | [a0, a1, a2, a3, a4, a5, a6, a7, a8, a9], _ =>
    simp [List.range, List.range.loop, Bool.or_assoc]

/-- The scan of `ClearLines`: after the rows below `n` were handled with write index
`m - 1`, the rows from the final write index on are the rows with an empty cell among the
first `n`, followed by what was already in place. -/
theorem clearLoop_spec (n : Nat) :
    ∀ (m : Nat) (field : ByteBoard), n ≤ m → m ≤ 20 → field.length = 20 →
      (∀ row ∈ field, row.length = 10) →
      ((clearLoop n ((m : Int) - 1) field).1 + 1 =
          (m : Int) - (((field.take n).filter (fun row => row.any id)).length : Int)) ∧
      (clearLoop n ((m : Int) - 1) field).2.length = 20 ∧
      (∀ row ∈ (clearLoop n ((m : Int) - 1) field).2, row.length = 10) ∧
      (clearLoop n ((m : Int) - 1) field).2.drop
          (m - ((field.take n).filter (fun row => row.any id)).length) =
        (field.take n).filter (fun row => row.any id) ++ field.drop m := by
  induction n with
  | zero =>
    intro m field _ _ hlen hrows
    simp [clearLoop, hlen, hrows]
    exact hrows
  | succ n ih =>
    intro m field hnm hm hlen hrows
    have hn : n < field.length := by omega
    have hget : field.getD n [] = field[n] := by
      simp [List.getD_eq_getElem?_getD, List.getElem?_eq_getElem hn]
    have hrow : (field.getD n []).length = 10 := by
      rw [hget]
      exact hrows _ (List.getElem_mem _)
    have htake : field.take (n + 1) = field.take n ++ [field[n]] := by
      rw [List.take_succ, List.getElem?_eq_getElem hn]
      rfl
    simp only [clearLoop]
    rw [flag_eq_any field n hrow, hget]
    by_cases hfull : (field[n]).any id = true
    · have hfilter : (field.take (n + 1)).filter (fun row => row.any id) =
          (field.take n).filter (fun row => row.any id) ++ [field[n]] := by
        rw [htake, List.filter_append]
        simp [List.filter, hfull]
      have hk : ((field.take n).filter (fun row => row.any id)).length ≤ n := by
        have := List.length_filter_le (fun row : List Bool => row.any id) (field.take n)
        simp only [List.length_take] at this
        omega
      rw [hfilter]
      simp only [hfull, Bool.not_true, Bool.false_eq_true, if_false, List.length_append,
        List.length_singleton]
      by_cases hj : (n : Int) = (m : Int) - 1
      · have hmn : m = n + 1 := by omega
        subst hmn
        rw [if_neg (by simp)]
        have := ih n field (le_refl n) (by omega) hlen hrows
        have e1 : ((n + 1 : Nat) : Int) - 1 - 1 = (n : Int) - 1 := by push_cast; ring
        rw [e1]
        obtain ⟨h1, h2, h3, h4⟩ := this
        refine ⟨?_, h2, h3, ?_⟩
        · rw [h1]; push_cast; ring
        · have e2 : n + 1 - (((field.take n).filter (fun row => row.any id)).length + 1) =
              n - ((field.take n).filter (fun row => row.any id)).length := by omega
          rw [e2, h4, List.append_assoc]
          congr 1
          rw [List.singleton_append]
          exact List.drop_eq_getElem_cons hn
      · rw [if_pos (by simpa using hj)]
        have hlt : n + 1 < m := by omega
        obtain ⟨m1, rfl⟩ : ∃ m1, m = m1 + 1 := ⟨m - 1, by omega⟩
        have e1 : ((m1 + 1 : Nat) : Int) - 1 - 1 = (m1 : Int) - 1 := by push_cast; ring
        have e0 : (((m1 + 1 : Nat) : Int) - 1).toNat = m1 := by
          have : ((m1 + 1 : Nat) : Int) - 1 = (m1 : Int) := by push_cast; ring
          rw [this]
          exact Int.toNat_ofNat m1
        rw [e1, e0]
        have hlen1 : (field.set m1 field[n]).length = 20 := by simpa using hlen
        have hrows1 : ∀ row ∈ field.set m1 field[n], row.length = 10 := by
          intro row hr
          rcases List.mem_or_eq_of_mem_set hr with h | h
          · exact hrows row h
          · rw [h]; exact hrows _ (List.getElem_mem _)
        have htake1 : (field.set m1 field[n]).take n = field.take n := by
          exact List.take_set_of_lt _ _ (by omega)
        have := ih m1 (field.set m1 field[n]) (by omega) (by omega) hlen1 hrows1
        rw [htake1] at this
        obtain ⟨h1, h2, h3, h4⟩ := this
        refine ⟨?_, h2, h3, ?_⟩
        · rw [h1]; push_cast; ring
        · have e2 : m1 + 1 - (((field.take n).filter (fun row => row.any id)).length + 1) =
              m1 - ((field.take n).filter (fun row => row.any id)).length := by omega
          rw [e2, h4, List.append_assoc]
          congr 1
          rw [List.singleton_append]
          have hm1 : m1 < (field.set m1 field[n]).length := by omega
          rw [List.drop_eq_getElem_cons hm1]
          simp only [List.getElem_set_self, List.drop_set_of_lt _ _ (Nat.lt_succ_self m1)]
    · have hfull2 : (field[n]).any id = false := by
        cases hb : (field[n]).any id
        · rfl
        · exact absurd hb hfull
      have hfilter : (field.take (n + 1)).filter (fun row => row.any id) =
          (field.take n).filter (fun row => row.any id) := by
        rw [htake, List.filter_append]
        simp [List.filter, hfull2]
      rw [hfilter]
      simp only [hfull2, Bool.not_false, if_true]
      have := ih m field (by omega) hm hlen hrows
      exact this

end Naive
namespace Naive

open Sample

/-- The fill loop of `ClearLines` replaces the first `k` rows by all-empty rows. -/
theorem fillRows_spec (k : Nat) :
    ∀ (field : ByteBoard), k ≤ field.length → (∀ row ∈ field, row.length = 10) →
      fillRows k field = List.replicate k (List.replicate 10 true) ++ field.drop k := by
  induction k with
  | zero => intro field _ _; simp [fillRows]
  | succ k ih =>
    intro field hk hrows
    have hlt : k < field.length := by omega
    have hget : field.getD k [] = field[k] := by
      simp [List.getD_eq_getElem?_getD, List.getElem?_eq_getElem hlt]
    have hrow : (field[k]).length = 10 := hrows _ (List.getElem_mem _)
    have hmap : (field[k]).map (fun _ => true) = List.replicate 10 true := by
      rw [List.map_const', hrow]
    simp only [fillRows]
    rw [hget, hmap]
    have hrows1 : ∀ row ∈ field.set k (List.replicate 10 true), row.length = 10 := by
      intro row hr
      rcases List.mem_or_eq_of_mem_set hr with h | h
      · exact hrows row h
      · rw [h]; exact List.length_replicate 10 true
    rw [ih _ (by simpa using Nat.le_of_lt hlt) hrows1]
    have hk1 : k < (field.set k (List.replicate 10 true)).length := by simpa using hlt
    rw [List.drop_eq_getElem_cons hk1]
    rw [List.getElem_set_self, List.drop_set_of_lt _ _ (Nat.lt_succ_self k)]
    generalize List.replicate 10 true = full
    rw [List.replicate_succ', List.append_assoc]
    rfl

/-- The rows with an empty cell and the completely occupied rows make up the board. -/
theorem filter_split_length (field : ByteBoard) :
    (field.filter (fun row => row.any id)).length +
      (field.filter (fun row => !row.any id)).length = field.length := by
  induction field with
  | nil => rfl
  | cons row rest ih =>
    simp only [List.filter_cons]
    cases h : row.any id <;> simp at ih ⊢ <;> omega

/-- C24: for every 20 by 10 byte board (true = empty), `ClearLines` returns the number `c`
of rows that are completely occupied, and rewrites the board so that rows `0 .. c-1` are
all-empty and rows `c .. 19` are exactly the rows of the input with an empty cell, in
their original top-to-bottom order (so `20 - c` original rows survive); a board with no
full row is returned unchanged with result 0. -/
theorem C24_naive_clearLines (field : ByteBoard) (h : WellShaped field) :
    ClearLines field =
      (((field.filter (fun row => !row.any id)).length : Int),
        List.replicate (field.filter (fun row => !row.any id)).length
            (List.replicate 10 true) ++
          field.filter (fun row => row.any id)) ∧
    (field.filter (fun row => row.any id)).length =
      20 - (field.filter (fun row => !row.any id)).length ∧
    ((field.filter (fun row => !row.any id)).length = 0 → ClearLines field = (0, field)) := by
  obtain ⟨hlen, hrows⟩ := h
  have hsplit := filter_split_length field
  have hspec := clearLoop_spec 20 20 field (le_refl 20) (le_refl 20) hlen hrows
  have htake : field.take 20 = field := by
    rw [← hlen]; exact List.take_length field
  have hdrop : field.drop 20 = [] := by
    rw [← hlen]; exact List.drop_length field
  rw [htake, hdrop, List.append_nil] at hspec
  have e19 : ((20 : Nat) : Int) - 1 = 19 := by norm_num
  rw [e19] at hspec
  obtain ⟨h1, h2, h3, h4⟩ := hspec
  have hc : (20 : Nat) - (field.filter (fun row => row.any id)).length =
      (field.filter (fun row => !row.any id)).length := by omega
  have hans : (clearLoop 20 19 field).1 + 1 =
      ((field.filter (fun row => !row.any id)).length : Int) := by
    rw [h1]; push_cast; omega
  have hmain : ClearLines field =
      (((field.filter (fun row => !row.any id)).length : Int),
        List.replicate (field.filter (fun row => !row.any id)).length
            (List.replicate 10 true) ++
          field.filter (fun row => row.any id)) := by
    simp only [ClearLines]
    rw [hans, Int.toNat_ofNat]
    rw [fillRows_spec _ _ (by omega) h3]
    rw [← hc, h4]
  refine ⟨hmain, by omega, ?_⟩
  intro h0
  rw [hmain, h0]
  have hall : field.filter (fun row => row.any id) = field := by
    rw [List.filter_eq_self]
    intro row hrow
    by_contra hne
    have : row ∈ field.filter (fun row => !row.any id) := by
      rw [List.mem_filter]
      exact ⟨hrow, by simpa using hne⟩
    rw [List.length_eq_zero.mp h0] at this
    simp at this
  rw [hall]
  rfl

end Naive

section ClearLinesInstances

open Sample

/-- Instance of C24: the two full bottom rows of `twoFull` are cleared, two empty rows
enter at the top, and the empty board is returned unchanged. -/
theorem C24_witness :
    WellShaped twoFull ∧
    (twoFull.filter (fun row => !row.any id)).length = 2 ∧
    (Naive.ClearLines twoFull =
      (((twoFull.filter (fun row => !row.any id)).length : Int),
        List.replicate (twoFull.filter (fun row => !row.any id)).length
            (List.replicate 10 true) ++
          twoFull.filter (fun row => row.any id)) ∧
    (twoFull.filter (fun row => row.any id)).length =
      20 - (twoFull.filter (fun row => !row.any id)).length ∧
    ((twoFull.filter (fun row => !row.any id)).length = 0 →
      Naive.ClearLines twoFull = (0, twoFull))) ∧
    Naive.ClearLines Ones = (0, Ones) :=
  ⟨⟨by decide, by decide⟩, by decide,
   Naive.C24_naive_clearLines twoFull ⟨by decide, by decide⟩,
   (Naive.C24_naive_clearLines Ones ⟨by decide, by decide⟩).2.2 (by decide)⟩

end ClearLinesInstances
/-! ## `GetPieceMap` and `PlacePiece` -/

namespace Naive

open Sample

/-- Reading entry `i` of a list built over `0 .. n-1`. -/
theorem getD_map_range {α : Type} (f : Nat → α) (n i : Nat) (h : i < n) (d : α) :
    ((List.range n).map f).getD i d = f i := by
  rw [List.getD_eq_getElem _ _ (by simpa using h)]
  simp

/-- The entry `GetPieceMap(field, p)[r][x][y]` is the fit test at that origin. -/
theorem getPieceMap_entry (field : ByteBoard) (poly r x y : Nat)
    (hr : r < (kBlocks.getD poly []).length) (hx : x < 20) (hy : y < 10) :
    getCell ((GetPieceMap field poly).getD r []) x y = fits field poly r x y := by
  have hp : ¬ ((poly : Int) < 0) := by omega
  unfold GetPieceMap getCell
  rw [if_neg hp, Int.toNat_ofNat, getD_map_range _ _ r hr, getD_map_range _ _ x hx,
    getD_map_range _ _ y hy]

/-- The fit test in terms of the four cells of the piece. -/
theorem fits_iff (field : ByteBoard) (poly r x y : Int) :
    fits field poly r x y = true ↔
      ∀ c ∈ pieceCells poly r x y, 0 ≤ c.2 ∧ c.2 ≤ 9 ∧ c.1 ≤ 19 ∧
        (c.1 < 0 ∨ getCell field c.1.toNat c.2.toNat = true) := by
  simp only [fits, pieceCells, List.all_eq_true, List.mem_map, getCell]
  constructor
  · intro h c hc
    obtain ⟨i, hi, rfl⟩ := hc
    have := h i hi
    simp only [Bool.not_eq_true', Bool.or_eq_false_iff, decide_eq_false_iff_not,
      Bool.and_eq_false_imp, decide_eq_true_eq, Bool.not_eq_false'] at this
    obtain ⟨⟨⟨h1, h2⟩, h3⟩, h4⟩ := this
    have e1 : x + i.1 = i.1 + x := by ring
    have e2 : y + i.2 = i.2 + y := by ring
    simp only [e1, e2]
    refine ⟨by omega, by omega, by omega, ?_⟩
    by_cases hneg : i.1 + x < 0
    · exact Or.inl hneg
    · exact Or.inr (h4 (by omega))
  · intro h i hi
    have := h (x + i.1, y + i.2) ⟨i, hi, rfl⟩
    have e1 : x + i.1 = i.1 + x := by ring
    have e2 : y + i.2 = i.2 + y := by ring
    simp only [e1, e2] at this
    obtain ⟨h1, h2, h3, h4⟩ := this
    simp only [Bool.not_eq_true', Bool.or_eq_false_iff, decide_eq_false_iff_not,
      Bool.and_eq_false_imp, decide_eq_true_eq, Bool.not_eq_false']
    refine ⟨⟨⟨by omega, by omega⟩, by omega⟩, ?_⟩
    intro hpos
    rcases h4 with h4 | h4
    · omega
    · exact h4

/-- Every rotation of the piece table has four pairwise distinct offsets. -/
theorem blockOf_shape (poly r : Nat) (hp : poly < 7) (hr : r < (kBlocks.getD poly []).length) :
    (blockOf poly r).length = 4 ∧ (blockOf poly r).Nodup := by
  have hall : ∀ rots ∈ kBlocks, ∀ rot ∈ rots, rot.length = 4 ∧ rot.Nodup := by decide
  have h0 : ¬ ((poly : Int) < 0 ∨ (r : Int) < 0) := by omega
  simp only [blockOf, if_neg h0, Int.toNat_ofNat]
  have hlen : poly < kBlocks.length := by
    have : kBlocks.length = 7 := by decide
    omega
  have e1 : kBlocks.getD poly [] = kBlocks[poly] := List.getD_eq_getElem _ _ hlen
  rw [e1] at hr ⊢
  rw [List.getD_eq_getElem _ _ hr]
  exact hall _ (List.getElem_mem _) _ (List.getElem_mem _)

/-- C25: for every byte board `field`, piece `p`, rotation `r` and origin `(x, y)` in the
20 by 10 grid, `GetPieceMap(field, p)[r][x][y]` is true iff each of the four cells
`(x + dx, y + dy)` of that rotation has its column in 0..9, its row at most 19, and is
either above the board (row < 0) or empty in `field`; consequently, when the entry is
true and all four rows are at least 0, `PlacePiece` at `(r, x, y)` turns exactly 4
previously empty cells (the four distinct cells of the piece) into occupied ones and
changes no other cell. -/
theorem C25_getPieceMap_placePiece (field : ByteBoard) (poly r x y : Nat) (hp : poly < 7)
    (hr : r < (kBlocks.getD poly []).length) (hx : x < 20) (hy : y < 10) :
    (getCell ((GetPieceMap field poly).getD r []) x y = true ↔
      ∀ c ∈ pieceCells poly r x y, 0 ≤ c.2 ∧ c.2 ≤ 9 ∧ c.1 ≤ 19 ∧
        (c.1 < 0 ∨ getCell field c.1.toNat c.2.toNat = true)) ∧
    (WellShaped field → getCell ((GetPieceMap field poly).getD r []) x y = true →
      (∀ c ∈ pieceCells poly r x y, 0 ≤ c.1) →
      (pieceCells poly r x y).length = 4 ∧ (pieceCells poly r x y).Nodup ∧
      (∀ c ∈ pieceCells poly r x y, 0 ≤ c.1 ∧ c.1 < 20 ∧ 0 ≤ c.2 ∧ c.2 < 10 ∧
        getCell field c.1.toNat c.2.toNat = true ∧
        getCell (PlacePiece field poly r x y) c.1.toNat c.2.toNat = false) ∧
      (∀ i j : Nat, i < 20 → j < 10 → ((i : Int), (j : Int)) ∉ pieceCells poly r x y →
        getCell (PlacePiece field poly r x y) i j = getCell field i j) ∧
      WellShaped (PlacePiece field poly r x y)) := by
  have hentry := getPieceMap_entry field poly r x y hr hx hy
  have hiff := fits_iff field poly r x y
  rw [← hentry] at hiff
  refine ⟨hiff, ?_⟩
  intro hshape htrue hrows
  obtain ⟨hlen, hnodup⟩ := blockOf_shape poly r hp hr
  obtain ⟨hshape2, hcells⟩ := placePiece_spec field hshape poly r x y
  have hfit := hiff.mp htrue
  refine ⟨by simpa [pieceCells] using hlen, ?_, ?_, ?_, hshape2⟩
  · apply List.Nodup.map _ hnodup
    intro a b hab
    simp only [Prod.mk.injEq] at hab
    exact Prod.ext (by omega) (by omega)
  · intro c hc
    obtain ⟨h1, h2, h3, h4⟩ := hfit c hc
    have h0 := hrows c hc
    have hempty : getCell field c.1.toNat c.2.toNat = true := by
      rcases h4 with h4 | h4
      · omega
      · exact h4
    refine ⟨h0, by omega, h1, by omega, hempty, ?_⟩
    rw [hcells c.1.toNat c.2.toNat (by omega) (by omega)]
    have e1 : ((c.1.toNat : Nat) : Int) = c.1 := Int.toNat_of_nonneg h0
    have e2 : ((c.2.toNat : Nat) : Int) = c.2 := Int.toNat_of_nonneg h1
    rw [e1, e2]
    simp [hc]
  · intro i j hi hj hnot
    rw [hcells i j hi hj]
    simp [hnot]

end Naive

section PieceMapInstances

open Sample

/-- Instance of C25: the I piece lying at the bottom of the empty board, origin
`(19, 5)`, fits, and placing it occupies its four cells. -/
theorem C25_witness :
    (6 : Nat) < 7 ∧ 0 < (kBlocks.getD 6 []).length ∧
    ((getCell ((Naive.GetPieceMap Ones (6 : Nat)).getD 0 []) 19 5 = true ↔
      ∀ c ∈ pieceCells (6 : Nat) (0 : Nat) (19 : Nat) (5 : Nat), 0 ≤ c.2 ∧ c.2 ≤ 9 ∧
        c.1 ≤ 19 ∧ (c.1 < 0 ∨ getCell Ones c.1.toNat c.2.toNat = true)) ∧
    (WellShaped Ones → getCell ((Naive.GetPieceMap Ones (6 : Nat)).getD 0 []) 19 5 = true →
      (∀ c ∈ pieceCells (6 : Nat) (0 : Nat) (19 : Nat) (5 : Nat), 0 ≤ c.1) →
      (pieceCells (6 : Nat) (0 : Nat) (19 : Nat) (5 : Nat)).length = 4 ∧
      (pieceCells (6 : Nat) (0 : Nat) (19 : Nat) (5 : Nat)).Nodup ∧
      (∀ c ∈ pieceCells (6 : Nat) (0 : Nat) (19 : Nat) (5 : Nat),
        0 ≤ c.1 ∧ c.1 < 20 ∧ 0 ≤ c.2 ∧ c.2 < 10 ∧
        getCell Ones c.1.toNat c.2.toNat = true ∧
        getCell (PlacePiece Ones (6 : Nat) (0 : Nat) (19 : Nat) (5 : Nat)) c.1.toNat
          c.2.toNat = false) ∧
      (∀ i j : Nat, i < 20 → j < 10 →
        ((i : Int), (j : Int)) ∉ pieceCells (6 : Nat) (0 : Nat) (19 : Nat) (5 : Nat) →
        getCell (PlacePiece Ones (6 : Nat) (0 : Nat) (19 : Nat) (5 : Nat)) i j =
          getCell Ones i j) ∧
      WellShaped (PlacePiece Ones (6 : Nat) (0 : Nat) (19 : Nat) (5 : Nat)))) ∧
    WellShaped Ones ∧
    getCell ((Naive.GetPieceMap Ones (6 : Nat)).getD 0 []) 19 5 = true ∧
    (∀ c ∈ pieceCells (6 : Nat) (0 : Nat) (19 : Nat) (5 : Nat), 0 ≤ c.1) :=
  ⟨by decide, by decide,
   Naive.C25_getPieceMap_placePiece Ones 6 0 19 5 (by decide) (by decide) (by decide)
     (by decide),
   ⟨by decide, by decide⟩, by decide, by decide⟩

end PieceMapInstances
/-! ## The naive search: basic facts -/

namespace Naive

open Sample

/-- Frame 0 is in row 0 at every level. -/
theorem getRow_zero (level : Level) : GetRow 0 level = 0 := by
  cases level <;> rfl

/-- From frame 60 on the row is 20 or more at every level. -/
theorem getRow_ge (level : Level) (frame : Int) (h : 60 ≤ frame) : 20 ≤ GetRow frame level := by
  cases level
  · simp only [GetRow]
    rw [Int.tdiv_eq_ediv (by omega) (by omega)]
    omega
  · simp only [GetRow]
    rw [Int.tdiv_eq_ediv (by omega) (by omega)]
    omega
  · simp only [GetRow]
    omega
  · simp only [GetRow]
    omega

/-- A frame that is not negative has a row that is not negative. -/
theorem getRow_nonneg (level : Level) (frame : Int) (h : 0 ≤ frame) : 0 ≤ GetRow frame level := by
  cases level
  · simp only [GetRow]
    rw [Int.tdiv_eq_ediv (by omega) (by omega)]
    omega
  · simp only [GetRow]
    rw [Int.tdiv_eq_ediv (by omega) (by omega)]
    omega
  · simp only [GetRow]
    omega
  · simp only [GetRow]
    omega

/-- A fall that starts at or below the row of `max_frame` does not move. -/
theorem dropLoopTo_of_ge (b : List ByteBoard) (rot col max_row : Int) (fuel : Nat) (row : Int)
    (h : max_row ≤ row) : dropLoopTo b rot col max_row fuel row = row := by
  cases fuel with
  | zero => rfl
  | succ fuel =>
    simp only [dropLoopTo]
    rw [if_neg (by omega)]

/-- A fall that starts in the board ends in the board. -/
theorem dropLoopTo_le (b : List ByteBoard) (rot col max_row : Int) (fuel : Nat) :
    ∀ row : Int, row ≤ 19 → dropLoopTo b rot col max_row fuel row ≤ 19 := by
  induction fuel with
  | zero => intro row h; exact h
  | succ fuel ih =>
    intro row h
    simp only [dropLoopTo]
    split
    · next hc => exact ih (row + 1) (by omega)
    · exact h

/-- A fall that starts in the board does not depend on a row limit of 20 or more. -/
theorem dropLoopTo_congr (b : List ByteBoard) (rot col m1 m2 : Int) (h1 : 20 ≤ m1)
    (h2 : 20 ≤ m2) (fuel : Nat) :
    ∀ row : Int, dropLoopTo b rot col m1 fuel row = dropLoopTo b rot col m2 fuel row := by
  induction fuel with
  | zero => intro row; rfl
  | succ fuel ih =>
    intro row
    simp only [dropLoopTo]
    by_cases hc : row < 19 ∧ cellAt b rot (row + 1) col = true
    · rw [if_pos ⟨by omega, hc⟩, if_pos ⟨by omega, hc⟩]
      exact ih (row + 1)
    · rw [if_neg (fun h => hc h.2), if_neg (fun h => hc h.2)]

/-- With `num_lr = num_ab = 0` a simulation with a left input or an A rotation returns
at once. -/
theorem simulateMove_zero_flag (cfg : SearchCfg) (b : List ByteBoard) (level : Level)
    (taps : List Int) (start_rot start_col start_frame end_frame : Int)
    (is_l is_a check_tuck : Bool) (non_tuck : List Position) (h : is_l = true ∨ is_a = true) :
    SimulateMove cfg b level taps start_rot start_col start_frame end_frame 0 0 is_l is_a
      check_tuck non_tuck = ([], []) := by
  rcases h with h | h
  · subst h
    simp [SimulateMove]
  · subst h
    simp [SimulateMove]

/-- The quotient `(size - 1) / 2` of `SimulateMove` is not negative. -/
theorem tdiv_size_nonneg (n : Nat) : 0 ≤ Int.tdiv ((n : Int) - 1) 2 := by
  cases n with
  | zero => decide
  | succ n =>
    have : ((n + 1 : Nat) : Int) - 1 = (n : Int) := by push_cast; ring
    rw [this]
    exact Int.tdiv_nonneg (by omega) (by omega)

/-- The simulation without inputs from the spawn cell with `end_frame = 0`: the piece
locks before the frame of the first tap, or it is still falling there and is the one
continued placement; no tuck is added. -/
theorem simulateMove_spawn_zero (cfg : SearchCfg) (b : List ByteBoard) (level : Level)
    (taps : List Int) (non_tuck : List Position) (h0 : 0 ≤ taps.getD 0 0) :
    SimulateMove cfg b level taps 0 5 0 0 0 0 false false true non_tuck =
      if (FreeDropTo b 0 0 5 level (taps.getD 0 0)).1 = false then
        ([(FreeDropTo b 0 0 5 level (taps.getD 0 0)).2], [])
      else ([], [(⟨0, GetRow (taps.getD 0 0) level, 5⟩, taps.getD 0 0)]) := by
  have hsize := tdiv_size_nonneg b.length
  have hm : (max (0 : Int) 0).toNat = 0 := rfl
  have htap : tapLoop b level taps 0 0 0 false false (max 0 0) (60 - 0 : Int).toNat 0 0 0 5 =
      some (0, 5, 0) := by
    rw [tapLoop.eq_def]
    simp
  simp only [SimulateMove, Bool.false_eq_true, if_false, false_and]
  rw [if_neg (by omega), if_neg (by omega), htap]
  simp only [afterTaps, hm, getRow_zero, zero_add]
  generalize taps.getD 0 0 = t0 at h0 ⊢
  have hrow := getRow_nonneg level t0 h0
  by_cases hf : (FreeDropTo b 0 0 5 level t0).1 = false
  · simp [hf]
  · have hf2 : (FreeDropTo b 0 0 5 level t0).1 = true := by
      simpa using hf
    have hpos : FreeDropTo b 0 (GetRow t0 level) 5 level 0 =
        (true, ⟨0, GetRow t0 level, 5⟩) := by
      simp only [FreeDropTo, getRow_zero]
      rw [dropLoopTo_of_ge _ _ _ _ _ _ hrow]
      simp [hrow]
    have hfuel : (0 - t0).toNat = 0 := by
      rw [Int.toNat_eq_zero]
      omega
    simp only [hf2, hpos, hfuel, tuckLoop, Bool.not_true, Bool.false_eq_true, if_false,
      if_true, List.append_nil, max_eq_right h0]
    rw [if_neg (by simp)]

end Naive
/-! ## The naive search: the loop bounds are enough -/

namespace Naive

open Sample

/-- From frame 60 on the body of the input loop returns. -/
theorem tapStep_late (b : List ByteBoard) (level : Level) (taps : List Int)
    (start_frame num_lr num_ab : Int) (is_l is_a : Bool) (tot_taps tap frame rot col : Int)
    (h : 60 ≤ frame) :
    tapStep b level taps start_frame num_lr num_ab is_l is_a tot_taps tap frame rot col =
      .returned := by
  have hrow := getRow_ge level frame h
  simp only [tapStep]
  rw [if_pos (Or.inl hrow)]

/-- The input loop does not depend on its bound once the bound reaches frame 60: more
fuel gives the same result. -/
theorem tapLoop_fuel (b : List ByteBoard) (level : Level) (taps : List Int)
    (start_frame num_lr num_ab : Int) (is_l is_a : Bool) (tot_taps : Int) (n : Nat) :
    ∀ (m : Nat) (tap frame rot col : Int), 60 ≤ frame + n → 60 ≤ frame + m →
      tapLoop b level taps start_frame num_lr num_ab is_l is_a tot_taps n tap frame rot col =
        tapLoop b level taps start_frame num_lr num_ab is_l is_a tot_taps m tap frame rot
          col := by
  induction n with
  | zero =>
    intro m tap frame rot col hn _
    have hlate := tapStep_late b level taps start_frame num_lr num_ab is_l is_a tot_taps tap
      frame rot col (by simpa using hn)
    cases m with
    | zero => rfl
    | succ m =>
      rw [tapLoop.eq_def]
      conv => rhs; rw [tapLoop.eq_def]
      simp only [hlate]
  | succ n ih =>
    intro m tap frame rot col hn hm
    cases m with
    | zero =>
      have hlate := tapStep_late b level taps start_frame num_lr num_ab is_l is_a tot_taps tap
        frame rot col (by simpa using hm)
      rw [tapLoop.eq_def]
      conv => rhs; rw [tapLoop.eq_def]
      simp only [hlate]
    | succ m =>
      rw [tapLoop.eq_def]
      conv => rhs; rw [tapLoop.eq_def]
      by_cases ht : tap < tot_taps
      · simp only [ht, not_true_eq_false, if_false]
        cases hs : tapStep b level taps start_frame num_lr num_ab is_l is_a tot_taps tap frame
            rot col with
        | returned => rfl
        | broke rot1 col1 => rfl
        | next tap1 rot1 col1 =>
          exact ih m tap1 (frame + 1) rot1 col1 (by push_cast at hn ⊢; omega)
            (by push_cast at hm ⊢; omega)
      · simp only [ht, not_false_eq_true, if_true]

/-- The fall of `FreeDrop` does not depend on its bound once the bound reaches row 19. -/
theorem dropLoopTo_fuel (b : List ByteBoard) (rot col max_row : Int) (n : Nat) :
    ∀ (m : Nat) (row : Int), 19 ≤ row + n → 19 ≤ row + m →
      dropLoopTo b rot col max_row n row = dropLoopTo b rot col max_row m row := by
  induction n with
  | zero =>
    intro m row hn _
    cases m with
    | zero => rfl
    | succ m =>
      simp only [dropLoopTo]
      rw [if_neg (by push_cast at hn; omega)]
  | succ n ih =>
    intro m row hn hm
    cases m with
    | zero =>
      simp only [dropLoopTo]
      rw [if_neg (by push_cast at hm; omega)]
    | succ m =>
      simp only [dropLoopTo]
      split
      · exact ih m (row + 1) (by push_cast at hn ⊢; omega) (by push_cast at hm ⊢; omega)
      · rfl

/-- The fall to the floor does not depend on its bound once the bound reaches row 19. -/
theorem dropLoop_fuel (b : List ByteBoard) (rot col : Int) (n : Nat) :
    ∀ (m : Nat) (row : Int), 19 ≤ row + n → 19 ≤ row + m →
      dropLoop b rot col n row = dropLoop b rot col m row := by
  induction n with
  | zero =>
    intro m row hn _
    cases m with
    | zero => rfl
    | succ m =>
      simp only [dropLoop]
      rw [if_neg (by push_cast at hn; omega)]
  | succ n ih =>
    intro m row hn hm
    cases m with
    | zero =>
      simp only [dropLoop]
      rw [if_neg (by push_cast at hm; omega)]
    | succ m =>
      simp only [dropLoop]
      split
      · exact ih m (row + 1) (by push_cast at hn ⊢; omega) (by push_cast at hm ⊢; omega)
      · rfl

end Naive
namespace Naive

open Sample

/-- With `max_lr = max_ab = 0` the search is the one simulation without inputs. -/
theorem moveSearch_zero (cfg : SearchCfg) (b : List ByteBoard) (level : Level)
    (taps : List Int) (start_rot start_col start_frame end_frame : Int) (check_tuck : Bool)
    (non_tuck : List Position) :
    MoveSearch cfg b level taps 0 0 start_rot start_col start_frame end_frame check_tuck
        non_tuck =
      if cellAt b start_rot (GetRow start_frame level) start_col = false then ([], [])
      else SimulateMove cfg b level taps start_rot start_col start_frame end_frame 0 0
        false false check_tuck non_tuck := by
  simp only [MoveSearch]
  split
  · rfl
  · have h1 : ((0 : Int) + 1).toNat = 1 := rfl
    have h2 : List.range 1 = [0] := rfl
    simp only [h1, h2, List.flatMap_cons, List.flatMap_nil, List.append_nil,
      searchBody, Nat.cast_zero]
    rw [simulateMove_zero_flag cfg b level taps start_rot start_col start_frame end_frame
        true false check_tuck non_tuck (Or.inl rfl),
      simulateMove_zero_flag cfg b level taps start_rot start_col start_frame end_frame
        false true check_tuck non_tuck (Or.inr rfl),
      simulateMove_zero_flag cfg b level taps start_rot start_col start_frame end_frame
        true true check_tuck non_tuck (Or.inl rfl)]
    simp

/-- The search with `adj_frame = 0`, for a first tap at a frame that is not negative:
the result of the second `MoveSearch`. -/
theorem naive_zero_found (cfg : SearchCfg) (b : List ByteBoard) (level : Level)
    (taps : List Int) (non_tuck : List Position) (h0 : 0 ≤ taps.getD 0 0) :
    MoveSearch cfg b level taps 0 0 0 5 0 0 true non_tuck =
      if cellAt b 0 0 5 = false then ([], [])
      else if (FreeDropTo b 0 0 5 level (taps.getD 0 0)).1 = false then
        ([(FreeDropTo b 0 0 5 level (taps.getD 0 0)).2], [])
      else ([], [(⟨0, GetRow (taps.getD 0 0) level, 5⟩, taps.getD 0 0)]) := by
  rw [moveSearch_zero, getRow_zero, simulateMove_spawn_zero cfg b level taps non_tuck h0]

/-- With `adj_frame = 0` and a non-empty adj list, `non_adj` is empty. -/
theorem naive_zero_non_adj (cfg : SearchCfg) (b : List ByteBoard) (level : Level)
    (taps : List Int) (h0 : 0 ≤ taps.getD 0 0)
    (hadj : (NaiveGetPossibleMoves cfg b level 0 taps).adj ≠ []) :
    (NaiveGetPossibleMoves cfg b level 0 taps).non_adj = [] := by
  simp only [NaiveGetPossibleMoves, if_true] at hadj ⊢
  rw [naive_zero_found cfg b level taps _ h0] at hadj ⊢
  split
  · rfl
  · split
    · next h1 h2 =>
      rw [if_neg h1, if_pos h2] at hadj
      simp at hadj
    · rfl

/-- C27: for every piece map, level and tap schedule whose first tap is at a frame that
is not negative, when `NaiveGetPossibleMoves` is run with `adj_frame = 0` and its adj
list is non-empty, every placement in `non_adj` also appears in the reachable list of at
least one adj entry; `non_adj` is then empty. -/
theorem C27_zero_delay_non_adj_covered (cfg : SearchCfg) (b : List ByteBoard) (level : Level)
    (taps : List Int) (h0 : 0 ≤ taps.getD 0 0)
    (hadj : (NaiveGetPossibleMoves cfg b level 0 taps).adj ≠ []) :
    (∀ p ∈ (NaiveGetPossibleMoves cfg b level 0 taps).non_adj,
      ∃ e ∈ (NaiveGetPossibleMoves cfg b level 0 taps).adj, p ∈ e.2) ∧
    (NaiveGetPossibleMoves cfg b level 0 taps).non_adj = [] := by
  have h := naive_zero_non_adj cfg b level taps h0 hadj
  refine ⟨?_, h⟩
  intro p hp
  rw [h] at hp
  simp at hp

end Naive
section ZeroDelayInstances

open Sample

/-- Instance of C27: the I piece over the empty board at level 18 with `Tap30Hz`. -/
theorem C27_witness :
    0 ≤ Tap30Hz.getD 0 0 ∧
    (Naive.NaiveGetPossibleMoves searchCfg (Naive.GetPieceMap Ones 6) .kLevel18 0 Tap30Hz).adj
      ≠ [] ∧
    ((∀ p ∈ (Naive.NaiveGetPossibleMoves searchCfg (Naive.GetPieceMap Ones 6) .kLevel18 0
        Tap30Hz).non_adj,
      ∃ e ∈ (Naive.NaiveGetPossibleMoves searchCfg (Naive.GetPieceMap Ones 6) .kLevel18 0
        Tap30Hz).adj, p ∈ e.2) ∧
    (Naive.NaiveGetPossibleMoves searchCfg (Naive.GetPieceMap Ones 6) .kLevel18 0
      Tap30Hz).non_adj = []) :=
  ⟨by decide, by decide,
   Naive.C27_zero_delay_non_adj_covered searchCfg (Naive.GetPieceMap Ones 6) .kLevel18 Tap30Hz
     (by decide) (by decide)⟩

end ZeroDelayInstances
/-! ## The naive search: the end frame beyond the last row -/

namespace Naive

open Sample

/-- An iteration of the input loop that ends with the `break` ran in a row of the
board. -/
theorem tapStep_broke (b : List ByteBoard) (level : Level) (taps : List Int)
    (start_frame num_lr num_ab : Int) (is_l is_a : Bool) (tot_taps tap frame rot col : Int)
    (rot1 col1 : Int)
    (h : tapStep b level taps start_frame num_lr num_ab is_l is_a tot_taps tap frame rot col =
      .broke rot1 col1) : GetRow frame level < 20 := by
  by_contra hc
  have : GetRow frame level ≥ 20 ∨ cellAt b rot (GetRow frame level) col = false :=
    Or.inl (by omega)
  simp only [tapStep, if_pos this] at h
  exact TapOut.noConfusion h

/-- An input that is not the last one leaves inputs to be made. -/
theorem inputStep_next (b : List ByteBoard) (level : Level) (num_lr num_ab : Int)
    (is_l is_a : Bool) (tot_taps tap frame rot row col : Int) (tap1 rot1 col1 : Int)
    (h : inputStep b level num_lr num_ab is_l is_a tot_taps tap frame rot row col =
      .next tap1 rot1 col1) : tap1 = tap + 1 ∧ tap + 1 ≠ tot_taps := by
  simp only [inputStep] at h
  generalize (if tap + 1 ≤ num_lr then (if is_l = true then col - 1 else col + 1) else col) =
    c1 at h
  generalize (if tap + 1 ≤ num_ab then
    (if is_a = true then (rot + 1) % (b.length : Int) else (rot + (b.length : Int) - 1) %
      (b.length : Int)) else rot) = r1 at h
  by_cases k1 : tap + 1 ≤ num_lr ∧ cellAt b rot row c1 = false
  · rw [if_pos k1] at h
    exact TapOut.noConfusion h
  · rw [if_neg k1] at h
    by_cases k2 : tap + 1 ≤ num_ab ∧ cellAt b r1 row c1 = false
    · rw [if_pos k2] at h
      exact TapOut.noConfusion h
    · rw [if_neg k2] at h
      by_cases k3 : tap + 1 = tot_taps
      · rw [if_pos k3] at h
        exact TapOut.noConfusion h
      · rw [if_neg k3] at h
        by_cases k4 : dropBlocked b level frame r1 row c1 = true
        · rw [if_pos k4] at h
          exact TapOut.noConfusion h
        · rw [if_neg k4] at h
          injection h with h1 _ _
          exact ⟨h1.symm, k3⟩

/-- An iteration of the input loop that reaches the end of the body leaves inputs to be
made. -/
theorem tapStep_next (b : List ByteBoard) (level : Level) (taps : List Int)
    (start_frame num_lr num_ab : Int) (is_l is_a : Bool) (tot_taps tap frame rot col : Int)
    (tap1 rot1 col1 : Int) (ht : tap < tot_taps)
    (h : tapStep b level taps start_frame num_lr num_ab is_l is_a tot_taps tap frame rot col =
      .next tap1 rot1 col1) : tap1 < tot_taps := by
  simp only [tapStep] at h
  by_cases k1 : GetRow frame level ≥ 20 ∨ cellAt b rot (GetRow frame level) col = false
  · rw [if_pos k1] at h
    exact TapOut.noConfusion h
  · rw [if_neg k1] at h
    by_cases k2 : frame = taps.getD tap.toNat 0 + start_frame
    · rw [if_pos k2] at h
      have := inputStep_next b level num_lr num_ab is_l is_a tot_taps tap frame rot _ col tap1
        rot1 col1 h
      omega
    · rw [if_neg k2] at h
      by_cases k3 : dropBlocked b level frame rot (GetRow frame level) col = true
      · rw [if_pos k3] at h
        exact TapOut.noConfusion h
      · rw [if_neg k3] at h
        injection h with h1 _ _
        omega

/-- When the input loop ends, the piece is in a row of the board: either an input was
made in a row below 20, or no input was to be made and the start is taken as given. -/
theorem tapLoop_row (b : List ByteBoard) (level : Level) (taps : List Int)
    (start_frame num_lr num_ab : Int) (is_l is_a : Bool) (tot_taps : Int) (fuel : Nat) :
    ∀ (tap frame rot col : Int) (out : Int × Int × Int),
      (¬ tap < tot_taps → GetRow frame level < 20) →
      tapLoop b level taps start_frame num_lr num_ab is_l is_a tot_taps fuel tap frame rot col =
        some out →
      GetRow out.2.2 level < 20 := by
  induction fuel with
  | zero =>
    intro tap frame rot col out hstart h
    rw [tapLoop.eq_def] at h
    by_cases ht : tap < tot_taps
    · simp [ht] at h
    · simp only [ht, not_false_eq_true, if_true, Option.some.injEq] at h
      subst h
      exact hstart ht
  | succ fuel ih =>
    intro tap frame rot col out hstart h
    rw [tapLoop.eq_def] at h
    by_cases ht : tap < tot_taps
    · simp only [ht, not_true_eq_false, if_false] at h
      cases hs : tapStep b level taps start_frame num_lr num_ab is_l is_a tot_taps tap frame
          rot col with
      | returned => simp [hs] at h
      | broke rot1 col1 =>
        simp only [hs, Option.some.injEq] at h
        subst h
        exact tapStep_broke b level taps start_frame num_lr num_ab is_l is_a tot_taps tap frame
          rot col rot1 col1 hs
      | next tap1 rot1 col1 =>
        simp only [hs] at h
        have hlt := tapStep_next b level taps start_frame num_lr num_ab is_l is_a tot_taps tap
          frame rot col tap1 rot1 col1 ht hs
        exact ih tap1 (frame + 1) rot1 col1 out (fun hn => absurd hlt hn) h
    · simp only [ht, not_false_eq_true, if_true, Option.some.injEq] at h
      subst h
      exact hstart ht

/-- The tuck loop stops by itself at the first frame whose row is 20 or more, so any two
bounds that reach frame 60 give the same set. -/
theorem tuckLoop_fuel (cfg : SearchCfg) (b : List ByteBoard) (level : Level) (rot col : Int)
    (non_tuck : List Position) (n : Nat) :
    ∀ (m : Nat) (frame : Int) (acc : List Position), 60 ≤ frame + n → 60 ≤ frame + m →
      tuckLoop cfg b level rot col non_tuck n frame acc =
        tuckLoop cfg b level rot col non_tuck m frame acc := by
  induction n with
  | zero =>
    intro m frame acc hn _
    have hrow := getRow_ge level frame (by simpa using hn)
    cases m with
    | zero => rfl
    | succ m =>
      simp only [tuckLoop]
      rw [if_pos (Or.inl hrow)]
  | succ n ih =>
    intro m frame acc hn hm
    cases m with
    | zero =>
      have hrow := getRow_ge level frame (by simpa using hm)
      simp only [tuckLoop]
      rw [if_pos (Or.inl hrow)]
    | succ m =>
      simp only [tuckLoop]
      split
      · rfl
      · split
        · rfl
        · exact ih m (frame + 1) _ (by push_cast at hn ⊢; omega) (by push_cast at hm ⊢; omega)

/-- A fall to an end frame of 60 or more, from a row of the board: it locks, and where
it locks does not depend on the end frame. -/
theorem freeDropTo_end (b : List ByteBoard) (rot row col : Int) (level : Level)
    (e1 e2 : Int) (h1 : 60 ≤ e1) (h2 : 60 ≤ e2) (hrow : row ≤ 19) :
    FreeDropTo b rot row col level e1 = FreeDropTo b rot row col level e2 ∧
    (FreeDropTo b rot row col level e1).1 = false := by
  have g1 := getRow_ge level e1 h1
  have g2 := getRow_ge level e2 h2
  have hle := dropLoopTo_le b rot col (GetRow e1 level) (19 - row).toNat row hrow
  have hc := dropLoopTo_congr b rot col (GetRow e1 level) (GetRow e2 level) g1 g2
    (19 - row).toNat row
  have f1 : (FreeDropTo b rot row col level e1).1 = false := by
    simp only [FreeDropTo, decide_eq_false_iff_not]
    omega
  refine ⟨?_, f1⟩
  simp only [FreeDropTo]
  rw [← hc]
  have d1 : decide (dropLoopTo b rot col (GetRow e1 level) (19 - row).toNat row ≥
      GetRow e1 level) = false := by
    simp only [decide_eq_false_iff_not]; omega
  have d2 : decide (dropLoopTo b rot col (GetRow e1 level) (19 - row).toNat row ≥
      GetRow e2 level) = false := by
    simp only [decide_eq_false_iff_not]; omega
  rw [d1, d2]

/-- The part of a simulation after the input loop, from a row of the board and with an
end frame of 60 or more: it does not depend on the end frame. -/
theorem afterTaps_end (cfg : SearchCfg) (b : List ByteBoard) (level : Level)
    (taps : List Int) (start_frame e1 e2 : Int) (check_tuck : Bool)
    (non_tuck : List Position) (tot_taps rot col frame0 : Int)
    (hr0 : GetRow frame0 level < 20) (h1 : 60 ≤ e1) (h2 : 60 ≤ e2) :
    afterTaps cfg b level taps start_frame e1 check_tuck non_tuck tot_taps rot col frame0 =
      afterTaps cfg b level taps start_frame e2 check_tuck non_tuck tot_taps rot col frame0 := by
  simp only [afterTaps]
  generalize start_frame + taps.getD tot_taps.toNat 0 = frame
  by_cases hfw : (FreeDropTo b rot (GetRow frame0 level) col level frame).1 = true
  · have hreach : GetRow frame level ≤ 19 := by
      simp only [FreeDropTo, decide_eq_true_eq] at hfw
      have := dropLoopTo_le b rot col (GetRow frame level)
        (19 - GetRow frame0 level).toNat (GetRow frame0 level) (by omega)
      omega
    obtain ⟨hp, _⟩ := freeDropTo_end b rot (GetRow frame level) col level e1 e2 h1 h2 hreach
    obtain ⟨_, hq⟩ := freeDropTo_end b rot (GetRow frame level) col level e2 e2 h2 h2 hreach
    have ht := tuckLoop_fuel cfg b level rot col non_tuck (e1 - frame).toNat
      (e2 - frame).toNat frame [] (by omega) (by omega)
    rw [ht, hp]
    simp only [hq, Bool.false_eq_true, if_false]
  · have hfw2 : (FreeDropTo b rot (GetRow frame0 level) col level frame).1 = false := by
      simpa using hfw
    simp only [hfw2, Bool.not_false, if_true]

/-- A simulation that starts in a row of the board, with an end frame of 60 or more: the
result does not depend on the end frame. -/
theorem simulateMove_end (cfg : SearchCfg) (b : List ByteBoard) (level : Level)
    (taps : List Int) (start_rot start_col start_frame e1 e2 num_lr num_ab : Int)
    (is_l is_a check_tuck : Bool) (non_tuck : List Position)
    (hstart : GetRow start_frame level < 20) (h1 : 60 ≤ e1) (h2 : 60 ≤ e2) :
    SimulateMove cfg b level taps start_rot start_col start_frame e1 num_lr num_ab is_l is_a
        check_tuck non_tuck =
      SimulateMove cfg b level taps start_rot start_col start_frame e2 num_lr num_ab is_l is_a
        check_tuck non_tuck := by
  simp only [SimulateMove]
  cases htl : tapLoop b level taps start_frame num_lr num_ab is_l is_a
      (max num_lr num_ab) (60 - start_frame).toNat 0 start_frame start_rot start_col with
  | none => rfl
  | some out =>
    obtain ⟨rot, col, frame0⟩ := out
    have hr0 : GetRow frame0 level < 20 :=
      tapLoop_row b level taps start_frame num_lr num_ab is_l is_a _ _ 0 start_frame
        start_rot start_col (rot, col, frame0) (fun _ => hstart) htl
    simp only
    rw [afterTaps_end cfg b level taps start_frame e1 e2 check_tuck non_tuck _ rot col frame0
      hr0 h1 h2]

/-- A search with an end frame of 60 or more over a piece map whose free cells lie in
rows below 20 does not depend on the end frame. -/
theorem moveSearch_end (cfg : SearchCfg) (b : List ByteBoard) (level : Level)
    (taps : List Int) (max_lr max_ab start_rot start_col start_frame e1 e2 : Int)
    (check_tuck : Bool) (non_tuck : List Position)
    (hb : ∀ rot row col, cellAt b rot row col = true → row < 20)
    (h1 : 60 ≤ e1) (h2 : 60 ≤ e2) :
    MoveSearch cfg b level taps max_lr max_ab start_rot start_col start_frame e1 check_tuck
        non_tuck =
      MoveSearch cfg b level taps max_lr max_ab start_rot start_col start_frame e2 check_tuck
        non_tuck := by
  simp only [MoveSearch]
  split
  · rfl
  · next hc =>
    have hstart : GetRow start_frame level < 20 := hb _ _ _ (by simpa using hc)
    have hbody : ∀ lr ab : Int,
        searchBody cfg b level taps start_rot start_col start_frame e1 check_tuck non_tuck lr ab =
        searchBody cfg b level taps start_rot start_col start_frame e2 check_tuck non_tuck
          lr ab := by
      intro lr ab
      simp only [searchBody]
      rw [simulateMove_end cfg b level taps start_rot start_col start_frame e1 e2 lr ab false
          false check_tuck non_tuck hstart h1 h2,
        simulateMove_end cfg b level taps start_rot start_col start_frame e1 e2 lr ab true
          false check_tuck non_tuck hstart h1 h2,
        simulateMove_end cfg b level taps start_rot start_col start_frame e1 e2 lr ab false
          true check_tuck non_tuck hstart h1 h2,
        simulateMove_end cfg b level taps start_rot start_col start_frame e1 e2 lr ab true
          true check_tuck non_tuck hstart h1 h2]
    simp only [hbody]

end Naive
/-! ## Delay 0 against delay 61 -/

namespace Naive

open Sample

/-- The free cells of a piece map built by `GetPieceMap` lie in rows below 20. -/
theorem getPieceMap_rows (field : ByteBoard) (poly : Int) (rot row col : Int)
    (h : cellAt (GetPieceMap field poly) rot row col = true) : row < 20 := by
  by_contra hrow
  simp only [cellAt] at h
  split at h
  · simp at h
  · next hneg =>
    have hlen : ∀ m ∈ GetPieceMap field poly, m.length = 20 := by
      intro m hm
      simp only [GetPieceMap] at hm
      split at hm
      · simp at hm
      · simp only [List.mem_map, List.mem_range] at hm
        obtain ⟨r, _, rfl⟩ := hm
        simp
    have hm : ((GetPieceMap field poly).getD rot.toNat []).length ≤ 20 := by
      rw [List.getD_eq_getElem?_getD]
      cases hg : (GetPieceMap field poly)[rot.toNat]? with
      | none => simp
      | some m =>
        have := hlen m (List.getElem?_mem hg)
        simp [this]
    have hnone : ((GetPieceMap field poly).getD rot.toNat []).getD row.toNat [] = [] := by
      rw [List.getD_eq_getElem?_getD, List.getElem?_eq_none (by omega)]
      rfl
    simp only [getCell, hnone] at h
    simp at h

/-- The naive search with `adj_frame = 61` over a piece map whose free cells lie in rows
below 20: `non_adj` is the result of the full search with tucks. -/
theorem naive_sixty_one (cfg : SearchCfg) (b : List ByteBoard) (level : Level)
    (taps : List Int) (hb : ∀ rot row col, cellAt b rot row col = true → row < 20) :
    (NaiveGetPossibleMoves cfg b level 61 taps).non_adj =
      (MoveSearch cfg b level taps 9 2 0 5 0 kFinish true
        (MoveSearch cfg b level taps 9 2 0 5 0 kFinish false []).1).1 := by
  have h61 : ¬ ((61 : Int) = 0) := by decide
  simp only [NaiveGetPossibleMoves, if_neg h61]
  rw [moveSearch_end cfg b level taps 9 2 0 5 0 61 kFinish true _ hb (by decide) (by decide)]

/-- The naive search with `adj_frame = 0` for a first tap at frame 0 and a free spawn
cell: the spawn cell at frame 0 is the one adjustment initial, and its reachable list is
the result of the full search with tucks. -/
theorem naive_zero_adj (cfg : SearchCfg) (b : List ByteBoard) (level : Level)
    (taps : List Int) (htap : taps.getD 0 0 = 0) (hcell : cellAt b 0 0 5 = true) :
    (NaiveGetPossibleMoves cfg b level 0 taps).adj =
      [(⟨0, 0, 5⟩, (MoveSearch cfg b level taps 9 2 0 5 0 kFinish true
        (MoveSearch cfg b level taps 9 2 0 5 0 kFinish false []).1).1)] := by
  have h0 : 0 ≤ taps.getD 0 0 := by omega
  simp only [NaiveGetPossibleMoves, if_true]
  rw [naive_zero_found cfg b level taps _ h0, htap]
  have hfw : (FreeDropTo b 0 0 5 level 0).1 = true := by
    simp only [FreeDropTo, getRow_zero]
    rw [dropLoopTo_of_ge _ _ _ _ _ _ (le_refl 0)]
    simp
  rw [if_neg (by simp [hcell]), if_neg (by simp [hfw])]
  simp only [List.map_cons, List.map_nil, getRow_zero]

/-- C28: for every board, level and piece, with a tap schedule whose first tap is at
frame 0 (as `Tap30Hz`, the schedule of `TestZeroAdj`), the search with `adj_delay = 0`
and the search with `adj_delay = 61` are related as `TestZeroAdj` checks: if the
`adj_delay = 61` result has a non-empty `non_adj`, then the `adj_delay = 0` result has an
adj entry whose initial has the spawn rotation 0 and the spawn column 5, and the
reachable list of the first such entry is the `non_adj` list of the `adj_delay = 61`
result (the same list, hence the same after any normalisation). -/
theorem C28_zero_delay_matches_no_adjustment (cfg : SearchCfg) (level : Level)
    (taps : List Int) (field : ByteBoard) (piece : Int) (htap : taps.getD 0 0 = 0)
    (hne : (MoveSearchSpec cfg level 61 taps field piece).non_adj ≠ []) :
    ∃ e, (MoveSearchSpec cfg level 0 taps field piece).adj.find?
        (fun e => decide (e.1.r = 0 ∧ e.1.y = 5)) = some e ∧
      e.2 = (MoveSearchSpec cfg level 61 taps field piece).non_adj := by
  have hb := getPieceMap_rows field piece
  simp only [MoveSearchSpec] at hne ⊢
  rw [naive_sixty_one cfg _ level taps hb] at hne ⊢
  have hcell : cellAt (GetPieceMap field piece) 0 0 5 = true := by
    by_contra hc
    apply hne
    have hguard : cellAt (GetPieceMap field piece) 0 (GetRow 0 level) 5 = false := by
      rw [getRow_zero]
      simpa using hc
    simp only [MoveSearch, hguard, if_true]
  rw [naive_zero_adj cfg _ level taps htap hcell]
  refine ⟨(⟨0, 0, 5⟩, _), ?_, rfl⟩
  simp [List.find?]

end Naive

section NoAdjustmentInstances

open Sample

/-- Instance of C28: the I piece over the empty board at level 39 with `Tap30Hz`. -/
theorem C28_witness :
    Tap30Hz.getD 0 0 = 0 ∧
    (Naive.MoveSearchSpec searchCfg .kLevel39 61 Tap30Hz Ones 6).non_adj ≠ [] ∧
    ∃ e, (Naive.MoveSearchSpec searchCfg .kLevel39 0 Tap30Hz Ones 6).adj.find?
        (fun e => decide (e.1.r = 0 ∧ e.1.y = 5)) = some e ∧
      e.2 = (Naive.MoveSearchSpec searchCfg .kLevel39 61 Tap30Hz Ones 6).non_adj :=
  ⟨by decide, by decide,
   Naive.C28_zero_delay_matches_no_adjustment searchCfg .kLevel39 Tap30Hz Ones 6 (by decide)
     (by decide)⟩

end NoAdjustmentInstances

/-! ## `TetrisNoro::SetLines` -/

section NoroProofs

variable {Board : Type}

/-- Two integers with the same truncating remainder modulo 2 differ by an even number. -/
theorem tmod_two_eq_dvd (a b : Int) (h : Int.tmod a 2 = Int.tmod b 2) : (2 : Int) ∣ a - b := by
  have ha := Int.tmod_add_tdiv a 2
  have hb := Int.tmod_add_tdiv b 2
  exact ⟨Int.tdiv a 2 - Int.tdiv b 2, by omega⟩

/-- C37: `TetrisNoro::SetLines(n)` raises a range error iff `n % 2 != lines_ % 2` (C++
remainder) and then changes nothing; when it succeeds the difference `n - lines_` is
even, so `(n - lines_) * 10` is divisible by 4 with no truncation and the quantity
`4 * pieces_ - 10 * lines_` is exactly the same before and after the call. -/
theorem C37_noro_setLines (t : TetrisNoro Board) (n : Int) :
    ((TetrisNoro.SetLines t n).1 = .error .range_error ↔ Int.tmod n 2 ≠ Int.tmod t.lines_ 2) ∧
    (Int.tmod n 2 ≠ Int.tmod t.lines_ 2 → TetrisNoro.SetLines t n = (.error .range_error, t)) ∧
    (Int.tmod n 2 = Int.tmod t.lines_ 2 →
      (TetrisNoro.SetLines t n).1 = .ok () ∧
      (2 : Int) ∣ n - t.lines_ ∧ (4 : Int) ∣ (n - t.lines_) * 10 ∧
      Int.tdiv ((n - t.lines_) * 10) 4 * 4 = (n - t.lines_) * 10 ∧
      (TetrisNoro.SetLines t n).2.lines_ = n ∧
      (TetrisNoro.SetLines t n).2.pieces_ = t.pieces_ + Int.tdiv ((n - t.lines_) * 10) 4 ∧
      4 * (TetrisNoro.SetLines t n).2.pieces_ - 10 * (TetrisNoro.SetLines t n).2.lines_ =
        4 * t.pieces_ - 10 * t.lines_ ∧
      (TetrisNoro.SetLines t n).2 = { t with
        lines_ := n, pieces_ := t.pieces_ + Int.tdiv ((n - t.lines_) * 10) 4 }) := by
  refine ⟨?_, ?_, ?_⟩
  · simp only [TetrisNoro.SetLines]
    split
    · next h => simp [h]
    · next h => simp [h]
  · intro h
    simp only [TetrisNoro.SetLines]
    rw [if_pos h]
  · intro h
    have h2 := tmod_two_eq_dvd n t.lines_ h
    have h4 : (4 : Int) ∣ (n - t.lines_) * 10 := by
      obtain ⟨c, hc⟩ := h2
      exact ⟨c * 5, by rw [hc]; ring⟩
    have hdiv := Int.tdiv_mul_cancel h4
    simp only [TetrisNoro.SetLines]
    rw [if_neg (not_not.mpr h)]
    refine ⟨rfl, h2, h4, hdiv, rfl, rfl, ?_, rfl⟩
    show 4 * (t.pieces_ + Int.tdiv ((n - t.lines_) * 10) 4) - 10 * n = _
    omega

end NoroProofs

section NoroSetLinesInstances

open Sample

/-- Instance of C37: from 0 lines, `SetLines(3)` raises and `SetLines(6)` adds 15 pieces. -/
theorem C37_witness :
    Int.tmod 3 2 ≠ Int.tmod noroStart.lines_ 2 ∧
    TetrisNoro.SetLines noroStart 3 = (.error .range_error, noroStart) ∧
    Int.tmod 6 2 = Int.tmod noroStart.lines_ 2 ∧
    ((TetrisNoro.SetLines noroStart 6).1 = .ok () ∧
      (2 : Int) ∣ 6 - noroStart.lines_ ∧ (4 : Int) ∣ (6 - noroStart.lines_) * 10 ∧
      Int.tdiv ((6 - noroStart.lines_) * 10) 4 * 4 = (6 - noroStart.lines_) * 10 ∧
      (TetrisNoro.SetLines noroStart 6).2.lines_ = 6 ∧
      (TetrisNoro.SetLines noroStart 6).2.pieces_ =
        noroStart.pieces_ + Int.tdiv ((6 - noroStart.lines_) * 10) 4 ∧
      4 * (TetrisNoro.SetLines noroStart 6).2.pieces_ -
          10 * (TetrisNoro.SetLines noroStart 6).2.lines_ =
        4 * noroStart.pieces_ - 10 * noroStart.lines_ ∧
      (TetrisNoro.SetLines noroStart 6).2 = { noroStart with
        lines_ := 6,
        pieces_ := noroStart.pieces_ + Int.tdiv ((6 - noroStart.lines_) * 10) 4 }) ∧
    (TetrisNoro.SetLines noroStart 6).2.pieces_ = 15 :=
  ⟨by decide, (C37_noro_setLines noroStart 3).2.1 (by decide), by decide,
   (C37_noro_setLines noroStart 6).2.2 (by decide), by decide⟩

end NoroSetLinesInstances
/-! ## `TetrisNoro::LinesToNextSpeed` -/

section NoroSpeed

variable {Board : Type}

/-- The first loop of `LinesToNextSpeed`: it stops at the first index from `next_speed`
on that is outside the table or has another entry than `speed`. -/
theorem nextSpeedLoop_spec (ipr : List Int) (speed : Int) (fuel : Nat) :
    ∀ ns : Int, ((ipr.length : Int) - ns).toNat ≤ fuel →
      ns ≤ nextSpeedLoop ipr speed fuel ns ∧
      (∀ u : Int, ns ≤ u → u < nextSpeedLoop ipr speed fuel ns →
        u < ipr.length ∧ ipr.getD speed.toNat 0 = ipr.getD u.toNat 0) ∧
      (nextSpeedLoop ipr speed fuel ns < ipr.length →
        ipr.getD speed.toNat 0 ≠ ipr.getD (nextSpeedLoop ipr speed fuel ns).toNat 0) := by
  induction fuel with
  | zero =>
    intro ns hf
    simp only [nextSpeedLoop]
    refine ⟨le_refl _, fun u h1 h2 => absurd h2 (by omega), fun h => ?_⟩
    omega
  | succ fuel ih =>
    intro ns hf
    simp only [nextSpeedLoop]
    by_cases hc : ns < ipr.length ∧ ipr.getD speed.toNat 0 = ipr.getD ns.toNat 0
    · rw [if_pos hc]
      obtain ⟨h1, h2, h3⟩ := ih (ns + 1) (by omega)
      refine ⟨by omega, ?_, h3⟩
      intro u hu1 hu2
      by_cases hun : u = ns
      · subst hun
        exact hc
      · exact h2 u (by omega) hu2
    · rw [if_neg hc]
      refine ⟨le_refl _, fun u h1 h2 => absurd h2 (by omega), fun h => ?_⟩
      intro heq
      exact hc ⟨h, heq⟩

/-- The second loop of `LinesToNextSpeed` ends at the first scanned line count with the
wanted speed. -/
theorem scanLines_some (env : NoroEnv Board) (start_level next_speed : Int) (fuel : Nat) :
    ∀ (n r : Int), scanLines env start_level next_speed fuel n = some r →
      ∃ k : Nat, k ≤ fuel ∧ r = n + 10 * k ∧
        env.GetLevelSpeed (env.GetLevelByLines (n + 10 * k) start_level) = next_speed ∧
        ∀ k2 : Nat, k2 < k →
          env.GetLevelSpeed (env.GetLevelByLines (n + 10 * k2) start_level) ≠ next_speed := by
  induction fuel with
  | zero =>
    intro n r h
    rw [scanLines.eq_def] at h
    by_cases hc : env.GetLevelSpeed (env.GetLevelByLines n start_level) = next_speed
    · simp only [hc, if_true, Option.some.injEq] at h
      subst h
      exact ⟨0, le_refl 0, by simp, by simpa using hc, fun k2 hk2 => absurd hk2 (by omega)⟩
    · simp [hc] at h
  | succ fuel ih =>
    intro n r h
    rw [scanLines.eq_def] at h
    by_cases hc : env.GetLevelSpeed (env.GetLevelByLines n start_level) = next_speed
    · simp only [hc, if_true, Option.some.injEq] at h
      subst h
      exact ⟨0, Nat.zero_le _, by simp, by simpa using hc, fun k2 hk2 => absurd hk2 (by omega)⟩
    · simp only [hc, if_false] at h
      obtain ⟨k, hk, hr, hs, hfirst⟩ := ih (n + 10) r h
      refine ⟨k + 1, by omega, by rw [hr]; push_cast; ring, ?_, ?_⟩
      · have e : n + 10 * ((k + 1 : Nat) : Int) = n + 10 + 10 * (k : Int) := by
          push_cast; ring
        rw [e]
        exact hs
      · intro k2 hk2
        cases k2 with
        | zero => simpa using hc
        | succ k3 =>
          have e : n + 10 * ((k3 + 1 : Nat) : Int) = n + 10 + 10 * (k3 : Int) := by
            push_cast; ring
          rw [e]
          exact hfirst k3 (by omega)

/-- With enough fuel the second loop of `LinesToNextSpeed` ends at the first scanned
line count with the wanted speed. -/
theorem scanLines_enough (env : NoroEnv Board) (start_level next_speed : Int) (k : Nat) :
    ∀ (n : Int) (fuel : Nat), k ≤ fuel →
      env.GetLevelSpeed (env.GetLevelByLines (n + 10 * k) start_level) = next_speed →
      (∀ k2 : Nat, k2 < k →
        env.GetLevelSpeed (env.GetLevelByLines (n + 10 * k2) start_level) ≠ next_speed) →
      scanLines env start_level next_speed fuel n = some (n + 10 * k) := by
  induction k with
  | zero =>
    intro n fuel _ hs _
    rw [scanLines.eq_def]
    have hs2 : env.GetLevelSpeed (env.GetLevelByLines n start_level) = next_speed := by
      simpa using hs
    simp [hs2]
  | succ k ih =>
    intro n fuel hf hs hfirst
    have h0 : env.GetLevelSpeed (env.GetLevelByLines n start_level) ≠ next_speed := by
      simpa using hfirst 0 (by omega)
    obtain ⟨fuel2, rfl⟩ : ∃ f2, fuel = f2 + 1 := ⟨fuel - 1, by omega⟩
    rw [scanLines.eq_def]
    simp only [h0, if_false]
    have e : n + 10 * ((k + 1 : Nat) : Int) = n + 10 + 10 * (k : Int) := by
      push_cast; ring
    rw [e] at hs ⊢
    apply ih (n + 10) fuel2 (by omega) hs
    intro k2 hk2
    have := hfirst (k2 + 1) (by omega)
    have e2 : n + 10 * ((k2 + 1 : Nat) : Int) = n + 10 + 10 * (k2 : Int) := by
      push_cast; ring
    rw [e2] at this
    exact this

/-- The value of `next_speed` after the first loop: every index from `speed` up to it has the entry of `speed`, and it is outside
the table or has a different entry. -/
theorem nextSpeed_spec (env : NoroEnv Board) (t : TetrisNoro Board) :
    TetrisNoro.LevelSpeed env t ≤ TetrisNoro.nextSpeed env t ∧
    (∀ u : Int, TetrisNoro.LevelSpeed env t ≤ u → u < TetrisNoro.nextSpeed env t →
      u < t.inputs_per_row_.length ∧
      t.inputs_per_row_.getD (TetrisNoro.LevelSpeed env t).toNat 0 =
        t.inputs_per_row_.getD u.toNat 0) ∧
    (TetrisNoro.nextSpeed env t < t.inputs_per_row_.length →
      t.inputs_per_row_.getD (TetrisNoro.LevelSpeed env t).toNat 0 ≠
        t.inputs_per_row_.getD (TetrisNoro.nextSpeed env t).toNat 0) :=
  nextSpeedLoop_spec t.inputs_per_row_ (TetrisNoro.LevelSpeed env t) _
    (TetrisNoro.LevelSpeed env t) (le_refl _)

/-- C38: for every `TetrisNoro` state, `LinesToNextSpeed` returns -1 iff no speed index
above the current one has a different `inputs_per_row_` entry; otherwise `next_speed` is
the first later index with a different entry, and when the call returns, it returns a
value `9 + 10k` with `k >= 0` (the scan starts at `lines_ + 9` and advances in steps of
10), where `lines_ + 9 + 10k` is the first scanned line count whose level speed equals
`next_speed`; it does return when some scanned line count has that speed. -/
theorem C38_lines_to_next_speed (env : NoroEnv Board) (t : TetrisNoro Board) :
    (∀ fuel, TetrisNoro.LinesToNextSpeed env t fuel = some (-1) ↔
      ∀ u : Int, TetrisNoro.LevelSpeed env t < u → u < t.inputs_per_row_.length →
        t.inputs_per_row_.getD u.toNat 0 =
          t.inputs_per_row_.getD (TetrisNoro.LevelSpeed env t).toNat 0) ∧
    ((∃ u : Int, TetrisNoro.LevelSpeed env t < u ∧ u < t.inputs_per_row_.length ∧
        t.inputs_per_row_.getD u.toNat 0 ≠
          t.inputs_per_row_.getD (TetrisNoro.LevelSpeed env t).toNat 0) →
      (TetrisNoro.LevelSpeed env t < TetrisNoro.nextSpeed env t ∧
        TetrisNoro.nextSpeed env t < t.inputs_per_row_.length ∧
        t.inputs_per_row_.getD (TetrisNoro.nextSpeed env t).toNat 0 ≠
          t.inputs_per_row_.getD (TetrisNoro.LevelSpeed env t).toNat 0 ∧
        ∀ u : Int, TetrisNoro.LevelSpeed env t < u → u < TetrisNoro.nextSpeed env t →
          t.inputs_per_row_.getD u.toNat 0 =
            t.inputs_per_row_.getD (TetrisNoro.LevelSpeed env t).toNat 0) ∧
      (∀ fuel r, TetrisNoro.LinesToNextSpeed env t fuel = some r →
        ∃ k : Nat, k ≤ fuel ∧ r = 9 + 10 * k ∧
          env.GetLevelSpeed (env.GetLevelByLines (t.lines_ + 9 + 10 * k) t.start_level_) =
            TetrisNoro.nextSpeed env t ∧
          ∀ k2 : Nat, k2 < k →
            env.GetLevelSpeed (env.GetLevelByLines (t.lines_ + 9 + 10 * k2) t.start_level_) ≠
              TetrisNoro.nextSpeed env t) ∧
      (∀ k : Nat,
        env.GetLevelSpeed (env.GetLevelByLines (t.lines_ + 9 + 10 * k) t.start_level_) =
          TetrisNoro.nextSpeed env t →
        (∀ k2 : Nat, k2 < k →
          env.GetLevelSpeed (env.GetLevelByLines (t.lines_ + 9 + 10 * k2) t.start_level_) ≠
            TetrisNoro.nextSpeed env t) →
        ∀ fuel, k ≤ fuel →
          TetrisNoro.LinesToNextSpeed env t fuel = some (9 + 10 * (k : Int)))) := by
  obtain ⟨h1, h2, h3⟩ := nextSpeed_spec env t
  have hstart : Int.tdiv ((t.lines_ + 9) * 10) 10 = t.lines_ + 9 :=
    Int.mul_tdiv_cancel _ (by decide)
  have hiff : TetrisNoro.nextSpeed env t ≥ t.inputs_per_row_.length ↔
      ∀ u : Int, TetrisNoro.LevelSpeed env t < u → u < t.inputs_per_row_.length →
        t.inputs_per_row_.getD u.toNat 0 =
          t.inputs_per_row_.getD (TetrisNoro.LevelSpeed env t).toNat 0 := by
    constructor
    · intro hge u hu1 hu2
      exact ((h2 u (by omega) (by omega)).2).symm
    · intro hall
      by_contra hlt
      have hlt2 : TetrisNoro.nextSpeed env t < t.inputs_per_row_.length := by omega
      have hne := h3 hlt2
      by_cases hs : TetrisNoro.LevelSpeed env t = TetrisNoro.nextSpeed env t
      · rw [← hs] at hne
        exact hne rfl
      · exact hne (hall _ (by omega) hlt2).symm
  refine ⟨?_, ?_⟩
  · intro fuel
    rw [← hiff]
    simp only [TetrisNoro.LinesToNextSpeed]
    constructor
    · intro h
      by_contra hlt
      rw [if_neg hlt, hstart] at h
      cases hsc : scanLines env t.start_level_ (TetrisNoro.nextSpeed env t) fuel
          (t.lines_ + 9) with
      | none => simp [hsc] at h
      | some n =>
        obtain ⟨k, _, hr, _, _⟩ := scanLines_some env _ _ fuel _ n hsc
        simp only [hsc, Option.map_some', Option.some.injEq] at h
        omega
    · intro hge
      rw [if_pos hge]
  · rintro ⟨u, hu1, hu2, hu3⟩
    have hlt : TetrisNoro.nextSpeed env t < t.inputs_per_row_.length := by
      by_contra hge
      exact hu3 (hiff.mp (by omega) u hu1 hu2)
    have hne := h3 hlt
    have hgt : TetrisNoro.LevelSpeed env t < TetrisNoro.nextSpeed env t := by
      by_contra hle
      have hs : TetrisNoro.LevelSpeed env t = TetrisNoro.nextSpeed env t := by omega
      rw [← hs] at hne
      exact hne rfl
    refine ⟨⟨hgt, hlt, fun h => hne h.symm, fun v hv1 hv2 => ((h2 v (by omega) hv2).2).symm⟩,
      ?_, ?_⟩
    · intro fuel r h
      simp only [TetrisNoro.LinesToNextSpeed] at h
      rw [if_neg (by omega), hstart] at h
      cases hsc : scanLines env t.start_level_ (TetrisNoro.nextSpeed env t) fuel
          (t.lines_ + 9) with
      | none => simp [hsc] at h
      | some n =>
        obtain ⟨k, hk, hr, hs, hfirst⟩ := scanLines_some env _ _ fuel _ n hsc
        simp only [hsc, Option.map_some', Option.some.injEq] at h
        refine ⟨k, hk, by omega, hs, hfirst⟩
    · intro k hs hfirst fuel hk
      have hnot : ¬ (TetrisNoro.nextSpeed env t ≥ t.inputs_per_row_.length) := by omega
      simp only [TetrisNoro.LinesToNextSpeed]
      rw [if_neg hnot, hstart, scanLines_enough env _ _ k _ fuel hk hs hfirst]
      simp only [Option.map_some', Option.some.injEq]
      omega

end NoroSpeed

section NoroSpeedInstances

open Sample

/-- Instance of C38: at start level 9 with 0 lines the speed index is 9 and the next
index with another entry is 10, reached at the first scanned line count with level 10,
which is 19 (returned as `9 + 10 * 1`). -/
theorem C38_witness :
    TetrisNoro.LevelSpeed noroEnv noroStart = 9 ∧
    TetrisNoro.nextSpeed noroEnv noroStart = 10 ∧
    TetrisNoro.LinesToNextSpeed noroEnv noroStart 5 = some (9 + 10 * ((1 : Nat) : Int)) ∧
    (∃ k : Nat, k ≤ 5 ∧ (19 : Int) = 9 + 10 * k ∧
      noroEnv.GetLevelSpeed (noroEnv.GetLevelByLines (noroStart.lines_ + 9 + 10 * k)
        noroStart.start_level_) = TetrisNoro.nextSpeed noroEnv noroStart ∧
      ∀ k2 : Nat, k2 < k →
        noroEnv.GetLevelSpeed (noroEnv.GetLevelByLines (noroStart.lines_ + 9 + 10 * k2)
          noroStart.start_level_) ≠ TetrisNoro.nextSpeed noroEnv noroStart) :=
  ⟨by decide, by decide,
   ((C38_lines_to_next_speed noroEnv noroStart).2
      ⟨10, by decide, by decide, by decide⟩).2.2 1 (by decide)
      (fun k2 hk2 => by
        have : k2 = 0 := by omega
        subst this
        decide) 5 (by decide),
   ((C38_lines_to_next_speed noroEnv noroStart).2
      ⟨10, by decide, by decide, by decide⟩).2.1 5 19 (by decide)⟩

end NoroSpeedInstances
/-! ## Plane 2 of the moves tensor under the mirror -/

section NoroMirror

variable {Board : Type}

end NoroMirror

namespace Sample

end Sample

section NoroMirrorInstances

open Sample

end NoroMirrorInstances

/-! ## The burn penalty and the game-over penalty -/

section PenaltyProofs

/-- One pass of the loop adds the penalty of the phase of the line. -/
theorem burnBody_eq (P : PhasePenalties) (i penalty : Int) :
    burnBody P i penalty = penalty + phasePenalty P i := by
  unfold burnBody phasePenalty
  split_ifs <;> omega

/-- The interval of line indices loses its first element. -/
theorem ico_insert_first (i n : Int) (h : i < n) :
    Finset.Ico i n = insert i (Finset.Ico (i + 1) n) := by
  ext x
  simp only [Finset.mem_Ico, Finset.mem_insert]
  omega

/-- With enough fuel the loop adds the phase penalties of the lines from `i` up to
`now_lines`. -/
theorem burnLoop_sum (P : PhasePenalties) (now_lines : Int) :
    ∀ (fuel : Nat) (i penalty : Int), (now_lines - i).toNat ≤ fuel →
      burnLoop P now_lines fuel i penalty =
        penalty + ∑ j in Finset.Ico i now_lines, phasePenalty P j := by
  intro fuel
  induction fuel with
  | zero =>
    intro i penalty h
    have hle : now_lines ≤ i := by omega
    simp [burnLoop, Finset.Ico_eq_empty_of_le hle]
  | succ fuel ih =>
    intro i penalty h
    simp only [burnLoop]
    by_cases hlt : i < now_lines
    · rw [if_pos hlt, ih (i + 1) _ (by omega), burnBody_eq, ico_insert_first i now_lines hlt,
        Finset.sum_insert (by simp)]
      ring
    · rw [if_neg hlt, Finset.Ico_eq_empty_of_le (by omega)]
      simp

/-- The burn penalty of a step that cleared a number of lines other than 0 and 4. -/
theorem burnPenalty_sum (P : PhasePenalties) (now_lines lines : Int) (h0 : lines ≠ 0)
    (h4 : lines ≠ 4) :
    burnPenalty P now_lines lines =
      ∑ j in Finset.Ico (now_lines - lines) now_lines, phasePenalty P j := by
  unfold burnPenalty
  rw [if_pos ⟨h0, h4⟩, burnLoop_sum P now_lines _ _ _ (by omega)]
  simp

/-- C31: at aggression level 0, for a burn of `k` in {1, 2, 3} lines ending at
`now_lines`, the integer penalty accumulated before any game-over term is the sum, over
every absolute line index `i` in `[now_lines - k, now_lines)`, of `penalty_18` if
`i <= 124`, `penalty_19` if `124 < i <= 224`, `penalty_29` if `224 < i <= 320` and 0 if
`i > 320`; the loop has then stopped by itself (more passes allowed change nothing); for
`k = 0` and `k = 4` the accumulated burn penalty is 0. -/
theorem C31_burn_penalty (P : PhasePenalties) (now_lines k : Int)
    (hk : k = 1 ∨ k = 2 ∨ k = 3) :
    burnPenalty P now_lines k =
      ∑ i in Finset.Ico (now_lines - k) now_lines, phasePenalty P i ∧
    (∀ fuel : Nat, k.toNat ≤ fuel →
      burnLoop P now_lines fuel (now_lines - k) 0 = burnPenalty P now_lines k) ∧
    (∀ i : Int, phasePenalty P i =
      if i ≤ 124 then P.penalty_18 else if i ≤ 224 then P.penalty_19
      else if i ≤ 320 then P.penalty_29 else 0) ∧
    burnPenalty P now_lines 0 = 0 ∧ burnPenalty P now_lines 4 = 0 := by
  have h0 : k ≠ 0 := by omega
  have h4 : k ≠ 4 := by omega
  refine ⟨burnPenalty_sum P now_lines k h0 h4, ?_, ?_, by simp [burnPenalty],
    by simp [burnPenalty]⟩
  · intro fuel hf
    rw [burnPenalty_sum P now_lines k h0 h4, burnLoop_sum P now_lines fuel _ _ (by omega)]
    simp
  · intro i
    unfold phasePenalty
    split_ifs <;> first | rfl | omega

/-- The scaling truncates the exact product: for a penalty that is not negative the
result is the largest integer not above 1.05 times the penalty. -/
theorem scalePenalty_bounds (penalty : Int) (h : 0 ≤ penalty) :
    100 * scalePenalty penalty ≤ 105 * penalty ∧
    105 * penalty < 100 * scalePenalty penalty + 100 := by
  unfold scalePenalty
  rw [Int.tdiv_eq_ediv (by omega) (by omega)]
  omega

/-- The block for a finished game scales the sum of what was accumulated before and the
unreached-phase penalties. -/
theorem overPenalty_eq (P : PhasePenalties) (now_lines penalty : Int) :
    overPenalty P now_lines penalty = scalePenalty (penalty + unreachedPenalty P now_lines) := by
  unfold overPenalty unreachedPenalty
  simp only
  congr 1
  ring

/-- C32 (amended): at aggression level 0, when the game is over after the step, the
final penalty is 1.05 times the sum of the burn penalty accumulated for this step and the
unreached-phase penalties `penalty_18 * (124 - min(124, n)) + penalty_19 * (224 -
min(224, max(124, n))) + penalty_29 * (320 - min(320, max(224, n)))` with `n = now_lines`,
truncated toward zero to an integer: the burn penalty is scaled by 1.05 together with the
unreached-phase part.  For a step without burn penalty this is the truncated value of
what the unscaled burn penalty plus 1.05 times the unreached part would be. -/
theorem C32_game_over_penalty {Board Rng : Type} (env : PyEnv Board Rng)
    (st : PythonTetris Board Rng) (P : PhasePenalties) (tap_mode adj_mode lines : Int)
    (hover : IsOver (burnStep env st tap_mode adj_mode lines).tetris = true) :
    levelZeroPenalty env st P tap_mode adj_mode lines =
      Int.tdiv ((burnPenalty P st.tetris.lines_ lines + unreachedPenalty P st.tetris.lines_)
        * 105) 100 ∧
    (0 ≤ burnPenalty P st.tetris.lines_ lines + unreachedPenalty P st.tetris.lines_ →
      100 * levelZeroPenalty env st P tap_mode adj_mode lines ≤
        105 * (burnPenalty P st.tetris.lines_ lines + unreachedPenalty P st.tetris.lines_) ∧
      105 * (burnPenalty P st.tetris.lines_ lines + unreachedPenalty P st.tetris.lines_) <
        100 * levelZeroPenalty env st P tap_mode adj_mode lines + 100) ∧
    (burnPenalty P st.tetris.lines_ lines = 0 →
      levelZeroPenalty env st P tap_mode adj_mode lines =
        Int.tdiv (unreachedPenalty P st.tetris.lines_ * 105) 100) := by
  have hval : levelZeroPenalty env st P tap_mode adj_mode lines =
      scalePenalty (burnPenalty P st.tetris.lines_ lines +
        unreachedPenalty P st.tetris.lines_) := by
    unfold levelZeroPenalty
    simp only
    rw [if_pos hover, overPenalty_eq]
  refine ⟨by rw [hval]; rfl, ?_, ?_⟩
  · intro hnn
    rw [hval]
    exact scalePenalty_bounds _ hnn
  · intro hz
    rw [hval, hz, zero_add]
    rfl

end PenaltyProofs

section PenaltyInstances

open Sample

/-- Instance of C31: a burn of two lines ending at 302 lines costs twice `penalty_29`,
a burn of three lines ending at 126 lines costs `penalty_18` twice and `penalty_19`
once, and a burn ending at 400 lines costs nothing. -/
theorem C31_witness :
    ((2 : Int) = 1 ∨ (2 : Int) = 2 ∨ (2 : Int) = 3) ∧
    burnPenalty penalties 302 2 = 420 ∧ burnPenalty penalties 126 3 = 4649 ∧
    burnPenalty penalties 400 3 = 0 ∧
    burnPenalty penalties 302 2 =
      ∑ i in Finset.Ico ((302 : Int) - 2) 302, phasePenalty penalties i :=
  ⟨by decide, by decide, by decide, by decide,
   (C31_burn_penalty penalties 302 2 (by decide)).1⟩

/-- The step of `pyBrink` at `(1, 2, 5)`: the cell is tagged no-adj, the call returns
with one line cleared, and the game is over because the next piece has no placement. -/
theorem pyBrink_step :
    (PythonTetris.Reset pyenv pyraw brink 1 Tap30Hz 18 6 0 false).1 = .ok () ∧
    pyBrink.skip_unique_initial_ = false ∧ pyBrink.step_reward_level_ = 0 ∧
    IsOver pyBrink.tetris = false ∧ pyBrink.tetris.lines_ = 1 ∧
    pyBrink.tetris.move_map_ ⟨1, 2, 5⟩ = kNoAdj ∧
    (BetaTetris.InputPlacement pyenv.core pyBrink.tetris ⟨1, 2, 5⟩ pyBrink.next_piece_).1 =
      .ok (760, 1) ∧
    pyBrinkOver.tetris.lines_ = 2 ∧ pyBrinkOver.tetris.game_over_ = true ∧
    pyBrinkOver.tetris.moves_ = ⟨[], []⟩ ∧
    tapMode pyBrinkOver.tetris.tap_sequence_ = some 5 ∧
    adjMode pyBrinkOver.tetris.adj_delay_ = some 1 ∧
    pyBrinkOver.skip_unique_initial_ = false ∧
    IsOver (burnStep pyenv pyBrinkOver 5 1 1).tetris = true := by
  refine ⟨by decide, by decide, by decide, by decide, by decide, by decide, by decide,
    by decide, by decide, by decide, by decide, by decide, by decide, by decide⟩

/-- Counterexample to C32 as stated.  From `Reset(brink, 1, ...)` the upright I is input
into the well at `(1, 2, 5)`: one line is cleared (a burn of line index 1, `now_lines`
2) and the game is over, since the T piece cannot spawn; no random test is made
(`skip_unique_initial_` is unset).  With the penalties (1920, 809, 210) the code
subtracts `int(1.05 * (1920 + 335300)) = 354081`, whereas the burn penalty plus 1.05
times the unreached-phase penalties is `1920 + 352065 = 353985`.  The two differ in this
state for all penalties with `penalty_18` at least 20 and the other two not negative. -/
theorem C32_counterexample :
    IsOver pyBrink.tetris = false ∧
    (BetaTetris.InputPlacement pyenv.core pyBrink.tetris ⟨1, 2, 5⟩ pyBrink.next_piece_).1 =
      .ok (760, 1) ∧
    pyBrinkOver.tetris.lines_ = 2 ∧
    pyBrinkOver.skip_unique_initial_ = false ∧
    IsOver (burnStep pyenv pyBrinkOver 5 1 1).tetris = true ∧
    burnPenalty penalties 2 1 = 1920 ∧
    unreachedPenalty penalties 2 = 335300 ∧
    levelZeroPenalty pyenv pyBrinkOver penalties 5 1 1 = 354081 ∧
    finalPenalty_spec penalties 2 1 = 353985 ∧
    ((levelZeroPenalty pyenv pyBrinkOver penalties 5 1 1 : Int) : ℚ) ≠
      finalPenalty_spec penalties pyBrinkOver.tetris.lines_ 1 ∧
    (∀ P : PhasePenalties, 20 ≤ P.penalty_18 → 0 ≤ P.penalty_19 → 0 ≤ P.penalty_29 →
      ((levelZeroPenalty pyenv pyBrinkOver P 5 1 1 : Int) : ℚ) ≠
        finalPenalty_spec P pyBrinkOver.tetris.lines_ 1) := by
  obtain ⟨_, _, _, hnot, _, _, hret, hlines, _, _, _, _, hskip, hover⟩ := pyBrink_step
  have hburnP : ∀ P : PhasePenalties, burnPenalty P 2 1 = P.penalty_18 := by
    intro P
    simp [burnPenalty, burnLoop, burnBody]
  have hunP : ∀ P : PhasePenalties, unreachedPenalty P 2 =
      P.penalty_18 * 122 + P.penalty_19 * 100 + P.penalty_29 * 96 := by
    intro P
    simp [unreachedPenalty]
  have hvalP : ∀ P : PhasePenalties, levelZeroPenalty pyenv pyBrinkOver P 5 1 1 =
      scalePenalty (P.penalty_18 + (P.penalty_18 * 122 + P.penalty_19 * 100 +
        P.penalty_29 * 96)) := by
    intro P
    unfold levelZeroPenalty
    simp only
    rw [if_pos hover, overPenalty_eq, hlines, hburnP, hunP]
  have hgen : ∀ P : PhasePenalties, 20 ≤ P.penalty_18 → 0 ≤ P.penalty_19 →
      0 ≤ P.penalty_29 →
      ((levelZeroPenalty pyenv pyBrinkOver P 5 1 1 : Int) : ℚ) ≠
        finalPenalty_spec P pyBrinkOver.tetris.lines_ 1 := by
    intro P h18 h19 h29 heq
    rw [hlines, hvalP] at heq
    unfold finalPenalty_spec at heq
    rw [hburnP, hunP] at heq
    have hb := scalePenalty_bounds (P.penalty_18 + (P.penalty_18 * 122 + P.penalty_19 * 100 +
      P.penalty_29 * 96)) (by nlinarith)
    generalize scalePenalty (P.penalty_18 + (P.penalty_18 * 122 + P.penalty_19 * 100 +
      P.penalty_29 * 96)) = c at heq hb
    have hint : 100 * c = 100 * P.penalty_18 +
        105 * (P.penalty_18 * 122 + P.penalty_19 * 100 + P.penalty_29 * 96) := by
      have hq : ((100 * c : Int) : ℚ) = ((100 * P.penalty_18 +
          105 * (P.penalty_18 * 122 + P.penalty_19 * 100 + P.penalty_29 * 96) : Int) : ℚ) := by
        push_cast at heq ⊢
        rw [heq]
        ring
      exact_mod_cast hq
    omega
  have hval : levelZeroPenalty pyenv pyBrinkOver penalties 5 1 1 = 354081 := by
    rw [hvalP]
    decide
  have hspec : finalPenalty_spec penalties 2 1 = 353985 := by
    unfold finalPenalty_spec
    rw [hburnP, hunP]
    norm_num [penalties]
  exact ⟨hnot, hret, hlines, hskip, hover, by decide, by decide, hval, hspec,
    hgen penalties (by decide) (by decide) (by decide), hgen⟩

/-- Instance of C32: the same step under the amended reading. -/
theorem C32_witness :
    IsOver (burnStep pyenv pyBrinkOver 5 1 1).tetris = true ∧
    pyBrinkOver.tetris.lines_ = 2 ∧
    levelZeroPenalty pyenv pyBrinkOver penalties 5 1 1 = 354081 ∧
    levelZeroPenalty pyenv pyBrinkOver penalties 5 1 1 =
      Int.tdiv ((burnPenalty penalties pyBrinkOver.tetris.lines_ 1 +
        unreachedPenalty penalties pyBrinkOver.tetris.lines_) * 105) 100 :=
  ⟨by decide, by decide, by decide,
   (C32_game_over_penalty pyenv pyBrinkOver penalties 5 1 1 (by decide)).1⟩

end PenaltyInstances

/-! ## The reduction loses no destination -/

section MaskUnion

variable {Board : Type}

/-- Every entry covers itself. -/
theorem covers_refl (a : AdjItem) : covers a a := ⟨le_refl _, fun _ h => h⟩

/-- Covering is transitive. -/
theorem covers_trans (a b c : AdjItem) (hab : covers a b) (hbc : covers b c) : covers a c :=
  ⟨le_trans hbc.1 hab.1, fun _ h => hab.2 (hbc.2 h)⟩

/-- A duplicate-free list that lies inside a list that is not longer holds every element
of that list. -/
theorem subset_of_nodup_length (l1 l2 : List Position) (hnd : l1.Nodup) (hsub : l1 ⊆ l2)
    (hlen : l2.length ≤ l1.length) : l2 ⊆ l1 :=
  ((List.subperm_of_subset hnd hsub).perm_of_length_le hlen).symm.subset

/-- For a mask that obeys the rule of the reduction on duplicate-free lists, every entry
is covered by an entry that keeps its bit. -/
theorem exists_kept_cover (adj : List AdjItem) (mask : Nat)
    (hspec : ∀ k, mask.testBit k = true ↔
      ∃ hk : k < adj.length, ∀ j (hj : j < adj.length), j ≠ k →
        covers (adj.get ⟨j, hj⟩) (adj.get ⟨k, hk⟩) →
        k < j ∧ covers (adj.get ⟨k, hk⟩) (adj.get ⟨j, hj⟩))
    (hnodup : ∀ e ∈ adj, e.2.Nodup) (i : Nat) (hi : i < adj.length) :
    ∃ (k : Nat) (hk : k < adj.length), mask.testBit k = true ∧
      covers (adj.get ⟨k, hk⟩) (adj.get ⟨i, hi⟩) := by
  classical
  obtain ⟨k1, hk1, hmax⟩ := Finset.exists_max_image
    ((Finset.univ : Finset (Fin adj.length)).filter
      (fun k => covers (adj.get k) (adj.get ⟨i, hi⟩)))
    (fun k => (adj.get k).2.length)
    ⟨⟨i, hi⟩, Finset.mem_filter.mpr ⟨Finset.mem_univ _, covers_refl _⟩⟩
  obtain ⟨k, hk, hmin⟩ := Finset.exists_min_image
    (((Finset.univ : Finset (Fin adj.length)).filter
      (fun k => covers (adj.get k) (adj.get ⟨i, hi⟩))).filter
        (fun k => (adj.get k).2.length = (adj.get k1).2.length))
    (fun k => k.val)
    ⟨k1, Finset.mem_filter.mpr ⟨hk1, rfl⟩⟩
  have hkS := (Finset.mem_filter.mp hk).1
  have hklen := (Finset.mem_filter.mp hk).2
  have hkcov := (Finset.mem_filter.mp hkS).2
  refine ⟨k.val, k.isLt, ?_, hkcov⟩
  rw [hspec]
  refine ⟨k.isLt, ?_⟩
  intro j hj hjk hcov
  have hjS : (⟨j, hj⟩ : Fin adj.length) ∈ (Finset.univ : Finset (Fin adj.length)).filter
      (fun k => covers (adj.get k) (adj.get ⟨i, hi⟩)) :=
    Finset.mem_filter.mpr ⟨Finset.mem_univ _, covers_trans _ _ _ hcov hkcov⟩
  have hjle := hmax ⟨j, hj⟩ hjS
  simp only at hjle
  have hjlen : (adj.get ⟨j, hj⟩).2.length = (adj.get k1).2.length := by
    have := hcov.1
    have h2 : (adj.get ⟨k.val, k.isLt⟩).2.length = (adj.get k1).2.length := hklen
    omega
  have hjS2 : (⟨j, hj⟩ : Fin adj.length) ∈
      ((Finset.univ : Finset (Fin adj.length)).filter
        (fun k => covers (adj.get k) (adj.get ⟨i, hi⟩))).filter
          (fun k => (adj.get k).2.length = (adj.get k1).2.length) :=
    Finset.mem_filter.mpr ⟨hjS, hjlen⟩
  have hle := hmin ⟨j, hj⟩ hjS2
  simp only at hle
  refine ⟨by omega, ?_, ?_⟩
  · have h2 : (adj.get ⟨k.val, k.isLt⟩).2.length = (adj.get k1).2.length := hklen
    omega
  · apply subset_of_nodup_length _ _ (hnodup _ (List.get_mem _ _ _)) hcov.2
    have h2 : (adj.get ⟨k.val, k.isLt⟩).2.length = (adj.get k1).2.length := hklen
    omega

/-- The entries that keep their bit, by index. -/
theorem mem_survivors_iff (adj : List AdjItem) (mask : Nat) (e : AdjItem) :
    e ∈ survivors adj mask ↔
      ∃ (k : Nat) (hk : k < adj.length), mask.testBit k = true ∧ adj.get ⟨k, hk⟩ = e := by
  simp only [survivors, List.mem_map, List.mem_filter]
  constructor
  · rintro ⟨x, ⟨hx, hb⟩, rfl⟩
    obtain ⟨n, hn, hget⟩ := List.getElem_of_mem hx
    have hn2 : n < adj.length := by simpa using hn
    rw [List.getElem_enum] at hget
    refine ⟨n, hn2, ?_, ?_⟩
    · rw [← hget] at hb
      exact hb
    · rw [← hget]
      rfl
  · rintro ⟨k, hk, hb, rfl⟩
    refine ⟨(k, adj.get ⟨k, hk⟩), ⟨?_, hb⟩, rfl⟩
    have hk2 : k < adj.enum.length := by simpa using hk
    have hget : adj.enum[k] = (k, adj.get ⟨k, hk⟩) := by
      rw [List.getElem_enum]
      rfl
    rw [← hget]
    exact List.getElem_mem hk2

/-- In a list ordered by the comparator of the sort no entry has a longer reachable list
than the first one. -/
theorem sorted_first_longest (l : List AdjItem)
    (hp : l.Pairwise (fun a b => adjLess b a = false)) (j : Nat) (hj : j < l.length)
    (h0 : 0 < l.length) : (l.get ⟨j, hj⟩).2.length ≤ (l.get ⟨0, h0⟩).2.length := by
  by_cases hj0 : j = 0
  · subst hj0
    exact le_refl _
  · have h := List.pairwise_iff_getElem.mp hp 0 j h0 hj (by omega)
    exact ((adjLess_false_iff _ _).mp h).1

/-- C33 (amended): for every adj list of at most 64 entries with duplicate-free
reachable lists and at most 256 distinct destinations in total (the capacity of the
`uint8_t` index), the reduction of `CalculateInitialMask_` loses no destination: the call
returns, every entry whose mask bit is cleared has its reachable set contained in the
reachable set of some entry whose bit is still set at the end, so the union of the
reachable sets of the non-reduced initials equals the union over all initials, and the
mask is non-zero whenever adj is non-empty; with a sort that orders by the comparator
the first entry keeps its bit. -/
theorem C33_reduction_loses_no_destination (env : Env Board) (hsort : SortPermutes env)
    (s : Tetris Board) (out : Outcome Unit Board) (hout : CalculateInitialMask_ env s = out)
    (hlen : s.moves_.adj.length ≤ 64) (hdist : distinctDestinations s.moves_.adj ≤ 256)
    (hnodup : ∀ e ∈ s.moves_.adj, e.2.Nodup) :
    out.1 = .ok () ∧
    (∀ (i : Nat) (hi : i < out.2.moves_.adj.length), out.2.initial_mask_.testBit i = false →
      ∃ (k : Nat) (hk : k < out.2.moves_.adj.length),
        out.2.initial_mask_.testBit k = true ∧
        (out.2.moves_.adj.get ⟨i, hi⟩).2 ⊆ (out.2.moves_.adj.get ⟨k, hk⟩).2) ∧
    (∀ p : Position,
      (∃ e ∈ survivors out.2.moves_.adj out.2.initial_mask_, p ∈ e.2) ↔
        (∃ e ∈ s.moves_.adj, p ∈ e.2)) ∧
    (s.moves_.adj ≠ [] → out.2.initial_mask_ ≠ 0) ∧
    (SortSorted env → s.moves_.adj ≠ [] → out.2.initial_mask_.testBit 0 = true) := by
  obtain ⟨hok, hperm, hspec⟩ := initialMask_spec env hsort s out hout hlen hdist
  have hnd : ∀ e ∈ out.2.moves_.adj, e.2.Nodup := fun e he => hnodup e (hperm.subset he)
  have hcover := exists_kept_cover out.2.moves_.adj out.2.initial_mask_ hspec hnd
  refine ⟨hok, ?_, ?_, ?_, ?_⟩
  · intro i hi _
    obtain ⟨k, hk, hb, hc⟩ := hcover i hi
    exact ⟨k, hk, hb, hc.2⟩
  · intro p
    constructor
    · rintro ⟨e, he, hp⟩
      exact ⟨e, hperm.subset (survivors_subset _ _ he), hp⟩
    · rintro ⟨e, he, hp⟩
      obtain ⟨i, hi, hget⟩ := List.getElem_of_mem (hperm.symm.subset he)
      obtain ⟨k, hk, hb, hc⟩ := hcover i hi
      refine ⟨out.2.moves_.adj.get ⟨k, hk⟩,
        (mem_survivors_iff _ _ _).mpr ⟨k, hk, hb, rfl⟩, hc.2 ?_⟩
      show p ∈ (out.2.moves_.adj[i]).2
      rw [hget]
      exact hp
  · intro hne hzero
    have hpos : 0 < out.2.moves_.adj.length := by
      rw [hperm.length_eq]
      exact List.length_pos.mpr hne
    obtain ⟨k, _, hb, _⟩ := hcover 0 hpos
    rw [hzero] at hb
    simp at hb
  · intro hsorted hne
    have h0 : 0 < out.2.moves_.adj.length := by
      rw [hperm.length_eq]
      exact List.length_pos.mpr hne
    rw [hspec]
    refine ⟨h0, ?_⟩
    intro j hj hj0 hcov
    have hp : out.2.moves_.adj.Pairwise (fun a b => adjLess b a = false) := by
      by_cases h1 : s.moves_.adj.length ≤ 1
      · have hl : out.2.moves_.adj.length ≤ 1 := by
          rw [hperm.length_eq]
          exact h1
        exfalso
        omega
      · have heq := (calculateInitialMask_sorted_adj env s (by omega) hlen).2
        rw [hout] at heq
        rw [heq]
        exact hsorted _
    have hlong := sorted_first_longest _ hp j hj h0
    refine ⟨by omega, hlong, ?_⟩
    exact subset_of_nodup_length _ _ (hnd _ (List.get_mem _ _ _)) hcov.2 hlong

end MaskUnion

section MaskUnionInstances

open Sample

/-- Counterexample to C33 as stated: the four duplicate-free lists of `crowd` hold 385
distinct destinations; the `uint8_t` indices of the third list wrap around into those of
the first, the third entry loses its bit, and its destination `(2, 0, 0)` is reached by
no entry that keeps its bit. -/
theorem C33_counterexample :
    crowd.moves_.adj.length ≤ 64 ∧ (∀ e ∈ crowd.moves_.adj, e.2.Nodup) ∧
    (CalculateInitialMask_ env crowd).1 = .ok () ∧
    (∃ e ∈ (CalculateInitialMask_ env crowd).2.moves_.adj, (⟨2, 0, 0⟩ : Position) ∈ e.2) ∧
    ¬ (∃ e ∈ survivors (CalculateInitialMask_ env crowd).2.moves_.adj
        (CalculateInitialMask_ env crowd).2.initial_mask_, (⟨2, 0, 0⟩ : Position) ∈ e.2) := by
  obtain ⟨hok, hadj, _, _, _, _⟩ := crowd_first
  have hmem : (⟨2, 0, 0⟩ : Position) ∈ block 2 127 :=
    List.mem_map.mpr ⟨0, List.mem_range.mpr (by decide), rfl⟩
  refine ⟨by decide, ?_, hok, ?_, ?_⟩
  · intro e he
    have hc : crowd.moves_.adj = crowdAdj := rfl
    rw [hc] at he
    simp only [crowdAdj, List.mem_cons, List.mem_singleton, List.not_mem_nil, or_false] at he
    rcases he with rfl | rfl | rfl | rfl <;> exact block_nodup _ _
  · rw [hadj]
    exact ⟨(⟨0, 6, 6⟩, block 2 127), by simp [crowdAdj], hmem⟩
  · rw [crowd_survivors]
    rintro ⟨e, he, hp⟩
    simp only [crowdKept, List.mem_cons, List.mem_singleton, List.not_mem_nil, or_false] at he
    rcases he with rfl | rfl | rfl
    · exact absurd (block_rotation 0 128 _ hp) (by decide)
    · exact absurd (block_rotation 1 128 _ hp) (by decide)
    · exact absurd (block_rotation 3 2 _ hp) (by decide)

/-- Instance of C33: of the three initials of `triple` the narrow one loses its bit and
is contained in the wide one; the mask is 3 and the first entry keeps its bit. -/
theorem C33_witness :
    SortPermutes env ∧ triple.moves_.adj.length ≤ 64 ∧
    distinctDestinations triple.moves_.adj ≤ 256 ∧ (∀ e ∈ triple.moves_.adj, e.2.Nodup) ∧
    (CalculateInitialMask_ env triple).2.initial_mask_ = 3 ∧
    ((CalculateInitialMask_ env triple).2.moves_.adj.map (fun e => e.2.length)) = [3, 2, 1] ∧
    ((CalculateInitialMask_ env triple).2.initial_mask_.testBit 2 = false →
      ∃ (k : Nat) (hk : k < (CalculateInitialMask_ env triple).2.moves_.adj.length),
        (CalculateInitialMask_ env triple).2.initial_mask_.testBit k = true ∧
        ((CalculateInitialMask_ env triple).2.moves_.adj.get ⟨2, by decide⟩).2 ⊆
          ((CalculateInitialMask_ env triple).2.moves_.adj.get ⟨k, hk⟩).2) :=
  ⟨sortPermutes, by decide, by decide, by decide, by decide, by decide,
   (C33_reduction_loses_no_destination env sortPermutes triple _ rfl (by decide) (by decide)
      (by decide)).2.1 2 (by decide)⟩

end MaskUnionInstances

/-! ## The line count of `ResetRandom` -/

section RandomResetProofs

variable {Board Rng : Type}

/-- C36: in the build with rotation (with a library draw inside its range and a line
cap of at least 2), `ResetRandom(b)` calls `Reset` with the line count
`[Count mod 4 != 0] + 2k` for some `k` in `0..kLineCap/2 - 1` (`0..214` for the cap 430).
For every board `b` whose occupied-cell count is even this count lies in
`0..kLineCap - 1` and passes the consistency check of `Tetris::Reset`
(`lines * 10 + Count` is divisible by 4); for every board with an odd count the check
fails for every line count, and `ResetRandom` raises the runtime error. -/
theorem C36_reset_random_lines (env : PyEnv Board Rng) (hu : UniformInRange env)
    (hcap : 2 ≤ env.core.kLineCap) (st : PythonTetris Board Rng) (b : Board) :
    PythonTetris.ResetRandom env st b =
      PythonTetris.ResetDefault env
        { st with rng_ := (env.uniform_int 0 (Int.tdiv env.core.kLineCap 2 - 1) st.rng_).2 }
        b (randomLines env st b) (-1) (-1) true ∧
    (∃ k : Int, 0 ≤ k ∧ k ≤ Int.tdiv env.core.kLineCap 2 - 1 ∧
      randomLines env st b = (if env.core.Count b % 4 ≠ 0 then 1 else 0) + 2 * k) ∧
    (env.core.kLineCap = 430 → ∃ k : Int, 0 ≤ k ∧ k ≤ 214 ∧
      randomLines env st b = (if env.core.Count b % 4 ≠ 0 then 1 else 0) + 2 * k) ∧
    (env.core.Count b % 2 = 0 →
      0 ≤ randomLines env st b ∧ randomLines env st b ≤ env.core.kLineCap - 1 ∧
      (4 : Int) ∣ randomLines env st b * 10 + env.core.Count b ∧
      Int.tdiv (randomLines env st b * 10 + env.core.Count b) 4 * 4 =
        randomLines env st b * 10 + env.core.Count b ∧
      (SearchBounded env.core →
        ∀ (s : Tetris Board) (now_piece next_piece : Int) (taps : List Int) (adj_delay : Int),
          (BetaTetris.Reset env.core s b (randomLines env st b) now_piece next_piece taps
            adj_delay).1 = .ok ())) ∧
    (env.core.Count b % 2 = 1 →
      (∀ lines : Int, ¬ (4 : Int) ∣ lines * 10 + env.core.Count b) ∧
      (∀ (lines : Int) (s : Tetris Board) (now_piece next_piece : Int) (taps : List Int)
          (adj_delay : Int),
        (BetaTetris.Reset env.core s b lines now_piece next_piece taps adj_delay).1 =
          .error .runtime_error) ∧
      (PythonTetris.ResetRandom env st b).1 = .error .runtime_error) := by
  have hhalf : 0 ≤ Int.tdiv env.core.kLineCap 2 - 1 := by
    rw [Int.tdiv_eq_ediv (by omega) (by omega)]
    omega
  obtain ⟨hlo, hhi⟩ := hu 0 (Int.tdiv env.core.kLineCap 2 - 1) st.rng_ hhalf
  have hodd : env.core.Count b % 2 = 1 → ∀ lines : Int,
      ¬ (4 : Int) ∣ lines * 10 + env.core.Count b := by
    intro h lines
    omega
  refine ⟨rfl, ⟨_, hlo, hhi, by unfold randomLines; ring⟩, ?_, ?_, ?_⟩
  · intro h430
    have h214 : Int.tdiv env.core.kLineCap 2 - 1 = 214 := by
      rw [h430]
      decide
    exact ⟨_, hlo, le_of_le_of_eq hhi h214, by unfold randomLines; ring⟩
  · intro heven
    have hdvd : (4 : Int) ∣ randomLines env st b * 10 + env.core.Count b := by
      unfold randomLines
      split <;> omega
    refine ⟨?_, ?_, hdvd, Int.tdiv_mul_cancel hdvd, ?_⟩
    · unfold randomLines
      split <;> omega
    · have hbound : Int.tdiv env.core.kLineCap 2 * 2 ≤ env.core.kLineCap := by
        rw [Int.tdiv_eq_ediv (by omega) (by omega)]
        omega
      unfold randomLines
      split <;> omega
    · intro hb s now_piece next_piece taps adj_delay
      exact ((reset_incorrect_lines env.core s b _ now_piece next_piece taps adj_delay).2
        hb).mpr hdvd
  · intro h
    refine ⟨hodd h, ?_, ?_⟩
    · intro lines s now_piece next_piece taps adj_delay
      rw [(reset_incorrect_lines env.core s b lines now_piece next_piece taps adj_delay).1
        (hodd h lines)]
    · simp only [PythonTetris.ResetRandom, PythonTetris.ResetDefault, PythonTetris.Reset]
      rw [(reset_incorrect_lines env.core _ b _ _ _ _ _).1 (hodd h _)]

end RandomResetProofs

namespace Sample

/-- The draw of the sample environment lies inside its range. -/
theorem uniformInRange : UniformInRange pyenv := by
  intro a b g hab
  show a ≤ a + (g : Int) % (b - a + 1) ∧ a + (g : Int) % (b - a + 1) ≤ b
  have h1 := Int.emod_nonneg (g : Int) (show b - a + 1 ≠ 0 by omega)
  have h2 := Int.emod_lt_of_pos (g : Int) (show 0 < b - a + 1 by omega)
  omega

end Sample

section RandomResetInstances

open Sample

/-- Instance of C36: over the tower (18 occupied cells) the object `pystart`, whose
generator stands at 5, draws `k = 5` and calls `Reset` with 11 lines, and 128 is divisible
by 4. -/
theorem C36_witness :
    UniformInRange pyenv ∧ (2 : Int) ≤ pyenv.core.kLineCap ∧ pyenv.core.Count tower = 18 ∧
    randomLines pyenv pystart tower = 11 ∧
    (pyenv.core.Count tower % 2 = 0 →
      0 ≤ randomLines pyenv pystart tower ∧
      randomLines pyenv pystart tower ≤ pyenv.core.kLineCap - 1 ∧
      (4 : Int) ∣ randomLines pyenv pystart tower * 10 + pyenv.core.Count tower) :=
  ⟨uniformInRange, by decide, by decide, by decide, fun h =>
    ⟨((C36_reset_random_lines pyenv uniformInRange (by decide) pystart tower).2.2.2.1 h).1,
     ((C36_reset_random_lines pyenv uniformInRange (by decide) pystart tower).2.2.2.1 h).2.1,
     ((C36_reset_random_lines pyenv uniformInRange (by decide) pystart tower).2.2.2.1
        h).2.2.1⟩⟩

end RandomResetInstances

/-! ## The runtime error of `StepAndCalculateReward_` -/

section UnexpectedTap

variable {Board Rng : Type}

/-- The first `switch` throws iff the fourth tap is none of the six expected values. -/
theorem tapMode_none_iff (taps : List Int) :
    tapMode taps = none ↔ taps.getD 3 0 ∉ ([6, 8, 9, 12, 15, 18] : List Int) := by
  unfold tapMode
  generalize taps.getD 3 0 = t
  split_ifs <;> simp <;> omega

/-- The second `switch` throws iff the delay is none of the six expected values. -/
theorem adjMode_none_iff (adj_delay : Int) :
    adjMode adj_delay = none ↔ adj_delay ∉ ([0, 18, 21, 24, 30, 61] : List Int) := by
  unfold adjMode
  split_ifs <;> simp <;> omega

/-- The value of `tap_mode` after the first `switch`. -/
theorem tapMode_value (taps : List Int) (m : Int) (h : tapMode taps = some m) :
    m = (if taps.getD 3 0 = 18 then 0 else if taps.getD 3 0 = 15 then 1
      else if taps.getD 3 0 = 12 then 2 else if taps.getD 3 0 = 9 then 3
      else if taps.getD 3 0 = 8 then 4 else if taps.getD 4 0 ≤ 10 then 5 else 6) ∧
    0 ≤ m ∧ m < 7 := by
  unfold tapMode at h
  generalize taps.getD 3 0 = t at h ⊢
  generalize taps.getD 4 0 = u at h ⊢
  split_ifs at h ⊢ <;> simp at h <;> omega

/-- The value of `adj_mode` after the second `switch`: the index of the delay among the
six expected values. -/
theorem adjMode_value (adj_delay : Int) (m : Int) (h : adjMode adj_delay = some m) :
    ([0, 18, 21, 24, 30, 61] : List Int)[m.toNat]? = some adj_delay ∧ 0 ≤ m ∧ m < 6 := by
  unfold adjMode at h
  split_ifs at h <;> simp at h <;> subst h <;> simp_all

/-- The end of `StepAndCalculateReward_` does not throw. -/
theorem finishStep_returns (env : PyEnv Board Rng) (st : PythonTetris Board Rng)
    (pos : Position) (score lines : Int) :
    (finishStep env st pos score lines).1 =
      .ok (env.shaped st pos score lines, (score : ℚ) * kRewardMultiplier_ env) := by
  unfold finishStep
  simp only
  split <;> rfl

/-- A step of `StepGame_` leaves the tap table and the adjustment delay alone. -/
theorem stepGame_config (env : Env Board) (s : Tetris Board) (pos : Position)
    (next_piece : Int) :
    (StepGame_ env s pos next_piece).2.tap_sequence_ = s.tap_sequence_ ∧
    (StepGame_ env s pos next_piece).2.adj_delay_ = s.adj_delay_ := by
  by_cases hfour : placesFour env s pos
  · rw [stepGame_placed env s pos next_piece hfour]
    have hfr := capOrSearch_frame env (advance env s pos next_piece)
      (env.ClearLines (env.Place s.board_ s.now_piece_ pos.r pos.x pos.y)).1 _ rfl
    generalize capOrSearch env (advance env s pos next_piece)
      (env.ClearLines (env.Place s.board_ s.now_piece_ pos.r pos.x pos.y)).1 = out at hfr ⊢
    obtain ⟨r, s2⟩ := out
    simp only [advance] at hfr
    cases r with
    | error e => exact ⟨hfr.2.2.2.2.2.2.2.2.1, hfr.2.2.2.2.2.2.2.2.2.1⟩
    | ok u => exact ⟨hfr.2.2.2.2.2.2.2.2.1, hfr.2.2.2.2.2.2.2.2.2.1⟩
  · rw [stepGame_cut_off env s pos next_piece hfour]
    exact ⟨rfl, rfl⟩

/-- Method `Tetris::InputPlacement` leaves the tap table and the adjustment delay
alone. -/
theorem inputPlacement_config (env : Env Board) (s : Tetris Board) (pos : Position)
    (next_piece : Int) :
    (InputPlacement env s pos next_piece).2.tap_sequence_ = s.tap_sequence_ ∧
    (InputPlacement env s pos next_piece).2.adj_delay_ = s.adj_delay_ := by
  unfold InputPlacement
  split
  · exact ⟨rfl, rfl⟩
  · split
    · exact ⟨rfl, rfl⟩
    · split
      · exact ⟨rfl, rfl⟩
      · split
        · exact stepGame_config env s pos next_piece
        · simp only [CalculateMoves_]
          exact ⟨rfl, rfl⟩

/-- An `InputPlacement` that returns a valid step has advanced the game: a piece was
placed, or the adjusting phase was entered. -/
theorem inputPlacement_advanced (env : Env Board) (s : Tetris Board) (pos : Position)
    (next_piece : Int) (ret : Int × Int) (t : Tetris Board)
    (h : InputPlacement env s pos next_piece = (.ok ret, t)) (hret : ret.1 ≠ -1) :
    t.pieces_ = s.pieces_ + 1 ∨ (t.is_adj_ = true ∧ ret = (0, 0)) := by
  unfold InputPlacement at h
  split at h
  · simp at h
  · split at h
    · simp at h
    · split at h
      · simp only [Prod.mk.injEq, Except.ok.injEq] at h
        exact absurd (by rw [← h.1]) hret
      · split at h
        · by_cases hfour : placesFour env s pos
          · exact Or.inl (stepGame_ok_fields env s pos next_piece ret t hfour h).2.2.2
          · rw [stepGame_cut_off env s pos next_piece hfour] at h
            simp only [Prod.mk.injEq, Except.ok.injEq] at h
            exact absurd (by rw [← h.1]) hret
        · simp only [CalculateMoves_] at h
          simp only [Bool.false_eq_true, if_false, Prod.mk.injEq, Except.ok.injEq] at h
          right
          obtain ⟨h1, h2⟩ := h
          subst h2
          exact ⟨rfl, h1.symm⟩

/-- C35: for every valid step (`score != -1`) at aggression level 0,
`StepAndCalculateReward_` raises a runtime error iff `taps[3]` is not in
{6, 8, 9, 12, 15, 18} or `adj_delay` is not in {0, 18, 21, 24, 30, 61}, and then leaves
its own object as it found it; otherwise `tap_mode` is 0 for 18, 1 for 15, 2 for 12, 3
for 9, 4 for 8 and for 6 it is 5 when `taps[4] <= 10` and 6 otherwise, `adj_mode` is the
index of `adj_delay` in (0, 18, 21, 24, 30, 61), both indices are inside the 7 x 6 bounds
of `kOverProb`, and the call returns.  When `PythonTetris::InputPlacement` raises this
way, `tetris` is the state that `Tetris::InputPlacement` has produced (a piece placed or
the adjusting phase entered): the error is not atomic. -/
theorem C35_unexpected_tap_or_adj (env : PyEnv Board Rng) (st : PythonTetris Board Rng)
    (pos : Position) (score lines : Int) (hscore : score ≠ -1)
    (hlevel : st.step_reward_level_ = 0) :
    ((PythonTetris.StepAndCalculateReward_ env st pos score lines).1 = .error .runtime_error ↔
      (st.tetris.tap_sequence_.getD 3 0 ∉ ([6, 8, 9, 12, 15, 18] : List Int) ∨
        st.tetris.adj_delay_ ∉ ([0, 18, 21, 24, 30, 61] : List Int))) ∧
    ((st.tetris.tap_sequence_.getD 3 0 ∉ ([6, 8, 9, 12, 15, 18] : List Int) ∨
        st.tetris.adj_delay_ ∉ ([0, 18, 21, 24, 30, 61] : List Int)) →
      PythonTetris.StepAndCalculateReward_ env st pos score lines =
        (.error .runtime_error, st)) ∧
    (st.tetris.tap_sequence_.getD 3 0 ∈ ([6, 8, 9, 12, 15, 18] : List Int) →
      st.tetris.adj_delay_ ∈ ([0, 18, 21, 24, 30, 61] : List Int) →
      ∃ tap_mode adj_mode : Int,
        tapMode st.tetris.tap_sequence_ = some tap_mode ∧
        adjMode st.tetris.adj_delay_ = some adj_mode ∧
        tap_mode = (if st.tetris.tap_sequence_.getD 3 0 = 18 then 0
          else if st.tetris.tap_sequence_.getD 3 0 = 15 then 1
          else if st.tetris.tap_sequence_.getD 3 0 = 12 then 2
          else if st.tetris.tap_sequence_.getD 3 0 = 9 then 3
          else if st.tetris.tap_sequence_.getD 3 0 = 8 then 4
          else if st.tetris.tap_sequence_.getD 4 0 ≤ 10 then 5 else 6) ∧
        ([0, 18, 21, 24, 30, 61] : List Int)[adj_mode.toNat]? = some st.tetris.adj_delay_ ∧
        0 ≤ tap_mode ∧ tap_mode < 7 ∧ 0 ≤ adj_mode ∧ adj_mode < 6 ∧
        PythonTetris.StepAndCalculateReward_ env st pos score lines =
          finishStep env (burnStep env st tap_mode adj_mode lines) pos score lines ∧
        ∃ r, (PythonTetris.StepAndCalculateReward_ env st pos score lines).1 = .ok r) ∧
    (∀ (p : Position) (ret : Int × Int) (t : Tetris Board),
      BetaTetris.InputPlacement env.core st.tetris
        (GetRealPosition false false st.tetris.now_piece_ p) st.next_piece_ = (.ok ret, t) →
      ret.1 ≠ -1 →
      (st.tetris.tap_sequence_.getD 3 0 ∉ ([6, 8, 9, 12, 15, 18] : List Int) ∨
        st.tetris.adj_delay_ ∉ ([0, 18, 21, 24, 30, 61] : List Int)) →
      PythonTetris.InputPlacement env st p = (.error .runtime_error, { st with tetris := t }) ∧
      (t.pieces_ = st.tetris.pieces_ + 1 ∨ (t.is_adj_ = true ∧ ret = (0, 0)))) := by
  have hraise : ∀ (st0 : PythonTetris Board Rng) (pos0 : Position) (score0 lines0 : Int),
      score0 ≠ -1 → st0.step_reward_level_ = 0 →
      (st0.tetris.tap_sequence_.getD 3 0 ∉ ([6, 8, 9, 12, 15, 18] : List Int) ∨
        st0.tetris.adj_delay_ ∉ ([0, 18, 21, 24, 30, 61] : List Int)) →
      PythonTetris.StepAndCalculateReward_ env st0 pos0 score0 lines0 =
        (.error .runtime_error, st0) := by
    intro st0 pos0 score0 lines0 hs hl hbad
    unfold PythonTetris.StepAndCalculateReward_
    rw [if_neg hs, if_pos hl]
    rcases hbad with htap | hadj
    · rw [(tapMode_none_iff _).mpr htap]
    · rw [(adjMode_none_iff _).mpr hadj]
      cases tapMode st0.tetris.tap_sequence_ <;> rfl
  have hgood : st.tetris.tap_sequence_.getD 3 0 ∈ ([6, 8, 9, 12, 15, 18] : List Int) →
      st.tetris.adj_delay_ ∈ ([0, 18, 21, 24, 30, 61] : List Int) →
      ∃ tap_mode adj_mode : Int,
        tapMode st.tetris.tap_sequence_ = some tap_mode ∧
        adjMode st.tetris.adj_delay_ = some adj_mode ∧
        PythonTetris.StepAndCalculateReward_ env st pos score lines =
          finishStep env (burnStep env st tap_mode adj_mode lines) pos score lines := by
    intro htap hadj
    have h1 : tapMode st.tetris.tap_sequence_ ≠ none :=
      fun h => (tapMode_none_iff _).mp h htap
    have h2 : adjMode st.tetris.adj_delay_ ≠ none :=
      fun h => (adjMode_none_iff _).mp h hadj
    obtain ⟨tm, htm⟩ := Option.ne_none_iff_exists'.mp h1
    obtain ⟨am, ham⟩ := Option.ne_none_iff_exists'.mp h2
    refine ⟨tm, am, htm, ham, ?_⟩
    unfold PythonTetris.StepAndCalculateReward_
    rw [if_neg hscore, if_pos hlevel, htm, ham]
  refine ⟨⟨?_, fun h => by rw [hraise st pos score lines hscore hlevel h]⟩,
    hraise st pos score lines hscore hlevel, ?_, ?_⟩
  · intro herr
    by_contra hnot
    push_neg at hnot
    obtain ⟨tm, am, _, _, hval⟩ := hgood (by simpa using hnot.1) (by simpa using hnot.2)
    rw [hval, finishStep_returns] at herr
    simp at herr
  · intro htap hadj
    obtain ⟨tm, am, htm, ham, hval⟩ := hgood htap hadj
    obtain ⟨hv, hlo, hhi⟩ := tapMode_value _ tm htm
    obtain ⟨hidx, hlo2, hhi2⟩ := adjMode_value _ am ham
    refine ⟨tm, am, htm, ham, hv, hidx, hlo, hhi, hlo2, hhi2, hval, ?_⟩
    rw [hval, finishStep_returns]
    exact ⟨_, rfl⟩
  · intro p ret t hin hret hbad
    have hcfg := inputPlacement_config env.core st.tetris
      (GetRealPosition false false st.tetris.now_piece_ p) st.next_piece_
    rw [hin] at hcfg
    refine ⟨?_, inputPlacement_advanced env.core st.tetris _ _ ret t hin hret⟩
    unfold PythonTetris.InputPlacement
    simp only
    rw [hin]
    simp only
    rw [hraise { st with tetris := t } _ ret.1 ret.2 hret hlevel (by
      show t.tap_sequence_.getD 3 0 ∉ _ ∨ t.adj_delay_ ∉ _
      rw [hcfg.1, hcfg.2]
      exact hbad)]

end UnexpectedTap

section UnexpectedTapInstances

open Sample

/-- Instance of C35: with the tap table `Tap18Hz` (fourth entry 10) the first
`InputPlacement` at the initial `(0, 6, 5)` raises the runtime error and leaves the game
in the adjusting phase, which it was not in before. -/
theorem C35_witness :
    (0 : Int) ≠ -1 ∧ pyOdd.step_reward_level_ = 0 ∧ pyOdd.tetris.is_adj_ = false ∧
    pyOdd.tetris.tap_sequence_.getD 3 0 = 10 ∧
    (PythonTetris.InputPlacement pyenv pyOdd ⟨0, 6, 5⟩).1 = .error .runtime_error ∧
    (PythonTetris.InputPlacement pyenv pyOdd ⟨0, 6, 5⟩).2.tetris.is_adj_ = true ∧
    PythonTetris.StepAndCalculateReward_ pyenv pyOdd ⟨0, 6, 5⟩ 0 0 =
      (.error .runtime_error, pyOdd) :=
  ⟨by decide, by decide, by decide, by decide, by decide, by decide,
   (C35_unexpected_tap_or_adj pyenv pyOdd ⟨0, 6, 5⟩ 0 0 (by decide) (by decide)).2.1
     (Or.inl (by decide))⟩

end UnexpectedTapInstances

/-! ## The unique non-reduced initial is input automatically -/

section SearchedInvariant

variable {Board : Type}

/-- After a `CalculateInitialMask_` that returns, the mask lies inside the list. -/
theorem calculateInitialMask_range (env : Env Board) (hsort : SortPermutes env)
    (s : Tetris Board) (u : Unit) (t : Tetris Board)
    (h : CalculateInitialMask_ env s = (.ok u, t)) : MaskInRange t := by
  have hlen : s.moves_.adj.length ≤ 64 := (calculateInitialMask_isOk env s _ h).mp rfl
  simp only [CalculateInitialMask_] at h
  rw [if_neg (by omega)] at h
  split at h
  · simp only [Prod.mk.injEq, true_and] at h
    subst h
    intro k hk
    simp only at hk
    rw [testBit_initial_mask _ _ hlen] at hk
    simpa using hk
  · simp only [Prod.mk.injEq, true_and] at h
    subst h
    intro k hk
    simp only at hk ⊢
    have h0 := reduceOuter_testBit_imp _ _ _ _ hk
    rw [testBit_initial_mask _ _ hlen] at h0
    rw [(hsort _).length_eq]
    simpa using h0

/-- After a `CalculateMoves_` that returns (from a state whose mask lies inside the
list, when the search is not repeated) the state is searched. -/
theorem calculateMoves_searched (env : Env Board) (hsort : SortPermutes env)
    (s : Tetris Board) (regenerate : Bool) (t : Tetris Board)
    (h : CalculateMoves_ env s regenerate = (.ok (), t))
    (hs : regenerate = false → MaskInRange s) : Searched t := by
  intro hgo
  refine ⟨calculateMoves_sync env s regenerate t h hgo, ?_⟩
  simp only [CalculateMoves_] at h
  split at h
  · split at h
    · simp only [Prod.mk.injEq, true_and] at h
      subst h
      simp at hgo
    · split at h
      · simp at h
      · next u s2 heq =>
        simp only [Prod.mk.injEq, true_and] at h
        subst h
        exact calculateInitialMask_range env hsort _ u s2 heq
  · next hreg =>
    simp only [Prod.mk.injEq, true_and] at h
    subst h
    exact hs (by simpa using hreg)

/-- A change of the failure counter keeps a state searched. -/
theorem searched_fail (s : Tetris Board) (c : Int) (hs : Searched s) :
    Searched { s with consecutive_fail_ := c } := by
  intro hgo
  exact hs hgo

/-- A `StepGame_` that returns keeps the state searched. -/
theorem stepGame_searched (env : Env Board) (hsort : SortPermutes env) (s : Tetris Board)
    (pos : Position) (next_piece : Int) (ret : Int × Int) (t : Tetris Board)
    (hs : Searched s) (h : StepGame_ env s pos next_piece = (.ok ret, t)) : Searched t := by
  by_cases hfour : placesFour env s pos
  · rw [stepGame_placed env s pos next_piece hfour] at h
    split at h
    · simp at h
    · next u s2 heq =>
      simp only [Prod.mk.injEq, Except.ok.injEq] at h
      obtain ⟨_, rfl⟩ := h
      simp only [capOrSearch] at heq
      split at heq
      · simp only [Prod.mk.injEq, true_and] at heq
        subst heq
        intro hgo
        simp at hgo
      · have := calculateMoves_searched env hsort _ true s2 heq (by simp)
        intro hgo
        exact this hgo
  · rw [stepGame_cut_off env s pos next_piece hfour] at h
    simp only [Prod.mk.injEq, Except.ok.injEq] at h
    obtain ⟨_, rfl⟩ := h
    exact searched_fail s _ hs

/-- An `InputPlacement` of class `Tetris` that returns keeps the state searched. -/
theorem tetrisInput_searched (env : Env Board) (hsort : SortPermutes env) (s : Tetris Board)
    (pos : Position) (next_piece : Int) (ret : Int × Int) (t : Tetris Board)
    (hs : Searched s) (h : InputPlacement env s pos next_piece = (.ok ret, t)) :
    Searched t := by
  unfold InputPlacement at h
  split at h
  · simp at h
  · next hgo =>
    split at h
    · simp at h
    · split at h
      · simp only [Prod.mk.injEq, Except.ok.injEq] at h
        obtain ⟨_, rfl⟩ := h
        exact searched_fail s _ hs
      · split at h
        · exact stepGame_searched env hsort s pos next_piece ret t hs h
        · simp only at h
          split at h
          · simp at h
          · next u s2 heq =>
            simp only [Prod.mk.injEq, Except.ok.injEq] at h
            obtain ⟨_, rfl⟩ := h
            have hgo2 : s.game_over_ = false := by simpa using hgo
            have := calculateMoves_searched env hsort _ false s2 heq
              (fun _ => (hs hgo2).2)
            intro hg
            exact this hg

/-- A `Reset` of class `Tetris` that returns leaves a searched state. -/
theorem reset_searched (env : Env Board) (hsort : SortPermutes env) (s : Tetris Board)
    (b : Board) (lines now_piece next_piece : Int) (taps : List Int) (adj_delay : Int)
    (t : Tetris Board)
    (h : Reset env s b lines now_piece next_piece taps adj_delay = (.ok (), t)) :
    Searched t := by
  simp only [Reset] at h
  split at h
  · simp at h
  · split at h
    · simp at h
    · next u s2 heq =>
      simp only [Prod.mk.injEq, true_and] at h
      subst h
      have := calculateMoves_searched env hsort _ true s2 heq (by simp)
      intro hg
      exact this hg

end SearchedInvariant

section UniqueInitialProofs

variable {Board Rng : Type}

/-- A mask with exactly one of its 64 bits set: `ctz` is the index of that bit. -/
theorem ctz_of_popcount_one (m : Nat) (h : popcount m = 1) :
    ctz m < 64 ∧ m.testBit (ctz m) = true ∧
    ∀ j, j < 64 → (m.testBit j = true ↔ j = ctz m) := by
  unfold popcount at h
  obtain ⟨a, ha⟩ := List.length_eq_one.mp h
  have hmem : ∀ j, j < 64 → (m.testBit j = true ↔ j = a) := by
    intro j hj
    have h1 : j ∈ (List.range 64).filter (fun i => m.testBit i) ↔ m.testBit j = true := by
      simp [List.mem_filter, hj]
    rw [← h1, ha]
    simp
  have ha2 : a ∈ (List.range 64).filter (fun i => m.testBit i) := by
    rw [ha]
    simp
  have ha64 : a < 64 := by
    have := (List.mem_filter.mp ha2).1
    simpa using this
  have hctz : ctz m = a := by
    unfold ctz
    cases hf : (List.range 64).find? (fun i => m.testBit i) with
    | none =>
      exfalso
      have hall := List.find?_eq_none.mp hf a (by simpa using ha64)
      exact hall ((hmem a ha64).mpr rfl)
    | some c =>
      have hc : m.testBit c = true := by simpa using List.find?_some hf
      have hc64 : c < 64 := by
        have := List.mem_of_find?_eq_some hf
        simpa using this
      simpa using (hmem c hc64).mp hc
  rw [hctz]
  exact ⟨ha64, (hmem a ha64).mpr rfl, hmem⟩

/-- The burn rule changes the generator and, when the random test succeeds, sets
`game_over_`; nothing else. -/
theorem burnStep_frame (env : PyEnv Board Rng) (st : PythonTetris Board Rng)
    (tap_mode adj_mode lines : Int) :
    (burnStep env st tap_mode adj_mode lines).skip_unique_initial_ =
      st.skip_unique_initial_ ∧
    ((burnStep env st tap_mode adj_mode lines).tetris = st.tetris ∨
      (burnStep env st tap_mode adj_mode lines).tetris = ForceOver st.tetris) := by
  simp only [burnStep]
  split
  · split
    · split
      · exact ⟨rfl, Or.inr rfl⟩
      · exact ⟨rfl, Or.inl rfl⟩
    · exact ⟨rfl, Or.inl rfl⟩
  · exact ⟨rfl, Or.inl rfl⟩

/-- The end of `StepAndCalculateReward_` leaves `tetris` and `skip_unique_initial_`
alone. -/
theorem finishStep_frame (env : PyEnv Board Rng) (st : PythonTetris Board Rng)
    (pos : Position) (score lines : Int) :
    (finishStep env st pos score lines).2.skip_unique_initial_ = st.skip_unique_initial_ ∧
    (finishStep env st pos score lines).2.tetris = st.tetris := by
  simp only [finishStep]
  split
  · have hf := (genNextPiece_frame env st st.next_piece_).1
    simp only
    rw [hf]
    exact ⟨rfl, rfl⟩
  · exact ⟨rfl, rfl⟩

/-- Method `StepAndCalculateReward_` leaves `skip_unique_initial_` alone and changes
`tetris` by `ForceOver` at most. -/
theorem stepAndCalculateReward_frame (env : PyEnv Board Rng) (st : PythonTetris Board Rng)
    (pos : Position) (score lines : Int) :
    (PythonTetris.StepAndCalculateReward_ env st pos score lines).2.skip_unique_initial_ =
      st.skip_unique_initial_ ∧
    ((PythonTetris.StepAndCalculateReward_ env st pos score lines).2.tetris = st.tetris ∨
      (PythonTetris.StepAndCalculateReward_ env st pos score lines).2.tetris =
        ForceOver st.tetris) := by
  simp only [PythonTetris.StepAndCalculateReward_]
  split
  · exact ⟨rfl, Or.inl rfl⟩
  · split
    · cases tapMode st.tetris.tap_sequence_ with
      | none => exact ⟨rfl, Or.inl rfl⟩
      | some tap_mode =>
        cases adjMode st.tetris.adj_delay_ with
        | none => exact ⟨rfl, Or.inl rfl⟩
        | some adj_mode =>
          have h1 := finishStep_frame env (burnStep env st tap_mode adj_mode lines) pos score
            lines
          have h2 := burnStep_frame env st tap_mode adj_mode lines
          simp only
          rw [h1.1, h1.2]
          exact h2
    · exact ⟨(finishStep_frame env st pos score lines).1,
        Or.inl (finishStep_frame env st pos score lines).2⟩

/-- A state whose `game_over_` is set is searched. -/
theorem searched_forceOver (t : Tetris Board) : Searched (ForceOver t) := by
  intro hgo
  simp [ForceOver] at hgo

/-- In the adjusting phase a step with score 0 and no lines that returns leaves the
object as it was and reports no raw reward. -/
theorem stepAndCalculateReward_adjusting (env : PyEnv Board Rng)
    (st : PythonTetris Board Rng) (pos : Position) (hadj : st.tetris.is_adj_ = true)
    (r : ℚ × ℚ) (st2 : PythonTetris Board Rng)
    (h : PythonTetris.StepAndCalculateReward_ env st pos 0 0 = (.ok r, st2)) :
    st2 = st ∧ r.2 = 0 := by
  have hfin : ∀ st0 : PythonTetris Board Rng, st0.tetris.is_adj_ = true →
      finishStep env st0 pos 0 0 = (.ok (env.shaped st0 pos 0 0, 0), st0) := by
    intro st0 h0
    simp only [finishStep, h0]
    simp
  have hburn : ∀ tm am : Int, burnStep env st tm am 0 = st := by
    intro tm am
    simp [burnStep]
  simp only [PythonTetris.StepAndCalculateReward_] at h
  rw [if_neg (by decide)] at h
  split at h
  · split at h
    · simp at h
    · split at h
      · simp at h
      · rw [hburn, hfin st hadj] at h
        simp only [Prod.mk.injEq, Except.ok.injEq] at h
        exact ⟨h.2.symm, by rw [← h.1]⟩
  · rw [hfin st hadj] at h
    simp only [Prod.mk.injEq, Except.ok.injEq] at h
    exact ⟨h.2.symm, by rw [← h.1]⟩

/-- Outside the situation `UniqueInitial`, or with `skip_unique_initial_` unset,
`CheckReducibleInitial_` changes nothing and returns `(0, 0)`. -/
theorem checkReducible_idle (env : PyEnv Board Rng) (st : PythonTetris Board Rng)
    (h : st.skip_unique_initial_ = false ∨ ¬ UniqueInitial st.tetris) :
    PythonTetris.CheckReducibleInitial_ env st = (.ok (0, 0), st) := by
  unfold PythonTetris.CheckReducibleInitial_
  by_cases h1 : (!st.skip_unique_initial_ || st.tetris.is_adj_ || IsOver st.tetris) = true
  · rw [if_pos h1]
  · rw [if_neg h1]
    simp only [Bool.or_eq_true, Bool.not_eq_true', not_or, Bool.not_eq_false,
      Bool.not_eq_true] at h1
    obtain ⟨⟨hskip, hadj⟩, hover⟩ := h1
    have hnot : ¬ UniqueInitial st.tetris := by
      rcases h with h | h
      · rw [hskip] at h
        exact absurd h (by decide)
      · exact h
    have h2 : (!st.tetris.moves_.non_adj.isEmpty ||
        decide (popcount st.tetris.initial_mask_ ≠ 1)) = true := by
      by_contra hc
      apply hnot
      simp only [Bool.or_eq_true, Bool.not_eq_true', decide_eq_true_eq, not_or,
        Bool.not_eq_false, not_not, List.isEmpty_iff] at hc
      exact ⟨hadj, hover, hc.1, hc.2⟩
    rw [if_pos h2]

/-- In the situation `UniqueInitial` of a searched state, a `CheckReducibleInitial_`
that returns has input the single non-reduced initial. -/
theorem checkReducible_unique (env : PyEnv Board Rng) (st1 : PythonTetris Board Rng)
    (hskip : st1.skip_unique_initial_ = true) (hs : Searched st1.tetris)
    (hu : UniqueInitial st1.tetris) (r2 : ℚ × ℚ) (st2 : PythonTetris Board Rng)
    (h : PythonTetris.CheckReducibleInitial_ env st1 = (.ok r2, st2)) :
    AutoInput env st1 r2 st2 ∧ Searched st2.tetris ∧ r2.2 = 0 := by
  obtain ⟨hadj, hover, hnon, hpop⟩ := hu
  have hgo := game_over_of_not_isOver st1.tetris hover
  obtain ⟨hsync, hrange⟩ := hs hgo
  obtain ⟨_, hbit, huniq⟩ := ctz_of_popcount_one _ hpop
  have hlt := hrange _ hbit
  have hat : adjAt st1.tetris.moves_.adj ((ctz st1.tetris.initial_mask_ : Nat) : Int) =
      some (st1.tetris.moves_.adj.get ⟨ctz st1.tetris.initial_mask_, hlt⟩) := by
    simp [adjAt, List.getElem?_eq_getElem hlt]
  have hex : ∃ e ∈ st1.tetris.moves_.adj,
      e.1 = (st1.tetris.moves_.adj.get ⟨ctz st1.tetris.initial_mask_, hlt⟩).1 :=
    ⟨_, List.get_mem _ _ _, rfl⟩
  obtain ⟨i, hi, hq, hlast⟩ := exists_last_initial _ _ hex
  have htag := (fillMoveMap_tag st1.tetris.moves_ st1.tetris.initial_move_
    st1.tetris.initial_mask_ _).2 i hi hq hlast
  have hmap : st1.tetris.move_map_
      (st1.tetris.moves_.adj.get ⟨ctz st1.tetris.initial_mask_, hlt⟩).1 =
      if st1.tetris.initial_mask_.testBit i then 3 else 2 := by
    have hsy := hsync
    unfold MapInSync at hsy
    rw [hadj] at hsy
    rw [hsy]
    exact htag
  have hne0 : ¬ st1.tetris.move_map_
      (st1.tetris.moves_.adj.get ⟨ctz st1.tetris.initial_mask_, hlt⟩).1 = 0 := by
    rw [hmap]
    split <;> decide
  have hne1 : ¬ st1.tetris.move_map_
      (st1.tetris.moves_.adj.get ⟨ctz st1.tetris.initial_mask_, hlt⟩).1 = kNoAdj := by
    rw [hmap]
    split <;> decide
  obtain ⟨n, e, hfind, hget, hpos⟩ := findInitial_spec st1.tetris.moves_.adj
    (st1.tetris.moves_.adj.get ⟨ctz st1.tetris.initial_mask_, hlt⟩).1
    st1.tetris.initial_move_ hex
  have hatn : adjAt st1.tetris.moves_.adj (n : Int) = some e := by
    simp [adjAt, hget]
  unfold PythonTetris.CheckReducibleInitial_ at h
  rw [if_neg (by simp [hskip, hadj, hover]), if_neg (by simp [hnon, hpop])] at h
  simp only [hat, Option.map_some', Option.getD_some] at h
  by_cases hr : (decide (st1.next_piece_ < 0) || decide (st1.next_piece_ ≥ kPieces)) = true
  · exfalso
    have hin : BetaTetris.InputPlacement env.core st1.tetris
        (st1.tetris.moves_.adj.get ⟨ctz st1.tetris.initial_mask_, hlt⟩).1 st1.next_piece_ =
        (.error .range_error, st1.tetris) := by
      simp only [InputPlacement, hgo]
      rw [if_neg (by simp), if_pos hr]
    rw [hin] at h
    simp at h
  · have hin : BetaTetris.InputPlacement env.core st1.tetris
        (st1.tetris.moves_.adj.get ⟨ctz st1.tetris.initial_mask_, hlt⟩).1 st1.next_piece_ =
        (.ok (0, 0), { st1.tetris with
          initial_move_ := (n : Int),
          is_adj_ := true,
          move_map_ := fillMoveMap true st1.tetris.moves_ (n : Int)
            st1.tetris.initial_mask_,
          consecutive_fail_ := 0 }) := by
      simp only [InputPlacement, hgo, hr, hne0, hne1, hfind, CalculateMoves_]
      simp
    rw [hin] at h
    simp only at h
    obtain ⟨hst, hr2⟩ := stepAndCalculateReward_adjusting env _ _ rfl r2 st2 h
    subst hst
    refine ⟨⟨st1.tetris.moves_.adj.get ⟨ctz st1.tetris.initial_mask_, hlt⟩, ?_, huniq, hin,
      rfl, rfl, hgo, ?_, h⟩, ?_, hr2⟩
    · exact List.getElem?_eq_getElem hlt
    · simp [InitialMove, hatn, hpos]
    · intro _
      exact ⟨rfl, hrange⟩

end UniqueInitialProofs

section UniqueInitialClaim

variable {Board Rng : Type}

/-- What a `CheckReducibleInitial_` that returns leaves behind, with
`skip_unique_initial_` set and from a searched state. -/
theorem checkReducible_after (env : PyEnv Board Rng) (st1 : PythonTetris Board Rng)
    (hskip : st1.skip_unique_initial_ = true) (hs : Searched st1.tetris) (r2 : ℚ × ℚ)
    (st2 : PythonTetris Board Rng)
    (h : PythonTetris.CheckReducibleInitial_ env st1 = (.ok r2, st2)) :
    ¬ UniqueInitial st2.tetris ∧ Searched st2.tetris ∧ st2.skip_unique_initial_ = true ∧
    (UniqueInitial st1.tetris → AutoInput env st1 r2 st2) ∧
    (¬ UniqueInitial st1.tetris → st2 = st1 ∧ r2 = (0, 0)) := by
  by_cases hu : UniqueInitial st1.tetris
  · obtain ⟨ha, hs2, _⟩ := checkReducible_unique env st1 hskip hs hu r2 st2 h
    refine ⟨?_, hs2, ?_, fun _ => ha, fun hn => absurd hu hn⟩
    · obtain ⟨e, _, _, _, _, hadj, _⟩ := ha
      intro hu2
      rw [hu2.1] at hadj
      exact absurd hadj (by decide)
    · obtain ⟨e, _, _, _, heq, _⟩ := ha
      rw [heq]
      exact hskip
  · have hidle := checkReducible_idle env st1 (Or.inr hu)
    rw [hidle] at h
    simp only [Prod.mk.injEq, Except.ok.injEq] at h
    obtain ⟨hr, hst⟩ := h
    subst hst
    exact ⟨hu, hs, hskip, fun h2 => absurd h2 hu, fun _ => ⟨rfl, hr.symm⟩⟩

/-- C34: with `skip_unique_initial` enabled (and a `std::sort` that rearranges its
input), after `PythonTetris::InputPlacement` or `Reset` returns, the game is never left
in a non-adjusting, non-over state whose `non_adj` list is empty and whose `initial_mask`
has exactly one bit set: in that situation `CheckReducibleInitial_` has input the unique
non-reduced initial `adj[ctz(initial_mask)].first`, so the game is adjusting with
`InitialMove()` equal to that initial, and the reward returned is the sum of the rewards
of the explicit and the automatic step.  `InputPlacement` is taken in a searched state
(move map and mask as the last `CalculateMoves_` left them), which is what `Reset`
leaves and `InputPlacement` keeps.  With `skip_unique_initial` disabled
`CheckReducibleInitial_` changes nothing and returns `(0, 0)`. -/
theorem C34_skip_unique_initial (env : PyEnv Board Rng) (hsort : SortPermutes env.core)
    (st : PythonTetris Board Rng) :
    (∀ (pos : Position) (reward : ℚ × ℚ) (st2 : PythonTetris Board Rng),
      st.skip_unique_initial_ = true → Searched st.tetris →
      PythonTetris.InputPlacement env st pos = (.ok reward, st2) →
      ¬ UniqueInitial st2.tetris ∧ Searched st2.tetris ∧
      st2.skip_unique_initial_ = true ∧
      ∃ (ret : Int × Int) (t : Tetris Board) (r1 : ℚ × ℚ) (st1 : PythonTetris Board Rng)
          (r2 : ℚ × ℚ),
        BetaTetris.InputPlacement env.core st.tetris
          (GetRealPosition false false st.tetris.now_piece_ pos) st.next_piece_ =
            (.ok ret, t) ∧
        PythonTetris.StepAndCalculateReward_ env { st with tetris := t }
          (GetRealPosition false false st.tetris.now_piece_ pos) ret.1 ret.2 =
            (.ok r1, st1) ∧
        PythonTetris.CheckReducibleInitial_ env st1 = (.ok r2, st2) ∧
        reward = (r1.1 + r2.1, r1.2 + r2.2) ∧
        (UniqueInitial st1.tetris → AutoInput env st1 r2 st2) ∧
        (¬ UniqueInitial st1.tetris → st2 = st1 ∧ r2 = (0, 0))) ∧
    (∀ (b : Board) (lines : Int) (taps : List Int) (adj_delay now_piece next_piece : Int)
        (st2 : PythonTetris Board Rng),
      PythonTetris.Reset env st b lines taps adj_delay now_piece next_piece true =
        (.ok (), st2) →
      ¬ UniqueInitial st2.tetris ∧ Searched st2.tetris ∧
      st2.skip_unique_initial_ = true ∧
      ∃ (st3 : PythonTetris Board Rng) (r : ℚ × ℚ),
        st3.skip_unique_initial_ = true ∧ Searched st3.tetris ∧
        PythonTetris.CheckReducibleInitial_ env st3 = (.ok r, st2) ∧
        (UniqueInitial st3.tetris → AutoInput env st3 r st2) ∧
        (¬ UniqueInitial st3.tetris → st2 = st3)) ∧
    (st.skip_unique_initial_ = false →
      PythonTetris.CheckReducibleInitial_ env st = (.ok (0, 0), st)) := by
  refine ⟨?_, ?_, fun h => checkReducible_idle env st (Or.inl h)⟩
  · intro pos reward st2 hskip hs h
    simp only [PythonTetris.InputPlacement] at h
    generalize hin : BetaTetris.InputPlacement env.core st.tetris
      (GetRealPosition false false st.tetris.now_piece_ pos) st.next_piece_ = o at h
    obtain ⟨res, t⟩ := o
    cases res with
    | error e => simp at h
    | ok ret =>
      simp only at h
      generalize hsa : PythonTetris.StepAndCalculateReward_ env { st with tetris := t }
        (GetRealPosition false false st.tetris.now_piece_ pos) ret.1 ret.2 = o2 at h
      obtain ⟨res2, st1⟩ := o2
      cases res2 with
      | error e => simp at h
      | ok r1 =>
        simp only at h
        have hfr := stepAndCalculateReward_frame env { st with tetris := t }
          (GetRealPosition false false st.tetris.now_piece_ pos) ret.1 ret.2
        rw [hsa] at hfr
        simp only at hfr
        have hskip1 : st1.skip_unique_initial_ = true := hfr.1.trans hskip
        have hst : Searched t :=
          tetrisInput_searched env.core hsort st.tetris _ st.next_piece_ ret t hs hin
        have hs1 : Searched st1.tetris := by
          rcases hfr.2 with h1 | h1
          · rw [h1]
            exact hst
          · rw [h1]
            exact searched_forceOver t
        rw [if_neg (by simp [hskip1])] at h
        generalize hch : PythonTetris.CheckReducibleInitial_ env st1 = o3 at h
        obtain ⟨res3, st4⟩ := o3
        cases res3 with
        | error e => simp at h
        | ok r2 =>
          simp only [Prod.mk.injEq, Except.ok.injEq] at h
          obtain ⟨hrew, hst4⟩ := h
          subst hst4
          obtain ⟨h1, h2, h3, h4, h5⟩ := checkReducible_after env st1 hskip1 hs1 r2 st4 hch
          exact ⟨h1, h2, h3, ret, t, r1, st1, r2, rfl, hsa, hch, hrew.symm, h4, h5⟩
  · intro b lines taps adj_delay now_piece next_piece st2 h
    simp only [PythonTetris.Reset] at h
    generalize drawPieces env st now_piece next_piece = d at h
    generalize hre : BetaTetris.Reset env.core d.1.tetris b lines d.2.1 d.2.2 taps adj_delay =
      o at h
    obtain ⟨res, t⟩ := o
    cases res with
    | error e => simp at h
    | ok u =>
      simp only at h
      have hgen := (genNextPiece_frame env { d.1 with tetris := t } d.2.2).1
      have hs3 : Searched ({ (PythonTetris.GenNextPiece_ env { d.1 with tetris := t } d.2.2).2
          with
          next_piece_ := (PythonTetris.GenNextPiece_ env { d.1 with tetris := t } d.2.2).1,
          skip_unique_initial_ := true } : PythonTetris Board Rng).tetris := by
        show Searched (PythonTetris.GenNextPiece_ env { d.1 with tetris := t } d.2.2).2.tetris
        rw [hgen]
        exact reset_searched env.core hsort _ b lines _ _ taps adj_delay t hre
      generalize hch : PythonTetris.CheckReducibleInitial_ env
        { (PythonTetris.GenNextPiece_ env { d.1 with tetris := t } d.2.2).2 with
          next_piece_ := (PythonTetris.GenNextPiece_ env { d.1 with tetris := t } d.2.2).1,
          skip_unique_initial_ := true } = o3 at h
      obtain ⟨res3, st4⟩ := o3
      cases res3 with
      | error e => simp at h
      | ok r2 =>
        simp only [Prod.mk.injEq, true_and] at h
        subst h
        obtain ⟨h1, h2, h3, h4, h5⟩ := checkReducible_after env _ rfl hs3 r2 st4 hch
        exact ⟨h1, h2, h3, _, r2, rfl, hs3, hch, h4, fun hn => (h5 hn).1⟩

end UniqueInitialClaim

namespace Sample

/-- The sort of the sample environment with the lone search rearranges its input. -/
theorem sortPermutesLone : SortPermutes pyenvLone.core := sortPermutes

/-- The `Reset` that makes `pyLone` returns. -/
theorem pyLone_reset :
    PythonTetris.Reset pyenvLone pyraw Ones 0 Tap30Hz 18 6 0 true = (.ok (), pyLone) := by
  have hre : BetaTetris.Reset pyenvLone.core (drawPieces pyenvLone pyraw 6 0).1.tetris Ones 0
      (drawPieces pyenvLone pyraw 6 0).2.1 (drawPieces pyenvLone pyraw 6 0).2.2 Tap30Hz 18 =
      (.ok (), loneReset) := Prod.ext (by decide) rfl
  have hok : (PythonTetris.CheckReducibleInitial_ pyenvLone loneDrawn).1.isOk = true := by
    decide
  obtain ⟨r, hr⟩ : ∃ r, (PythonTetris.CheckReducibleInitial_ pyenvLone loneDrawn).1 = .ok r := by
    cases h : (PythonTetris.CheckReducibleInitial_ pyenvLone loneDrawn).1 with
    | error e =>
      rw [h] at hok
      simp [Except.isOk, Except.toBool] at hok
    | ok r => exact ⟨r, rfl⟩
  have hch : PythonTetris.CheckReducibleInitial_ pyenvLone loneDrawn = (.ok r, pyLone) :=
    Prod.ext hr rfl
  simp only [PythonTetris.Reset]
  rw [hre]
  simp only
  unfold loneDrawn at hch
  rw [hch]

end Sample

section UniqueInitialInstances

open Sample

/-- Instance of C34: under a search that reports the single initial `(0, 6, 5)` and no
other placement, `Reset` with `skip_unique_initial` set returns with the game in the
adjusting phase at that initial, and the object is not left in the situation in which
`CheckReducibleInitial_` acts. -/
theorem C34_witness :
    SortPermutes pyenvLone.core ∧
    PythonTetris.Reset pyenvLone pyraw Ones 0 Tap30Hz 18 6 0 true = (.ok (), pyLone) ∧
    UniqueInitial loneDrawn.tetris ∧
    pyLone.tetris.is_adj_ = true ∧ InitialMove pyLone.tetris = .ok ⟨0, 6, 5⟩ ∧
    pyLone.tetris.initial_mask_ = 1 ∧ pyLone.tetris.moves_.non_adj = [] ∧
    ¬ UniqueInitial pyLone.tetris ∧ pyLone.skip_unique_initial_ = true :=
  ⟨sortPermutesLone, pyLone_reset, by decide, by decide, by decide, by decide, by decide,
   ((C34_skip_unique_initial pyenvLone sortPermutesLone pyraw).2.1 Ones 0 Tap30Hz 18 6 0
      pyLone pyLone_reset).1,
   ((C34_skip_unique_initial pyenvLone sortPermutesLone pyraw).2.1 Ones 0 Tap30Hz 18 6 0
      pyLone pyLone_reset).2.2.1⟩

end UniqueInitialInstances

end BetaTetris
